import Mathlib


/-!
# D2D transmission optimizer: a shallow embedding and its verification

Source: `xllm_service/scheduler/managers/d2d_transmission_optimizer.{h,cpp}`.

Conventions of the embedding.

* C++ `int` values that index vectors (node ids, edge positions, current-edge
  pointers) are `Nat`; capacities, levels, expert ids, config sizes and loads
  are `Int`.
* The two `int` variables that grow with the input are 32 bits wide in the
  model too: the load counters of `optimize_non_expert` (`count_steps`) and the
  flow value of `MaxFlow::dinic` (`MaxFlow.dinic_int`); a result outside
  `[-2^31, 2^31)` is reduced modulo `2^32` (`wrap32`), which is what the
  compiled `++` and `+=` do where C++ leaves signed overflow undefined.
  `MaxFlow.dinic` is the same engine with the flow value accumulated exactly:
  it goes through the same states and `MaxFlow.dinic_int` returns its value
  reduced to 32 bits (`dinic_int_eq`); the planner runs it on graphs whose flow
  is at most the number of requests (`feasible_dinic_int`).  The other `int`s
  stay within their inputs: a residual capacity lies between 0 and the capacity
  of its arc, a level below the number of nodes, an amount pushed at most `10^9`.
* `std::vector` is `List`; `v[i]` is `getD` / `[i]?`.
* `std::unordered_map` is an association list: iteration visits the entries in
  list order (the order a given map object happens to have), `count`/`at`/`[]`
  are `List.lookup`.
* Loops whose termination is not structural (`bfs`, `dfs`, `dinic`, the binary
  search) carry a fuel argument and return `none` when it runs out.
* Operations that throw or are undefined in C++ (`vector::assign` with a
  negative count, indexing a load vector out of range) return `none`.
-/

namespace xllm_service

/-! ## Data model (`d2d_transmission_optimizer.h`) -/

structure InstanceConfig where
  device_size : Int
  dp_size : Int
deriving DecidableEq, Repr

structure GlobalNpu where
  inst : String
  local_npu : Int
deriving DecidableEq, Repr

structure Step where
  src : GlobalNpu
  expert_id : Int
deriving DecidableEq, Repr

structure NonExpertStep where
  src_instance : String
  dp_group_index : Int
  start_npu_index : Int
  dp_size : Int
deriving DecidableEq, Repr

structure Edge where
  to_ : Nat
  rev : Nat
  cap : Int
deriving DecidableEq, Repr

structure MaxFlow where
  g : List (List Edge)
  level : List Int
  it : List Nat
  s : Nat
  t : Nat
deriving DecidableEq, Repr

/-- Replica map `expert_id -> sources`, in the iteration order of the map object. -/
abbrev ExpertReplicaMap := List (Int × List GlobalNpu)

/-- Instance map `name -> config`, in the iteration order of the map object. -/
abbrev InstanceConfigs := List (String × InstanceConfig)

/-- Value of a 32-bit `int` that is assigned the arithmetic result `x`: `x` reduced
modulo `2^32` to the range `[-2^31, 2^31)`. -/
def wrap32 (x : Int) : Int :=
  (x + 2147483648) % 4294967296 - 2147483648

/-! ## Max-flow engine -/

/-- A default-constructed `MaxFlow` (all vectors empty). -/
def MaxFlow.empty : MaxFlow := ⟨[], [], [], 0, 0⟩

/-- `MaxFlow::init`. -/
def MaxFlow.init (n ss tt : Nat) : MaxFlow :=
  ⟨List.replicate n [], List.replicate n 0, List.replicate n 0, ss, tt⟩

/-- `g[u].push_back(e)`. -/
def push_edge (g : List (List Edge)) (u : Nat) (e : Edge) : List (List Edge) :=
  g.modify (fun es => es ++ [e]) u

/-- `g[v][i].cap += d`. -/
def add_cap (g : List (List Edge)) (v i : Nat) (d : Int) : List (List Edge) :=
  g.modify (fun es => es.modify (fun e => { e with cap := e.cap + d }) i) v

/-- `MaxFlow::add_edge`: both `rev` fields are read before either push. -/
def MaxFlow.add_edge (mf : MaxFlow) (u v : Nat) (c : Int) : MaxFlow :=
  let a : Edge := ⟨v, (mf.g.getD v []).length, c⟩
  let b : Edge := ⟨u, (mf.g.getD u []).length, 0⟩
  { mf with g := push_edge (push_edge mf.g u a) v b }

/-- Inner loop of `bfs` over the edges of `v`; returns the levels and the queue. -/
def bfs_edges (v : Nat) : List Edge → List Int → List Nat → List Int × List Nat
  | [], level, q => (level, q)
  | e :: es, level, q =>
    if 0 < e.cap ∧ level.getD e.to_ 0 < 0 then
      bfs_edges v es (level.set e.to_ (level.getD v 0 + 1)) (q ++ [e.to_])
    else
      bfs_edges v es level q

/-- Outer loop of `bfs`: `for (i = 0; i < q.size(); ++i)`. -/
def bfs_loop (g : List (List Edge)) : Nat → Nat → List Int → List Nat → Option (List Int)
  | 0, _, _, _ => none
  | fuel + 1, i, level, q =>
    match q[i]? with
    | none => some level
    | some v =>
      let r := bfs_edges v (g.getD v []) level q
      bfs_loop g fuel (i + 1) r.1 r.2

/-- `MaxFlow::bfs`: relabels the levels and tells whether `t` was reached. -/
def MaxFlow.bfs (fuel : Nat) (mf : MaxFlow) : Option (MaxFlow × Bool) :=
  let level0 := (List.replicate mf.level.length (-1 : Int)).set mf.s 0
  match bfs_loop mf.g fuel 0 level0 [mf.s] with
  | none => none
  | some level => some ({ mf with level := level }, decide (0 ≤ level.getD mf.t 0))

/-- `MaxFlow::dfs`.  One unit of fuel is spent per call and per iteration of the
`for` loop; an iteration that does not return re-enters the body at the same
node with `it[v]` advanced (the test `v == t` is false again).  The fields `to_` (`to` in the source)
and `rev` of the edge are never written, so the values read before the
recursive call are the ones read after it. -/
def MaxFlow.dfs : Nat → MaxFlow → Nat → Int → Option (MaxFlow × Int)
  | 0, _, _, _ => none
  | fuel + 1, mf, v, f =>
    if v = mf.t then some (mf, f)
    else
      let i := mf.it.getD v 0
      match (mf.g.getD v [])[i]? with
      | none => some (mf, 0)
      | some e =>
        if 0 < e.cap ∧ mf.level.getD v 0 < mf.level.getD e.to_ 0 then
          match MaxFlow.dfs fuel mf e.to_ (min f e.cap) with
          | none => none
          | some (mf1, d) =>
            if 0 < d then
              some ({ mf1 with g := add_cap (add_cap mf1.g v i (-d)) e.to_ e.rev d }, d)
            else
              MaxFlow.dfs fuel { mf1 with it := mf1.it.set v (mf1.it.getD v 0 + 1) } v f
        else
          MaxFlow.dfs fuel { mf with it := mf.it.set v (i + 1) } v f

/-- Inner loop of `dinic`: `while ((f = dfs(s, 1e9)) > 0) flow += f;`, the sum
taken exactly. -/
def dinic_push : Nat → MaxFlow → Int → Option (MaxFlow × Int)
  | 0, _, _ => none
  | fuel + 1, mf, flow =>
    match mf.dfs fuel mf.s 1000000000 with
    | none => none
    | some (mf1, f) =>
      if 0 < f then dinic_push fuel mf1 (flow + f) else some (mf1, flow)

/-- Outer loop of `dinic`: `while (bfs()) { fill(it, 0); ... }`. -/
def dinic_loop : Nat → MaxFlow → Int → Option (MaxFlow × Int)
  | 0, _, _ => none
  | fuel + 1, mf, flow =>
    match mf.bfs fuel with
    | none => none
    | some (mf1, reached) =>
      if reached then
        match dinic_push fuel { mf1 with it := List.replicate mf1.it.length 0 } flow with
        | none => none
        | some (mf2, flow2) => dinic_loop fuel mf2 flow2
      else some (mf1, flow)

/-- `MaxFlow::dinic` with the flow value accumulated exactly: the residual graph
it leaves and the sum of the amounts pushed. -/
def MaxFlow.dinic (fuel : Nat) (mf : MaxFlow) : Option (MaxFlow × Int) :=
  dinic_loop fuel mf 0

/-- Inner loop of `dinic` with the `int flow` of the source:
`while ((f = dfs(s, 1e9)) > 0) flow += f;` on 32 bits. -/
def dinic_push_int : Nat → MaxFlow → Int → Option (MaxFlow × Int)
  | 0, _, _ => none
  | fuel + 1, mf, flow =>
    match mf.dfs fuel mf.s 1000000000 with
    | none => none
    | some (mf1, f) =>
      if 0 < f then dinic_push_int fuel mf1 (wrap32 (flow + f)) else some (mf1, flow)

/-- Outer loop of `dinic` with the `int flow` of the source. -/
def dinic_loop_int : Nat → MaxFlow → Int → Option (MaxFlow × Int)
  | 0, _, _ => none
  | fuel + 1, mf, flow =>
    match mf.bfs fuel with
    | none => none
    | some (mf1, reached) =>
      if reached then
        match dinic_push_int fuel { mf1 with it := List.replicate mf1.it.length 0 } flow with
        | none => none
        | some (mf2, flow2) => dinic_loop_int fuel mf2 flow2
      else some (mf1, flow)

/-- `MaxFlow::dinic` as the source has it, `int flow = 0; ... flow += f; ...
return flow;`: the residual graph it leaves and the 32-bit flow value. -/
def MaxFlow.dinic_int (fuel : Nat) (mf : MaxFlow) : Option (MaxFlow × Int) :=
  dinic_loop_int fuel mf 0

/-! ## Expert planner -/

/-- Body of the index-building loop of `feasible` (`npu_to_idx`, `npu_index_map`). -/
def register_npu (st : List (GlobalNpu × Nat) × List GlobalNpu) (gn : GlobalNpu) :
    List (GlobalNpu × Nat) × List GlobalNpu :=
  match st.1.lookup gn with
  | some _ => st
  | none => ((gn, st.2.length) :: st.1, st.2 ++ [gn])

/-- Step 1 of `feasible`: number the distinct source NPUs of the replica map. -/
def build_npu_index (expert_to_src : ExpertReplicaMap) :
    List (GlobalNpu × Nat) × List GlobalNpu :=
  expert_to_src.foldl (fun st kv => kv.2.foldl register_npu st) ([], [])

/-- Edges added by `feasible` for request slot `i`. -/
def add_request (expert_to_src : ExpertReplicaMap) (npu_to_idx : List (GlobalNpu × Nat))
    (npu_offset req_offset t : Nat) (mf : MaxFlow) (ie : Nat × Int) : MaxFlow :=
  let cur_req_node := req_offset + ie.1
  let mf1 :=
    match expert_to_src.lookup ie.2 with
    | some sources =>
      sources.foldl
        (fun (m : MaxFlow) gn => m.add_edge (npu_offset + (npu_to_idx.lookup gn).getD 0) cur_req_node 1) mf
    | none => mf
  mf1.add_edge cur_req_node t 1

/-- The flow graph `feasible` builds for bound `K`. -/
def feasible_graph (K : Int) (required_per_target : List Int)
    (expert_to_src : ExpertReplicaMap) : MaxFlow :=
  let idx := build_npu_index expert_to_src
  let npu_num := idx.2.length
  let total_req := required_per_target.length
  let s := 0
  let npu_offset := 1
  let req_offset := npu_offset + npu_num
  let t := req_offset + total_req
  let mf0 := MaxFlow.init (t + 1) s t
  let mf1 := (List.range npu_num).foldl (fun m i => m.add_edge s (npu_offset + i) K) mf0
  required_per_target.enum.foldl (add_request expert_to_src idx.1 npu_offset req_offset t) mf1

/-- Outputs of `feasible`: the return value and the three out-parameters. -/
structure FeasibleResult where
  ok : Bool
  npu_index_map : List GlobalNpu
  req_to_expert_id : List Int
  mf : MaxFlow

/-- `D2DTransmissionOptimizer::feasible`.  The flow value compared with
`total_req` is that of `MaxFlow.dinic`; on this graph it lies between 0 and the
number of requests, so for fewer than `2^31` requests it is the `int` that
`MaxFlow.dinic_int` returns. -/
def feasible (fuel : Nat) (K : Int) (required_per_target : List Int)
    (expert_to_src : ExpertReplicaMap) : Option FeasibleResult :=
  match (feasible_graph K required_per_target expert_to_src).dinic fuel with
  | none => none
  | some (mf, flow) =>
    some ⟨decide ((required_per_target.length : Int) ≤ flow),
      (build_npu_index expert_to_src).2, required_per_target, mf⟩

/-- Search of `extract_plan` for the NPU serving `req_node`: the two inner loops
up to `goto next_expert`. -/
def extract_step (mf : MaxFlow) (npu_index_map : List GlobalNpu) (npu_offset req_node : Nat)
    (expert_id : Int) : List Edge → Option Step
  | [] => none
  | edge :: rest =>
    let u := edge.to_
    if npu_offset ≤ u ∧ u < npu_offset + npu_index_map.length ∧
        (mf.g.getD u []).any (fun forward_e => forward_e.to_ == req_node && forward_e.cap == 0) then
      some ⟨npu_index_map.getD (u - npu_offset) ⟨"", 0⟩, expert_id⟩
    else
      extract_step mf npu_index_map npu_offset req_node expert_id rest

/-- Outer loop of `extract_plan`, from request index `i` on. -/
def extract_loop (mf : MaxFlow) (npu_index_map : List GlobalNpu) (npu_offset req_offset : Nat) :
    Nat → List Int → List Step
  | _, [] => []
  | i, expert_id :: rest =>
    match extract_step mf npu_index_map npu_offset (req_offset + i) expert_id
        (mf.g.getD (req_offset + i) []) with
    | some st => st :: extract_loop mf npu_index_map npu_offset req_offset (i + 1) rest
    | none => extract_loop mf npu_index_map npu_offset req_offset (i + 1) rest

/-- `D2DTransmissionOptimizer::extract_plan`. -/
def extract_plan (mf : MaxFlow) (npu_index_map : List GlobalNpu) (req_to_expert_id : List Int)
    (npu_offset req_offset : Nat) : List Step :=
  extract_loop mf npu_index_map npu_offset req_offset 0 req_to_expert_id

/-- State of the binary search of `optimize_layer`. -/
structure SearchState where
  bestK : Int
  final_npu_map : List GlobalNpu
  final_req_to_expert : List Int
  final_mf : MaxFlow

/-- The `while (low <= high)` loop of `optimize_layer`. -/
def search_loop (required_per_target : List Int) (expert_to_src : ExpertReplicaMap) :
    Nat → Int → Int → SearchState → Option SearchState
  | 0, _, _, _ => none
  | fuel + 1, low, high, st =>
    if low ≤ high then
      let mid := low + (high - low) / 2
      match feasible fuel mid required_per_target expert_to_src with
      | none => none
      | some r =>
        if r.ok then
          search_loop required_per_target expert_to_src fuel low (mid - 1)
            ⟨mid, r.npu_index_map, r.req_to_expert_id, r.mf⟩
        else
          search_loop required_per_target expert_to_src fuel (mid + 1) high st
    else some st

/-- `D2DTransmissionOptimizer::optimize_layer`. -/
def optimize_layer (fuel : Nat) (required_per_target : List Int)
    (expert_to_src : ExpertReplicaMap) : Option (List Step) :=
  let total_req : Int := required_per_target.length
  if total_req = 0 then some []
  else
    match search_loop required_per_target expert_to_src fuel 1 total_req
        ⟨total_req, [], [], MaxFlow.empty⟩ with
    | none => none
    | some st =>
      some (extract_plan st.final_mf st.final_npu_map st.final_req_to_expert 1
        (1 + st.final_npu_map.length))

/-! ## Non-expert planner -/

/-- First loop of `optimize_non_expert`: `inst_npu_loads[name].assign(device_size, 0)`.
A new binding is put in front, so `lookup` sees the latest value of a key.
`assign` with a negative count (converted to a huge `size_t`) throws
`std::length_error`, which is `none` here. -/
def alloc_loads : InstanceConfigs → List (String × List Int) → Option (List (String × List Int))
  | [], m => some m
  | (name, config) :: rest, m =>
    if config.device_size < 0 then none
    else alloc_loads rest ((name, List.replicate config.device_size.toNat 0) :: m)

/-- Second loop of `optimize_non_expert`:
`if (inst_npu_loads.count(s.src.instance)) inst_npu_loads[s.src.instance][s.src.local_npu]++`.
The counters are 32-bit `int`s: the increment of a counter that holds `2^31 - 1`
gives `-2^31`.  The index is not checked by the source; out of range it is
undefined behaviour, which is `none` here. -/
def count_steps : List Step → List (String × List Int) → Option (List (String × List Int))
  | [], m => some m
  | s :: rest, m =>
    match m.lookup s.src.inst with
    | none => count_steps rest m
    | some v =>
      if 0 ≤ s.src.local_npu ∧ s.src.local_npu < v.length then
        count_steps rest
          ((s.src.inst,
            v.set s.src.local_npu.toNat (wrap32 (v.getD s.src.local_npu.toNat 0 + 1))) :: m)
      else none

/-- Local variables of the selection loop of `optimize_non_expert`. -/
structure Best where
  best_inst : String
  best_group_idx : Int
  best_dp_group_num : Int
  best_npu_per_group : Int
  min_max_load : Int
deriving DecidableEq, Repr

/-- Innermost loop: `current_group_max_load` of group `g`. -/
def group_max_load (loads : List Int) (g npu_per_group : Int) : Int :=
  (List.range npu_per_group.toNat).foldl
    (fun (cur : Int) (i : Nat) =>
      let local_npu : Int := g * npu_per_group + i
      if local_npu < loads.length then max cur (loads.getD local_npu.toNat 0) else cur)
    0

/-- Loop over the DP groups of one instance. -/
def scan_groups (inst_name : String) (config : InstanceConfig) (loads : List Int) (b : Best) :
    Best :=
  let npu_per_group := Int.tdiv config.device_size config.dp_size
  (List.range config.dp_size.toNat).foldl
    (fun (b : Best) (g : Nat) =>
      let current_group_max_load := group_max_load loads g npu_per_group
      if current_group_max_load < b.min_max_load then
        ⟨inst_name, g, config.dp_size, npu_per_group, current_group_max_load⟩
      else b)
    b

/-- Body of the loop over `instance_configs`, with the two `continue` guards. -/
def scan_instance (m : List (String × List Int)) (b : Best) (nc : String × InstanceConfig) :
    Best :=
  if nc.2.device_size ≤ 0 ∨ nc.2.dp_size ≤ 0 then b
  else if Int.tmod nc.2.device_size nc.2.dp_size ≠ 0 then b
  else scan_groups nc.1 nc.2 ((m.lookup nc.1).getD []) b

/-- Result construction of `optimize_non_expert`. -/
def build_result (b : Best) : NonExpertStep :=
  if b.best_group_idx ≠ -1 then
    ⟨b.best_inst, b.best_group_idx, b.best_group_idx * b.best_npu_per_group, b.best_dp_group_num⟩
  else ⟨"", -1, -1, 0⟩

/-- `D2DTransmissionOptimizer::optimize_non_expert`. -/
def optimize_non_expert (expert_steps : List Step) (instance_configs : InstanceConfigs) :
    Option NonExpertStep :=
  match alloc_loads instance_configs [] with
  | none => none
  | some m0 =>
    match count_steps expert_steps m0 with
    | none => none
    | some m =>
      some (build_result (instance_configs.foldl (scan_instance m) ⟨"", -1, 0, 0, 1000000000⟩))

end xllm_service


namespace xllm_service

/-! ## Specification vocabulary: non-expert planner -/

/-- The config invariant of the data model: `device_size > 0`, `dp_size > 0` and
`device_size mod dp_size = 0`. -/
def InstanceConfig.valid (c : InstanceConfig) : Prop :=
  0 < c.device_size ∧ 0 < c.dp_size ∧ c.device_size % c.dp_size = 0

instance InstanceConfig.decidableValid (c : InstanceConfig) : Decidable c.valid := by
  unfold InstanceConfig.valid
  infer_instance

/-- Number of steps of the plan whose source is NPU `p` of instance `name`. -/
def npu_load (plan : List Step) (name : String) (p : Int) : Int :=
  (plan.countP (fun s => decide (s.src = ⟨name, p⟩)) : Nat)

/-- Internal peak load of DP group `g` of instance `name` with config `c`: the
largest per-NPU step count over the NPU range
`[g * npu_per_group, (g + 1) * npu_per_group)` of the group. -/
def group_peak (plan : List Step) (name : String) (c : InstanceConfig) (g : Int) : Int :=
  ((List.range (c.device_size / c.dp_size).toNat).map
    (fun k : Nat => npu_load plan name (g * (c.device_size / c.dp_size) + k))).foldr max 0

/-- Every step that names a known instance has its `local_npu` inside that
instance's `[0, device_size)`. -/
def StepsInRange (plan : List Step) (cfgs : InstanceConfigs) : Prop :=
  ∀ s ∈ plan, ∀ nc ∈ cfgs, nc.1 = s.src.inst →
    0 ≤ s.src.local_npu ∧ s.src.local_npu < nc.2.device_size

instance StepsInRange.decidable (plan : List Step) (cfgs : InstanceConfigs) :
    Decidable (StepsInRange plan cfgs) := by
  unfold StepsInRange
  infer_instance

/-- The sentinel form of `NonExpertStep` (a default-constructed value). -/
def sentinel : NonExpertStep := ⟨"", -1, -1, 0⟩

/-- Initial value of the selection variables of `optimize_non_expert`. -/
def best_init : Best := ⟨"", -1, 0, 0, 1000000000⟩

/-- The candidates `(instance, config, g)` in the order the selection loop
enumerates them. -/
def candidates (cfgs : InstanceConfigs) : List (String × InstanceConfig × Nat) :=
  cfgs.flatMap (fun nc =>
    if nc.2.device_size ≤ 0 ∨ nc.2.dp_size ≤ 0 then []
    else if Int.tmod nc.2.device_size nc.2.dp_size ≠ 0 then []
    else (List.range nc.2.dp_size.toNat).map (fun g => (nc.1, nc.2, g)))

/-- The value `current_group_max_load` computed for a candidate. -/
def cand_cost (m : List (String × List Int)) (x : String × InstanceConfig × Nat) : Int :=
  group_max_load ((m.lookup x.1).getD []) x.2.2 (Int.tdiv x.2.1.device_size x.2.1.dp_size)

/-- The selection variables when candidate `x` is the current best. -/
def cand_best (m : List (String × List Int)) (x : String × InstanceConfig × Nat) : Best :=
  ⟨x.1, x.2.2, x.2.1.dp_size, Int.tdiv x.2.1.device_size x.2.1.dp_size, cand_cost m x⟩

/-- One update of the selection variables. -/
def consider (m : List (String × List Int)) (b : Best) (x : String × InstanceConfig × Nat) :
    Best :=
  if cand_cost m x < b.min_max_load then cand_best m x else b

/-- State of the selection after the candidates `seen`: either nothing was
selected and no candidate seen so far is below the initial bound, or the
selection is the first candidate of least cost among those seen. -/
def SelectInv (m : List (String × List Int)) (b : Best)
    (seen : List (String × InstanceConfig × Nat)) : Prop :=
  (b = best_init ∧ ∀ x ∈ seen, (1000000000 : Int) ≤ cand_cost m x) ∨
  (∃ pre x post, seen = pre ++ x :: post ∧ b = cand_best m x ∧
    cand_cost m x < 1000000000 ∧
    (∀ y ∈ pre, cand_cost m x < cand_cost m y) ∧ (∀ y ∈ post, cand_cost m x ≤ cand_cost m y))

/-- The load vectors after the steps `done` were counted: the vector of each
configured instance has `device_size` counters holding the per-NPU step counts,
and no other instance has a vector. -/
def LoadsInv (cfgs : InstanceConfigs) (done : List Step) (m : List (String × List Int)) : Prop :=
  (∀ nc ∈ cfgs, ∃ v, m.lookup nc.1 = some v ∧ v.length = nc.2.device_size.toNat ∧
    ∀ p : Nat, p < v.length → v.getD p 0 = npu_load done nc.1 p) ∧
  (∀ name, name ∉ cfgs.map Prod.fst → m.lookup name = none)

/-- The load vectors have the shape the allocation loop gave them: one vector of
`device_size` counters per configured instance, none for any other instance. -/
def ShapeInv (cfgs : InstanceConfigs) (m : List (String × List Int)) : Prop :=
  (∀ nc ∈ cfgs, ∃ v, m.lookup nc.1 = some v ∧ v.length = nc.2.device_size.toNat) ∧
  (∀ name, name ∉ cfgs.map Prod.fst → m.lookup name = none)

/-- No NPU is the source of `2^31` or more steps of the plan, so that no 32-bit
load counter overflows. -/
def CountsFit (plan : List Step) : Prop :=
  ∀ s ∈ plan, npu_load plan s.src.inst s.src.local_npu < 2147483648

instance CountsFit.decidable (plan : List Step) : Decidable (CountsFit plan) := by
  unfold CountsFit
  infer_instance

/-! ## Specification vocabulary: flow networks -/

/-- An arc of a flow network together with the flow it carries: the call
`add_edge(u, v, c)` and `x` units of flow on it. -/
structure FlowEdge where
  u : Nat
  v : Nat
  c : Int
  x : Int
deriving DecidableEq, Repr

/-- The `add_edge` call an arc comes from. -/
def FlowEdge.arc (e : FlowEdge) : Nat × Nat × Int := (e.u, e.v, e.c)

/-- The graph after `init(n, s, t)` and the `add_edge` calls `es`, in order. -/
def MaxFlow.build (n s t : Nat) (es : List (Nat × Nat × Int)) : MaxFlow :=
  es.foldl (fun mf e => mf.add_edge e.1 e.2.1 e.2.2) (MaxFlow.init n s t)

/-- The calls are admissible for a graph of `n` nodes: endpoints in range and
distinct, capacity non-negative. -/
def WellFormedArcs (n : Nat) (es : List (Nat × Nat × Int)) : Prop :=
  ∀ e ∈ es, e.1 < n ∧ e.2.1 < n ∧ e.1 ≠ e.2.1 ∧ 0 ≤ e.2.2

instance WellFormedArcs.decidable (n : Nat) (es : List (Nat × Nat × Int)) :
    Decidable (WellFormedArcs n es) := by
  unfold WellFormedArcs
  infer_instance

/-- Adjacency lists after one more arc: the forward edge has residual `c - x`, the
reverse edge residual `x`. -/
def add_residual (g : List (List Edge)) (e : FlowEdge) : List (List Edge) :=
  push_edge (push_edge g e.u ⟨e.v, (g.getD e.v []).length, e.c - e.x⟩) e.v
    ⟨e.u, (g.getD e.u []).length, e.x⟩

/-- The residual graph of the flow `fs` on `n` nodes. -/
def residual (n : Nat) (fs : List FlowEdge) : List (List Edge) :=
  fs.foldl add_residual (List.replicate n [])

/-- Total flow on the arcs leaving `w`. -/
def outflow (fs : List FlowEdge) (w : Nat) : Int :=
  (fs.map (fun e => if e.u = w then e.x else 0)).sum

/-- Total flow on the arcs entering `w`. -/
def inflow (fs : List FlowEdge) (w : Nat) : Int :=
  (fs.map (fun e => if e.v = w then e.x else 0)).sum

/-- Value of a flow: net flow leaving `s`. -/
def flow_value (fs : List FlowEdge) (s : Nat) : Int :=
  outflow fs s - inflow fs s

/-- A feasible `s`-`t` flow on the network `es` with `n` nodes: one amount per arc,
between `0` and the capacity, conserved at every node other than `s` and `t`. -/
def IsFlow (n s t : Nat) (es : List (Nat × Nat × Int)) (fs : List FlowEdge) : Prop :=
  fs.map FlowEdge.arc = es ∧ (∀ e ∈ fs, 0 ≤ e.x ∧ e.x ≤ e.c) ∧
  ∀ w, w < n → w ≠ s → w ≠ t → inflow fs w = outflow fs w

instance IsFlow.decidable (n s t : Nat) (es : List (Nat × Nat × Int)) (fs : List FlowEdge) :
    Decidable (IsFlow n s t es fs) := by
  unfold IsFlow
  infer_instance

/-- Sum of the residual capacities stored at node `w`. -/
def cap_sum (g : List (List Edge)) (w : Nat) : Int :=
  ((g.getD w []).map Edge.cap).sum

/-- Every stored edge has its partner at the position it names, the partner
points back, and no edge is a self-loop. -/
def Paired (g : List (List Edge)) : Prop :=
  ∀ (v i : Nat) (e : Edge), (g.getD v [])[i]? = some e →
    e.to_ ≠ v ∧ e.to_ < g.length ∧
    ∃ e2 : Edge, (g.getD e.to_ [])[e.rev]? = some e2 ∧ e2.to_ = v ∧ e2.rev = i

/-- `t` can be reached from `s` along edges of positive residual capacity. -/
inductive ResidualPath (g : List (List Edge)) : Nat → Nat → Prop
  | refl (v : Nat) : ResidualPath g v v
  | step (v w : Nat) (e : Edge) : e ∈ g.getD v [] → 0 < e.cap → ResidualPath g e.to_ w →
      ResidualPath g v w

/-- Total capacity of the arcs leaving `w`. -/
def out_capacity (fs : List FlowEdge) (w : Nat) : Int :=
  (fs.map (fun e => if e.u = w then e.c else 0)).sum

/-! ## Proof vocabulary: the engine -/

/-- Invariant of the loops of `bfs` on a graph of `n` nodes with source `s`:
`q` is the queue and `level` the labels so far. -/
structure BfsInv (g : List (List Edge)) (s n : Nat) (level : List Int) (q : List Nat) :
    Prop where
  len : level.length = n
  nodup : q.Nodup
  inq : ∀ x ∈ q, x < n ∧ 0 ≤ level.getD x 0
  labelled : ∀ v, v < n → 0 ≤ level.getD v 0 → v ∈ q
  src : level.getD s 0 = 0
  pred : ∀ v, v < n → 0 ≤ level.getD v 0 →
    v = s ∨ ∃ (u : Nat) (e : Edge), e ∈ g.getD u [] ∧ e.to_ = v ∧ 0 < e.cap ∧
      0 ≤ level.getD u 0 ∧ level.getD v 0 = level.getD u 0 + 1
  bound : ∀ v, level.getD v 0 < q.length

/-- The labelled nodes `nodes` have all their positive-capacity edges leading to
labelled nodes. -/
def LevelClosed (g : List (List Edge)) (level : List Int) (nodes : List Nat) : Prop :=
  ∀ x ∈ nodes, ∀ e ∈ g.getD x [], 0 < e.cap → 0 ≤ level.getD e.to_ 0

/-- The adjacency lists `g` are the residual graph of some flow within the
capacities of the arcs `es`. -/
def IsResidual (n : Nat) (es : List (Nat × Nat × Int)) (g : List (List Edge)) : Prop :=
  ∃ fs : List FlowEdge, fs.map FlowEdge.arc = es ∧ (∀ e ∈ fs, 0 ≤ e.x ∧ e.x ≤ e.c) ∧
    g = residual n fs

/-- `t` can be reached from `v` along edges that `dfs` accepts: positive residual
capacity and `level[v] < level[e.to]`. -/
inductive CanReach (g : List (List Edge)) (level : List Int) (t : Nat) : Nat → Prop
  | base : CanReach g level t t
  | step (v i : Nat) (e : Edge) : (g.getD v [])[i]? = some e → 0 < e.cap →
      level.getD v 0 < level.getD e.to_ 0 → CanReach g level t e.to_ → CanReach g level t v

/-- Every edge the current-edge pointers have passed is useless: it is not
accepted by `dfs`, or `t` cannot be reached from its head. -/
def PtrOk (g : List (List Edge)) (level : List Int) (t : Nat) (it : List Nat) : Prop :=
  ∀ (w j : Nat) (e : Edge), j < it.getD w 0 → (g.getD w [])[j]? = some e → 0 < e.cap →
    level.getD w 0 < level.getD e.to_ 0 → ¬ CanReach g level t e.to_

/-- What a call `dfs(v, f)` that returns `d` in state `mf2` has done to the state
`mf` it started from. -/
structure DfsPost (n : Nat) (es : List (Nat × Nat × Int)) (mf : MaxFlow) (v : Nat) (f : Int)
    (mf2 : MaxFlow) (d : Int) : Prop where
  level_eq : mf2.level = mf.level
  s_eq : mf2.s = mf.s
  t_eq : mf2.t = mf.t
  it_len : mf2.it.length = mf.it.length
  res : IsResidual n es mf2.g
  d_nonneg : 0 ≤ d
  d_le : d ≤ f
  caps : ∀ w, cap_sum mf2.g w =
    cap_sum mf.g w - (if w = v then d else 0) + (if w = mf.t then d else 0)
  unchanged : d = 0 → mf2.g = mf.g
  frame_g : ∀ x, mf.level.getD x 0 < mf.level.getD v 0 → mf2.g.getD x [] = mf.g.getD x []
  frame_it : ∀ x, mf.level.getD x 0 < mf.level.getD v 0 → mf2.it.getD x 0 = mf.it.getD x 0
  deg : ∀ w, (mf2.g.getD w []).length = (mf.g.getD w []).length
  dead : d = 0 → PtrOk mf.g mf.level mf.t mf.it →
    PtrOk mf2.g mf2.level mf2.t mf2.it ∧ ¬ CanReach mf.g mf.level mf.t v

/-- Fuel on which `dfs(v, _)` returns, for levels below `n` and degrees at most `D`. -/
def dfs_fuel (n D : Nat) (mf : MaxFlow) (v : Nat) : Nat :=
  ((n : Int) - mf.level.getD v 0).toNat * (D + 1) +
    ((mf.g.getD v []).length - mf.it.getD v 0) + 1

/-- State of `dinic` between two pushes, for the arcs `es` on `n` nodes: the graph
is the residual graph of a flow, and `flow` units have left `s` and reached `t`
since the graph `g0`. -/
structure DinicInv (n : Nat) (es : List (Nat × Nat × Int)) (s t : Nat) (g0 : List (List Edge))
    (mf : MaxFlow) (flow : Int) : Prop where
  res : IsResidual n es mf.g
  level_len : mf.level.length = n
  it_len : mf.it.length = n
  s_eq : mf.s = s
  t_eq : mf.t = t
  caps : ∀ w, cap_sum mf.g w =
    cap_sum g0 w - (if w = s then flow else 0) + (if w = t then flow else 0)

/-- The labels left by the last `bfs` of `dinic`: `s` is labelled, `t` is not, and
the labelled nodes are closed under edges of positive residual capacity. -/
structure FinalLevels (n : Nat) (mf : MaxFlow) : Prop where
  src : mf.level.getD mf.s 0 = 0
  sink : mf.level.getD mf.t 0 < 0
  closed : ∀ v, v < n → 0 ≤ mf.level.getD v 0 → ∀ e ∈ mf.g.getD v [], 0 < e.cap →
    0 ≤ mf.level.getD e.to_ 0

/-- Fuel on which the loops of `dinic` return when `c` is the sum of the residual
capacities stored at `s`. -/
def loop_fuel (n D : Nat) (c : Int) : Nat :=
  n * (D + 1) + D + n + 4 + 2 * c.toNat

/-- Fuel on which `dinic` returns on the graph built from the arcs `es`. -/
def dinic_fuel (n : Nat) (es : List (Nat × Nat × Int)) (s : Nat) : Nat :=
  loop_fuel n es.length ((es.map (fun a => if a.1 = s then a.2.2 else 0)).sum)

/-! ## Specification vocabulary: expert planner -/

/-- The source NPUs of the replica map in the order `feasible` numbers them. -/
def npu_map (rep : ExpertReplicaMap) : List GlobalNpu := (build_npu_index rep).2

/-- The number `feasible` gives to a source NPU (`npu_to_idx[gn]`). -/
def npu_idx (rep : ExpertReplicaMap) (gn : GlobalNpu) : Nat :=
  ((build_npu_index rep).1.lookup gn).getD 0

/-- The replicas listed for an expert (none when the expert is not a key). -/
def replicas_of (rep : ExpertReplicaMap) (e : Int) : List GlobalNpu :=
  (rep.lookup e).getD []

/-- The `add_edge` calls of `feasible` for request slot `i` holding expert `e`. -/
def slot_arcs (rep : ExpertReplicaMap) (m t i : Nat) (e : Int) : List (Nat × Nat × Int) :=
  (replicas_of rep e).map (fun gn => (1 + npu_idx rep gn, 1 + m + i, (1 : Int))) ++
    [(1 + m + i, t, 1)]

/-- The `add_edge` calls of `feasible` for the request slots from index `i` on. -/
def req_arcs (rep : ExpertReplicaMap) (m t : Nat) : Nat → List Int → List (Nat × Nat × Int)
  | _, [] => []
  | i, e :: rest => slot_arcs rep m t i e ++ req_arcs rep m t (i + 1) rest

/-- All `add_edge` calls of `feasible` for bound `K`, in order. -/
def feas_arcs (K : Int) (required : List Int) (rep : ExpertReplicaMap) :
    List (Nat × Nat × Int) :=
  (List.range (npu_map rep).length).map (fun i => (0, 1 + i, K)) ++
    req_arcs rep (npu_map rep).length (1 + (npu_map rep).length + required.length) 0 required

/-- Node id of the sink in the graph of `feasible`. -/
def sink_node (required : List Int) (rep : ExpertReplicaMap) : Nat :=
  1 + (npu_map rep).length + required.length

/-- Every required expert is a key of the replica map with a non-empty list. -/
def ValidInput (required : List Int) (rep : ExpertReplicaMap) : Prop :=
  ∀ e ∈ required, replicas_of rep e ≠ []

instance ValidInput.decidable (required : List Int) (rep : ExpertReplicaMap) :
    Decidable (ValidInput required rep) := by
  unfold ValidInput
  infer_instance

/-- An assignment: one source per slot of `required`, taken from the replicas of
the expert of that slot. -/
def ValidAssignment (required : List Int) (rep : ExpertReplicaMap) (A : List GlobalNpu) :
    Prop :=
  A.length = required.length ∧ ∀ p ∈ required.zip A, p.2 ∈ replicas_of rep p.1

instance ValidAssignment.decidable (required : List Int) (rep : ExpertReplicaMap)
    (A : List GlobalNpu) : Decidable (ValidAssignment required rep A) := by
  unfold ValidAssignment
  infer_instance

/-- Peak load of a list of sources: the largest number of times one source NPU
occurs in it. -/
def peak_load (srcs : List GlobalNpu) : Nat :=
  (srcs.map (fun gn => srcs.count gn)).foldr max 0

/-- Some assignment loads no source NPU more than `K` times. -/
def Assignable (required : List Int) (rep : ExpertReplicaMap) (K : Int) : Prop :=
  ∃ A, ValidAssignment required rep A ∧ ∀ gn, (A.count gn : Int) ≤ K

/-- Flow on the replica arcs into the request node `v` when the slot is served by
`a`: one unit on the first arc that comes from `a`, none on the others. -/
def mark_flow (rep : ExpertReplicaMap) (v : Nat) (a : GlobalNpu) :
    List GlobalNpu → List FlowEdge
  | [] => []
  | gn :: rest =>
    if gn = a then
      ⟨1 + npu_idx rep gn, v, 1, 1⟩ :: rest.map (fun g => ⟨1 + npu_idx rep g, v, 1, 0⟩)
    else ⟨1 + npu_idx rep gn, v, 1, 0⟩ :: mark_flow rep v a rest

/-- Flow on the arcs of slot `i` (expert `e`) when the slot is served by `a`. -/
def slot_flow (rep : ExpertReplicaMap) (m t i : Nat) (e : Int) (a : GlobalNpu) :
    List FlowEdge :=
  mark_flow rep (1 + m + i) a (replicas_of rep e) ++ [⟨1 + m + i, t, 1, 1⟩]

/-- Flow on the arcs of the slots from index `i` on, served as the assignment says. -/
def req_flow (rep : ExpertReplicaMap) (m t : Nat) :
    Nat → List Int → List GlobalNpu → List FlowEdge
  | i, e :: rest, a :: more => slot_flow rep m t i e a ++ req_flow rep m t (i + 1) rest more
  | _, _, _ => []

/-- The flow that routes an assignment through the graph of `feasible`: the arc
`S -> npu` carries the number of slots the NPU serves. -/
def assignment_flow (K : Int) (required : List Int) (rep : ExpertReplicaMap)
    (A : List GlobalNpu) : List FlowEdge :=
  (List.range (npu_map rep).length).map
      (fun i => (⟨0, 1 + i, K, (A.count ((npu_map rep).getD i ⟨"", 0⟩) : Nat)⟩ : FlowEdge)) ++
    req_flow rep (npu_map rep).length (sink_node required rep) 0 required A

/-- The plan `optimize_layer` extracts from a state of its binary search. -/
def plan_of (st : SearchState) : List Step :=
  extract_plan st.final_mf st.final_npu_map st.final_req_to_expert 1
    (1 + st.final_npu_map.length)

/-- The state of the binary search holds the result of a feasible solve at `K`. -/
def GoodState (required : List Int) (rep : ExpertReplicaMap) (st : SearchState) (K : Int) :
    Prop :=
  st.bestK = K ∧ Assignable required rep K ∧
  (∀ s ∈ plan_of st, s.src ∈ replicas_of rep s.expert_id) ∧
  (∀ gn, (((plan_of st).map Step.src).count gn : Int) ≤ K) ∧
  (plan_of st).map Step.expert_id = required

/-- Fuel on which `optimize_layer` returns. -/
def optimize_fuel (required : List Int) (rep : ExpertReplicaMap) : Nat :=
  dinic_fuel (sink_node required rep + 1) (feas_arcs required.length required rep) 0 +
    required.length + 2

/-! ### The scenario of the example program -/

/-- Names of the five existing instances (`inst_names` of the example). -/
def inst_names : List String :=
  ["deepseekv3-1", "deepseekv3-2", "deepseekv3-3", "deepseekv3-4", "deepseekv3-5"]

/-- Sources of expert `e` in the example: NPU `e / 16` of every instance. -/
def scenario_sources (e : Nat) : List GlobalNpu :=
  inst_names.map (fun name => ⟨name, (e : Int) / 16⟩)

/-- The replica map `expert_to_src` of the example, experts 0..255. -/
def scenario_expert_to_src : ExpertReplicaMap :=
  (List.range 256).map (fun (e : Nat) => ((e : Int), scenario_sources e))

/-- The `required` sequence of the example: experts 0..255. -/
def scenario_required : List Int :=
  (List.range 256).map (fun (e : Nat) => (e : Int))

/-- The sources of the sixteen experts held by NPU 0 of every instance. -/
def first_npu_sources : List GlobalNpu :=
  inst_names.map (fun name => ⟨name, 0⟩)

/-- A source for expert `e` that spreads the sixteen experts of one NPU index
round-robin over the five instances. -/
def balanced_source (e : Nat) : GlobalNpu :=
  ⟨inst_names.getD (e % 16 % 5) "", (e : Int) / 16⟩

/-- The round-robin assignment of the example scenario. -/
def balanced_assignment : List GlobalNpu :=
  (List.range 256).map balanced_source

/-! ### Edge positions -/

/-- Every stored edge `g[v][i]` has a partner at `g[e.to][e.rev]` whose `to` is
`v` and whose `rev` is `i`. -/
def SymmetricPositions (g : List (List Edge)) : Prop :=
  ∀ (v i : Nat) (e : Edge), (g.getD v [])[i]? = some e →
    ∃ e2 : Edge, (g.getD e.to_ [])[e.rev]? = some e2 ∧ e2.to_ = v ∧ e2.rev = i

/-- The `add_edge` calls `es` have their endpoints among the `n` nodes. -/
def EndpointsInRange (n : Nat) (es : List (Nat × Nat × Int)) : Prop :=
  ∀ e ∈ es, e.1 < n ∧ e.2.1 < n

instance EndpointsInRange.decidable (n : Nat) (es : List (Nat × Nat × Int)) :
    Decidable (EndpointsInRange n es) := by
  unfold EndpointsInRange
  infer_instance

/-- No `add_edge` call of `es` is a self-loop. -/
def NoSelfLoop (es : List (Nat × Nat × Int)) : Prop :=
  ∀ e ∈ es, e.1 ≠ e.2.1

instance NoSelfLoop.decidable (es : List (Nat × Nat × Int)) : Decidable (NoSelfLoop es) := by
  unfold NoSelfLoop
  infer_instance

/-! ### The edges `dfs` walks -/

/-- Record of one call `dfs(s, 1e9)` of `dinic`: the edges `(v, e.to)` along which
`dfs` recursed, in order, and the edges of the augmenting path on which it
pushed flow (none when the call returns 0). -/
structure DfsLog where
  visited : List (Nat × Nat)
  pushed : List (Nat × Nat)
deriving DecidableEq, Repr

/-- The function `MaxFlow.dfs` with a record of the edges it walks: the same
tests, calls and updates in the same order; `(v, e.to)` is recorded at every
recursive call, and kept as an edge of the augmenting path when the call
returns `d > 0`. -/
def MaxFlow.dfs_log : Nat → MaxFlow → Nat → Int → Option (MaxFlow × Int × DfsLog)
  | 0, _, _, _ => none
  | fuel + 1, mf, v, f =>
    if v = mf.t then some (mf, f, ⟨[], []⟩)
    else
      let i := mf.it.getD v 0
      match (mf.g.getD v [])[i]? with
      | none => some (mf, 0, ⟨[], []⟩)
      | some e =>
        if 0 < e.cap ∧ mf.level.getD v 0 < mf.level.getD e.to_ 0 then
          match MaxFlow.dfs_log fuel mf e.to_ (min f e.cap) with
          | none => none
          | some (mf1, d, log) =>
            if 0 < d then
              some ({ mf1 with g := add_cap (add_cap mf1.g v i (-d)) e.to_ e.rev d }, d,
                ⟨(v, e.to_) :: log.visited, (v, e.to_) :: log.pushed⟩)
            else
              match MaxFlow.dfs_log fuel
                  { mf1 with it := mf1.it.set v (mf1.it.getD v 0 + 1) } v f with
              | none => none
              | some (mf2, d2, log2) =>
                some (mf2, d2, ⟨(v, e.to_) :: (log.visited ++ log2.visited), log2.pushed⟩)
        else
          MaxFlow.dfs_log fuel { mf with it := mf.it.set v (i + 1) } v f

/-- The function `dinic_push` (flow value accumulated exactly) with the records of
its `dfs` calls.  The flow value steers nothing, so the calls recorded are those
of the 32-bit `dinic_push_int` as well. -/
def dinic_push_log : Nat → MaxFlow → Int → Option (MaxFlow × Int × List DfsLog)
  | 0, _, _ => none
  | fuel + 1, mf, flow =>
    match mf.dfs_log fuel mf.s 1000000000 with
    | none => none
    | some (mf1, f, log) =>
      if 0 < f then
        match dinic_push_log fuel mf1 (flow + f) with
        | none => none
        | some (mf2, flow2, logs) => some (mf2, flow2, log :: logs)
      else some (mf1, flow, [log])

/-- A phase of `dinic`: the residual graph and the labels when `bfs` returned
`true`, and the records of the `dfs` calls that followed. -/
structure Phase where
  g : List (List Edge)
  level : List Int
  logs : List DfsLog
deriving DecidableEq, Repr

/-- The function `dinic_loop` with the record of its phases. -/
def dinic_loop_log : Nat → MaxFlow → Int → Option (MaxFlow × Int × List Phase)
  | 0, _, _ => none
  | fuel + 1, mf, flow =>
    match mf.bfs fuel with
    | none => none
    | some (mf1, reached) =>
      if reached then
        match dinic_push_log fuel { mf1 with it := List.replicate mf1.it.length 0 } flow with
        | none => none
        | some (mf2, flow2, logs) =>
          match dinic_loop_log fuel mf2 flow2 with
          | none => none
          | some (mf3, flow3, phases) => some (mf3, flow3, ⟨mf1.g, mf1.level, logs⟩ :: phases)
      else some (mf1, flow, [])

/-- The function `MaxFlow.dinic` with the record of its phases. -/
def MaxFlow.dinic_log (fuel : Nat) (mf : MaxFlow) : Option (MaxFlow × Int × List Phase) :=
  dinic_loop_log fuel mf 0

/-- The edges `p` form a path from `a` to `b`. -/
def IsPath : List (Nat × Nat) → Nat → Nat → Prop
  | [], a, b => a = b
  | vw :: rest, a, b => vw.1 = a ∧ IsPath rest vw.2 b

/-- Every edge of positive residual capacity that leaves a labelled node leads to
a labelled node at most one level higher. -/
def LevelTight (g : List (List Edge)) (level : List Int) : Prop :=
  ∀ (v : Nat) (e : Edge), e ∈ g.getD v [] → 0 < e.cap → 0 ≤ level.getD v 0 →
    0 ≤ level.getD e.to_ 0 ∧ level.getD e.to_ 0 ≤ level.getD v 0 + 1

/-- The adjacency lists without the capacities: `to` and `rev` of every edge. -/
def shape (g : List (List Edge)) : List (List (Nat × Nat)) :=
  g.map (fun es => es.map (fun e => (e.to_, e.rev)))

/-- State of the loops of `bfs` when the node at position `i` of the queue is
being scanned: the queue is sorted by level, no level in the queue exceeds by
more than one the level of a node still to scan, and the positive-capacity edges
of the nodes already scanned lead to labelled nodes at most one level higher. -/
structure BfsTight (g : List (List Edge)) (level : List Int) (q : List Nat) (i : Nat) :
    Prop where
  sorted : q.Pairwise (fun x y => level.getD x 0 ≤ level.getD y 0)
  span : ∀ x ∈ q, ∀ y ∈ q.drop i, level.getD x 0 ≤ level.getD y 0 + 1
  done : ∀ x ∈ q.take i, ∀ e ∈ g.getD x [], 0 < e.cap →
    0 ≤ level.getD e.to_ 0 ∧ level.getD e.to_ 0 ≤ level.getD x 0 + 1

/-- What the claim about the `dfs` calls says of one phase, for source `s` and
sink `t`: with respect to the labels of the phase, every edge a `dfs` call
recursed along goes up exactly one level; the edges flow was pushed on are among
them; and every augmenting path leads from `s` to `t`, has as many edges as the
label of `t`, and is no longer than any path from `s` to `t` along edges that
had positive residual capacity when `bfs` ran. -/
def PhaseOk (s t : Nat) (ph : Phase) : Prop :=
  ∀ log ∈ ph.logs,
    (∀ vw ∈ log.visited, ph.level.getD vw.2 0 = ph.level.getD vw.1 0 + 1) ∧
    (∀ vw ∈ log.pushed, vw ∈ log.visited) ∧
    (log.pushed ≠ [] →
      IsPath log.pushed s t ∧ (log.pushed.length : Int) = ph.level.getD t 0 ∧
      ∀ p : List (Nat × Nat), IsPath p s t →
        (∀ vw ∈ p, ∃ e ∈ ph.g.getD vw.1 [], e.to_ = vw.2 ∧ 0 < e.cap) →
        log.pushed.length ≤ p.length)

end xllm_service


namespace xllm_service

/-! ### The engine, recorded push by push -/

/-- One execution of the two assignments `e.cap -= d; g[e.to][e.rev].cap += d` of
`dfs`, for the edge `e = g[v][i]`; `to_` and `rev` are the fields of `e`. -/
structure Push where
  v : Nat
  i : Nat
  to_ : Nat
  rev : Nat
  d : Int
deriving DecidableEq, Repr

/-- The graph after the two assignments of a push. -/
def apply_push (g : List (List Edge)) (p : Push) : List (List Edge) :=
  add_cap (add_cap g p.v p.i (-p.d)) p.to_ p.rev p.d

/-- Record of one call of `dfs`: the greatest number of `dfs` calls nested inside
it, the edges `(v, e.to)` along which it recursed, in order, and the pushes it
made, in the order it made them (the edge nearest to `t` first). -/
structure DfsTrace where
  depth : Nat
  visited : List (Nat × Nat)
  pushes : List Push
deriving DecidableEq, Repr

/-- The function `MaxFlow.dfs` with a record of what it does: the same tests,
calls and updates in the same order.  An iteration of the `for` loop that does
not return is continued at the same node, which does not nest a call. -/
def MaxFlow.dfs_trace : Nat → MaxFlow → Nat → Int → Option (MaxFlow × Int × DfsTrace)
  | 0, _, _, _ => none
  | fuel + 1, mf, v, f =>
    if v = mf.t then some (mf, f, ⟨0, [], []⟩)
    else
      let i := mf.it.getD v 0
      match (mf.g.getD v [])[i]? with
      | none => some (mf, 0, ⟨0, [], []⟩)
      | some e =>
        if 0 < e.cap ∧ mf.level.getD v 0 < mf.level.getD e.to_ 0 then
          match MaxFlow.dfs_trace fuel mf e.to_ (min f e.cap) with
          | none => none
          | some (mf1, d, tr) =>
            if 0 < d then
              some ({ mf1 with g := add_cap (add_cap mf1.g v i (-d)) e.to_ e.rev d }, d,
                ⟨tr.depth + 1, (v, e.to_) :: tr.visited,
                  tr.pushes ++ [⟨v, i, e.to_, e.rev, d⟩]⟩)
            else
              match MaxFlow.dfs_trace fuel
                  { mf1 with it := mf1.it.set v (mf1.it.getD v 0 + 1) } v f with
              | none => none
              | some (mf2, d2, tr2) =>
                some (mf2, d2, ⟨max (tr.depth + 1) tr2.depth,
                  (v, e.to_) :: (tr.visited ++ tr2.visited), tr.pushes ++ tr2.pushes⟩)
        else
          MaxFlow.dfs_trace fuel { mf with it := mf.it.set v (i + 1) } v f

/-- Record of one call `dfs(s, 1e9)` made by `dinic`: the state it started from,
the state it left, the amount it returned and what it did. -/
structure Call where
  before : MaxFlow
  after : MaxFlow
  d : Int
  depth : Nat
  visited : List (Nat × Nat)
  pushes : List Push
deriving DecidableEq, Repr

/-- The function `dinic_push_int` (`flow += f` on the 32-bit `int flow`) with the
records of its `dfs` calls. -/
def dinic_push_trace : Nat → MaxFlow → Int → Option (MaxFlow × Int × List Call)
  | 0, _, _ => none
  | fuel + 1, mf, flow =>
    match mf.dfs_trace fuel mf.s 1000000000 with
    | none => none
    | some (mf1, f, tr) =>
      if 0 < f then
        match dinic_push_trace fuel mf1 (wrap32 (flow + f)) with
        | none => none
        | some (mf2, flow2, calls) =>
          some (mf2, flow2, ⟨mf, mf1, f, tr.depth, tr.visited, tr.pushes⟩ :: calls)
      else some (mf1, flow, [⟨mf, mf1, f, tr.depth, tr.visited, tr.pushes⟩])

/-- The function `dinic_loop_int` with the records of the `dfs` calls of each
phase. -/
def dinic_loop_trace : Nat → MaxFlow → Int → Option (MaxFlow × Int × List (List Call))
  | 0, _, _ => none
  | fuel + 1, mf, flow =>
    match mf.bfs fuel with
    | none => none
    | some (mf1, reached) =>
      if reached then
        match dinic_push_trace fuel { mf1 with it := List.replicate mf1.it.length 0 } flow with
        | none => none
        | some (mf2, flow2, calls) =>
          match dinic_loop_trace fuel mf2 flow2 with
          | none => none
          | some (mf3, flow3, phases) => some (mf3, flow3, calls :: phases)
      else some (mf1, flow, [])

/-- The function `MaxFlow.dinic_int` with the records of the `dfs` calls of each
phase. -/
def MaxFlow.dinic_trace (fuel : Nat) (mf : MaxFlow) :
    Option (MaxFlow × Int × List (List Call)) :=
  dinic_loop_trace fuel mf 0

/-! ### Vocabulary for the recorded runs -/

/-- The graphs a sequence of pushes goes through, starting from `g`. -/
def push_states (g : List (List Edge)) : List Push → List (List (List Edge))
  | [] => [g]
  | p :: ps => g :: push_states (apply_push g p) ps

/-- Each push of the sequence, made on the graph its predecessors left, is made on
an edge that exists with the recorded `to` and `rev`, and moves an amount between
0 and the residual capacity of that edge. -/
def PushesOk : List (List Edge) → List Push → Prop
  | _, [] => True
  | g, p :: ps =>
    (∃ e : Edge, (g.getD p.v [])[p.i]? = some e ∧ e.to_ = p.to_ ∧ e.rev = p.rev ∧
      0 ≤ p.d ∧ p.d ≤ e.cap) ∧ PushesOk (apply_push g p) ps

/-- Every residual capacity is non-negative. -/
def NonNeg (g : List (List Edge)) : Prop :=
  ∀ (w : Nat) (e : Edge), e ∈ g.getD w [] → 0 ≤ e.cap

/-- The residual capacity stored at `g[v][i]` (0 when there is no such edge). -/
def cap_at (g : List (List Edge)) (v i : Nat) : Int :=
  (((g.getD v [])[i]?).map Edge.cap).getD 0

/-- What a recorded call `dfs(v, f)` that returns `d` in state `mf2` with record
`tr` has done to the state `mf` it started from. -/
structure TracePost (mf : MaxFlow) (v : Nat) (f : Int) (mf2 : MaxFlow) (d : Int)
    (tr : DfsTrace) : Prop where
  level_eq : mf2.level = mf.level
  s_eq : mf2.s = mf.s
  t_eq : mf2.t = mf.t
  it_len : mf2.it.length = mf.it.length
  d_nonneg : 0 ≤ d
  d_le : d ≤ f
  replay : mf2.g = tr.pushes.foldl apply_push mf.g
  ok : PushesOk mf.g tr.pushes
  same_d : ∀ p ∈ tr.pushes, p.d = d
  up : ∀ p ∈ tr.pushes, mf.level.getD v 0 ≤ mf.level.getD p.v 0 ∧
    mf.level.getD p.v 0 < mf.level.getD p.to_ 0
  edges : ∀ p ∈ tr.pushes, ∃ e : Edge, (mf.g.getD p.v [])[p.i]? = some e ∧ e.to_ = p.to_ ∧
    e.rev = p.rev ∧ p.d ≤ e.cap
  sorted : tr.pushes.Pairwise (fun q p => mf.level.getD p.to_ 0 ≤ mf.level.getD q.v 0)
  fail : d = 0 → tr.pushes = []
  path : 0 < d → IsPath (tr.pushes.reverse.map (fun p => (p.v, p.to_))) v mf.t
  visited_up : ∀ ab ∈ tr.visited, mf.level.getD v 0 ≤ mf.level.getD ab.1 0 ∧
    mf.level.getD ab.1 0 < mf.level.getD ab.2 0
  deep : ∃ x, mf.level.getD v 0 + tr.depth ≤ mf.level.getD x 0
  it_mono : ∀ w, mf.it.getD w 0 ≤ mf2.it.getD w 0
  frame_it : ∀ x, mf.level.getD x 0 < mf.level.getD v 0 → mf2.it.getD x 0 = mf.it.getD x 0
  frame_g : ∀ x, mf.level.getD x 0 < mf.level.getD v 0 → mf2.g.getD x [] = mf.g.getD x []
  caps_v : v ≠ mf.t → cap_sum mf2.g v = cap_sum mf.g v - d
  dead : d = 0 → PtrOk mf.g mf.level mf.t mf.it →
    PtrOk mf2.g mf2.level mf2.t mf2.it ∧ ¬ CanReach mf.g mf.level mf.t v

/-- State of the engine on `n` nodes with degrees at most `D`: the vectors have
`n` entries, every edge leads to a node, and no residual capacity is negative. -/
structure EngineInv (n D s t : Nat) (mf : MaxFlow) : Prop where
  g_len : mf.g.length = n
  level_len : mf.level.length = n
  it_len : mf.it.length = n
  s_eq : mf.s = s
  t_eq : mf.t = t
  to_lt : ∀ (w : Nat) (e : Edge), e ∈ mf.g.getD w [] → e.to_ < n
  deg : ∀ w, (mf.g.getD w []).length ≤ D
  nonneg : NonNeg mf.g

/-- What holds of a recorded call `dfs(s, 1e9)` of `dinic` on `n` nodes with
source `s` and sink `t`. -/
structure CallOk (n s t : Nat) (c : Call) : Prop where
  s_eq : c.before.s = s
  t_eq : c.before.t = t
  post : TracePost c.before s 1000000000 c.after c.d ⟨c.depth, c.visited, c.pushes⟩
  src : c.before.level.getD s 0 = 0
  bound : ∀ x, c.before.level.getD x 0 < n
  nonneg : NonNeg c.before.g

/-- The calls of one phase: each starts in the state the previous one left, every
call but the last returns a positive amount and the last returns 0. -/
def PhaseChain : MaxFlow → List Call → MaxFlow → Prop
  | _, [], _ => False
  | mf, [c], mf2 => c.before = mf ∧ c.after = mf2 ∧ c.d = 0
  | mf, c :: c2 :: cs, mf2 => c.before = mf ∧ 0 < c.d ∧ PhaseChain c.after (c2 :: cs) mf2

/-- The graphs of consecutive calls: each call starts on the graph the previous
one left. -/
def GraphChain : List (List Edge) → List Call → List (List Edge) → Prop
  | g, [], g2 => g2 = g
  | g, c :: cs, g2 => c.before.g = g ∧ GraphChain c.after.g cs g2

/-- Every stored edge has a non-negative residual capacity and a partner at the
position it names, which points back; the two are the forward and the reverse
edge of one `add_edge` call of `es`, and their residual capacities add up to the
capacity given in that call. -/
def PairInvariant (es : List (Nat × Nat × Int)) (g : List (List Edge)) : Prop :=
  ∀ (v i : Nat) (e : Edge), (g.getD v [])[i]? = some e →
    0 ≤ e.cap ∧ ∃ e2 : Edge, (g.getD e.to_ [])[e.rev]? = some e2 ∧ e2.to_ = v ∧ e2.rev = i ∧
      ∃ a ∈ es, e.cap + e2.cap = a.2.2 ∧
        ((a.1 = v ∧ a.2.1 = e.to_) ∨ (a.2.1 = v ∧ a.1 = e.to_))

/-- Change a push makes to the residual capacity stored at `g[a][b]`. -/
def push_delta (p : Push) (a b : Nat) : Int :=
  (if a = p.v ∧ b = p.i then -p.d else 0) + (if a = p.to_ ∧ b = p.rev then p.d else 0)

/-- The flow `fs` with nothing on its arcs. -/
def no_flow (fs : List FlowEdge) : List FlowEdge :=
  fs.map (fun a => (⟨a.u, a.v, a.c, 0⟩ : FlowEdge))

/-- What a recorded call `dfs(s, 1e9)` that returned `d` did to the graph: when
`d > 0` the pushes, last to first, are the edges of a path from `s` to `t`; when
`d = 0` there is no push; and every pushed edge had its partner at the position
it names, lost `d` of residual capacity over the call, and its partner gained
`d`. -/
def PathPushed (c : Call) : Prop :=
  (0 < c.d → IsPath (c.pushes.reverse.map (fun p => (p.v, p.to_))) c.before.s c.before.t) ∧
  (c.d = 0 → c.pushes = []) ∧
  ∀ p ∈ c.pushes, p.d = c.d ∧
    ∃ e e2 : Edge, (c.before.g.getD p.v [])[p.i]? = some e ∧ e.to_ = p.to_ ∧ e.rev = p.rev ∧
      (c.before.g.getD p.to_ [])[p.rev]? = some e2 ∧ e2.to_ = p.v ∧ e2.rev = p.i ∧
      (c.after.g.getD p.v [])[p.i]? = some { e with cap := e.cap - c.d } ∧
      (c.after.g.getD p.to_ [])[p.rev]? = some { e2 with cap := e2.cap + c.d }

/-- What makes a recorded call `dfs(s, 1e9)` on `n` nodes end: every edge it
recursed along leads from a labelled node to a node of strictly greater level
below `n`, so that fewer than `n` calls are nested inside it; it returns 0 or at
least 1; and it moves no current-edge pointer back. -/
def CallTerminates (n : Nat) (c : Call) : Prop :=
  (∀ ab ∈ c.visited, 0 ≤ c.before.level.getD ab.1 0 ∧
    c.before.level.getD ab.1 0 < c.before.level.getD ab.2 0 ∧
    c.before.level.getD ab.2 0 < n) ∧
  c.depth < n ∧ (c.d = 0 ∨ 1 ≤ c.d) ∧
  ∀ w, c.before.it.getD w 0 ≤ c.after.it.getD w 0

/-- The capacities of the `add_edge` calls are non-negative. -/
def NonNegCaps (es : List (Nat × Nat × Int)) : Prop :=
  ∀ e ∈ es, 0 ≤ e.2.2

instance NonNegCaps.decidable (es : List (Nat × Nat × Int)) : Decidable (NonNegCaps es) := by
  unfold NonNegCaps
  infer_instance

/-- Fuel on which `dinic` returns on the graph built from the arcs `es`, self-loops
allowed: a node stores at most two edges per arc. -/
def engine_fuel (n : Nat) (es : List (Nat × Nat × Int)) (s : Nat) : Nat :=
  loop_fuel n (2 * es.length) ((es.map (fun a => if a.1 = s then a.2.2 else 0)).sum)

end xllm_service


namespace xllm_service

/-! ## 32-bit results -/

theorem wrap32_of_fits (x : Int) (h0 : -2147483648 ≤ x) (h1 : x < 2147483648) :
    wrap32 x = x := by
  unfold wrap32
  omega

theorem wrap32_zero : wrap32 0 = 0 := by decide

theorem wrap32_add_left (a b : Int) : wrap32 (wrap32 a + b) = wrap32 (a + b) := by
  unfold wrap32
  omega

theorem wrap32_idem (a : Int) : wrap32 (wrap32 a) = wrap32 a := by
  unfold wrap32
  omega

theorem wrap32_le (x : Int) (h : 0 ≤ x) : wrap32 x ≤ x := by
  unfold wrap32
  omega

theorem wrap32_range (x : Int) : -2147483648 ≤ wrap32 x ∧ wrap32 x < 2147483648 := by
  unfold wrap32
  omega

end xllm_service


namespace xllm_service

/-! ## The 32-bit flow value of `dinic` and its exact counterpart

The accumulated flow value never steers the loops of `dinic`, so the run with the
`int flow` of the source goes through the same states as the run that adds
exactly, and returns the exact sum reduced to 32 bits. -/

theorem dinic_push_int_eq :
    ∀ (fuel : Nat) (mf : MaxFlow) (flow : Int),
      dinic_push_int fuel mf (wrap32 flow) =
        (dinic_push fuel mf flow).map (fun r => (r.1, wrap32 r.2))
  | 0, _, _ => rfl
  | fuel + 1, mf, flow => by
    rw [dinic_push_int, dinic_push]
    cases mf.dfs fuel mf.s 1000000000 with
    | none => rfl
    | some r =>
      obtain ⟨mf1, f⟩ := r
      dsimp only
      by_cases hf : 0 < f
      · rw [if_pos hf, if_pos hf, wrap32_add_left, dinic_push_int_eq fuel mf1 (flow + f)]
      · rw [if_neg hf, if_neg hf]
        rfl

theorem dinic_loop_int_eq :
    ∀ (fuel : Nat) (mf : MaxFlow) (flow : Int),
      dinic_loop_int fuel mf (wrap32 flow) =
        (dinic_loop fuel mf flow).map (fun r => (r.1, wrap32 r.2))
  | 0, _, _ => rfl
  | fuel + 1, mf, flow => by
    rw [dinic_loop_int, dinic_loop]
    cases mf.bfs fuel with
    | none => rfl
    | some r =>
      obtain ⟨mf1, reached⟩ := r
      dsimp only
      cases reached with
      | false => rfl
      | true =>
        simp only [if_true]
        rw [dinic_push_int_eq fuel _ flow]
        cases dinic_push fuel { mf1 with it := List.replicate mf1.it.length 0 } flow with
        | none => rfl
        | some r2 =>
          obtain ⟨mf2, flow2⟩ := r2
          exact dinic_loop_int_eq fuel mf2 flow2

/-- The 32-bit `dinic` returns the residual graph of the exact one and its flow
value reduced to 32 bits, and fails to return on the same amounts of fuel. -/
theorem dinic_int_eq (fuel : Nat) (mf : MaxFlow) :
    mf.dinic_int fuel = (mf.dinic fuel).map (fun r => (r.1, wrap32 r.2)) := by
  have h := dinic_loop_int_eq fuel mf 0
  rw [wrap32_zero] at h
  exact h

/-- When the exact flow value fits in an `int`, the 32-bit `dinic` returns it. -/
theorem dinic_int_of_fits (fuel : Nat) (mf mf2 : MaxFlow) (flow : Int)
    (h : mf.dinic fuel = some (mf2, flow)) (h0 : 0 ≤ flow) (h1 : flow < 2147483648) :
    mf.dinic_int fuel = some (mf2, flow) := by
  rw [dinic_int_eq, h]
  show some (mf2, wrap32 flow) = some (mf2, flow)
  rw [wrap32_of_fits flow (by omega) h1]

end xllm_service


namespace xllm_service

/-! ## Non-expert planner: load aggregation -/

theorem lookup_of_mem_nodup {β : Type} :
    ∀ (l : List (String × β)) (k : String) (v : β),
      (l.map Prod.fst).Nodup → (k, v) ∈ l → l.lookup k = some v
  | [], _, _, _, h => by simp at h
  | (k', v') :: rest, k, v, hnd, h => by
    simp only [List.map_cons, List.nodup_cons] at hnd
    rw [List.lookup_cons]
    rcases List.mem_cons.mp h with heq | hmem
    · cases heq
      simp
    · have hne : k ≠ k' := by
        intro hk
        apply hnd.1
        rw [← hk]
        exact List.mem_map_of_mem Prod.fst hmem
      have hb : (k == k') = false := by simpa using hne
      rw [hb]
      exact lookup_of_mem_nodup rest k v hnd.2 hmem

theorem lookup_none_of_not_mem {β : Type} :
    ∀ (l : List (String × β)) (k : String), k ∉ l.map Prod.fst → l.lookup k = none
  | [], _, _ => rfl
  | (k', v') :: rest, k, h => by
    simp only [List.map_cons, List.mem_cons, not_or] at h
    rw [List.lookup_cons]
    have hb : (k == k') = false := by simpa using h.1
    rw [hb]
    exact lookup_none_of_not_mem rest k h.2

theorem alloc_loads_eq :
    ∀ (cfgs : InstanceConfigs) (m : List (String × List Int)),
      (∀ nc ∈ cfgs, 0 ≤ nc.2.device_size) →
      alloc_loads cfgs m =
        some ((cfgs.reverse.map
          (fun nc => (nc.1, List.replicate nc.2.device_size.toNat (0 : Int)))) ++ m)
  | [], m, _ => by simp [alloc_loads]
  | (name, config) :: rest, m, h => by
    have h0 : ¬ config.device_size < 0 := by
      have := h (name, config) (List.mem_cons_self _ _)
      simpa using this
    have hrest : ∀ nc ∈ rest, 0 ≤ nc.2.device_size :=
      fun nc hnc => h nc (List.mem_cons_of_mem _ hnc)
    rw [alloc_loads, if_neg h0, alloc_loads_eq rest _ hrest]
    simp

theorem alloc_loads_neg (cfgs : InstanceConfigs) (m : List (String × List Int))
    (h : ∃ nc ∈ cfgs, nc.2.device_size < 0) : alloc_loads cfgs m = none := by
  induction cfgs generalizing m with
  | nil => simp at h
  | cons nc rest ih =>
    obtain ⟨name, config⟩ := nc
    by_cases h0 : config.device_size < 0
    · simp [alloc_loads, h0]
    · rw [alloc_loads, if_neg h0]
      apply ih
      obtain ⟨x, hx, hneg⟩ := h
      rcases List.mem_cons.mp hx with heq | hmem
      · subst heq
        exact absurd hneg h0
      · exact ⟨x, hmem, hneg⟩

theorem npu_load_nil (name : String) (p : Int) : npu_load [] name p = 0 := by
  simp [npu_load]

theorem npu_load_snoc (done : List Step) (s : Step) (name : String) (p : Int) :
    npu_load (done ++ [s]) name p =
      npu_load done name p + (if s.src = ⟨name, p⟩ then 1 else 0) := by
  unfold npu_load
  rw [List.countP_append]
  simp only [List.countP_cons, List.countP_nil, decide_eq_true_eq, zero_add]
  split <;> simp

theorem npu_load_nonneg (plan : List Step) (name : String) (p : Int) :
    0 ≤ npu_load plan name p := by
  unfold npu_load
  exact Int.natCast_nonneg _

theorem loadsInv_alloc (cfgs : InstanceConfigs) (hnd : (cfgs.map Prod.fst).Nodup)
    (hnn : ∀ nc ∈ cfgs, 0 ≤ nc.2.device_size) :
    ∃ m0, alloc_loads cfgs [] = some m0 ∧ LoadsInv cfgs [] m0 := by
  refine ⟨_, alloc_loads_eq cfgs [] hnn, ?_, ?_⟩
  · intro nc hnc
    refine ⟨List.replicate nc.2.device_size.toNat 0, ?_, by simp, ?_⟩
    · rw [List.append_nil]
      apply lookup_of_mem_nodup
      · rw [List.map_map]
        have : (Prod.fst ∘ fun nc : String × InstanceConfig =>
            (nc.1, List.replicate nc.2.device_size.toNat (0 : Int))) = Prod.fst := by
          funext x
          rfl
        rw [this, List.map_reverse]
        exact List.nodup_reverse.mpr hnd
      · exact List.mem_map.mpr ⟨nc, List.mem_reverse.mpr hnc, rfl⟩
    · intro p hp
      rw [npu_load_nil, List.getD_eq_getElem?_getD, List.getElem?_replicate]
      split <;> rfl
  · intro name hname
    apply lookup_none_of_not_mem
    rw [List.append_nil, List.map_map]
    have : (Prod.fst ∘ fun nc : String × InstanceConfig =>
        (nc.1, List.replicate nc.2.device_size.toNat (0 : Int))) = Prod.fst := by
      funext x
      rfl
    rw [this, List.map_reverse]
    simpa using hname

theorem lookup_cons_self {β : Type} (k : String) (v : β) (m : List (String × β)) :
    List.lookup k ((k, v) :: m) = some v := by
  rw [List.lookup_cons]
  simp

theorem lookup_cons_ne {β : Type} (k k' : String) (v : β) (m : List (String × β))
    (h : k ≠ k') : List.lookup k ((k', v) :: m) = List.lookup k m := by
  rw [List.lookup_cons]
  have hb : (k == k') = false := by simpa using h
  rw [hb]

theorem loadsInv_skip (cfgs : InstanceConfigs) (done : List Step) (s : Step)
    (m : List (String × List Int)) (hinv : LoadsInv cfgs done m)
    (hl : m.lookup s.src.inst = none) : LoadsInv cfgs (done ++ [s]) m := by
  refine ⟨?_, hinv.2⟩
  intro nc hnc
  obtain ⟨v, hv, hlen, hget⟩ := hinv.1 nc hnc
  refine ⟨v, hv, hlen, ?_⟩
  intro p hp
  rw [npu_load_snoc, hget p hp]
  have hne : s.src ≠ ⟨nc.1, p⟩ := by
    intro heq
    have : s.src.inst = nc.1 := by rw [heq]
    rw [this, hv] at hl
    exact Option.noConfusion hl
  rw [if_neg hne, add_zero]

theorem npu_load_le_append (done rest : List Step) (name : String) (p : Int) :
    npu_load done name p ≤ npu_load (done ++ rest) name p := by
  unfold npu_load
  rw [List.countP_append]
  push_cast
  have : (0 : Int) ≤ (rest.countP (fun s => decide (s.src = ⟨name, p⟩)) : Nat) :=
    Int.natCast_nonneg _
  omega

theorem loadsInv_incr (cfgs : InstanceConfigs) (done : List Step) (s : Step)
    (m : List (String × List Int)) (v : List Int) (hinv : LoadsInv cfgs done m)
    (hl : m.lookup s.src.inst = some v) (h0 : 0 ≤ s.src.local_npu)
    (h1 : s.src.local_npu < v.length)
    (hfit : npu_load (done ++ [s]) s.src.inst s.src.local_npu < 2147483648) :
    LoadsInv cfgs (done ++ [s])
      ((s.src.inst,
        v.set s.src.local_npu.toNat (wrap32 (v.getD s.src.local_npu.toNat 0 + 1))) :: m) := by
  have hkey : s.src.inst ∈ cfgs.map Prod.fst := by
    by_contra hnot
    rw [hinv.2 _ hnot] at hl
    exact Option.noConfusion hl
  have hwrap : wrap32 (v.getD s.src.local_npu.toNat 0 + 1) =
      v.getD s.src.local_npu.toNat 0 + 1 := by
    obtain ⟨nc, hnc, hname⟩ := List.mem_map.mp hkey
    obtain ⟨w, hw, _, hget⟩ := hinv.1 nc hnc
    have hwv : w = v := by
      rw [hname, hl] at hw
      exact (Option.some.inj hw).symm
    subst hwv
    have hp : s.src.local_npu.toNat < w.length := by omega
    have hcur := hget _ hp
    rw [Int.toNat_of_nonneg h0, hname] at hcur
    have hnn := npu_load_nonneg done s.src.inst s.src.local_npu
    have hsn := npu_load_snoc done s s.src.inst s.src.local_npu
    rw [if_pos rfl] at hsn
    apply wrap32_of_fits <;> omega
  rw [hwrap]
  constructor
  · intro nc hnc
    obtain ⟨w, hw, hlen, hget⟩ := hinv.1 nc hnc
    by_cases hname : nc.1 = s.src.inst
    · rw [hname] at hw
      have hwv : w = v := by
        rw [hw] at hl
        exact Option.some.inj hl
      subst hwv
      refine ⟨_, by rw [hname]; exact lookup_cons_self _ _ _, by rw [List.length_set]; exact hlen, ?_⟩
      intro p hp
      rw [List.length_set] at hp
      rw [npu_load_snoc, ← hget p hp, List.getD_eq_getElem?_getD, List.getElem?_set]
      by_cases hp' : s.src.local_npu.toNat = p
      · have hsrc : s.src = ⟨nc.1, (p : Int)⟩ := by
          have hlp : s.src.local_npu = (p : Int) := by
            rw [← hp']
            exact (Int.toNat_of_nonneg h0).symm
          rw [hname, ← hlp]
        rw [if_pos hp', if_pos hsrc, hp', if_pos hp]
        simp
      · have hsrc : s.src ≠ ⟨nc.1, (p : Int)⟩ := by
          intro heq
          apply hp'
          have : s.src.local_npu = (p : Int) := by rw [heq]
          rw [this]
          simp
        rw [if_neg hp', if_neg hsrc, List.getD_eq_getElem?_getD]
        simp
    · refine ⟨w, by rw [lookup_cons_ne _ _ _ _ hname]; exact hw, hlen, ?_⟩
      intro p hp
      rw [npu_load_snoc, hget p hp]
      have hsrc : s.src ≠ ⟨nc.1, (p : Int)⟩ := by
        intro heq
        apply hname
        rw [heq]
      rw [if_neg hsrc, add_zero]
  · intro name hname
    have hne : name ≠ s.src.inst := by
      intro heq
      rw [heq] at hname
      exact hname hkey
    rw [lookup_cons_ne _ _ _ _ hne]
    exact hinv.2 name hname

theorem loadsInv_count (cfgs : InstanceConfigs) :
    ∀ (plan done : List Step) (m : List (String × List Int)),
      LoadsInv cfgs done m → StepsInRange plan cfgs →
      (∀ s ∈ plan, npu_load (done ++ plan) s.src.inst s.src.local_npu < 2147483648) →
      ∃ m', count_steps plan m = some m' ∧ LoadsInv cfgs (done ++ plan) m'
  | [], done, m, hinv, _, _ => ⟨m, rfl, by rw [List.append_nil]; exact hinv⟩
  | s :: rest, done, m, hinv, hr, hfit => by
    have hrest : StepsInRange rest cfgs :=
      fun x hx => hr x (List.mem_cons_of_mem _ hx)
    have happ : done ++ s :: rest = (done ++ [s]) ++ rest := by simp
    have hfitrest : ∀ x ∈ rest,
        npu_load ((done ++ [s]) ++ rest) x.src.inst x.src.local_npu < 2147483648 := by
      intro x hx
      rw [← happ]
      exact hfit x (List.mem_cons_of_mem _ hx)
    have hfits : npu_load (done ++ [s]) s.src.inst s.src.local_npu < 2147483648 := by
      have h1 := npu_load_le_append (done ++ [s]) rest s.src.inst s.src.local_npu
      have h2 := hfit s (List.mem_cons_self _ _)
      rw [happ] at h2
      omega
    rw [happ]
    cases hl : m.lookup s.src.inst with
    | none =>
      have := loadsInv_count cfgs rest (done ++ [s]) m (loadsInv_skip cfgs done s m hinv hl) hrest
        hfitrest
      simpa [count_steps, hl] using this
    | some v =>
      have hkey : s.src.inst ∈ cfgs.map Prod.fst := by
        by_contra hnot
        rw [hinv.2 _ hnot] at hl
        exact Option.noConfusion hl
      obtain ⟨nc, hnc, hname⟩ := List.mem_map.mp hkey
      obtain ⟨w, hw, hlen, _⟩ := hinv.1 nc hnc
      have hwv : w = v := by
        rw [hname, hl] at hw
        exact (Option.some.inj hw).symm
      subst hwv
      have hrange := hr s (List.mem_cons_self _ _) nc hnc hname
      have h1 : s.src.local_npu < (w.length : Int) := by
        rw [hlen, Int.toNat_of_nonneg (le_trans hrange.1 (le_of_lt hrange.2))]
        exact hrange.2
      have := loadsInv_count cfgs rest (done ++ [s]) _
        (loadsInv_incr cfgs done s m w hinv hl hrange.1 h1 hfits) hrest hfitrest
      simpa [count_steps, hl, hrange.1, h1] using this

/-- The load vectors `optimize_non_expert` works with, for a plan whose steps are
in range and put fewer than `2^31` steps on any one NPU, and configs without a
negative `device_size`. -/
theorem loads_ready (plan : List Step) (cfgs : InstanceConfigs)
    (hnd : (cfgs.map Prod.fst).Nodup) (hnn : ∀ nc ∈ cfgs, 0 ≤ nc.2.device_size)
    (hr : StepsInRange plan cfgs) (hfit : CountsFit plan) :
    ∃ m, optimize_non_expert plan cfgs =
        some (build_result (cfgs.foldl (scan_instance m) best_init)) ∧
      LoadsInv cfgs plan m := by
  obtain ⟨m0, h0, hinv0⟩ := loadsInv_alloc cfgs hnd hnn
  obtain ⟨m, hm, hinv⟩ := loadsInv_count cfgs plan [] m0 hinv0 hr hfit
  refine ⟨m, ?_, by simpa using hinv⟩
  simp [optimize_non_expert, h0, hm, best_init]

/-! ## Non-expert planner: candidate enumeration and selection -/

theorem scan_groups_eq (m : List (String × List Int)) (b : Best) (nc : String × InstanceConfig) :
    scan_groups nc.1 nc.2 ((m.lookup nc.1).getD []) b =
      ((List.range nc.2.dp_size.toNat).map (fun g => (nc.1, nc.2, g))).foldl (consider m) b := by
  rw [List.foldl_map]
  rfl

theorem scan_eq_candidates (m : List (String × List Int)) :
    ∀ (cfgs : InstanceConfigs) (b : Best),
      cfgs.foldl (scan_instance m) b = (candidates cfgs).foldl (consider m) b
  | [], _ => rfl
  | nc :: rest, b => by
    rw [List.foldl_cons, candidates, List.flatMap_cons, List.foldl_append]
    rw [scan_eq_candidates m rest]
    congr 1
    unfold scan_instance
    by_cases h1 : nc.2.device_size ≤ 0 ∨ nc.2.dp_size ≤ 0
    · simp [h1]
    · by_cases h2 : Int.tmod nc.2.device_size nc.2.dp_size ≠ 0
      · simp [h1, h2]
      · rw [if_neg h1, if_neg h2, if_neg h1, if_neg h2]
        exact scan_groups_eq m b nc

theorem mem_candidates (cfgs : InstanceConfigs) (x : String × InstanceConfig × Nat) :
    x ∈ candidates cfgs ↔
      (x.1, x.2.1) ∈ cfgs ∧ x.2.1.valid ∧ (x.2.2 : Int) < x.2.1.dp_size := by
  obtain ⟨name, c, g⟩ := x
  unfold candidates InstanceConfig.valid
  simp only [List.mem_flatMap]
  constructor
  · rintro ⟨nc, hnc, hx⟩
    by_cases h1 : nc.2.device_size ≤ 0 ∨ nc.2.dp_size ≤ 0
    · simp [h1] at hx
    · by_cases h2 : Int.tmod nc.2.device_size nc.2.dp_size ≠ 0
      · simp [h1, h2] at hx
      · rw [if_neg h1, if_neg h2] at hx
        obtain ⟨g', hg', heq⟩ := List.mem_map.mp hx
        simp only [Prod.mk.injEq] at heq
        obtain ⟨hn, hc, hg⟩ := heq
        subst hg
        have hnc' : nc = (name, c) := by
          rw [← hn, ← hc]
        subst hnc'
        simp only [not_or, not_le] at h1
        simp only [ne_eq, not_not] at h2
        rw [Int.tmod_eq_emod (le_of_lt h1.1) (le_of_lt h1.2)] at h2
        refine ⟨hnc, ⟨h1.1, h1.2, h2⟩, ?_⟩
        have := List.mem_range.mp hg'
        show (g' : Int) < c.dp_size
        have h3 : 0 < c.dp_size := h1.2
        dsimp only at this
        omega
  · rintro ⟨hmem, ⟨hd, hp, hmod⟩, hg⟩
    refine ⟨(name, c), hmem, ?_⟩
    have h1 : ¬ (c.device_size ≤ 0 ∨ c.dp_size ≤ 0) := by
      simp only [not_or, not_le]
      exact ⟨hd, hp⟩
    have h2 : ¬ (Int.tmod c.device_size c.dp_size ≠ 0) := by
      rw [Int.tmod_eq_emod (le_of_lt hd) (le_of_lt hp)]
      simpa using hmod
    have hg' : (g : Int) < c.dp_size := hg
    rw [if_neg h1, if_neg h2]
    refine List.mem_map.mpr ⟨g, List.mem_range.mpr ?_, rfl⟩
    dsimp only
    omega

theorem selectInv_step (m : List (String × List Int)) (b : Best)
    (seen : List (String × InstanceConfig × Nat)) (x : String × InstanceConfig × Nat)
    (h : SelectInv m b seen) : SelectInv m (consider m b x) (seen ++ [x]) := by
  unfold consider
  rcases h with ⟨hb, hall⟩ | ⟨pre, x0, post, hseen, hb, hlt, hpre, hpost⟩
  · subst hb
    by_cases hc : cand_cost m x < best_init.min_max_load
    · rw [if_pos hc]
      right
      refine ⟨seen, x, [], rfl, rfl, hc, ?_, by simp⟩
      intro y hy
      exact lt_of_lt_of_le hc (hall y hy)
    · rw [if_neg hc]
      left
      refine ⟨rfl, ?_⟩
      intro y hy
      rcases List.mem_append.mp hy with hy | hy
      · exact hall y hy
      · rw [List.mem_singleton.mp hy]
        exact not_lt.mp hc
  · subst hb
    by_cases hc : cand_cost m x < (cand_best m x0).min_max_load
    · rw [if_pos hc]
      have hc' : cand_cost m x < cand_cost m x0 := hc
      right
      refine ⟨seen, x, [], rfl, rfl, lt_trans hc' hlt, ?_, by simp⟩
      intro y hy
      rw [hseen] at hy
      rcases List.mem_append.mp hy with hy | hy
      · exact lt_trans hc' (hpre y hy)
      · rcases List.mem_cons.mp hy with hy | hy
        · rw [hy]
          exact hc'
        · exact lt_of_lt_of_le hc' (hpost y hy)
    · rw [if_neg hc]
      have hc' : cand_cost m x0 ≤ cand_cost m x := not_lt.mp hc
      right
      refine ⟨pre, x0, post ++ [x], by rw [hseen]; simp, rfl, hlt, hpre, ?_⟩
      intro y hy
      rcases List.mem_append.mp hy with hy | hy
      · exact hpost y hy
      · rw [List.mem_singleton.mp hy]
        exact hc'

theorem selectInv_fold (m : List (String × List Int)) :
    ∀ (rest seen : List (String × InstanceConfig × Nat)) (b : Best),
      SelectInv m b seen → SelectInv m (rest.foldl (consider m) b) (seen ++ rest)
  | [], seen, b, h => by simpa using h
  | x :: rest, seen, b, h => by
    have := selectInv_fold m rest (seen ++ [x]) (consider m b x) (selectInv_step m b seen x h)
    simpa using this

/-- The selection variables after the whole enumeration. -/
theorem selectInv_scan (m : List (String × List Int)) (cfgs : InstanceConfigs) :
    SelectInv m (cfgs.foldl (scan_instance m) best_init) (candidates cfgs) := by
  rw [scan_eq_candidates]
  have := selectInv_fold m (candidates cfgs) [] best_init (Or.inl ⟨rfl, by simp⟩)
  simpa using this

theorem group_slot_lt (ds dp g i : Int) (hmod : ds % dp = 0) (hq : 0 ≤ ds / dp)
    (hg : g < dp) (hi : i < ds / dp) : g * (ds / dp) + i < ds := by
  have hds : dp * (ds / dp) = ds := Int.mul_ediv_cancel' (Int.dvd_of_emod_eq_zero hmod)
  have h1 : (g + 1) * (ds / dp) ≤ dp * (ds / dp) :=
    Int.mul_le_mul_of_nonneg_right (by omega) hq
  have h2 : (g + 1) * (ds / dp) = g * (ds / dp) + ds / dp := by ring
  omega

/-- On the load vectors of a plan, the value the code computes for a candidate
is the internal peak load of that group. -/
theorem cand_cost_eq_peak (cfgs : InstanceConfigs) (plan : List Step)
    (m : List (String × List Int)) (hinv : LoadsInv cfgs plan m)
    (x : String × InstanceConfig × Nat) (hx : x ∈ candidates cfgs) :
    cand_cost m x = group_peak plan x.1 x.2.1 x.2.2 := by
  obtain ⟨name, c, g⟩ := x
  obtain ⟨hmem, ⟨hd, hp, hmod⟩, hg⟩ := (mem_candidates cfgs _).mp hx
  dsimp only at hmem hd hp hmod hg
  obtain ⟨v, hv, hlen, hget⟩ := hinv.1 (name, c) hmem
  dsimp only at hv hlen hget
  unfold cand_cost group_peak group_max_load
  dsimp only
  rw [hv, Option.getD_some, Int.tdiv_eq_ediv (le_of_lt hd) (le_of_lt hp)]
  have hvlen : (v.length : Int) = c.device_size := by
    rw [hlen]
    exact Int.toNat_of_nonneg (le_of_lt hd)
  rw [← List.foldl_eq_foldr, List.foldl_map]
  apply List.foldl_ext
  intro cur i hi
  have hi' : (i : Int) < c.device_size / c.dp_size := by
    have := List.mem_range.mp hi
    omega
  have hq0 : 0 ≤ c.device_size / c.dp_size := Int.ediv_nonneg (le_of_lt hd) (le_of_lt hp)
  have hlt : (g : Int) * (c.device_size / c.dp_size) + i < c.device_size :=
    group_slot_lt _ _ _ _ hmod hq0 hg hi'
  have h0 : 0 ≤ (g : Int) * (c.device_size / c.dp_size) + i :=
    add_nonneg (mul_nonneg (Int.natCast_nonneg g) hq0) (Int.natCast_nonneg i)
  rw [if_pos (by rw [hvlen]; exact hlt)]
  rw [hget _ (by
    have : ((g : Int) * (c.device_size / c.dp_size) + i).toNat < c.device_size.toNat := by
      omega
    rw [hlen]
    exact this)]
  rw [Int.toNat_of_nonneg h0]

end xllm_service


namespace xllm_service

/-! ## Non-expert planner: outcome of a call -/

theorem build_result_init : build_result best_init = sentinel := by
  simp [build_result, best_init, sentinel]

theorem build_result_cand (m : List (String × List Int)) (x : String × InstanceConfig × Nat) :
    build_result (cand_best m x) =
      ⟨x.1, x.2.2, (x.2.2 : Int) * Int.tdiv x.2.1.device_size x.2.1.dp_size, x.2.1.dp_size⟩ := by
  have h : ((x.2.2 : Nat) : Int) ≠ -1 := by omega
  simp [build_result, cand_best, h]

/-- Whenever the call returns, the result is built from the selection variables
left by the enumeration of the candidates. -/
theorem non_expert_returns (plan : List Step) (cfgs : InstanceConfigs) (r : NonExpertStep)
    (h : optimize_non_expert plan cfgs = some r) :
    ∃ m, r = build_result (cfgs.foldl (scan_instance m) best_init) := by
  unfold optimize_non_expert at h
  cases h0 : alloc_loads cfgs [] with
  | none => simp [h0] at h
  | some m0 =>
    cases h1 : count_steps plan m0 with
    | none => simp [h0, h1] at h
    | some m =>
      refine ⟨m, ?_⟩
      simp only [h0, h1, Option.some.injEq] at h
      rw [← h]
      rfl

/-- Outcome of `optimize_non_expert` on a plan with in-range steps, fewer than
`2^31` of them on any one NPU, and configs without a negative `device_size`: the
first candidate of least internal peak when some candidate has a peak below
`10^9`, the sentinel otherwise. -/
theorem non_expert_outcome (plan : List Step) (cfgs : InstanceConfigs)
    (hnd : (cfgs.map Prod.fst).Nodup) (hnn : ∀ nc ∈ cfgs, 0 ≤ nc.2.device_size)
    (hr : StepsInRange plan cfgs) (hfit : CountsFit plan) :
    (optimize_non_expert plan cfgs = some sentinel ∧
      ∀ x ∈ candidates cfgs, (1000000000 : Int) ≤ group_peak plan x.1 x.2.1 x.2.2) ∨
    (∃ pre x post, candidates cfgs = pre ++ x :: post ∧
      optimize_non_expert plan cfgs =
        some ⟨x.1, x.2.2, (x.2.2 : Int) * (x.2.1.device_size / x.2.1.dp_size), x.2.1.dp_size⟩ ∧
      group_peak plan x.1 x.2.1 x.2.2 < 1000000000 ∧
      (∀ y ∈ pre, group_peak plan x.1 x.2.1 x.2.2 < group_peak plan y.1 y.2.1 y.2.2) ∧
      (∀ y ∈ post, group_peak plan x.1 x.2.1 x.2.2 ≤ group_peak plan y.1 y.2.1 y.2.2)) := by
  obtain ⟨m, hres, hinv⟩ := loads_ready plan cfgs hnd hnn hr hfit
  have hcost := cand_cost_eq_peak cfgs plan m hinv
  rcases selectInv_scan m cfgs with ⟨hb, hall⟩ | ⟨pre, x, post, hseen, hb, hlt, hpre, hpost⟩
  · left
    refine ⟨by rw [hres, hb, build_result_init], ?_⟩
    intro x hx
    rw [← hcost x hx]
    exact hall x hx
  · right
    have hxmem : x ∈ candidates cfgs := by
      rw [hseen]
      simp
    have hxvalid := ((mem_candidates cfgs x).mp hxmem).2.1
    refine ⟨pre, x, post, hseen, ?_, ?_, ?_, ?_⟩
    · rw [hres, hb, build_result_cand,
        Int.tdiv_eq_ediv (le_of_lt hxvalid.1) (le_of_lt hxvalid.2.1)]
    · rw [← hcost x hxmem]
      exact hlt
    · intro y hy
      have hymem : y ∈ candidates cfgs := by
        rw [hseen]
        exact List.mem_append_left _ hy
      rw [← hcost x hxmem, ← hcost y hymem]
      exact hpre y hy
    · intro y hy
      have hymem : y ∈ candidates cfgs := by
        rw [hseen]
        exact List.mem_append_right _ (List.mem_cons_of_mem _ hy)
      rw [← hcost x hxmem, ← hcost y hymem]
      exact hpost y hy

theorem npu_load_replicate (n : Nat) (s : Step) :
    npu_load (List.replicate n s) s.src.inst s.src.local_npu = n := by
  unfold npu_load
  have : ∀ x ∈ List.replicate n s,
      (fun t : Step => decide (t.src = ⟨s.src.inst, s.src.local_npu⟩)) x = true := by
    intro x hx
    rw [List.eq_of_mem_replicate hx]
    simp
  rw [List.countP_eq_length.mpr this, List.length_replicate]

theorem group_peak_single (name : String) (e : Int) (n : Nat) :
    group_peak (List.replicate n ⟨⟨name, 0⟩, e⟩) name ⟨1, 1⟩ ((0 : Nat) : Int) = n := by
  have hl := npu_load_replicate n ⟨⟨name, 0⟩, e⟩
  dsimp only at hl
  unfold group_peak
  simp [List.range_succ, hl]

theorem countsFit_replicate (n : Nat) (s : Step) (hn : n < 2147483648) :
    CountsFit (List.replicate n s) := by
  intro x hx
  rw [List.eq_of_mem_replicate hx, npu_load_replicate]
  exact_mod_cast hn

/-- A plan that puts `n` steps, `10^9 <= n < 2^31`, on the only NPU of the only
instance makes the selection keep its initial state. -/
theorem saturated_single_npu (name : String) (e : Int) (n : Nat) (hn : 1000000000 ≤ n)
    (hn2 : n < 2147483648) :
    optimize_non_expert (List.replicate n ⟨⟨name, 0⟩, e⟩) [(name, ⟨1, 1⟩)] = some sentinel := by
  have hnd : (([(name, ⟨1, 1⟩)] : InstanceConfigs).map Prod.fst).Nodup := by simp
  have hnn : ∀ nc ∈ ([(name, ⟨1, 1⟩)] : InstanceConfigs), 0 ≤ nc.2.device_size := by
    intro nc hnc
    rw [List.mem_singleton.mp hnc]
    show (0 : Int) ≤ 1
    decide
  have hr : StepsInRange (List.replicate n ⟨⟨name, 0⟩, e⟩) [(name, ⟨1, 1⟩)] := by
    intro s hs nc hnc _
    rw [List.eq_of_mem_replicate hs, List.mem_singleton.mp hnc]
    show (0 : Int) ≤ 0 ∧ (0 : Int) < 1
    decide
  rcases non_expert_outcome _ _ hnd hnn hr (countsFit_replicate n _ hn2) with h | ⟨pre, x, post, hseen, _, hlt, _, _⟩
  · exact h.1
  · exfalso
    have hx : x ∈ candidates [(name, ⟨1, 1⟩)] := by
      rw [hseen]
      simp
    obtain ⟨hmem, _, hg⟩ := (mem_candidates _ x).mp hx
    obtain ⟨xn, xc, xg⟩ := x
    dsimp only at hmem hg hlt
    have hxe := List.mem_singleton.mp hmem
    simp only [Prod.mk.injEq] at hxe
    obtain ⟨h1, h2⟩ := hxe
    subst h1 h2
    have hg0 : xg = 0 := by
      have : (xg : Int) < 1 := hg
      omega
    subst hg0
    rw [group_peak_single] at hlt
    omega

end xllm_service


namespace xllm_service

/-! ## Adjacency lists: reading after a write -/

theorem getD_modify_graph (g : List (List Edge)) (f : List Edge → List Edge) (v w : Nat)
    (hf : f [] = []) :
    (g.modify f v).getD w [] = if w = v then f (g.getD v []) else g.getD w [] := by
  rw [List.getD_eq_getElem?_getD, List.getElem?_modify]
  by_cases hwv : w = v
  · subst hwv
    rw [if_pos rfl, List.getD_eq_getElem?_getD]
    cases h : g[w]? with
    | none => simp [hf]
    | some a => simp
  · rw [if_neg hwv, List.getD_eq_getElem?_getD]
    have hvw : ¬ v = w := fun h => hwv h.symm
    cases h : g[w]? with
    | none => simp
    | some a => simp [hvw]

theorem length_push_edge (g : List (List Edge)) (u : Nat) (e : Edge) :
    (push_edge g u e).length = g.length := by
  unfold push_edge
  exact List.length_modify _ _ _

theorem length_add_cap (g : List (List Edge)) (v i : Nat) (d : Int) :
    (add_cap g v i d).length = g.length := by
  unfold add_cap
  exact List.length_modify _ _ _

theorem getD_push_edge (g : List (List Edge)) (u : Nat) (e : Edge) (w : Nat)
    (hu : u < g.length) :
    (push_edge g u e).getD w [] = if w = u then g.getD u [] ++ [e] else g.getD w [] := by
  unfold push_edge
  rw [List.getD_eq_getElem?_getD, List.getElem?_modify]
  by_cases hwu : w = u
  · subst hwu
    rw [if_pos rfl, List.getD_eq_getElem?_getD, List.getElem?_eq_getElem hu]
    simp
  · rw [if_neg hwu, List.getD_eq_getElem?_getD]
    have huw : ¬ u = w := fun h => hwu h.symm
    cases h : g[w]? with
    | none => simp
    | some a => simp [huw]

theorem getD_add_cap (g : List (List Edge)) (v i : Nat) (d : Int) (w : Nat) :
    (add_cap g v i d).getD w [] =
      if w = v then (g.getD v []).modify (fun e => { e with cap := e.cap + d }) i
      else g.getD w [] := by
  unfold add_cap
  exact getD_modify_graph g _ v w (List.modify_nil _ _)

theorem graph_ext (g1 g2 : List (List Edge)) (hlen : g1.length = g2.length)
    (h : ∀ w, w < g1.length → g1.getD w [] = g2.getD w []) : g1 = g2 := by
  apply List.ext_getElem?
  intro w
  by_cases hw : w < g1.length
  · have h1 := h w hw
    rw [List.getD_eq_getElem?_getD, List.getD_eq_getElem?_getD,
      List.getElem?_eq_getElem hw, List.getElem?_eq_getElem (hlen ▸ hw)] at h1
    rw [List.getElem?_eq_getElem hw, List.getElem?_eq_getElem (hlen ▸ hw)]
    simpa using h1
  · rw [List.getElem?_eq_none (not_lt.mp hw), List.getElem?_eq_none (hlen ▸ not_lt.mp hw)]

theorem getD_of_length_le (g : List (List Edge)) (w : Nat) (h : g.length ≤ w) :
    g.getD w [] = [] :=
  List.getD_eq_default g [] h

theorem lt_length_of_getElem? (g : List (List Edge)) (v i : Nat) (e : Edge)
    (h : (g.getD v [])[i]? = some e) : v < g.length := by
  by_contra hv
  rw [getD_of_length_le g v (not_lt.mp hv)] at h
  simp at h

/-! ## The residual graph of a flow -/

theorem length_add_residual (g : List (List Edge)) (a : FlowEdge) :
    (add_residual g a).length = g.length := by
  unfold add_residual
  rw [length_push_edge, length_push_edge]

theorem length_residual (n : Nat) (fs : List FlowEdge) : (residual n fs).length = n := by
  unfold residual
  induction fs using List.reverseRecOn with
  | nil => simp
  | append_singleton fs a ih => rw [List.foldl_append, List.foldl_cons, List.foldl_nil,
      length_add_residual, ih]

theorem residual_snoc (n : Nat) (fs : List FlowEdge) (a : FlowEdge) :
    residual n (fs ++ [a]) = add_residual (residual n fs) a := by
  unfold residual
  rw [List.foldl_append, List.foldl_cons, List.foldl_nil]

theorem getD_add_residual (g : List (List Edge)) (a : FlowEdge) (w : Nat)
    (hu : a.u < g.length) (hv : a.v < g.length) (huv : a.u ≠ a.v) :
    (add_residual g a).getD w [] =
      if w = a.u then g.getD a.u [] ++ [⟨a.v, (g.getD a.v []).length, a.c - a.x⟩]
      else if w = a.v then g.getD a.v [] ++ [⟨a.u, (g.getD a.u []).length, a.x⟩]
      else g.getD w [] := by
  unfold add_residual
  rw [getD_push_edge _ _ _ _ (by rw [length_push_edge]; exact hv), getD_push_edge _ _ _ _ hu,
    getD_push_edge _ _ _ _ hu]
  by_cases h1 : w = a.u
  · have h2 : ¬ w = a.v := fun h => huv (h1.symm.trans h)
    rw [if_neg h2, if_pos h1, if_pos h1]
  · rw [if_neg h1, if_neg h1]
    have h3 : ¬ a.v = a.u := fun h => huv h.symm
    rw [if_neg h3]

theorem residual_nil_getD (n w : Nat) : (residual n []).getD w [] = [] := by
  unfold residual
  rw [List.foldl_nil, List.getD_eq_getElem?_getD, List.getElem?_replicate]
  split <;> rfl

theorem getElem?_snoc_cases (l : List Edge) (b e : Edge) (i : Nat)
    (h : (l ++ [b])[i]? = some e) : l[i]? = some e ∨ (i = l.length ∧ e = b) := by
  rw [List.getElem?_append] at h
  by_cases hi : i < l.length
  · rw [if_pos hi] at h
    exact Or.inl h
  · rw [if_neg hi] at h
    right
    have hlt : i - l.length < 1 := by
      by_contra hge
      rw [List.getElem?_eq_none (by rw [List.length_singleton]; omega)] at h
      exact Option.noConfusion h
    have hi0 : i - l.length = 0 := by omega
    rw [hi0] at h
    refine ⟨by omega, ?_⟩
    simpa using h.symm

theorem getElem?_snoc_old (l : List Edge) (b e : Edge) (i : Nat) (h : l[i]? = some e) :
    (l ++ [b])[i]? = some e := by
  have hi : i < l.length := by
    by_contra hge
    rw [List.getElem?_eq_none (not_lt.mp hge)] at h
    exact Option.noConfusion h
  rw [List.getElem?_append, if_pos hi]
  exact h

theorem getElem?_snoc_last (l : List Edge) (b : Edge) : (l ++ [b])[l.length]? = some b := by
  rw [List.getElem?_append, if_neg (lt_irrefl _)]
  simp

theorem getElem?_add_residual_old (g : List (List Edge)) (a : FlowEdge) (v i : Nat) (e : Edge)
    (hu : a.u < g.length) (hv : a.v < g.length) (huv : a.u ≠ a.v)
    (h : (g.getD v [])[i]? = some e) : ((add_residual g a).getD v [])[i]? = some e := by
  rw [getD_add_residual g a v hu hv huv]
  by_cases h1 : v = a.u
  · rw [if_pos h1]
    rw [h1] at h
    exact getElem?_snoc_old _ _ _ _ h
  · rw [if_neg h1]
    by_cases h2 : v = a.v
    · rw [if_pos h2]
      rw [h2] at h
      exact getElem?_snoc_old _ _ _ _ h
    · rw [if_neg h2]
      exact h

theorem getElem?_add_residual_cases (g : List (List Edge)) (a : FlowEdge) (v i : Nat) (e : Edge)
    (hu : a.u < g.length) (hv : a.v < g.length) (huv : a.u ≠ a.v)
    (h : ((add_residual g a).getD v [])[i]? = some e) :
    (g.getD v [])[i]? = some e ∨
    (v = a.u ∧ i = (g.getD a.u []).length ∧ e = ⟨a.v, (g.getD a.v []).length, a.c - a.x⟩) ∨
    (v = a.v ∧ i = (g.getD a.v []).length ∧ e = ⟨a.u, (g.getD a.u []).length, a.x⟩) := by
  rw [getD_add_residual g a v hu hv huv] at h
  by_cases h1 : v = a.u
  · rw [if_pos h1] at h
    rcases getElem?_snoc_cases _ _ _ _ h with h' | ⟨hi, he⟩
    · left
      rw [h1]
      exact h'
    · right
      left
      exact ⟨h1, hi, he⟩
  · rw [if_neg h1] at h
    by_cases h2 : v = a.v
    · rw [if_pos h2] at h
      rcases getElem?_snoc_cases _ _ _ _ h with h' | ⟨hi, he⟩
      · left
        rw [h2]
        exact h'
      · right
        right
        exact ⟨h2, hi, he⟩
    · rw [if_neg h2] at h
      exact Or.inl h

theorem getElem?_add_residual_fwd (g : List (List Edge)) (a : FlowEdge)
    (hu : a.u < g.length) (hv : a.v < g.length) (huv : a.u ≠ a.v) :
    ((add_residual g a).getD a.u [])[(g.getD a.u []).length]? =
      some ⟨a.v, (g.getD a.v []).length, a.c - a.x⟩ := by
  rw [getD_add_residual g a a.u hu hv huv, if_pos rfl]
  exact getElem?_snoc_last _ _

theorem getElem?_add_residual_rev (g : List (List Edge)) (a : FlowEdge)
    (hu : a.u < g.length) (hv : a.v < g.length) (huv : a.u ≠ a.v) :
    ((add_residual g a).getD a.v [])[(g.getD a.v []).length]? =
      some ⟨a.u, (g.getD a.u []).length, a.x⟩ := by
  have h3 : ¬ a.v = a.u := fun h => huv h.symm
  rw [getD_add_residual g a a.v hu hv huv, if_neg h3, if_pos rfl]
  exact getElem?_snoc_last _ _

theorem paired_add_residual (g : List (List Edge)) (a : FlowEdge)
    (hu : a.u < g.length) (hv : a.v < g.length) (huv : a.u ≠ a.v) (hp : Paired g) :
    Paired (add_residual g a) := by
  intro v i e h
  rw [length_add_residual]
  rcases getElem?_add_residual_cases g a v i e hu hv huv h with h' | ⟨h1, hi, he⟩ | ⟨h1, hi, he⟩
  · obtain ⟨hne, hlt, e2, he2, hto, hrev⟩ := hp v i e h'
    exact ⟨hne, hlt, e2, getElem?_add_residual_old g a _ _ _ hu hv huv he2, hto, hrev⟩
  · subst he
    refine ⟨by rw [h1]; exact fun h => huv h.symm, hv,
      ⟨a.u, (g.getD a.u []).length, a.x⟩, ?_, h1.symm, hi.symm⟩
    exact getElem?_add_residual_rev g a hu hv huv
  · subst he
    refine ⟨by rw [h1]; exact huv, hu,
      ⟨a.v, (g.getD a.v []).length, a.c - a.x⟩, ?_, h1.symm, hi.symm⟩
    exact getElem?_add_residual_fwd g a hu hv huv

/-- The arcs of a flow are admissible for `n` nodes. -/
theorem arcs_of_wellFormed (n : Nat) (fs : List FlowEdge)
    (h : WellFormedArcs n (fs.map FlowEdge.arc)) :
    ∀ e ∈ fs, e.u < n ∧ e.v < n ∧ e.u ≠ e.v ∧ 0 ≤ e.c := by
  intro e he
  exact h e.arc (List.mem_map_of_mem _ he)

theorem wellFormed_of_append (n : Nat) (fs : List FlowEdge) (a : FlowEdge)
    (h : WellFormedArcs n ((fs ++ [a]).map FlowEdge.arc)) :
    WellFormedArcs n (fs.map FlowEdge.arc) ∧ a.u < n ∧ a.v < n ∧ a.u ≠ a.v ∧ 0 ≤ a.c := by
  constructor
  · intro e he
    apply h
    rw [List.map_append]
    exact List.mem_append_left _ he
  · exact arcs_of_wellFormed n _ h a (by simp)

theorem paired_residual (n : Nat) (fs : List FlowEdge)
    (h : WellFormedArcs n (fs.map FlowEdge.arc)) : Paired (residual n fs) := by
  induction fs using List.reverseRecOn with
  | nil =>
    intro v i e he
    rw [residual_nil_getD] at he
    simp at he
  | append_singleton fs a ih =>
    obtain ⟨hfs, hu, hv, huv, _⟩ := wellFormed_of_append n fs a h
    rw [residual_snoc]
    exact paired_add_residual _ a (by rw [length_residual]; exact hu)
      (by rw [length_residual]; exact hv) huv (ih hfs)

/-! ## `add_edge` builds the residual graph of the zero flow -/

/-- `add_edge` adds an arc that carries no flow. -/
theorem add_edge_g (mf : MaxFlow) (u v : Nat) (c : Int) :
    (mf.add_edge u v c).g = add_residual mf.g ⟨u, v, c, 0⟩ := by
  unfold MaxFlow.add_edge add_residual
  simp

theorem add_edge_fields (mf : MaxFlow) (u v : Nat) (c : Int) :
    (mf.add_edge u v c).level = mf.level ∧ (mf.add_edge u v c).it = mf.it ∧
    (mf.add_edge u v c).s = mf.s ∧ (mf.add_edge u v c).t = mf.t :=
  ⟨rfl, rfl, rfl, rfl⟩

theorem foldl_add_edge_g (es : List (Nat × Nat × Int)) (mf : MaxFlow) :
    (es.foldl (fun (m : MaxFlow) e => m.add_edge e.1 e.2.1 e.2.2) mf).g =
      (es.map (fun e => (⟨e.1, e.2.1, e.2.2, 0⟩ : FlowEdge))).foldl add_residual mf.g := by
  induction es generalizing mf with
  | nil => rfl
  | cons e es ih =>
    rw [List.foldl_cons, ih, List.map_cons, List.foldl_cons, add_edge_g]

theorem foldl_add_edge_fields (es : List (Nat × Nat × Int)) (mf : MaxFlow) :
    (es.foldl (fun (m : MaxFlow) e => m.add_edge e.1 e.2.1 e.2.2) mf).level = mf.level ∧
    (es.foldl (fun (m : MaxFlow) e => m.add_edge e.1 e.2.1 e.2.2) mf).it = mf.it ∧
    (es.foldl (fun (m : MaxFlow) e => m.add_edge e.1 e.2.1 e.2.2) mf).s = mf.s ∧
    (es.foldl (fun (m : MaxFlow) e => m.add_edge e.1 e.2.1 e.2.2) mf).t = mf.t := by
  induction es generalizing mf with
  | nil => exact ⟨rfl, rfl, rfl, rfl⟩
  | cons e es ih =>
    rw [List.foldl_cons]
    obtain ⟨h1, h2, h3, h4⟩ := ih (mf.add_edge e.1 e.2.1 e.2.2)
    exact ⟨h1, h2, h3, h4⟩

/-- The graph built by `init` and `add_edge` calls is the residual graph of the
zero flow on those arcs. -/
theorem build_g (n s t : Nat) (es : List (Nat × Nat × Int)) :
    (MaxFlow.build n s t es).g =
      residual n (es.map (fun e => (⟨e.1, e.2.1, e.2.2, 0⟩ : FlowEdge))) := by
  unfold MaxFlow.build residual
  rw [foldl_add_edge_g]
  rfl

theorem build_fields (n s t : Nat) (es : List (Nat × Nat × Int)) :
    (MaxFlow.build n s t es).level = List.replicate n 0 ∧
    (MaxFlow.build n s t es).it = List.replicate n 0 ∧
    (MaxFlow.build n s t es).s = s ∧ (MaxFlow.build n s t es).t = t := by
  unfold MaxFlow.build
  exact foldl_add_edge_fields es (MaxFlow.init n s t)

theorem zero_flow_arcs (es : List (Nat × Nat × Int)) :
    (es.map (fun e => (⟨e.1, e.2.1, e.2.2, 0⟩ : FlowEdge))).map FlowEdge.arc = es := by
  rw [List.map_map]
  have : (FlowEdge.arc ∘ fun e : Nat × Nat × Int => (⟨e.1, e.2.1, e.2.2, 0⟩ : FlowEdge)) = id := by
    funext e
    rfl
  rw [this, List.map_id]

/-! ## Pushing flow through a stored edge -/

theorem modify_snoc_lt (l : List Edge) (b : Edge) (F : Edge → Edge) (i : Nat)
    (hi : i < l.length) : (l ++ [b]).modify F i = l.modify F i ++ [b] := by
  apply List.ext_getElem?
  intro j
  rw [List.getElem?_modify, List.getElem?_append, List.getElem?_append, List.length_modify,
    List.getElem?_modify]
  by_cases hj : j < l.length
  · rw [if_pos hj, if_pos hj]
  · rw [if_neg hj, if_neg hj]
    have hij : ¬ i = j := by omega
    cases h : [b][j - l.length]? with
    | none => rfl
    | some a => simp [hij]

theorem modify_snoc_last (l : List Edge) (b : Edge) (F : Edge → Edge) :
    (l ++ [b]).modify F l.length = l ++ [F b] := by
  apply List.ext_getElem?
  intro j
  rw [List.getElem?_modify, List.getElem?_append, List.getElem?_append]
  by_cases hj : j < l.length
  · rw [if_pos hj, if_pos hj]
    have hij : ¬ l.length = j := by omega
    cases h : l[j]? with
    | none => rfl
    | some a => simp [hij]
  · rw [if_neg hj, if_neg hj]
    by_cases hj2 : j = l.length
    · subst hj2
      simp
    · have h1 : 1 ≤ j - l.length := by omega
      rw [List.getElem?_eq_none (by rw [List.length_singleton]; exact h1),
        List.getElem?_eq_none (by rw [List.length_singleton]; exact h1)]
      rfl

theorem length_getD_add_cap (g : List (List Edge)) (v i : Nat) (d : Int) (w : Nat) :
    ((add_cap g v i d).getD w []).length = (g.getD w []).length := by
  rw [getD_add_cap]
  by_cases h : w = v
  · rw [if_pos h, List.length_modify, h]
  · rw [if_neg h]

/-- Changing the capacity of an edge that was there before an arc was added
commutes with adding the arc. -/
theorem add_cap_add_residual (g : List (List Edge)) (a : FlowEdge) (p i : Nat) (d : Int)
    (hu : a.u < g.length) (hv : a.v < g.length) (huv : a.u ≠ a.v)
    (hi : i < (g.getD p []).length) :
    add_cap (add_residual g a) p i d = add_residual (add_cap g p i d) a := by
  apply graph_ext
  · rw [length_add_cap, length_add_residual, length_add_residual, length_add_cap]
  · intro w _
    rw [getD_add_cap, getD_add_residual g a _ hu hv huv,
      getD_add_residual (add_cap g p i d) a w (by rw [length_add_cap]; exact hu)
        (by rw [length_add_cap]; exact hv) huv,
      getD_add_residual g a w hu hv huv,
      length_getD_add_cap, length_getD_add_cap, getD_add_cap, getD_add_cap, getD_add_cap]
    have h3 : ¬ a.v = a.u := fun h => huv h.symm
    by_cases hwp : w = p
    · subst hwp
      rw [if_pos rfl]
      by_cases h1 : w = a.u
      · subst h1
        rw [if_pos rfl, if_pos rfl, if_pos rfl]
        exact modify_snoc_lt _ _ _ _ hi
      · rw [if_neg h1, if_neg h1]
        by_cases h2 : w = a.v
        · subst h2
          rw [if_pos rfl, if_pos rfl, if_pos rfl]
          exact modify_snoc_lt _ _ _ _ hi
        · rw [if_neg h2, if_neg h2, if_pos rfl]
    · rw [if_neg hwp]
      by_cases h1 : w = a.u
      · subst h1
        rw [if_pos rfl, if_pos rfl, if_neg hwp]
      · rw [if_neg h1, if_neg h1]
        by_cases h2 : w = a.v
        · subst h2
          rw [if_pos rfl, if_pos rfl, if_neg hwp]
        · rw [if_neg h2, if_neg h2, if_neg hwp]

theorem add_cap_last_fwd (g : List (List Edge)) (a : FlowEdge) (d : Int)
    (hu : a.u < g.length) (hv : a.v < g.length) (huv : a.u ≠ a.v) :
    add_cap (add_cap (add_residual g a) a.u (g.getD a.u []).length (-d)) a.v
        (g.getD a.v []).length d =
      add_residual g { a with x := a.x + d } := by
  have h3 : ¬ a.v = a.u := fun h => huv h.symm
  have h4 : ¬ a.u = a.v := huv
  apply graph_ext
  · rw [length_add_cap, length_add_cap, length_add_residual, length_add_residual]
  · intro w _
    have hR := getD_add_residual g { a with x := a.x + d } w hu hv huv
    rw [hR]
    simp only [getD_add_cap, getD_add_residual g a _ hu hv huv]
    by_cases h1 : w = a.u
    · subst h1
      simp only [if_true, if_neg h4, modify_snoc_last]
      congr 3
      ring
    · by_cases h2 : w = a.v
      · subst h2
        simp only [if_true, if_neg h3, modify_snoc_last]
      · simp only [if_neg h1, if_neg h2]

theorem add_cap_last_rev (g : List (List Edge)) (a : FlowEdge) (d : Int)
    (hu : a.u < g.length) (hv : a.v < g.length) (huv : a.u ≠ a.v) :
    add_cap (add_cap (add_residual g a) a.v (g.getD a.v []).length (-d)) a.u
        (g.getD a.u []).length d =
      add_residual g { a with x := a.x - d } := by
  have h3 : ¬ a.v = a.u := fun h => huv h.symm
  have h4 : ¬ a.u = a.v := huv
  apply graph_ext
  · rw [length_add_cap, length_add_cap, length_add_residual, length_add_residual]
  · intro w _
    have hR := getD_add_residual g { a with x := a.x - d } w hu hv huv
    rw [hR]
    simp only [getD_add_cap, getD_add_residual g a _ hu hv huv]
    by_cases h1 : w = a.u
    · subst h1
      simp only [if_true, if_neg h4, modify_snoc_last]
      congr 3
      ring
    · by_cases h2 : w = a.v
      · subst h2
        simp only [if_true, if_neg h3, modify_snoc_last]
        congr 3
      · simp only [if_neg h1, if_neg h2]

theorem lt_length_of_getElem?_some (l : List Edge) (i : Nat) (e : Edge) (h : l[i]? = some e) :
    i < l.length := by
  by_contra hge
  rw [List.getElem?_eq_none (not_lt.mp hge)] at h
  exact Option.noConfusion h

/-- Pushing `d` units through the stored edge at position `(v, i)` of the
residual graph of a flow (take `d` from it, give `d` to its partner) yields the
residual graph of a flow on the same arcs. -/
theorem residual_push (n : Nat) (fs : List FlowEdge)
    (hwf : WellFormedArcs n (fs.map FlowEdge.arc)) (hfl : ∀ e ∈ fs, 0 ≤ e.x ∧ e.x ≤ e.c)
    (v i : Nat) (e : Edge) (d : Int) (h : ((residual n fs).getD v [])[i]? = some e)
    (hd0 : 0 ≤ d) (hd : d ≤ e.cap) :
    ∃ fs2 : List FlowEdge, fs2.map FlowEdge.arc = fs.map FlowEdge.arc ∧
      (∀ e ∈ fs2, 0 ≤ e.x ∧ e.x ≤ e.c) ∧
      add_cap (add_cap (residual n fs) v i (-d)) e.to_ e.rev d = residual n fs2 := by
  induction fs using List.reverseRecOn with
  | nil =>
    rw [residual_nil_getD] at h
    simp at h
  | append_singleton fs a ih =>
    obtain ⟨hfs, hu, hv, huv, _⟩ := wellFormed_of_append n fs a hwf
    have hflfs : ∀ e ∈ fs, 0 ≤ e.x ∧ e.x ≤ e.c :=
      fun e he => hfl e (List.mem_append_left _ he)
    have hfla := hfl a (by simp)
    have hlu : a.u < (residual n fs).length := by rw [length_residual]; exact hu
    have hlv : a.v < (residual n fs).length := by rw [length_residual]; exact hv
    rw [residual_snoc] at h
    rw [residual_snoc]
    rcases getElem?_add_residual_cases _ a v i e hlu hlv huv h with
      h1 | ⟨h1, hi, he⟩ | ⟨h1, hi, he⟩
    · obtain ⟨fs2, harc, hfl2, heq⟩ := ih hfs hflfs h1
      obtain ⟨_, _, e2, he2, _, _⟩ := paired_residual n fs hfs v i e h1
      refine ⟨fs2 ++ [a], by rw [List.map_append, List.map_append, harc], ?_, ?_⟩
      · intro x hx
        rcases List.mem_append.mp hx with hx | hx
        · exact hfl2 x hx
        · rw [List.mem_singleton.mp hx]
          exact hfla
      · rw [add_cap_add_residual _ a v i (-d) hlu hlv huv (lt_length_of_getElem?_some _ _ _ h1),
          add_cap_add_residual _ a e.to_ e.rev d (by rw [length_add_cap]; exact hlu)
            (by rw [length_add_cap]; exact hlv) huv
            (by rw [length_getD_add_cap]; exact lt_length_of_getElem?_some _ _ _ he2),
          heq, residual_snoc]
    · subst he
      subst h1
      subst hi
      refine ⟨fs ++ [{ a with x := a.x + d }], by simp [FlowEdge.arc], ?_, ?_⟩
      · intro x hx
        rcases List.mem_append.mp hx with hx | hx
        · exact hflfs x hx
        · rw [List.mem_singleton.mp hx]
          dsimp only at hd ⊢
          omega
      · rw [residual_snoc]
        exact add_cap_last_fwd _ a d hlu hlv huv
    · subst he
      subst h1
      subst hi
      refine ⟨fs ++ [{ a with x := a.x - d }], by simp [FlowEdge.arc], ?_, ?_⟩
      · intro x hx
        rcases List.mem_append.mp hx with hx | hx
        · exact hflfs x hx
        · rw [List.mem_singleton.mp hx]
          dsimp only at hd ⊢
          omega
      · rw [residual_snoc]
        exact add_cap_last_rev _ a d hlu hlv huv

/-! ## Sums of residual capacities -/

theorem sum_cap_modify (d : Int) :
    ∀ (l : List Edge) (i : Nat),
      ((l.modify (fun e => { e with cap := e.cap + d }) i).map Edge.cap).sum =
        (l.map Edge.cap).sum + (if i < l.length then d else 0)
  | [], i => by simp
  | a :: l, 0 => by
    have h0 : List.modify (fun e : Edge => { e with cap := e.cap + d }) 0 (a :: l) =
        { a with cap := a.cap + d } :: l := rfl
    rw [h0, List.map_cons, List.sum_cons, List.map_cons, List.sum_cons, List.length_cons,
      if_pos (Nat.zero_lt_succ _)]
    ring
  | a :: l, i + 1 => by
    have ih := sum_cap_modify d l i
    have h1 : List.modify (fun e : Edge => { e with cap := e.cap + d }) (i + 1) (a :: l) =
        a :: List.modify (fun e : Edge => { e with cap := e.cap + d }) i l := rfl
    rw [h1, List.map_cons, List.sum_cons, ih, List.map_cons, List.sum_cons, List.length_cons]
    by_cases hi : i < l.length
    · rw [if_pos hi, if_pos (by omega)]
      ring
    · rw [if_neg hi, if_neg (by omega)]
      ring

theorem cap_sum_add_cap (g : List (List Edge)) (v i : Nat) (d : Int) (w : Nat) :
    cap_sum (add_cap g v i d) w =
      cap_sum g w + (if w = v ∧ i < (g.getD v []).length then d else 0) := by
  unfold cap_sum
  rw [getD_add_cap]
  by_cases h : w = v
  · subst h
    rw [if_pos rfl, sum_cap_modify]
    simp
  · rw [if_neg h]
    simp [h]

theorem cap_sum_add_residual (g : List (List Edge)) (a : FlowEdge) (w : Nat)
    (hu : a.u < g.length) (hv : a.v < g.length) (huv : a.u ≠ a.v) :
    cap_sum (add_residual g a) w =
      cap_sum g w + (if a.u = w then a.c - a.x else 0) + (if a.v = w then a.x else 0) := by
  unfold cap_sum
  rw [getD_add_residual g a w hu hv huv]
  by_cases h1 : w = a.u
  · subst h1
    have h4 : ¬ a.v = a.u := fun h => huv h.symm
    rw [if_pos rfl, if_pos rfl, if_neg h4]
    simp
  · have h1' : ¬ a.u = w := fun h => h1 h.symm
    rw [if_neg h1, if_neg h1']
    by_cases h2 : w = a.v
    · subst h2
      rw [if_pos rfl, if_pos rfl]
      simp
    · have h2' : ¬ a.v = w := fun h => h2 h.symm
      rw [if_neg h2, if_neg h2']
      simp

theorem outflow_snoc (fs : List FlowEdge) (a : FlowEdge) (w : Nat) :
    outflow (fs ++ [a]) w = outflow fs w + (if a.u = w then a.x else 0) := by
  unfold outflow
  simp

theorem inflow_snoc (fs : List FlowEdge) (a : FlowEdge) (w : Nat) :
    inflow (fs ++ [a]) w = inflow fs w + (if a.v = w then a.x else 0) := by
  unfold inflow
  simp

theorem out_capacity_snoc (fs : List FlowEdge) (a : FlowEdge) (w : Nat) :
    out_capacity (fs ++ [a]) w = out_capacity fs w + (if a.u = w then a.c else 0) := by
  unfold out_capacity
  simp

/-- The residual capacities stored at `w` add up to the capacity leaving `w`,
minus the flow leaving it, plus the flow entering it. -/
theorem cap_sum_residual (n : Nat) (fs : List FlowEdge)
    (hwf : WellFormedArcs n (fs.map FlowEdge.arc)) (w : Nat) :
    cap_sum (residual n fs) w = out_capacity fs w - outflow fs w + inflow fs w := by
  induction fs using List.reverseRecOn with
  | nil =>
    unfold cap_sum out_capacity outflow inflow
    rw [residual_nil_getD]
    simp
  | append_singleton fs a ih =>
    obtain ⟨hfs, hu, hv, huv, _⟩ := wellFormed_of_append n fs a hwf
    rw [residual_snoc, cap_sum_add_residual _ a w (by rw [length_residual]; exact hu)
      (by rw [length_residual]; exact hv) huv, ih hfs, outflow_snoc, inflow_snoc,
      out_capacity_snoc]
    by_cases h1 : a.u = w
    · rw [if_pos h1, if_pos h1, if_pos h1]
      ring
    · rw [if_neg h1, if_neg h1, if_neg h1]
      ring

theorem out_capacity_arcs (fs : List FlowEdge) (w : Nat) :
    out_capacity fs w =
      ((fs.map FlowEdge.arc).map (fun a => if a.1 = w then a.2.2 else 0)).sum := by
  unfold out_capacity
  rw [List.map_map]
  rfl

theorem out_capacity_congr (fs fs2 : List FlowEdge) (w : Nat)
    (h : fs2.map FlowEdge.arc = fs.map FlowEdge.arc) :
    out_capacity fs2 w = out_capacity fs w := by
  rw [out_capacity_arcs, out_capacity_arcs, h]

/-! ## Which edges a residual graph stores -/

theorem mem_getD_add_residual (g : List (List Edge)) (a : FlowEdge) (w : Nat) (e : Edge)
    (hu : a.u < g.length) (hv : a.v < g.length) (huv : a.u ≠ a.v) :
    e ∈ (add_residual g a).getD w [] ↔
      e ∈ g.getD w [] ∨ (w = a.u ∧ e = ⟨a.v, (g.getD a.v []).length, a.c - a.x⟩) ∨
        (w = a.v ∧ e = ⟨a.u, (g.getD a.u []).length, a.x⟩) := by
  rw [getD_add_residual g a w hu hv huv]
  by_cases h1 : w = a.u
  · subst h1
    have h4 : ¬ a.u = a.v := huv
    simp [h4]
  · by_cases h2 : w = a.v
    · subst h2
      simp [h1]
    · simp [h1, h2]

/-- Every stored edge of a residual graph is the forward or the reverse edge of
an arc of the flow. -/
theorem mem_residual_cases (n : Nat) (fs : List FlowEdge)
    (hwf : WellFormedArcs n (fs.map FlowEdge.arc)) (w : Nat) (e : Edge)
    (h : e ∈ (residual n fs).getD w []) :
    ∃ a ∈ fs, (a.u = w ∧ e.to_ = a.v ∧ e.cap = a.c - a.x) ∨
      (a.v = w ∧ e.to_ = a.u ∧ e.cap = a.x) := by
  induction fs using List.reverseRecOn with
  | nil =>
    rw [residual_nil_getD] at h
    simp at h
  | append_singleton fs a ih =>
    obtain ⟨hfs, hu, hv, huv, _⟩ := wellFormed_of_append n fs a hwf
    rw [residual_snoc, mem_getD_add_residual _ a w e (by rw [length_residual]; exact hu)
      (by rw [length_residual]; exact hv) huv] at h
    rcases h with h | ⟨hw, he⟩ | ⟨hw, he⟩
    · obtain ⟨b, hb, hcase⟩ := ih hfs h
      exact ⟨b, List.mem_append_left _ hb, hcase⟩
    · refine ⟨a, by simp, Or.inl ⟨hw.symm, ?_, ?_⟩⟩ <;> rw [he]
    · refine ⟨a, by simp, Or.inr ⟨hw.symm, ?_, ?_⟩⟩ <;> rw [he]

/-- Every arc of the flow has its forward edge stored at its tail and its reverse
edge stored at its head. -/
theorem residual_has_edges (n : Nat) (fs : List FlowEdge)
    (hwf : WellFormedArcs n (fs.map FlowEdge.arc)) (a : FlowEdge) (ha : a ∈ fs) :
    (∃ e ∈ (residual n fs).getD a.u [], e.to_ = a.v ∧ e.cap = a.c - a.x) ∧
    (∃ e ∈ (residual n fs).getD a.v [], e.to_ = a.u ∧ e.cap = a.x) := by
  induction fs using List.reverseRecOn with
  | nil => simp at ha
  | append_singleton fs b ih =>
    obtain ⟨hfs, hu, hv, huv, _⟩ := wellFormed_of_append n fs b hwf
    have hlu : b.u < (residual n fs).length := by rw [length_residual]; exact hu
    have hlv : b.v < (residual n fs).length := by rw [length_residual]; exact hv
    rw [residual_snoc]
    rcases List.mem_append.mp ha with ha | ha
    · obtain ⟨⟨e1, he1, h1⟩, ⟨e2, he2, h2⟩⟩ := ih hfs ha
      exact ⟨⟨e1, (mem_getD_add_residual _ b _ _ hlu hlv huv).mpr (Or.inl he1), h1⟩,
        ⟨e2, (mem_getD_add_residual _ b _ _ hlu hlv huv).mpr (Or.inl he2), h2⟩⟩
    · rw [List.mem_singleton.mp ha]
      exact ⟨⟨_, (mem_getD_add_residual _ b _ _ hlu hlv huv).mpr (Or.inr (Or.inl ⟨rfl, rfl⟩)),
          rfl, rfl⟩,
        ⟨_, (mem_getD_add_residual _ b _ _ hlu hlv huv).mpr (Or.inr (Or.inr ⟨rfl, rfl⟩)),
          rfl, rfl⟩⟩

end xllm_service


namespace xllm_service

/-! ## Breadth-first labelling -/

theorem getD_set_int (l : List Int) (i j : Nat) (a : Int) :
    (l.set i a).getD j 0 = if i = j ∧ i < l.length then a else l.getD j 0 := by
  rw [List.getD_eq_getElem?_getD, List.getElem?_set, List.getD_eq_getElem?_getD]
  by_cases hij : i = j
  · subst hij
    by_cases hi : i < l.length
    · simp [hi]
    · simp [hi, List.getElem?_eq_none (not_lt.mp hi)]
  · simp [hij]

theorem bfsInv_label (g : List (List Edge)) (s n : Nat) (level : List Int) (q : List Nat)
    (v : Nat) (e : Edge) (hinv : BfsInv g s n level q) (hv : v ∈ q) (he : e ∈ g.getD v [])
    (hto : e.to_ < n) (hcap : 0 < e.cap) (hneg : level.getD e.to_ 0 < 0) :
    BfsInv g s n (level.set e.to_ (level.getD v 0 + 1)) (q ++ [e.to_]) ∧
    (∀ x, 0 ≤ level.getD x 0 →
      (level.set e.to_ (level.getD v 0 + 1)).getD x 0 = level.getD x 0) ∧
    0 ≤ (level.set e.to_ (level.getD v 0 + 1)).getD e.to_ 0 := by
  have hvl := (hinv.inq v hv).2
  have hlt : e.to_ < level.length := by rw [hinv.len]; exact hto
  have hkeep : ∀ x, 0 ≤ level.getD x 0 →
      (level.set e.to_ (level.getD v 0 + 1)).getD x 0 = level.getD x 0 := by
    intro x hx
    rw [getD_set_int]
    have hne : ¬ (e.to_ = x ∧ e.to_ < level.length) := by
      rintro ⟨h1, _⟩
      rw [h1] at hneg
      omega
    rw [if_neg hne]
  have hnew : (level.set e.to_ (level.getD v 0 + 1)).getD e.to_ 0 = level.getD v 0 + 1 := by
    rw [getD_set_int, if_pos ⟨rfl, hlt⟩]
  refine ⟨⟨?_, ?_, ?_, ?_, ?_, ?_, ?_⟩, hkeep, by rw [hnew]; omega⟩
  · rw [List.length_set]
    exact hinv.len
  · rw [List.nodup_append]
    refine ⟨hinv.nodup, List.nodup_singleton _, ?_⟩
    intro x hx hx2
    rw [List.mem_singleton.mp hx2] at hx
    have := (hinv.inq _ hx).2
    omega
  · intro x hx
    rcases List.mem_append.mp hx with hx | hx
    · have := hinv.inq x hx
      exact ⟨this.1, by rw [hkeep x this.2]; exact this.2⟩
    · rw [List.mem_singleton.mp hx]
      exact ⟨hto, by rw [hnew]; omega⟩
  · intro x hx hx0
    by_cases hxe : x = e.to_
    · rw [hxe]
      simp
    · rw [getD_set_int, if_neg (fun h => hxe h.1.symm)] at hx0
      exact List.mem_append_left _ (hinv.labelled x hx hx0)
  · rw [hkeep s (by rw [hinv.src])]
    exact hinv.src
  · intro x hx hx0
    by_cases hxe : x = e.to_
    · right
      refine ⟨v, e, he, hxe.symm, hcap, ?_, ?_⟩
      · rw [hkeep v hvl]
        exact hvl
      · rw [hxe, hnew, hkeep v hvl]
    · rw [getD_set_int, if_neg (fun h => hxe h.1.symm)] at hx0
      rcases hinv.pred x hx hx0 with h | ⟨u, e2, h1, h2, h3, h4, h5⟩
      · exact Or.inl h
      · right
        refine ⟨u, e2, h1, h2, h3, ?_, ?_⟩
        · rw [hkeep u h4]
          exact h4
        · rw [hkeep u h4, hkeep x hx0]
          exact h5
  · intro x
    rw [List.length_append, List.length_singleton, getD_set_int]
    have hb := hinv.bound x
    have hbv := hinv.bound v
    split <;> omega

/-- The inner loop of `bfs` keeps the invariant, never relabels a labelled node,
only appends to the queue, and labels the head of every positive-capacity edge
it scans. -/
theorem bfs_edges_spec (g : List (List Edge)) (s n : Nat) (v : Nat) :
    ∀ (es : List Edge) (level : List Int) (q : List Nat),
      BfsInv g s n level q → v ∈ q → (∀ e ∈ es, e ∈ g.getD v [] ∧ e.to_ < n) →
      BfsInv g s n (bfs_edges v es level q).1 (bfs_edges v es level q).2 ∧
      (∀ x, 0 ≤ level.getD x 0 → (bfs_edges v es level q).1.getD x 0 = level.getD x 0) ∧
      (∀ e ∈ es, 0 < e.cap → 0 ≤ (bfs_edges v es level q).1.getD e.to_ 0) ∧
      ∃ ext, (bfs_edges v es level q).2 = q ++ ext
  | [], level, q, hinv, _, _ => by
    refine ⟨hinv, fun _ _ => rfl, ?_, [], by simp [bfs_edges]⟩
    intro e he
    simp at he
  | e :: es, level, q, hinv, hv, hes => by
    have he := hes e (List.mem_cons_self _ _)
    have hrest : ∀ e2 ∈ es, e2 ∈ g.getD v [] ∧ e2.to_ < n :=
      fun e2 h2 => hes e2 (List.mem_cons_of_mem _ h2)
    by_cases hc : 0 < e.cap ∧ level.getD e.to_ 0 < 0
    · obtain ⟨hinv1, hkeep1, hnew1⟩ := bfsInv_label g s n level q v e hinv hv he.1 he.2 hc.1 hc.2
      obtain ⟨hinv2, hkeep2, hcl2, ext, hext⟩ :=
        bfs_edges_spec g s n v es _ _ hinv1 (List.mem_append_left _ hv) hrest
      have hdef : bfs_edges v (e :: es) level q =
          bfs_edges v es (level.set e.to_ (level.getD v 0 + 1)) (q ++ [e.to_]) := by
        rw [bfs_edges, if_pos hc]
      rw [hdef]
      refine ⟨hinv2, ?_, ?_, [e.to_] ++ ext, by rw [hext]; simp⟩
      · intro x hx
        rw [hkeep2 x (by rw [hkeep1 x hx]; exact hx), hkeep1 x hx]
      · intro e2 he2 hcap2
        rcases List.mem_cons.mp he2 with h | h
        · rw [h, hkeep2 _ hnew1]
          exact hnew1
        · exact hcl2 e2 h hcap2
    · obtain ⟨hinv2, hkeep2, hcl2, ext, hext⟩ := bfs_edges_spec g s n v es level q hinv hv hrest
      have hdef : bfs_edges v (e :: es) level q = bfs_edges v es level q := by
        rw [bfs_edges, if_neg hc]
      rw [hdef]
      refine ⟨hinv2, hkeep2, ?_, ext, hext⟩
      intro e2 he2 hcap2
      rcases List.mem_cons.mp he2 with h | h
      · have h0 : 0 ≤ level.getD e.to_ 0 := by
          rw [h] at hcap2
          by_contra hlt
          exact hc ⟨hcap2, not_le.mp hlt⟩
        rw [h, hkeep2 _ h0]
        exact h0
      · exact hcl2 e2 h hcap2

theorem queue_length_le (n : Nat) (q : List Nat) (hnd : q.Nodup) (hlt : ∀ x ∈ q, x < n) :
    q.length ≤ n := by
  have h1 : q.toFinset ⊆ Finset.range n := by
    intro x hx
    rw [Finset.mem_range]
    exact hlt x (List.mem_toFinset.mp hx)
  have h2 := Finset.card_le_card h1
  rw [List.toFinset_card_of_nodup hnd, Finset.card_range] at h2
  exact h2

/-- The outer loop of `bfs` returns on `n - i + 1` units of fuel, with every
labelled node closed under positive-capacity edges. -/
theorem bfs_loop_spec (g : List (List Edge)) (s n : Nat)
    (hto : ∀ v e, e ∈ g.getD v [] → e.to_ < n) :
    ∀ (fuel i : Nat) (level : List Int) (q : List Nat),
      BfsInv g s n level q → i ≤ q.length → LevelClosed g level (q.take i) →
      n + 1 ≤ fuel + i →
      ∃ level2 q2, bfs_loop g fuel i level q = some level2 ∧ BfsInv g s n level2 q2 ∧
        LevelClosed g level2 q2
  | 0, i, level, q, hinv, hi, _, hfuel => by
    exfalso
    have := queue_length_le n q hinv.nodup (fun x hx => (hinv.inq x hx).1)
    have hb := hinv.bound 0
    omega
  | fuel + 1, i, level, q, hinv, hi, hcl, hfuel => by
    cases hq : q[i]? with
    | none =>
      have hi2 : q.length ≤ i := List.getElem?_eq_none_iff.mp hq
      have htake : q.take i = q := List.take_of_length_le hi2
      rw [htake] at hcl
      exact ⟨level, q, by rw [bfs_loop, hq], hinv, hcl⟩
    | some v =>
      have hilt : i < q.length := by
        by_contra h
        rw [List.getElem?_eq_none (not_lt.mp h)] at hq
        exact Option.noConfusion hq
      have hvq : v ∈ q := by
        rw [List.getElem?_eq_getElem hilt] at hq
        rw [← Option.some.inj hq]
        exact List.getElem_mem hilt
      obtain ⟨hinv1, hkeep1, hcl1, ext, hext⟩ := bfs_edges_spec g s n v (g.getD v []) level q
        hinv hvq (fun e he => ⟨he, hto v e he⟩)
      have hlen := queue_length_le n q hinv.nodup (fun x hx => (hinv.inq x hx).1)
      have hstep : bfs_loop g (fuel + 1) i level q =
          bfs_loop g fuel (i + 1) (bfs_edges v (g.getD v []) level q).1
            (bfs_edges v (g.getD v []) level q).2 := by
        rw [bfs_loop, hq]
      rw [hstep]
      apply bfs_loop_spec g s n hto fuel (i + 1) _ _ hinv1
      · rw [hext, List.length_append]
        omega
      · intro x hx e he hcap
        rw [hext, List.take_append_of_le_length (by omega)] at hx
        have htk : q.take (i + 1) = q.take i ++ [v] := by
          rw [List.take_succ, hq]
          rfl
        rw [htk] at hx
        rcases List.mem_append.mp hx with hx | hx
        · have h0 := hcl x hx e he hcap
          rw [hkeep1 _ h0]
          exact h0
        · rw [List.mem_singleton.mp hx] at he
          exact hcl1 e he hcap
      · omega

theorem bfsInv_init (g : List (List Edge)) (s n : Nat) (hs : s < n) :
    BfsInv g s n ((List.replicate n (-1 : Int)).set s 0) [s] := by
  have hget : ∀ x, ((List.replicate n (-1 : Int)).set s 0).getD x 0 =
      if s = x then 0 else if x < n then -1 else 0 := by
    intro x
    rw [getD_set_int, List.length_replicate, List.getD_eq_getElem?_getD,
      List.getElem?_replicate]
    by_cases hsx : s = x
    · rw [if_pos ⟨hsx, hs⟩, if_pos hsx]
    · rw [if_neg (fun h => hsx h.1), if_neg hsx]
      split <;> rfl
  refine ⟨by simp, List.nodup_singleton _, ?_, ?_, ?_, ?_, ?_⟩
  · intro x hx
    rw [List.mem_singleton.mp hx, hget, if_pos rfl]
    exact ⟨hs, le_refl _⟩
  · intro v hv h0
    rw [hget] at h0
    by_cases hsv : s = v
    · rw [hsv]
      simp
    · rw [if_neg hsv, if_pos hv] at h0
      omega
  · rw [hget, if_pos rfl]
  · intro v hv h0
    rw [hget] at h0
    by_cases hsv : s = v
    · exact Or.inl hsv.symm
    · rw [if_neg hsv, if_pos hv] at h0
      omega
  · intro v
    rw [hget, List.length_singleton]
    split
    · omega
    · split <;> omega

/-- `bfs` returns on `n + 1` units of fuel.  It only writes the levels; the source
gets level 0, every labelled node has its positive-capacity edges leading to
labelled nodes, every labelled node other than the source has a labelled
predecessor one level below along an edge of positive capacity, and all
levels are below `n`. -/
theorem bfs_spec (mf : MaxFlow) (n : Nat) (hlen : mf.level.length = n) (hs : mf.s < n)
    (hto : ∀ v e, e ∈ mf.g.getD v [] → e.to_ < n) (fuel : Nat) (hfuel : n + 1 ≤ fuel) :
    ∃ level2, mf.bfs fuel =
        some ({ mf with level := level2 }, decide (0 ≤ level2.getD mf.t 0)) ∧
      level2.length = n ∧ level2.getD mf.s 0 = 0 ∧
      (∀ v, v < n → 0 ≤ level2.getD v 0 → ∀ e ∈ mf.g.getD v [], 0 < e.cap →
        0 ≤ level2.getD e.to_ 0) ∧
      (∀ v, v < n → 0 ≤ level2.getD v 0 →
        v = mf.s ∨ ∃ (u : Nat) (e : Edge), e ∈ mf.g.getD u [] ∧ e.to_ = v ∧ 0 < e.cap ∧
          0 ≤ level2.getD u 0 ∧ level2.getD v 0 = level2.getD u 0 + 1) ∧
      (∀ v, level2.getD v 0 < n) := by
  have hinit := bfsInv_init mf.g mf.s n hs
  obtain ⟨level2, q2, hrun, hinv, hcl⟩ := bfs_loop_spec mf.g mf.s n hto fuel 0 _ [mf.s] hinit
    (Nat.zero_le _) (by intro x hx; simp at hx) (by omega)
  refine ⟨level2, ?_, hinv.len, hinv.src, ?_, hinv.pred, ?_⟩
  · unfold MaxFlow.bfs
    rw [hlen]
    dsimp only
    rw [hrun]
  · intro v hv h0 e he hcap
    exact hcl v (hinv.labelled v hv h0) e he hcap
  · intro v
    have h1 := hinv.bound v
    have h2 := queue_length_le n q2 hinv.nodup (fun x hx => (hinv.inq x hx).1)
    omega

end xllm_service


namespace xllm_service

/-! ## Depth-first augmentation: the branches of `dfs` -/

theorem dfs_at_sink (fuel : Nat) (mf : MaxFlow) (v : Nat) (f : Int) (h : v = mf.t) :
    mf.dfs (fuel + 1) v f = some (mf, f) := by
  rw [MaxFlow.dfs, if_pos h]

theorem dfs_exhausted (fuel : Nat) (mf : MaxFlow) (v : Nat) (f : Int) (h : v ≠ mf.t)
    (he : (mf.g.getD v [])[mf.it.getD v 0]? = none) :
    mf.dfs (fuel + 1) v f = some (mf, 0) := by
  rw [MaxFlow.dfs, if_neg h]
  simp only [he]

theorem dfs_skip (fuel : Nat) (mf : MaxFlow) (v : Nat) (f : Int) (e : Edge) (h : v ≠ mf.t)
    (he : (mf.g.getD v [])[mf.it.getD v 0]? = some e)
    (hadm : ¬ (0 < e.cap ∧ mf.level.getD v 0 < mf.level.getD e.to_ 0)) :
    mf.dfs (fuel + 1) v f =
      MaxFlow.dfs fuel { mf with it := mf.it.set v (mf.it.getD v 0 + 1) } v f := by
  rw [MaxFlow.dfs, if_neg h]
  simp only [he, if_neg hadm]

theorem dfs_descend_ok (fuel : Nat) (mf mf1 : MaxFlow) (v : Nat) (f d : Int) (e : Edge)
    (h : v ≠ mf.t) (he : (mf.g.getD v [])[mf.it.getD v 0]? = some e)
    (hadm : 0 < e.cap ∧ mf.level.getD v 0 < mf.level.getD e.to_ 0)
    (hsub : mf.dfs fuel e.to_ (min f e.cap) = some (mf1, d)) (hd : 0 < d) :
    mf.dfs (fuel + 1) v f =
      some ({ mf1 with
        g := add_cap (add_cap mf1.g v (mf.it.getD v 0) (-d)) e.to_ e.rev d }, d) := by
  rw [MaxFlow.dfs, if_neg h]
  simp only [he, if_pos hadm, hsub, if_pos hd]

theorem dfs_descend_fail (fuel : Nat) (mf mf1 : MaxFlow) (v : Nat) (f d : Int) (e : Edge)
    (h : v ≠ mf.t) (he : (mf.g.getD v [])[mf.it.getD v 0]? = some e)
    (hadm : 0 < e.cap ∧ mf.level.getD v 0 < mf.level.getD e.to_ 0)
    (hsub : mf.dfs fuel e.to_ (min f e.cap) = some (mf1, d)) (hd : ¬ 0 < d) :
    mf.dfs (fuel + 1) v f =
      MaxFlow.dfs fuel { mf1 with it := mf1.it.set v (mf1.it.getD v 0 + 1) } v f := by
  rw [MaxFlow.dfs, if_neg h]
  simp only [he, if_pos hadm, hsub, if_neg hd]

theorem getD_set_nat (l : List Nat) (i j : Nat) (a : Nat) :
    (l.set i a).getD j 0 = if i = j ∧ i < l.length then a else l.getD j 0 := by
  rw [List.getD_eq_getElem?_getD, List.getElem?_set, List.getD_eq_getElem?_getD]
  by_cases hij : i = j
  · subst hij
    by_cases hi : i < l.length
    · simp [hi]
    · simp [hi, List.getElem?_eq_none (not_lt.mp hi)]
  · simp [hij]

theorem fuel_descend (A A2 D dg dg2 it2 fuel : Nat) (hA : A2 < A) (hdg : dg2 ≤ D)
    (h : A * (D + 1) + dg + 1 ≤ fuel + 1) : A2 * (D + 1) + (dg2 - it2) + 1 ≤ fuel := by
  have h1 : (A2 + 1) * (D + 1) ≤ A * (D + 1) := Nat.mul_le_mul_right _ hA
  have h2 : (A2 + 1) * (D + 1) = A2 * (D + 1) + D + 1 := by ring
  omega

theorem paired_of_isResidual (n : Nat) (es : List (Nat × Nat × Int)) (hwf : WellFormedArcs n es)
    (g : List (List Edge)) (h : IsResidual n es g) : Paired g ∧ g.length = n := by
  obtain ⟨fs, harc, _, hg⟩ := h
  rw [hg]
  exact ⟨paired_residual n fs (by rw [harc]; exact hwf), length_residual n fs⟩

/-- Advancing the current-edge pointer of `v` past an edge that is useless keeps
all passed edges useless. -/
theorem ptrOk_advance (g : List (List Edge)) (level : List Int) (t : Nat) (it : List Nat)
    (v : Nat) (hp : PtrOk g level t it)
    (hcur : ∀ e, (g.getD v [])[it.getD v 0]? = some e → 0 < e.cap →
      level.getD v 0 < level.getD e.to_ 0 → ¬ CanReach g level t e.to_) :
    PtrOk g level t (it.set v (it.getD v 0 + 1)) := by
  intro w j e hj hedge hcap hlv
  rw [getD_set_nat] at hj
  by_cases hwv : v = w ∧ v < it.length
  · rw [if_pos hwv] at hj
    obtain ⟨hwv1, _⟩ := hwv
    subst hwv1
    by_cases hji : j = it.getD v 0
    · subst hji
      exact hcur e hedge hcap hlv
    · exact hp v j e (by omega) hedge hcap hlv
  · rw [if_neg hwv] at hj
    exact hp w j e hj hedge hcap hlv

/-- A call that continues the `for` loop at `v` after the pointer of `v` was
advanced: what the rest of the loop does to the advanced state, it does to the
state before. -/
theorem dfsPost_continue (n : Nat) (es : List (Nat × Nat × Int)) (mf mf2 mf3 : MaxFlow)
    (v : Nat) (f d : Int) (hpost : DfsPost n es mf2 v f mf3 d)
    (hg : mf2.g = mf.g) (hlevel : mf2.level = mf.level) (hs : mf2.s = mf.s)
    (ht : mf2.t = mf.t) (hlen : mf2.it.length = mf.it.length)
    (hframe : ∀ x, mf.level.getD x 0 < mf.level.getD v 0 → mf2.it.getD x 0 = mf.it.getD x 0)
    (hptr : PtrOk mf.g mf.level mf.t mf.it → PtrOk mf2.g mf2.level mf2.t mf2.it) :
    DfsPost n es mf v f mf3 d where
  level_eq := hpost.level_eq.trans hlevel
  s_eq := hpost.s_eq.trans hs
  t_eq := hpost.t_eq.trans ht
  it_len := hpost.it_len.trans hlen
  res := hpost.res
  d_nonneg := hpost.d_nonneg
  d_le := hpost.d_le
  caps := by
    intro w
    rw [hpost.caps w, hg, ht]
  unchanged := fun h => (hpost.unchanged h).trans hg
  frame_g := by
    intro x hx
    rw [hpost.frame_g x (by rw [hlevel]; exact hx), hg]
  frame_it := by
    intro x hx
    rw [hpost.frame_it x (by rw [hlevel]; exact hx), hframe x hx]
  deg := by
    intro w
    rw [hpost.deg w, hg]
  dead := by
    intro h0 hp
    have := hpost.dead h0 (hptr hp)
    rw [hg, hlevel, ht] at this
    exact this

/-- A successful push at `v` through the edge `e` at position `i`, after the
recursive call at `e.to` returned `d > 0` in state `mf1`. -/
theorem dfsPost_push (n : Nat) (es : List (Nat × Nat × Int)) (hwf : WellFormedArcs n es)
    (mf mf1 : MaxFlow) (v : Nat) (f d : Int) (e : Edge)
    (he : (mf.g.getD v [])[mf.it.getD v 0]? = some e)
    (hadm : 0 < e.cap ∧ mf.level.getD v 0 < mf.level.getD e.to_ 0)
    (hpost : DfsPost n es mf e.to_ (min f e.cap) mf1 d) (hd : 0 < d) :
    DfsPost n es mf v f
      { mf1 with g := add_cap (add_cap mf1.g v (mf.it.getD v 0) (-d)) e.to_ e.rev d } d := by
  have hframe : mf1.g.getD v [] = mf.g.getD v [] := hpost.frame_g v hadm.2
  have he1 : (mf1.g.getD v [])[mf.it.getD v 0]? = some e := by rw [hframe]; exact he
  obtain ⟨hpaired, _⟩ := paired_of_isResidual n es hwf mf1.g hpost.res
  obtain ⟨hne, _, e2, he2, _, _⟩ := hpaired v _ e he1
  have hi : mf.it.getD v 0 < (mf1.g.getD v []).length := lt_length_of_getElem?_some _ _ _ he1
  have hrev : e.rev < (mf1.g.getD e.to_ []).length := lt_length_of_getElem?_some _ _ _ he2
  have hdle : d ≤ e.cap := le_trans hpost.d_le (min_le_right _ _)
  refine
    { level_eq := hpost.level_eq, s_eq := hpost.s_eq, t_eq := hpost.t_eq,
      it_len := hpost.it_len, res := ?_, d_nonneg := le_of_lt hd,
      d_le := le_trans hpost.d_le (min_le_left _ _), caps := ?_,
      unchanged := fun h => absurd h (ne_of_gt hd), frame_g := ?_,
      frame_it := fun x hx => hpost.frame_it x (lt_trans hx hadm.2), deg := ?_,
      dead := fun h => absurd h (ne_of_gt hd) }
  · obtain ⟨fs1, harc, hfl, hg⟩ := hpost.res
    rw [hg] at he1
    obtain ⟨fs2, harc2, hfl2, heq⟩ := residual_push n fs1 (by rw [harc]; exact hwf) hfl v _ e d
      he1 (le_of_lt hd) hdle
    refine ⟨fs2, harc2.trans harc, hfl2, ?_⟩
    show add_cap (add_cap mf1.g v (mf.it.getD v 0) (-d)) e.to_ e.rev d = residual n fs2
    rw [hg]
    exact heq
  · intro w
    show cap_sum (add_cap (add_cap mf1.g v (mf.it.getD v 0) (-d)) e.to_ e.rev d) w = _
    rw [cap_sum_add_cap, cap_sum_add_cap, length_getD_add_cap, hpost.caps w]
    have h1 : (w = v ∧ mf.it.getD v 0 < (mf1.g.getD v []).length) ↔ w = v :=
      ⟨fun h => h.1, fun h => ⟨h, hi⟩⟩
    have h2 : (w = e.to_ ∧ e.rev < (mf1.g.getD e.to_ []).length) ↔ w = e.to_ :=
      ⟨fun h => h.1, fun h => ⟨h, hrev⟩⟩
    rw [if_congr h1 rfl rfl, if_congr h2 rfl rfl]
    by_cases hwv : w = v
    · have hwe : ¬ w = e.to_ := fun h => hne (h.symm.trans hwv)
      rw [if_pos hwv, if_neg hwe, if_pos hwv]
      ring
    · rw [if_neg hwv, if_neg hwv]
      ring
  · intro x hx
    show (add_cap (add_cap mf1.g v (mf.it.getD v 0) (-d)) e.to_ e.rev d).getD x [] = _
    have hxe : ¬ x = e.to_ := by
      intro h
      rw [h] at hx
      omega
    have hxv : ¬ x = v := by
      intro h
      rw [h] at hx
      omega
    rw [getD_add_cap, if_neg hxe, getD_add_cap, if_neg hxv]
    exact hpost.frame_g x (lt_trans hx hadm.2)
  · intro w
    show ((add_cap (add_cap mf1.g v (mf.it.getD v 0) (-d)) e.to_ e.rev d).getD w []).length = _
    rw [length_getD_add_cap, length_getD_add_cap]
    exact hpost.deg w

/-- What `dfs` does.  On `dfs_fuel` units of fuel the call `dfs(v, f)` returns
some `d` with `0 <= d <= f`; the graph it leaves is the residual graph of a
flow on the same arcs; the residual capacities stored at `v` lose `d` in
total, those stored at `t` gain `d`, all other sums are unchanged; nothing
stored at a node of smaller level is touched; and if it returns `0`, the graph
is unchanged and `t` cannot be reached from `v`. -/
theorem dfs_spec (n : Nat) (es : List (Nat × Nat × Int)) (D : Nat) (hwf : WellFormedArcs n es) :
    ∀ (fuel : Nat) (mf : MaxFlow) (v : Nat) (f : Int),
      IsResidual n es mf.g → mf.it.length = n → v < n → 0 < f →
      (∀ x, mf.level.getD x 0 < n) → (∀ w, (mf.g.getD w []).length ≤ D) →
      dfs_fuel n D mf v ≤ fuel →
      ∃ mf2 d, mf.dfs fuel v f = some (mf2, d) ∧ DfsPost n es mf v f mf2 d
  | 0, mf, v, f, _, _, _, _, _, _, hfuel => by
    unfold dfs_fuel at hfuel
    omega
  | fuel + 1, mf, v, f, hres, hit, hv, hf, hlv, hD, hfuel => by
    by_cases hvt : v = mf.t
    · refine ⟨mf, f, dfs_at_sink fuel mf v f hvt, ?_⟩
      exact
        { level_eq := rfl, s_eq := rfl, t_eq := rfl, it_len := rfl, res := hres,
          d_nonneg := le_of_lt hf, d_le := le_refl _,
          caps := by
            intro w
            rw [hvt]
            ring
          unchanged := fun _ => rfl, frame_g := fun _ _ => rfl, frame_it := fun _ _ => rfl,
          deg := fun _ => rfl, dead := fun h => absurd h (ne_of_gt hf) }
    · cases he : (mf.g.getD v [])[mf.it.getD v 0]? with
      | none =>
        refine ⟨mf, 0, dfs_exhausted fuel mf v f hvt he, ?_⟩
        exact
          { level_eq := rfl, s_eq := rfl, t_eq := rfl, it_len := rfl, res := hres,
            d_nonneg := le_refl _, d_le := le_of_lt hf,
            caps := by
              intro w
              simp
            unchanged := fun _ => rfl, frame_g := fun _ _ => rfl, frame_it := fun _ _ => rfl,
            deg := fun _ => rfl,
            dead := by
              intro _ hp
              refine ⟨hp, ?_⟩
              intro hcr
              cases hcr with
              | base => exact hvt rfl
              | step _ i e2 hedge hcap hlev hcr2 =>
                have hi := lt_length_of_getElem?_some _ _ _ hedge
                have hge : (mf.g.getD v []).length ≤ mf.it.getD v 0 :=
                  List.getElem?_eq_none_iff.mp he
                exact hp v i e2 (by omega) hedge hcap hlev hcr2 }
      | some e =>
        have hilt : mf.it.getD v 0 < (mf.g.getD v []).length :=
          lt_length_of_getElem?_some _ _ _ he
        have hvit : v < mf.it.length := by rw [hit]; exact hv
        -- the state after `++i` on a state `mfx` that agrees with `mf` at `v`
        have hnext : ∀ mfx : MaxFlow, mfx.g = mf.g → mfx.level = mf.level →
            mfx.it.length = mf.it.length → mfx.it.getD v 0 = mf.it.getD v 0 →
            dfs_fuel n D { mfx with it := mfx.it.set v (mfx.it.getD v 0 + 1) } v ≤ fuel := by
          intro mfx hgx hlx hlenx hitx
          unfold dfs_fuel at hfuel ⊢
          dsimp only
          rw [hgx, hlx, getD_set_nat, if_pos ⟨rfl, by rw [hlenx]; exact hvit⟩, hitx]
          omega
        by_cases hadm : 0 < e.cap ∧ mf.level.getD v 0 < mf.level.getD e.to_ 0
        · obtain ⟨hpaired, hglen⟩ := paired_of_isResidual n es hwf mf.g hres
          obtain ⟨_, hto, _⟩ := hpaired v _ e he
          rw [hglen] at hto
          have hsubfuel : dfs_fuel n D mf e.to_ ≤ fuel := by
            unfold dfs_fuel at hfuel ⊢
            have h1 := hlv e.to_
            have h2 := hlv v
            exact fuel_descend _ _ D _ _ _ fuel (by omega) (hD e.to_) hfuel
          obtain ⟨mf1, d, hsub, hpost1⟩ := dfs_spec n es D hwf fuel mf e.to_ (min f e.cap)
            hres hit hto (lt_min hf hadm.1) hlv hD hsubfuel
          by_cases hd : 0 < d
          · exact ⟨_, d, dfs_descend_ok fuel mf mf1 v f d e hvt he hadm hsub hd,
              dfsPost_push n es hwf mf mf1 v f d e he hadm hpost1 hd⟩
          · have hd0 : d = 0 := le_antisymm (not_lt.mp hd) hpost1.d_nonneg
            have hg1 : mf1.g = mf.g := hpost1.unchanged hd0
            have hit1 : mf1.it.getD v 0 = mf.it.getD v 0 := hpost1.frame_it v hadm.2
            obtain ⟨mf3, d3, hrun, hpost3⟩ := dfs_spec n es D hwf fuel
              { mf1 with it := mf1.it.set v (mf1.it.getD v 0 + 1) } v f
              hpost1.res (by rw [List.length_set, hpost1.it_len]; exact hit) hv hf
              (by intro x; show mf1.level.getD x 0 < n; rw [hpost1.level_eq]; exact hlv x)
              (by intro w; show (mf1.g.getD w []).length ≤ D; rw [hg1]; exact hD w)
              (hnext mf1 hg1 hpost1.level_eq hpost1.it_len hit1)
            refine ⟨mf3, d3, ?_, ?_⟩
            · rw [dfs_descend_fail fuel mf mf1 v f d e hvt he hadm hsub hd]
              exact hrun
            · refine dfsPost_continue n es mf _ mf3 v f d3 hpost3 hg1 hpost1.level_eq
                hpost1.s_eq hpost1.t_eq (by rw [List.length_set]; exact hpost1.it_len) ?_ ?_
              · intro x hx
                show (mf1.it.set v (mf1.it.getD v 0 + 1)).getD x 0 = _
                have hxv : ¬ (v = x ∧ v < mf1.it.length) := by
                  rintro ⟨h, _⟩
                  rw [h] at hx
                  omega
                rw [getD_set_nat, if_neg hxv]
                exact hpost1.frame_it x (lt_trans hx hadm.2)
              · intro hp
                obtain ⟨hp1, hdead⟩ := hpost1.dead hd0 hp
                show PtrOk mf1.g mf1.level mf1.t (mf1.it.set v (mf1.it.getD v 0 + 1))
                apply ptrOk_advance _ _ _ _ _ hp1
                intro e2 he2 _ _
                rw [hg1, hit1, he] at he2
                rw [← Option.some.inj he2, hg1, hpost1.level_eq, hpost1.t_eq]
                exact hdead
        · obtain ⟨mf3, d3, hrun, hpost3⟩ := dfs_spec n es D hwf fuel
            { mf with it := mf.it.set v (mf.it.getD v 0 + 1) } v f
            hres (by rw [List.length_set]; exact hit) hv hf hlv hD (hnext mf rfl rfl rfl rfl)
          refine ⟨mf3, d3, ?_, ?_⟩
          · rw [dfs_skip fuel mf v f e hvt he hadm]
            exact hrun
          · refine dfsPost_continue n es mf _ mf3 v f d3 hpost3 rfl rfl rfl rfl
              (by rw [List.length_set]) ?_ ?_
            · intro x hx
              show (mf.it.set v (mf.it.getD v 0 + 1)).getD x 0 = _
              have hxv : ¬ (v = x ∧ v < mf.it.length) := by
                rintro ⟨h, _⟩
                rw [h] at hx
                omega
              rw [getD_set_nat, if_neg hxv]
            · intro hp
              show PtrOk mf.g mf.level mf.t (mf.it.set v (mf.it.getD v 0 + 1))
              apply ptrOk_advance _ _ _ _ _ hp
              intro e2 he2 hcap hlev
              rw [he] at he2
              rw [← Option.some.inj he2] at hcap hlev
              exact absurd ⟨hcap, hlev⟩ hadm

end xllm_service


namespace xllm_service

/-! ## The loops of `dinic` -/

theorem length_getD_residual_le (n : Nat) (fs : List FlowEdge)
    (hwf : WellFormedArcs n (fs.map FlowEdge.arc)) (w : Nat) :
    ((residual n fs).getD w []).length ≤ fs.length := by
  induction fs using List.reverseRecOn with
  | nil => rw [residual_nil_getD]; simp
  | append_singleton fs a ih =>
    obtain ⟨hfs, hu, hv, huv, _⟩ := wellFormed_of_append n fs a hwf
    rw [residual_snoc, getD_add_residual _ a w (by rw [length_residual]; exact hu)
      (by rw [length_residual]; exact hv) huv, List.length_append, List.length_singleton]
    have h1 := ih hfs
    by_cases hwu : w = a.u
    · rw [if_pos hwu, List.length_append, List.length_singleton, ← hwu]
      omega
    · rw [if_neg hwu]
      by_cases hwv : w = a.v
      · rw [if_pos hwv, List.length_append, List.length_singleton, ← hwv]
        omega
      · rw [if_neg hwv]
        omega

theorem degree_le_of_isResidual (n : Nat) (es : List (Nat × Nat × Int))
    (hwf : WellFormedArcs n es) (g : List (List Edge)) (h : IsResidual n es g) (w : Nat) :
    (g.getD w []).length ≤ es.length := by
  obtain ⟨fs, harc, _, hg⟩ := h
  rw [hg, ← harc, List.length_map]
  exact length_getD_residual_le n fs (by rw [harc]; exact hwf) w

theorem cap_nonneg_of_isResidual (n : Nat) (es : List (Nat × Nat × Int))
    (hwf : WellFormedArcs n es) (g : List (List Edge)) (h : IsResidual n es g) (w : Nat)
    (e : Edge) (he : e ∈ g.getD w []) : 0 ≤ e.cap := by
  obtain ⟨fs, harc, hfl, hg⟩ := h
  rw [hg] at he
  obtain ⟨a, ha, hcase⟩ := mem_residual_cases n fs (by rw [harc]; exact hwf) w e he
  have := hfl a ha
  rcases hcase with ⟨_, _, hc⟩ | ⟨_, _, hc⟩ <;> omega

theorem cap_sum_nonneg (n : Nat) (es : List (Nat × Nat × Int))
    (hwf : WellFormedArcs n es) (g : List (List Edge)) (h : IsResidual n es g) (w : Nat) :
    0 ≤ cap_sum g w := by
  unfold cap_sum
  apply List.sum_nonneg
  intro x hx
  obtain ⟨e, he, hxe⟩ := List.mem_map.mp hx
  rw [← hxe]
  exact cap_nonneg_of_isResidual n es hwf g h w e he

/-- After a `bfs` that labels `t`, `t` can be reached from `s` along edges `dfs`
accepts. -/
theorem canReach_of_levels (g : List (List Edge)) (level : List Int) (s t n : Nat)
    (hg : g.length = n)
    (hpred : ∀ v, v < n → 0 ≤ level.getD v 0 →
      v = s ∨ ∃ (u : Nat) (e : Edge), e ∈ g.getD u [] ∧ e.to_ = v ∧ 0 < e.cap ∧
        0 ≤ level.getD u 0 ∧ level.getD v 0 = level.getD u 0 + 1)
    (ht : t < n) (hreach : 0 ≤ level.getD t 0) : CanReach g level t s := by
  have key : ∀ (k : Nat) (v : Nat), v < n → level.getD v 0 = k → CanReach g level t v →
      CanReach g level t s := by
    intro k
    induction k with
    | zero =>
      intro v hv hk hcr
      rcases hpred v hv (by rw [hk]; simp) with h | ⟨u, e, _, _, _, h0, h1⟩
      · rw [← h]
        exact hcr
      · rw [hk] at h1
        simp only [CharP.cast_eq_zero] at h1
        omega
    | succ k ih =>
      intro v hv hk hcr
      rcases hpred v hv (by rw [hk]; omega) with h | ⟨u, e, he, hto, hcap, h0, h1⟩
      · rw [← h]
        exact hcr
      · have hu : u < n := by
          by_contra hnot
          rw [getD_of_length_le g u (by rw [hg]; exact not_lt.mp hnot)] at he
          simp at he
        obtain ⟨i, hi⟩ := List.mem_iff_getElem?.mp he
        apply ih u hu
        · rw [hk] at h1
          push_cast at h1
          omega
        · refine CanReach.step u i e hi hcap ?_ ?_
          · rw [hto]
            omega
          · rw [hto]
            exact hcr
  exact key (level.getD t 0).toNat t ht (Int.toNat_of_nonneg hreach).symm CanReach.base

theorem ptrOk_zero (g : List (List Edge)) (level : List Int) (t k : Nat) :
    PtrOk g level t (List.replicate k 0) := by
  intro w j e hj
  exfalso
  rw [List.getD_eq_getElem?_getD, List.getElem?_replicate] at hj
  split at hj <;> simp at hj

theorem dfs_fuel_at_source (n D : Nat) (mf : MaxFlow) (v : Nat)
    (h0 : mf.level.getD v 0 = 0) (hD : (mf.g.getD v []).length ≤ D) :
    dfs_fuel n D mf v ≤ n * (D + 1) + D + 1 := by
  unfold dfs_fuel
  rw [h0]
  have : ((n : Int) - 0).toNat = n := by simp
  rw [this]
  omega

/-- The inner loop of `dinic` returns on `n * (D + 1) + D + 2 + c` units of fuel,
`c` being the sum of the residual capacities stored at `s`.  The flow value never
decreases, and it increases when the loop starts with useless passed edges only
and `t` reachable from `s`. -/
theorem dinic_push_spec (n : Nat) (es : List (Nat × Nat × Int)) (s t : Nat)
    (g0 : List (List Edge)) (hwf : WellFormedArcs n es) (hs : s < n) (hst : s ≠ t) :
    ∀ (fuel : Nat) (mf : MaxFlow) (flow : Int),
      DinicInv n es s t g0 mf flow → (∀ x, mf.level.getD x 0 < n) →
      mf.level.getD s 0 = 0 →
      n * (es.length + 1) + es.length + 2 + (cap_sum mf.g s).toNat ≤ fuel →
      ∃ mf2 flow2, dinic_push fuel mf flow = some (mf2, flow2) ∧
        DinicInv n es s t g0 mf2 flow2 ∧ mf2.level = mf.level ∧ flow ≤ flow2 ∧
        (PtrOk mf.g mf.level mf.t mf.it → CanReach mf.g mf.level mf.t s → flow < flow2)
  | 0, mf, flow, _, _, _, hfuel => by omega
  | fuel + 1, mf, flow, hinv, hlv, hl0, hfuel => by
    have hD := degree_le_of_isResidual n es hwf mf.g hinv.res
    have hdf : dfs_fuel n es.length mf s ≤ fuel := by
      have := dfs_fuel_at_source n es.length mf s hl0 (hD s)
      omega
    obtain ⟨mf1, d, hrun, hpost⟩ := dfs_spec n es es.length hwf fuel mf s 1000000000
      hinv.res hinv.it_len hs (by decide) hlv hD hdf
    have hinv1 : DinicInv n es s t g0 mf1 (flow + d) :=
      { res := hpost.res
        level_len := by rw [hpost.level_eq]; exact hinv.level_len
        it_len := by rw [hpost.it_len]; exact hinv.it_len
        s_eq := by rw [hpost.s_eq]; exact hinv.s_eq
        t_eq := by rw [hpost.t_eq]; exact hinv.t_eq
        caps := by
          intro w
          rw [hpost.caps w, hinv.caps w, hinv.t_eq]
          by_cases h1 : w = s
          · by_cases h2 : w = t
            · exact absurd (h1.symm.trans h2) hst
            · rw [if_pos h1, if_neg h2, if_pos h1, if_neg h2, if_pos h1, if_neg h2]
              ring
          · by_cases h2 : w = t
            · rw [if_neg h1, if_pos h2, if_neg h1, if_pos h2, if_neg h1, if_pos h2]
              ring
            · rw [if_neg h1, if_neg h2, if_neg h1, if_neg h2, if_neg h1, if_neg h2]
              ring }
    have hstep : dinic_push (fuel + 1) mf flow =
        if 0 < d then dinic_push fuel mf1 (flow + d) else some (mf1, flow) := by
      rw [dinic_push, hinv.s_eq, hrun]
    by_cases hd : 0 < d
    · have hcs : cap_sum mf1.g s = cap_sum mf.g s - d := by
        rw [hpost.caps s, if_pos rfl, hinv.t_eq, if_neg hst]
        ring
      have hnn := cap_sum_nonneg n es hwf mf1.g hpost.res s
      obtain ⟨mf2, flow2, hrun2, hinv2, hlev2, hle2, _⟩ := dinic_push_spec n es s t g0 hwf hs hst
        fuel mf1 (flow + d) hinv1 (by rw [hpost.level_eq]; exact hlv)
        (by rw [hpost.level_eq]; exact hl0) (by omega)
      refine ⟨mf2, flow2, by rw [hstep, if_pos hd]; exact hrun2, hinv2,
        hlev2.trans hpost.level_eq, by omega, fun _ _ => by omega⟩
    · have hd0 : d = 0 := le_antisymm (not_lt.mp hd) hpost.d_nonneg
      rw [hd0, add_zero] at hinv1
      refine ⟨mf1, flow, by rw [hstep, if_neg hd], hinv1, hpost.level_eq, le_refl _, ?_⟩
      intro hp hcr
      exact absurd hcr (hpost.dead hd0 hp).2

/-- The outer loop of `dinic` returns on `loop_fuel` units of fuel, in a state
whose last `bfs` did not reach `t`. -/
theorem dinic_loop_spec (n : Nat) (es : List (Nat × Nat × Int)) (s t : Nat)
    (g0 : List (List Edge)) (hwf : WellFormedArcs n es) (hs : s < n) (ht : t < n)
    (hst : s ≠ t) :
    ∀ (fuel : Nat) (mf : MaxFlow) (flow : Int),
      DinicInv n es s t g0 mf flow → loop_fuel n es.length (cap_sum mf.g s) ≤ fuel →
      ∃ mf2 flow2, dinic_loop fuel mf flow = some (mf2, flow2) ∧
        DinicInv n es s t g0 mf2 flow2 ∧ FinalLevels n mf2
  | 0, mf, flow, _, hfuel => by
    unfold loop_fuel at hfuel
    omega
  | fuel + 1, mf, flow, hinv, hfuel => by
    unfold loop_fuel at hfuel
    obtain ⟨hpaired, hglen⟩ := paired_of_isResidual n es hwf mf.g hinv.res
    have hto : ∀ v e, e ∈ mf.g.getD v [] → e.to_ < n := by
      intro v e he
      obtain ⟨i, hi⟩ := List.mem_iff_getElem?.mp he
      have := (hpaired v i e hi).2.1
      rw [hglen] at this
      exact this
    obtain ⟨level2, hbfs, hlen2, hsrc2, hclosed2, hpred2, hbound2⟩ := bfs_spec mf n
      hinv.level_len (by rw [hinv.s_eq]; exact hs) hto fuel (by omega)
    rw [hinv.s_eq] at hsrc2 hpred2
    by_cases hreach : 0 ≤ level2.getD mf.t 0
    · have hinv1 : DinicInv n es s t g0
          { mf with level := level2, it := List.replicate mf.it.length 0 } flow :=
        { res := hinv.res, level_len := hlen2, it_len := by simp [hinv.it_len],
          s_eq := hinv.s_eq, t_eq := hinv.t_eq, caps := hinv.caps }
      have hnn := cap_sum_nonneg n es hwf mf.g hinv.res s
      obtain ⟨mf2, flow2, hrun2, hinv2, _, _, hgain⟩ := dinic_push_spec n es s t g0 hwf hs
        hst fuel _ flow hinv1 hbound2 hsrc2 (by
          show n * (es.length + 1) + es.length + 2 + (cap_sum mf.g s).toNat ≤ fuel
          omega)
      have hlt : flow < flow2 := by
        apply hgain
        · exact ptrOk_zero _ _ _ _
        · show CanReach mf.g level2 mf.t s
          exact canReach_of_levels mf.g level2 s mf.t n hglen hpred2
            (by rw [hinv.t_eq]; exact ht) hreach
      have hcs2 : cap_sum mf2.g s = cap_sum mf.g s - (flow2 - flow) := by
        have h1 := hinv2.caps s
        have h2 := hinv.caps s
        rw [if_pos rfl, if_neg hst] at h1 h2
        omega
      have hnn2 := cap_sum_nonneg n es hwf mf2.g hinv2.res s
      obtain ⟨mf3, flow3, hrun3, hinv3, hfin3⟩ := dinic_loop_spec n es s t g0 hwf hs ht hst
        fuel mf2 flow2 hinv2 (by unfold loop_fuel; omega)
      refine ⟨mf3, flow3, ?_, hinv3, hfin3⟩
      rw [dinic_loop, hbfs]
      simp only [decide_eq_true_eq, if_pos hreach, hrun2]
      exact hrun3
    · refine ⟨{ mf with level := level2 }, flow, ?_, ?_, ?_⟩
      · rw [dinic_loop, hbfs]
        simp only [decide_eq_true_eq, if_neg hreach]
      · exact { res := hinv.res, level_len := hlen2, it_len := hinv.it_len,
                s_eq := hinv.s_eq, t_eq := hinv.t_eq, caps := hinv.caps }
      · exact
          { src := by show level2.getD mf.s 0 = 0; rw [hinv.s_eq]; exact hsrc2
            sink := not_le.mp hreach
            closed := hclosed2 }

end xllm_service


namespace xllm_service

/-! ## Flows across a cut -/

theorem outflow_cons (a : FlowEdge) (fs : List FlowEdge) (w : Nat) :
    outflow (a :: fs) w = (if a.u = w then a.x else 0) + outflow fs w := by
  unfold outflow
  simp

theorem inflow_cons (a : FlowEdge) (fs : List FlowEdge) (w : Nat) :
    inflow (a :: fs) w = (if a.v = w then a.x else 0) + inflow fs w := by
  unfold inflow
  simp

theorem outflow_nil (w : Nat) : outflow [] w = 0 := rfl

theorem inflow_nil (w : Nat) : inflow [] w = 0 := rfl

/-- Net flow leaving a set of nodes, counted node by node and arc by arc. -/
theorem net_flow_of_set (n : Nat) (R : Nat → Prop) [DecidablePred R] :
    ∀ (fs : List FlowEdge), (∀ e ∈ fs, e.u < n ∧ e.v < n) →
      (∑ w ∈ Finset.range n, if R w then outflow fs w - inflow fs w else 0) =
        (fs.map (fun e => e.x * ((if R e.u then 1 else 0) - (if R e.v then 1 else 0)))).sum
  | [], _ => by simp [outflow_nil, inflow_nil]
  | a :: fs, h => by
    have ih := net_flow_of_set n R fs (fun e he => h e (List.mem_cons_of_mem _ he))
    obtain ⟨hu, hv⟩ := h a (List.mem_cons_self _ _)
    rw [List.map_cons, List.sum_cons, ← ih]
    have hsplit : ∀ w, (if R w then outflow (a :: fs) w - inflow (a :: fs) w else 0) =
        ((if a.u = w then (if R w then a.x else 0) else 0) -
          (if a.v = w then (if R w then a.x else 0) else 0)) +
        (if R w then outflow fs w - inflow fs w else 0) := by
      intro w
      rw [outflow_cons, inflow_cons]
      by_cases hR : R w
      · simp only [if_pos hR]
        ring
      · simp only [if_neg hR]
        simp
    rw [Finset.sum_congr rfl (fun w _ => hsplit w), Finset.sum_add_distrib,
      Finset.sum_sub_distrib, Finset.sum_ite_eq, Finset.sum_ite_eq,
      if_pos (Finset.mem_range.mpr hu), if_pos (Finset.mem_range.mpr hv)]
    congr 1
    by_cases h1 : R a.u <;> by_cases h2 : R a.v <;> simp [h1, h2]

/-- The value of a flow is the net flow across any cut that separates `s` from `t`. -/
theorem flow_value_eq_cut (n s t : Nat) (es : List (Nat × Nat × Int)) (fs : List FlowEdge)
    (hwf : WellFormedArcs n es) (hflow : IsFlow n s t es fs) (hs : s < n)
    (R : Nat → Prop) [DecidablePred R] (hRs : R s) (hRt : ¬ R t) :
    flow_value fs s =
      (fs.map (fun e => e.x * ((if R e.u then 1 else 0) - (if R e.v then 1 else 0)))).sum := by
  obtain ⟨harc, _, hcons⟩ := hflow
  have harcs : ∀ e ∈ fs, e.u < n ∧ e.v < n := by
    intro e he
    have := arcs_of_wellFormed n fs (by rw [harc]; exact hwf) e he
    exact ⟨this.1, this.2.1⟩
  rw [← net_flow_of_set n R fs harcs]
  rw [Finset.sum_eq_single s]
  · rw [if_pos hRs]
    rfl
  · intro w hw hws
    by_cases hR : R w
    · rw [if_pos hR]
      have hwt : w ≠ t := by
        intro h
        rw [h] at hR
        exact hRt hR
      rw [hcons w (Finset.mem_range.mp hw) hws hwt]
      ring
    · rw [if_neg hR]
  · intro h
    exact absurd (Finset.mem_range.mpr hs) h

/-- Arc by arc, no flow sends more across a cut than a flow that saturates every
arc leaving the source side and leaves every arc entering it empty. -/
theorem cut_sum_le (R : Nat → Prop) [DecidablePred R] :
    ∀ (fs fs2 : List FlowEdge), fs2.map FlowEdge.arc = fs.map FlowEdge.arc →
      (∀ e ∈ fs, (R e.u → e.x < e.c → R e.v) ∧ (R e.v → 0 < e.x → R e.u) ∧
        0 ≤ e.x ∧ e.x ≤ e.c) →
      (∀ e ∈ fs2, 0 ≤ e.x ∧ e.x ≤ e.c) →
      (fs2.map (fun e => e.x * ((if R e.u then 1 else 0) - (if R e.v then 1 else 0)))).sum ≤
        (fs.map (fun e => e.x * ((if R e.u then 1 else 0) - (if R e.v then 1 else 0)))).sum
  | [], [], _, _, _ => le_refl _
  | [], _ :: _, h, _, _ => by simp at h
  | _ :: _, [], h, _, _ => by simp at h
  | a :: fs, b :: fs2, h, hcl, hfl => by
    simp only [List.map_cons, List.cons.injEq] at h
    obtain ⟨hab, hrest⟩ := h
    have ih := cut_sum_le R fs fs2 hrest (fun e he => hcl e (List.mem_cons_of_mem _ he))
      (fun e he => hfl e (List.mem_cons_of_mem _ he))
    obtain ⟨h1, h2, h3, h4⟩ := hcl a (List.mem_cons_self _ _)
    obtain ⟨h5, h6⟩ := hfl b (List.mem_cons_self _ _)
    unfold FlowEdge.arc at hab
    simp only [Prod.mk.injEq] at hab
    obtain ⟨hu, hv, hc⟩ := hab
    rw [List.map_cons, List.sum_cons, List.map_cons, List.sum_cons, hu, hv]
    have hterm : b.x * ((if R a.u then 1 else 0) - (if R a.v then 1 else 0)) ≤
        a.x * ((if R a.u then 1 else 0) - (if R a.v then 1 else 0)) := by
      by_cases hRu : R a.u
      · by_cases hRv : R a.v
        · simp [hRu, hRv]
        · have : ¬ a.x < a.c := fun hlt => hRv (h1 hRu hlt)
          simp only [if_pos hRu, if_neg hRv]
          omega
      · by_cases hRv : R a.v
        · have : ¬ 0 < a.x := fun hlt => hRu (h2 hRv hlt)
          simp only [if_neg hRu, if_pos hRv]
          omega
        · simp [hRu, hRv]
    omega

/-- Weak duality at a saturated cut: a flow whose residual graph has a set of nodes
that contains `s`, not `t`, and is closed under arcs with spare capacity and
under arcs carrying flow backwards, has the largest value of all flows. -/
theorem flow_value_le_of_closed (n s t : Nat) (es : List (Nat × Nat × Int))
    (hwf : WellFormedArcs n es) (hs : s < n) (fs fs2 : List FlowEdge)
    (hflow : IsFlow n s t es fs) (hflow2 : IsFlow n s t es fs2)
    (R : Nat → Prop) [DecidablePred R] (hRs : R s) (hRt : ¬ R t)
    (hcl : ∀ e ∈ fs, (R e.u → e.x < e.c → R e.v) ∧ (R e.v → 0 < e.x → R e.u)) :
    flow_value fs2 s ≤ flow_value fs s := by
  rw [flow_value_eq_cut n s t es fs hwf hflow hs R hRs hRt,
    flow_value_eq_cut n s t es fs2 hwf hflow2 hs R hRs hRt]
  apply cut_sum_le R fs fs2 (by rw [hflow.1, hflow2.1])
  · intro e he
    exact ⟨(hcl e he).1, (hcl e he).2, hflow.2.1 e he⟩
  · exact hflow2.2.1

/-! ## `dinic` computes a maximum flow -/

theorem outflow_zero_flow (es : List (Nat × Nat × Int)) (w : Nat) :
    outflow (es.map (fun e => (⟨e.1, e.2.1, e.2.2, 0⟩ : FlowEdge))) w = 0 := by
  unfold outflow
  rw [List.map_map]
  apply List.sum_eq_zero
  intro x hx
  obtain ⟨e, _, he⟩ := List.mem_map.mp hx
  rw [← he]
  simp

theorem inflow_zero_flow (es : List (Nat × Nat × Int)) (w : Nat) :
    inflow (es.map (fun e => (⟨e.1, e.2.1, e.2.2, 0⟩ : FlowEdge))) w = 0 := by
  unfold inflow
  rw [List.map_map]
  apply List.sum_eq_zero
  intro x hx
  obtain ⟨e, _, he⟩ := List.mem_map.mp hx
  rw [← he]
  simp

theorem cap_sum_build (n s t : Nat) (es : List (Nat × Nat × Int)) (hwf : WellFormedArcs n es)
    (w : Nat) :
    cap_sum (MaxFlow.build n s t es).g w =
      (es.map (fun a => if a.1 = w then a.2.2 else 0)).sum := by
  rw [build_g, cap_sum_residual n _ (by rw [zero_flow_arcs]; exact hwf), outflow_zero_flow,
    inflow_zero_flow, out_capacity_arcs, zero_flow_arcs]
  ring

theorem dinicInv_build (n s t : Nat) (es : List (Nat × Nat × Int)) (hwf : WellFormedArcs n es) :
    DinicInv n es s t (MaxFlow.build n s t es).g (MaxFlow.build n s t es) 0 := by
  obtain ⟨h1, h2, h3, h4⟩ := build_fields n s t es
  refine
    { res := ⟨_, zero_flow_arcs es, ?_, build_g n s t es⟩
      level_len := by rw [h1]; simp
      it_len := by rw [h2]; simp
      s_eq := h3, t_eq := h4
      caps := by intro w; simp }
  intro e he
  obtain ⟨a, ha, hae⟩ := List.mem_map.mp he
  rw [← hae]
  exact ⟨le_refl _, (hwf a ha).2.2.2⟩

/-- The flow read off a state of `dinic`: it is conserved at the inner nodes and
its value is the flow counted so far, at `s` and at `t`. -/
theorem flow_of_dinicInv (n s t : Nat) (es : List (Nat × Nat × Int)) (hwf : WellFormedArcs n es)
    (hst : s ≠ t) (mf : MaxFlow) (flow : Int)
    (hinv : DinicInv n es s t (MaxFlow.build n s t es).g mf flow) :
    ∃ fs, IsFlow n s t es fs ∧ mf.g = residual n fs ∧ flow_value fs s = flow ∧
      inflow fs t - outflow fs t = flow := by
  obtain ⟨fs, harc, hfl, hg⟩ := hinv.res
  have hwf2 : WellFormedArcs n (fs.map FlowEdge.arc) := by rw [harc]; exact hwf
  have hcap : ∀ w, out_capacity fs w - outflow fs w + inflow fs w =
      out_capacity fs w - (if w = s then flow else 0) + (if w = t then flow else 0) := by
    intro w
    have h1 := hinv.caps w
    rw [hg, cap_sum_residual n fs hwf2, cap_sum_build n s t es hwf w] at h1
    rw [h1, out_capacity_arcs, harc]
  refine ⟨fs, ⟨harc, hfl, ?_⟩, hg, ?_, ?_⟩
  · intro w _ hws hwt
    have := hcap w
    rw [if_neg hws, if_neg hwt] at this
    omega
  · have := hcap s
    rw [if_pos rfl, if_neg hst] at this
    unfold flow_value
    omega
  · have := hcap t
    rw [if_neg (fun h => hst h.symm), if_pos rfl] at this
    omega

theorem closed_of_finalLevels (n : Nat) (es : List (Nat × Nat × Int))
    (hwf : WellFormedArcs n es) (mf : MaxFlow) (hfin : FinalLevels n mf)
    (fs : List FlowEdge) (harc : fs.map FlowEdge.arc = es) (hg : mf.g = residual n fs) :
    ∀ e ∈ fs, (0 ≤ mf.level.getD e.u 0 → e.x < e.c → 0 ≤ mf.level.getD e.v 0) ∧
      (0 ≤ mf.level.getD e.v 0 → 0 < e.x → 0 ≤ mf.level.getD e.u 0) := by
  intro e he
  have hwf2 : WellFormedArcs n (fs.map FlowEdge.arc) := by rw [harc]; exact hwf
  obtain ⟨hu, hv, _, _⟩ := arcs_of_wellFormed n fs hwf2 e he
  obtain ⟨⟨e1, he1, hto1, hcap1⟩, ⟨e2, he2, hto2, hcap2⟩⟩ := residual_has_edges n fs hwf2 e he
  rw [← hg] at he1 he2
  constructor
  · intro h0 hlt
    have := hfin.closed e.u hu h0 e1 he1 (by omega)
    rw [hto1] at this
    exact this
  · intro h0 hlt
    have := hfin.closed e.v hv h0 e2 he2 (by omega)
    rw [hto2] at this
    exact this

theorem no_residual_path (n : Nat) (mf : MaxFlow) (hglen : mf.g.length = n)
    (hfin : FinalLevels n mf) : ¬ ResidualPath mf.g mf.s mf.t := by
  have key : ∀ v w, ResidualPath mf.g v w → 0 ≤ mf.level.getD v 0 → 0 ≤ mf.level.getD w 0 := by
    intro v w hp
    induction hp with
    | refl v => exact fun h => h
    | step v w e he hcap _ ih =>
      intro h0
      have hv : v < n := by
        by_contra hnot
        rw [getD_of_length_le mf.g v (by rw [hglen]; exact not_lt.mp hnot)] at he
        simp at he
      exact ih (hfin.closed v hv h0 e he hcap)
  intro hp
  have := key _ _ hp (by rw [hfin.src])
  have h2 := hfin.sink
  omega

/-- Correctness of the engine.  On the graph built by `init(n, s, t)` and the
`add_edge` calls `es` (endpoints in range and distinct, capacities
non-negative, `s != t`), `dinic` returns on `dinic_fuel` units of fuel; the
residual graph it leaves is that of a feasible flow whose value is the number
returned; no feasible flow has a larger value; and `t` cannot be reached from
`s` through edges of positive residual capacity. -/
theorem dinic_max_flow (n s t : Nat) (es : List (Nat × Nat × Int))
    (hwf : WellFormedArcs n es) (hs : s < n) (ht : t < n) (hst : s ≠ t)
    (fuel : Nat) (hfuel : dinic_fuel n es s ≤ fuel) :
    ∃ mf flow fs, (MaxFlow.build n s t es).dinic fuel = some (mf, flow) ∧
      IsFlow n s t es fs ∧ mf.g = residual n fs ∧ flow_value fs s = flow ∧
      inflow fs t - outflow fs t = flow ∧
      (∀ fs2, IsFlow n s t es fs2 → flow_value fs2 s ≤ flow) ∧
      ¬ ResidualPath mf.g s t := by
  obtain ⟨mf, flow, hrun, hinv, hfin⟩ := dinic_loop_spec n es s t (MaxFlow.build n s t es).g hwf
    hs ht hst fuel (MaxFlow.build n s t es) 0 (dinicInv_build n s t es hwf) (by
      rw [cap_sum_build n s t es hwf s]
      exact hfuel)
  obtain ⟨fs, hflow, hg, hval, hvalt⟩ := flow_of_dinicInv n s t es hwf hst mf flow hinv
  refine ⟨mf, flow, fs, hrun, hflow, hg, hval, hvalt, ?_, ?_⟩
  · intro fs2 hflow2
    rw [← hval]
    have hcl := closed_of_finalLevels n es hwf mf hfin fs hflow.1 hg
    have hsrc := hfin.src
    have hsink := hfin.sink
    rw [hinv.s_eq] at hsrc
    rw [hinv.t_eq] at hsink
    exact flow_value_le_of_closed n s t es hwf hs fs fs2 hflow hflow2
      (fun w => 0 ≤ mf.level.getD w 0) (by show 0 ≤ mf.level.getD s 0; rw [hsrc])
      (by show ¬ 0 ≤ mf.level.getD t 0; omega) hcl
  · have := no_residual_path n mf (paired_of_isResidual n es hwf mf.g hinv.res).2 hfin
    rw [hinv.s_eq, hinv.t_eq] at this
    exact this

end xllm_service


namespace xllm_service

/-! ## The maximum flow and the 32-bit value `dinic` returns -/

/-- The flow with nothing on its arcs is feasible. -/
theorem isFlow_zero (n s t : Nat) (es : List (Nat × Nat × Int)) (hwf : WellFormedArcs n es) :
    IsFlow n s t es (es.map (fun e => (⟨e.1, e.2.1, e.2.2, 0⟩ : FlowEdge))) := by
  refine ⟨zero_flow_arcs es, ?_, ?_⟩
  · intro e he
    obtain ⟨a, ha, hae⟩ := List.mem_map.mp he
    rw [← hae]
    exact ⟨le_refl _, (hwf a ha).2.2.2⟩
  · intro w _ _ _
    rw [inflow_zero_flow, outflow_zero_flow]

/-- Correctness of the engine with the `int` result of the source.  On the graph
built by `init(n, s, t)` and the `add_edge` calls `es` (endpoints in range and
distinct, capacities non-negative, `s != t`), `dinic` returns on `dinic_fuel`
units of fuel; the residual graph it leaves is that of a feasible flow of
maximum value, from which `t` cannot be reached from `s` through edges of
positive residual capacity; the number returned is the value of that flow
reduced to 32 bits, the value itself when it is below `2^31`. -/
theorem dinic_int_max_flow (n s t : Nat) (es : List (Nat × Nat × Int))
    (hwf : WellFormedArcs n es) (hs : s < n) (ht : t < n) (hst : s ≠ t)
    (fuel : Nat) (hfuel : dinic_fuel n es s ≤ fuel) :
    ∃ mf flow fs, (MaxFlow.build n s t es).dinic_int fuel = some (mf, flow) ∧
      IsFlow n s t es fs ∧ mf.g = residual n fs ∧
      flow = wrap32 (flow_value fs s) ∧
      (flow_value fs s < 2147483648 → flow_value fs s = flow) ∧
      inflow fs t - outflow fs t = flow_value fs s ∧
      (∀ fs2, IsFlow n s t es fs2 → flow_value fs2 s ≤ flow_value fs s) ∧
      ¬ ResidualPath mf.g s t := by
  obtain ⟨mf, flow, fs, hrun, hflow, hg, hval, hvalt, hmax, hcut⟩ :=
    dinic_max_flow n s t es hwf hs ht hst fuel hfuel
  have h0 : 0 ≤ flow := by
    have := hmax _ (isFlow_zero n s t es hwf)
    unfold flow_value at this
    rw [outflow_zero_flow, inflow_zero_flow] at this
    omega
  refine ⟨mf, wrap32 flow, fs, ?_, hflow, hg, by rw [hval], ?_, by rw [hval]; exact hvalt, ?_,
    hcut⟩
  · rw [dinic_int_eq, hrun]
    rfl
  · intro hlt
    rw [hval] at hlt ⊢
    exact (wrap32_of_fits flow (by omega) hlt).symm
  · intro fs2 h2
    rw [hval]
    exact hmax fs2 h2

end xllm_service


namespace xllm_service

/-! ## The numbering of the source NPUs -/

theorem mem_of_getElem?_some {α : Type} (l : List α) (i : Nat) (a : α) (h : l[i]? = some a) :
    a ∈ l :=
  List.mem_iff_getElem?.mpr ⟨i, h⟩

theorem lt_length_of_getElem?_some_gen {α : Type} (l : List α) (i : Nat) (a : α)
    (h : l[i]? = some a) : i < l.length := by
  by_contra hge
  rw [List.getElem?_eq_none (not_lt.mp hge)] at h
  exact Option.noConfusion h

/-- Invariant of the index-building loop: the numbered NPUs are distinct and
`npu_to_idx` maps each of them to its position in `npu_index_map`. -/
theorem register_npu_inv (st : List (GlobalNpu × Nat) × List GlobalNpu) (gn0 : GlobalNpu)
    (hnd : st.2.Nodup)
    (hidx : ∀ gn j, st.1.lookup gn = some j ↔ st.2[j]? = some gn) :
    (register_npu st gn0).2.Nodup ∧
    (∀ gn j, (register_npu st gn0).1.lookup gn = some j ↔
      (register_npu st gn0).2[j]? = some gn) ∧
    gn0 ∈ (register_npu st gn0).2 ∧ ∀ gn ∈ st.2, gn ∈ (register_npu st gn0).2 := by
  unfold register_npu
  cases hl : st.1.lookup gn0 with
  | some j =>
    refine ⟨hnd, hidx, ?_, fun gn h => h⟩
    exact mem_of_getElem?_some _ _ _ ((hidx gn0 j).mp hl)
  | none =>
    have hnot : gn0 ∉ st.2 := by
      intro hmem
      obtain ⟨j, hj⟩ := List.mem_iff_getElem?.mp hmem
      rw [(hidx gn0 j).mpr hj] at hl
      exact Option.noConfusion hl
    refine ⟨?_, ?_, by simp, fun gn h => List.mem_append_left _ h⟩
    · rw [List.nodup_append]
      refine ⟨hnd, List.nodup_singleton _, ?_⟩
      intro x hx hx2
      rw [List.mem_singleton.mp hx2] at hx
      exact hnot hx
    · intro gn j
      dsimp only
      rw [List.lookup_cons]
      by_cases hg : gn = gn0
      · subst hg
        simp only [beq_self_eq_true, Option.some.injEq]
        constructor
        · intro h
          rw [← h]
          exact List.getElem?_append_right (le_refl _) ▸ by simp
        · intro h
          rw [List.getElem?_append] at h
          by_cases hj : j < st.2.length
          · rw [if_pos hj] at h
            exact absurd (mem_of_getElem?_some _ _ _ h) hnot
          · rw [if_neg hj] at h
            have : j - st.2.length < 1 := by
              by_contra hge
              rw [List.getElem?_eq_none (by rw [List.length_singleton]; omega)] at h
              exact Option.noConfusion h
            omega
      · have hb : (gn == gn0) = false := by simpa using hg
        rw [hb]
        dsimp only
        rw [hidx gn j, List.getElem?_append]
        by_cases hj : j < st.2.length
        · rw [if_pos hj]
        · rw [if_neg hj, List.getElem?_eq_none (not_lt.mp hj)]
          constructor
          · intro h
            exact Option.noConfusion h
          · intro h
            have hm := mem_of_getElem?_some _ _ _ h
            rw [List.mem_singleton] at hm
            exact absurd hm hg

theorem register_fold_inv :
    ∀ (sources : List GlobalNpu) (st : List (GlobalNpu × Nat) × List GlobalNpu),
      st.2.Nodup → (∀ gn j, st.1.lookup gn = some j ↔ st.2[j]? = some gn) →
      (sources.foldl register_npu st).2.Nodup ∧
      (∀ gn j, (sources.foldl register_npu st).1.lookup gn = some j ↔
        (sources.foldl register_npu st).2[j]? = some gn) ∧
      (∀ gn ∈ sources, gn ∈ (sources.foldl register_npu st).2) ∧
      ∀ gn ∈ st.2, gn ∈ (sources.foldl register_npu st).2
  | [], st, hnd, hidx => ⟨hnd, hidx, fun gn h => by simp at h, fun gn h => h⟩
  | gn0 :: rest, st, hnd, hidx => by
    obtain ⟨h1, h2, h3, h4⟩ := register_npu_inv st gn0 hnd hidx
    obtain ⟨k1, k2, k3, k4⟩ := register_fold_inv rest (register_npu st gn0) h1 h2
    rw [List.foldl_cons]
    refine ⟨k1, k2, ?_, fun gn h => k4 gn (h4 gn h)⟩
    intro gn hgn
    rcases List.mem_cons.mp hgn with h | h
    · rw [h]
      exact k4 gn0 h3
    · exact k3 gn h

theorem index_fold_inv :
    ∀ (rep : ExpertReplicaMap) (st : List (GlobalNpu × Nat) × List GlobalNpu),
      st.2.Nodup → (∀ gn j, st.1.lookup gn = some j ↔ st.2[j]? = some gn) →
      (rep.foldl (fun st kv => kv.2.foldl register_npu st) st).2.Nodup ∧
      (∀ gn j, (rep.foldl (fun st kv => kv.2.foldl register_npu st) st).1.lookup gn = some j ↔
        (rep.foldl (fun st kv => kv.2.foldl register_npu st) st).2[j]? = some gn) ∧
      (∀ kv ∈ rep, ∀ gn ∈ kv.2,
        gn ∈ (rep.foldl (fun st kv => kv.2.foldl register_npu st) st).2) ∧
      ∀ gn ∈ st.2, gn ∈ (rep.foldl (fun st kv => kv.2.foldl register_npu st) st).2
  | [], st, hnd, hidx => ⟨hnd, hidx, fun kv h => by simp at h, fun gn h => h⟩
  | kv0 :: rest, st, hnd, hidx => by
    obtain ⟨h1, h2, h3, h4⟩ := register_fold_inv kv0.2 st hnd hidx
    obtain ⟨k1, k2, k3, k4⟩ := index_fold_inv rest (kv0.2.foldl register_npu st) h1 h2
    rw [List.foldl_cons]
    refine ⟨k1, k2, ?_, fun gn h => k4 gn (h4 gn h)⟩
    intro kv hkv gn hgn
    rcases List.mem_cons.mp hkv with h | h
    · rw [h] at hgn
      exact k4 gn (h3 gn hgn)
    · exact k3 kv h gn hgn

/-- The numbering built by `feasible`: the numbered NPUs are distinct,
`npu_to_idx` is the inverse of `npu_index_map`, and every replica of every
expert is numbered. -/
theorem npu_index_ok (rep : ExpertReplicaMap) :
    (npu_map rep).Nodup ∧
    (∀ gn j, (build_npu_index rep).1.lookup gn = some j ↔ (npu_map rep)[j]? = some gn) ∧
    ∀ kv ∈ rep, ∀ gn ∈ kv.2, gn ∈ npu_map rep := by
  obtain ⟨h1, h2, h3, _⟩ := index_fold_inv rep ([], []) List.nodup_nil (by
    intro gn j
    simp)
  exact ⟨h1, h2, h3⟩

theorem mem_of_lookup {β : Type} :
    ∀ (l : List (Int × β)) (k : Int) (v : β), l.lookup k = some v → (k, v) ∈ l
  | [], _, _, h => by simp at h
  | (k0, v0) :: rest, k, v, h => by
    rw [List.lookup_cons] at h
    by_cases hk : k = k0
    · subst hk
      simp only [beq_self_eq_true, Option.some.injEq] at h
      rw [h]
      exact List.mem_cons_self _ _
    · have hb : (k == k0) = false := by simpa using hk
      rw [hb] at h
      exact List.mem_cons_of_mem _ (mem_of_lookup rest k v h)

theorem replica_numbered (rep : ExpertReplicaMap) (e : Int) (gn : GlobalNpu)
    (h : gn ∈ replicas_of rep e) : gn ∈ npu_map rep := by
  unfold replicas_of at h
  cases hl : rep.lookup e with
  | none => rw [hl] at h; simp at h
  | some sources =>
    rw [hl] at h
    exact (npu_index_ok rep).2.2 (e, sources) (mem_of_lookup rep e sources hl) gn h

theorem npu_idx_spec (rep : ExpertReplicaMap) (gn : GlobalNpu) (h : gn ∈ npu_map rep) :
    (npu_map rep)[npu_idx rep gn]? = some gn := by
  obtain ⟨j, hj⟩ := List.mem_iff_getElem?.mp h
  have := ((npu_index_ok rep).2.1 gn j).mpr hj
  unfold npu_idx
  rw [this]
  exact hj

theorem npu_idx_lt (rep : ExpertReplicaMap) (gn : GlobalNpu) (h : gn ∈ npu_map rep) :
    npu_idx rep gn < (npu_map rep).length :=
  lt_length_of_getElem?_some_gen _ _ _ (npu_idx_spec rep gn h)

theorem npu_idx_of_getElem? (rep : ExpertReplicaMap) (gn : GlobalNpu) (j : Nat)
    (h : (npu_map rep)[j]? = some gn) : npu_idx rep gn = j := by
  have := ((npu_index_ok rep).2.1 gn j).mpr h
  unfold npu_idx
  rw [this]
  rfl

/-! ## The graph of `feasible` as a sequence of `add_edge` calls -/

theorem add_request_eq (rep : ExpertReplicaMap) (m t : Nat) (mf : MaxFlow) (ie : Nat × Int) :
    add_request rep (build_npu_index rep).1 1 (1 + m) t mf ie =
      (slot_arcs rep m t ie.1 ie.2).foldl
        (fun (mf : MaxFlow) (e : Nat × Nat × Int) => mf.add_edge e.1 e.2.1 e.2.2) mf := by
  unfold add_request slot_arcs replicas_of
  rw [List.foldl_append, List.foldl_map]
  cases hl : rep.lookup ie.2 with
  | none => rfl
  | some sources => rfl

theorem enum_fold_eq (rep : ExpertReplicaMap) (m t : Nat) :
    ∀ (required : List Int) (i : Nat) (mf : MaxFlow),
      (required.enumFrom i).foldl (add_request rep (build_npu_index rep).1 1 (1 + m) t) mf =
        (req_arcs rep m t i required).foldl
          (fun (mf : MaxFlow) (e : Nat × Nat × Int) => mf.add_edge e.1 e.2.1 e.2.2) mf
  | [], _, _ => rfl
  | e :: rest, i, mf => by
    rw [List.enumFrom_cons, List.foldl_cons, req_arcs, List.foldl_append,
      enum_fold_eq rep m t rest (i + 1), add_request_eq]

/-- The graph `feasible` hands to `dinic` is the graph built by `init` and the
`add_edge` calls `feas_arcs`. -/
theorem feasible_graph_eq (K : Int) (required : List Int) (rep : ExpertReplicaMap) :
    feasible_graph K required rep =
      MaxFlow.build (sink_node required rep + 1) 0 (sink_node required rep)
        (feas_arcs K required rep) := by
  unfold feasible_graph MaxFlow.build feas_arcs sink_node npu_map
  dsimp only
  rw [List.foldl_append, List.foldl_map, List.enum, enum_fold_eq]

/-! ## The arcs of the graph of `feasible` -/

theorem mem_slot_arcs (rep : ExpertReplicaMap) (m t i : Nat) (e : Int) (a : Nat × Nat × Int) :
    a ∈ slot_arcs rep m t i e ↔
      (∃ gn ∈ replicas_of rep e, a = (1 + npu_idx rep gn, 1 + m + i, (1 : Int))) ∨
        a = (1 + m + i, t, 1) := by
  unfold slot_arcs
  simp only [List.mem_append, List.mem_map, List.mem_singleton]
  constructor
  · rintro (⟨gn, hgn, h⟩ | h)
    · exact Or.inl ⟨gn, hgn, h.symm⟩
    · exact Or.inr h
  · rintro (⟨gn, hgn, h⟩ | h)
    · exact Or.inl ⟨gn, hgn, h.symm⟩
    · exact Or.inr h

theorem mem_req_arcs (rep : ExpertReplicaMap) (m t : Nat) (a : Nat × Nat × Int) :
    ∀ (required : List Int) (i : Nat),
      a ∈ req_arcs rep m t i required ↔
        ∃ j e, required[j]? = some e ∧ a ∈ slot_arcs rep m t (i + j) e
  | [], i => by simp [req_arcs]
  | e0 :: rest, i => by
    rw [req_arcs, List.mem_append, mem_req_arcs rep m t a rest (i + 1)]
    constructor
    · rintro (h | ⟨j, e, hj, h⟩)
      · exact ⟨0, e0, by simp, h⟩
      · refine ⟨j + 1, e, by simpa using hj, ?_⟩
        have : i + (j + 1) = i + 1 + j := by omega
        rw [this]
        exact h
    · rintro ⟨j, e, hj, h⟩
      cases j with
      | zero =>
        left
        simp only [List.getElem?_cons_zero, Option.some.injEq] at hj
        rw [hj]
        exact h
      | succ j =>
        right
        refine ⟨j, e, by simpa using hj, ?_⟩
        have : i + (j + 1) = i + 1 + j := by omega
        rw [← this]
        exact h

/-- The three kinds of arcs of the graph of `feasible`: `S -> npu_i` with capacity
`K`, `npu -> req_j` with capacity 1 for every replica of the expert of slot `j`,
and `req_j -> T` with capacity 1. -/
theorem mem_feas_arcs (K : Int) (required : List Int) (rep : ExpertReplicaMap)
    (a : Nat × Nat × Int) :
    a ∈ feas_arcs K required rep ↔
      (∃ i, i < (npu_map rep).length ∧ a = (0, 1 + i, K)) ∨
      (∃ j e gn, required[j]? = some e ∧ gn ∈ replicas_of rep e ∧
        a = (1 + npu_idx rep gn, 1 + (npu_map rep).length + j, (1 : Int))) ∨
      (∃ j, j < required.length ∧
        a = (1 + (npu_map rep).length + j, sink_node required rep, (1 : Int))) := by
  unfold feas_arcs
  rw [List.mem_append, mem_req_arcs]
  simp only [List.mem_map, List.mem_range, mem_slot_arcs, zero_add]
  constructor
  · rintro (⟨i, hi, h⟩ | ⟨j, e, hj, (⟨gn, hgn, h⟩ | h)⟩)
    · exact Or.inl ⟨i, hi, h.symm⟩
    · exact Or.inr (Or.inl ⟨j, e, gn, hj, hgn, h⟩)
    · exact Or.inr (Or.inr ⟨j, lt_length_of_getElem?_some_gen _ _ _ hj, h⟩)
  · rintro (⟨i, hi, h⟩ | ⟨j, e, gn, hj, hgn, h⟩ | ⟨j, hj, h⟩)
    · exact Or.inl ⟨i, hi, h.symm⟩
    · exact Or.inr ⟨j, e, hj, Or.inl ⟨gn, hgn, h⟩⟩
    · exact Or.inr ⟨j, required[j], List.getElem?_eq_getElem hj, Or.inr h⟩

theorem wellFormed_feas_arcs (K : Int) (hK : 0 ≤ K) (required : List Int)
    (rep : ExpertReplicaMap) :
    WellFormedArcs (sink_node required rep + 1) (feas_arcs K required rep) := by
  intro a ha
  rcases (mem_feas_arcs K required rep a).mp ha with
    ⟨i, hi, h⟩ | ⟨j, e, gn, hj, hgn, h⟩ | ⟨j, hj, h⟩
  · subst h
    unfold sink_node
    dsimp only
    refine ⟨by omega, by omega, by omega, hK⟩
  · subst h
    have h1 := npu_idx_lt rep gn (replica_numbered rep e gn hgn)
    have h2 := lt_length_of_getElem?_some_gen _ _ _ hj
    unfold sink_node
    dsimp only
    refine ⟨by omega, by omega, by omega, by decide⟩
  · subst h
    unfold sink_node
    dsimp only
    refine ⟨by omega, by omega, by omega, by decide⟩

theorem countP_sink_req_arcs (rep : ExpertReplicaMap) (m t : Nat) :
    ∀ (required : List Int) (i : Nat), 1 + m + i + required.length ≤ t →
      (req_arcs rep m t i required).countP (fun a => decide (a.2.1 = t)) = required.length
  | [], _, _ => rfl
  | e :: rest, i, h => by
    rw [List.length_cons] at h
    rw [req_arcs, List.countP_append, countP_sink_req_arcs rep m t rest (i + 1) (by omega)]
    unfold slot_arcs
    rw [List.countP_append, List.countP_map]
    have h0 : List.countP ((fun a : Nat × Nat × Int => decide (a.2.1 = t)) ∘
        fun gn => (1 + npu_idx rep gn, 1 + m + i, (1 : Int))) (replicas_of rep e) = 0 := by
      rw [List.countP_eq_zero]
      intro gn _
      simp only [Function.comp, decide_eq_true_eq]
      omega
    rw [h0]
    simp
    omega

theorem countP_sink_feas_arcs (K : Int) (required : List Int) (rep : ExpertReplicaMap) :
    (feas_arcs K required rep).countP (fun a => decide (a.2.1 = sink_node required rep)) =
      required.length := by
  unfold feas_arcs
  rw [List.countP_append, List.countP_map]
  have h0 : List.countP ((fun a : Nat × Nat × Int => decide (a.2.1 = sink_node required rep)) ∘
      fun i => (0, 1 + i, K)) (List.range (npu_map rep).length) = 0 := by
    rw [List.countP_eq_zero]
    intro i hi
    have := List.mem_range.mp hi
    simp only [Function.comp, decide_eq_true_eq]
    unfold sink_node
    omega
  rw [h0, zero_add]
  exact countP_sink_req_arcs rep _ _ required 0 (by unfold sink_node; omega)

theorem countP_npu_feas_arcs (K : Int) (required : List Int) (rep : ExpertReplicaMap) (i : Nat)
    (hi : i < (npu_map rep).length) :
    (feas_arcs K required rep).countP (fun a => decide (a.2.1 = 1 + i)) ≤ 1 := by
  unfold feas_arcs
  rw [List.countP_append, List.countP_map]
  have h0 : (req_arcs rep (npu_map rep).length (1 + (npu_map rep).length + required.length) 0
      required).countP (fun a => decide (a.2.1 = 1 + i)) = 0 := by
    rw [List.countP_eq_zero]
    intro a ha
    obtain ⟨j, e, hj, hs⟩ := (mem_req_arcs rep _ _ a required 0).mp ha
    simp only [decide_eq_true_eq]
    rcases (mem_slot_arcs rep _ _ _ e a).mp hs with ⟨gn, _, h⟩ | h
    · rw [h]
      dsimp only
      omega
    · rw [h]
      dsimp only
      omega
  have h1 : List.countP ((fun a : Nat × Nat × Int => decide (a.2.1 = 1 + i)) ∘
      fun i => (0, 1 + i, K)) (List.range (npu_map rep).length) ≤ 1 := by
    have hc : List.countP ((fun a : Nat × Nat × Int => decide (a.2.1 = 1 + i)) ∘
        fun i => (0, 1 + i, K)) (List.range (npu_map rep).length) =
        (List.range (npu_map rep).length).count i := by
      rw [List.count]
      apply List.countP_congr
      intro x _
      simp only [Function.comp, decide_eq_true_eq, beq_iff_eq]
      omega
    rw [hc]
    exact List.nodup_iff_count_le_one.mp (List.nodup_range _) i
  omega

end xllm_service


namespace xllm_service

/-! ## Sums of flow over selected arcs -/

theorem sel_sum_le_count (P : FlowEdge → Prop) [DecidablePred P] (B : Int) :
    ∀ (fs : List FlowEdge), (∀ e ∈ fs, P e → e.x ≤ B) →
      (fs.map (fun e => if P e then e.x else 0)).sum ≤ B * (fs.countP (fun e => decide (P e)))
  | [], _ => by simp
  | a :: fs, h => by
    have ih := sel_sum_le_count P B fs (fun e he => h e (List.mem_cons_of_mem _ he))
    rw [List.map_cons, List.sum_cons, List.countP_cons]
    by_cases hP : P a
    · have := h a (List.mem_cons_self _ _) hP
      simp only [if_pos hP, decide_eq_true_eq, Nat.cast_add, Nat.cast_one]
      rw [mul_add, mul_one]
      omega
    · simp only [if_neg hP, decide_eq_true_eq, Nat.cast_add, Nat.cast_zero, add_zero, zero_add]
      exact ih

theorem sel_sum_nonneg (P : FlowEdge → Prop) [DecidablePred P] (fs : List FlowEdge)
    (h : ∀ e ∈ fs, 0 ≤ e.x) : 0 ≤ (fs.map (fun e => if P e then e.x else 0)).sum := by
  apply List.sum_nonneg
  intro y hy
  obtain ⟨e, he, hye⟩ := List.mem_map.mp hy
  rw [← hye]
  split
  · exact h e he
  · exact le_refl _

theorem le_sel_sum_of_mem (P : FlowEdge → Prop) [DecidablePred P] :
    ∀ (fs : List FlowEdge) (e0 : FlowEdge), (∀ e ∈ fs, 0 ≤ e.x) → e0 ∈ fs → P e0 →
      e0.x ≤ (fs.map (fun e => if P e then e.x else 0)).sum
  | [], _, _, h, _ => by simp at h
  | a :: fs, e0, hnn, hmem, hP => by
    have hnn2 : ∀ e ∈ fs, 0 ≤ e.x := fun e he => hnn e (List.mem_cons_of_mem _ he)
    rw [List.map_cons, List.sum_cons]
    rcases List.mem_cons.mp hmem with h | h
    · rw [← h, if_pos hP]
      have := sel_sum_nonneg P fs hnn2
      omega
    · have ih := le_sel_sum_of_mem P fs e0 hnn2 h hP
      have h0 : (0 : Int) ≤ if P a then a.x else 0 := by
        split
        · exact hnn a (List.mem_cons_self _ _)
        · exact le_refl _
      omega

theorem exists_of_sel_sum_pos (P : FlowEdge → Prop) [DecidablePred P] :
    ∀ (fs : List FlowEdge), 0 < (fs.map (fun e => if P e then e.x else 0)).sum →
      ∃ e ∈ fs, P e ∧ 0 < e.x
  | [], h => by simp at h
  | a :: fs, h => by
    rw [List.map_cons, List.sum_cons] at h
    by_cases ha : P a ∧ 0 < a.x
    · exact ⟨a, List.mem_cons_self _ _, ha⟩
    · have h1 : (if P a then a.x else 0) ≤ 0 := by
        by_cases hP : P a
        · rw [if_pos hP]
          exact not_lt.mp (fun hx => ha ⟨hP, hx⟩)
        · rw [if_neg hP]
      obtain ⟨e, he, hPe⟩ := exists_of_sel_sum_pos P fs (by omega)
      exact ⟨e, List.mem_cons_of_mem _ he, hPe⟩

/-- A sum of selected amounts, none above 1, one of them at most 0, stays below
the number of selected arcs. -/
theorem sel_sum_lt_count (P : FlowEdge → Prop) [DecidablePred P] :
    ∀ (fs : List FlowEdge) (e0 : FlowEdge), (∀ e ∈ fs, P e → e.x ≤ 1) → e0 ∈ fs → P e0 →
      e0.x ≤ 0 →
      (fs.map (fun e => if P e then e.x else 0)).sum + 1 ≤ (fs.countP (fun e => decide (P e)))
  | [], _, _, h, _, _ => by simp at h
  | a :: fs, e0, hle, hmem, hP, h0 => by
    have hle2 : ∀ e ∈ fs, P e → e.x ≤ 1 := fun e he => hle e (List.mem_cons_of_mem _ he)
    rw [List.map_cons, List.sum_cons, List.countP_cons]
    rcases List.mem_cons.mp hmem with h | h
    · have hc := sel_sum_le_count P 1 fs hle2
      rw [← h]
      simp only [if_pos hP, decide_eq_true_eq, Nat.cast_add, Nat.cast_one]
      omega
    · have ih := sel_sum_lt_count P fs e0 hle2 h hP h0
      by_cases hPa : P a
      · have := hle a (List.mem_cons_self _ _) hPa
        simp only [if_pos hPa, decide_eq_true_eq, Nat.cast_add, Nat.cast_one]
        omega
      · simp only [if_neg hPa, decide_eq_true_eq, Nat.cast_add, Nat.cast_zero]
        omega

theorem countP_arc (Q : Nat × Nat × Int → Bool) (fs : List FlowEdge) :
    fs.countP (fun e => Q (e.u, e.v, e.c)) = (fs.map FlowEdge.arc).countP Q := by
  rw [List.countP_map]
  rfl

theorem inflow_eq_sel (fs : List FlowEdge) (w : Nat) :
    inflow fs w = (fs.map (fun e => if e.v = w then e.x else 0)).sum := rfl

theorem outflow_eq_sel (fs : List FlowEdge) (w : Nat) :
    outflow fs w = (fs.map (fun e => if e.u = w then e.x else 0)).sum := rfl

/-! ## Flows on the graph of `feasible` -/

theorem sum_eq_zero_of_forall (fs : List FlowEdge) (F : FlowEdge → Int)
    (h : ∀ e ∈ fs, F e = 0) : (fs.map F).sum = 0 := by
  apply List.sum_eq_zero
  intro y hy
  obtain ⟨e, he, hye⟩ := List.mem_map.mp hy
  rw [← hye]
  exact h e he

theorem arc_mem_of_flow {n s t : Nat} {es : List (Nat × Nat × Int)} {fs : List FlowEdge}
    (hflow : IsFlow n s t es fs) (e : FlowEdge) (he : e ∈ fs) : (e.u, e.v, e.c) ∈ es := by
  rw [← hflow.1]
  exact List.mem_map_of_mem FlowEdge.arc he

theorem flow_mem_of_arc {n s t : Nat} {es : List (Nat × Nat × Int)} {fs : List FlowEdge}
    (hflow : IsFlow n s t es fs) (a : Nat × Nat × Int) (ha : a ∈ es) :
    ∃ e ∈ fs, e.u = a.1 ∧ e.v = a.2.1 ∧ e.c = a.2.2 := by
  rw [← hflow.1] at ha
  obtain ⟨e, he, hea⟩ := List.mem_map.mp ha
  refine ⟨e, he, ?_, ?_, ?_⟩ <;> rw [← hea] <;> rfl

/-- No arc of the graph of `feasible` leaves the sink. -/
theorem outflow_sink_zero (K : Int) (required : List Int) (rep : ExpertReplicaMap)
    (fs : List FlowEdge)
    (hflow : IsFlow (sink_node required rep + 1) 0 (sink_node required rep)
      (feas_arcs K required rep) fs) :
    outflow fs (sink_node required rep) = 0 := by
  apply sum_eq_zero_of_forall
  intro e he
  have hne : ¬ e.u = sink_node required rep := by
    intro hu
    rcases (mem_feas_arcs K required rep _).mp (arc_mem_of_flow hflow e he) with
      ⟨i, hi, h⟩ | ⟨j, e2, gn, hj, hgn, h⟩ | ⟨j, hj, h⟩
    · simp only [Prod.mk.injEq] at h
      unfold sink_node at hu
      omega
    · simp only [Prod.mk.injEq] at h
      have h1 := npu_idx_lt rep gn (replica_numbered rep e2 gn hgn)
      unfold sink_node at hu
      omega
    · simp only [Prod.mk.injEq] at h
      unfold sink_node at hu h
      omega
  rw [if_neg hne]

/-- An NPU node receives at most `K` units: its only incoming arc is `S -> npu`. -/
theorem inflow_npu_le (K : Int) (hK : 0 ≤ K) (required : List Int) (rep : ExpertReplicaMap)
    (fs : List FlowEdge)
    (hflow : IsFlow (sink_node required rep + 1) 0 (sink_node required rep)
      (feas_arcs K required rep) fs) (i : Nat) (hi : i < (npu_map rep).length) :
    inflow fs (1 + i) ≤ K := by
  rw [inflow_eq_sel]
  have h1 : (fs.map (fun e => if e.v = 1 + i then e.x else 0)).sum ≤
      K * ((fs.countP (fun e => decide (e.v = 1 + i)) : Nat) : Int) :=
    sel_sum_le_count (fun e => e.v = 1 + i) K fs (by
    intro e he hv
    rcases (mem_feas_arcs K required rep _).mp (arc_mem_of_flow hflow e he) with
      ⟨i2, hi2, h⟩ | ⟨j, e2, gn, hj, hgn, h⟩ | ⟨j, hj, h⟩
    · simp only [Prod.mk.injEq] at h
      rw [← h.2.2]
      exact (hflow.2.1 e he).2
    · simp only [Prod.mk.injEq] at h
      omega
    · simp only [Prod.mk.injEq] at h
      unfold sink_node at h
      omega)
  have h2 : fs.countP (fun e => decide (e.v = 1 + i)) ≤ 1 := by
    have h : fs.countP (fun e => decide (e.v = 1 + i)) =
        (fs.map FlowEdge.arc).countP (fun a => decide (a.2.1 = 1 + i)) :=
      countP_arc (fun a => decide (a.2.1 = 1 + i)) fs
    rw [h, hflow.1]
    exact countP_npu_feas_arcs K required rep i hi
  have h3 : K * ((fs.countP (fun e => decide (e.v = 1 + i)) : Nat) : Int) ≤ K * 1 :=
    Int.mul_le_mul_of_nonneg_left (by omega) hK
  omega

/-- The flow leaving an NPU node is at most `K`. -/
theorem outflow_npu_le (K : Int) (hK : 0 ≤ K) (required : List Int) (rep : ExpertReplicaMap)
    (fs : List FlowEdge)
    (hflow : IsFlow (sink_node required rep + 1) 0 (sink_node required rep)
      (feas_arcs K required rep) fs) (i : Nat) (hi : i < (npu_map rep).length) :
    outflow fs (1 + i) ≤ K := by
  rw [← hflow.2.2 (1 + i) (by unfold sink_node; omega) (by omega) (by unfold sink_node; omega)]
  exact inflow_npu_le K hK required rep fs hflow i hi

theorem sink_arc_flow (K : Int) (required : List Int) (rep : ExpertReplicaMap)
    (fs : List FlowEdge)
    (hflow : IsFlow (sink_node required rep + 1) 0 (sink_node required rep)
      (feas_arcs K required rep) fs) (j : Nat) (hj : j < required.length) :
    ∃ e ∈ fs, e.u = 1 + (npu_map rep).length + j ∧ e.v = sink_node required rep ∧ e.c = 1 := by
  obtain ⟨e, he, h1, h2, h3⟩ := flow_mem_of_arc hflow
    (1 + (npu_map rep).length + j, sink_node required rep, (1 : Int))
    ((mem_feas_arcs K required rep _).mpr (Or.inr (Or.inr ⟨j, hj, rfl⟩)))
  exact ⟨e, he, h1, h2, h3⟩

theorem sink_sel_le_one (K : Int) (required : List Int) (rep : ExpertReplicaMap)
    (fs : List FlowEdge)
    (hflow : IsFlow (sink_node required rep + 1) 0 (sink_node required rep)
      (feas_arcs K required rep) fs) :
    ∀ e ∈ fs, e.v = sink_node required rep → e.x ≤ 1 := by
  intro e he hv
  have hc : e.c = 1 := by
    rcases (mem_feas_arcs K required rep _).mp (arc_mem_of_flow hflow e he) with
      ⟨i2, hi2, h⟩ | ⟨j, e2, gn, hj, hgn, h⟩ | ⟨j, hj, h⟩
    · simp only [Prod.mk.injEq] at h
      unfold sink_node at hv
      omega
    · simp only [Prod.mk.injEq] at h
      exact h.2.2
    · simp only [Prod.mk.injEq] at h
      exact h.2.2
  have := (hflow.2.1 e he).2
  omega

theorem countP_sink_flow (K : Int) (required : List Int) (rep : ExpertReplicaMap)
    (fs : List FlowEdge)
    (hflow : IsFlow (sink_node required rep + 1) 0 (sink_node required rep)
      (feas_arcs K required rep) fs) :
    fs.countP (fun e => decide (e.v = sink_node required rep)) = required.length := by
  have h : fs.countP (fun e => decide (e.v = sink_node required rep)) =
      (fs.map FlowEdge.arc).countP (fun a => decide (a.2.1 = sink_node required rep)) :=
    countP_arc (fun a => decide (a.2.1 = sink_node required rep)) fs
  rw [h, hflow.1]
  exact countP_sink_feas_arcs K required rep

/-- When the flow into the sink is `|required|`, every request node receives a
unit of flow along one of its incoming arcs. -/
theorem slot_served (K : Int) (required : List Int) (rep : ExpertReplicaMap)
    (fs : List FlowEdge)
    (hflow : IsFlow (sink_node required rep + 1) 0 (sink_node required rep)
      (feas_arcs K required rep) fs)
    (hfull : (required.length : Int) ≤ inflow fs (sink_node required rep))
    (j : Nat) (hj : j < required.length) :
    ∃ a ∈ fs, a.v = 1 + (npu_map rep).length + j ∧ 0 < a.x := by
  obtain ⟨e, he, hu, hv, _⟩ := sink_arc_flow K required rep fs hflow j hj
  have hnn : ∀ e ∈ fs, 0 ≤ e.x := fun e he => (hflow.2.1 e he).1
  have hx : 0 < e.x := by
    by_contra hle
    have := sel_sum_lt_count (fun e => e.v = sink_node required rep) fs e
      (sink_sel_le_one K required rep fs hflow) he hv (not_lt.mp hle)
    rw [countP_sink_flow K required rep fs hflow, ← inflow_eq_sel] at this
    omega
  have hout : e.x ≤ outflow fs (1 + (npu_map rep).length + j) :=
    le_sel_sum_of_mem (fun e => e.u = 1 + (npu_map rep).length + j) fs e hnn he hu
  have hcons := hflow.2.2 (1 + (npu_map rep).length + j) (by unfold sink_node; omega)
    (by omega) (by unfold sink_node; omega)
  have hin : 0 < inflow fs (1 + (npu_map rep).length + j) := by omega
  rw [inflow_eq_sel] at hin
  exact exists_of_sel_sum_pos _ fs hin

/-- When some request slot has no replica, less than `|required|` units reach the
sink. -/
theorem inflow_sink_lt (K : Int) (required : List Int) (rep : ExpertReplicaMap)
    (fs : List FlowEdge)
    (hflow : IsFlow (sink_node required rep + 1) 0 (sink_node required rep)
      (feas_arcs K required rep) fs)
    (j : Nat) (e0 : Int) (hj : required[j]? = some e0) (hnone : replicas_of rep e0 = []) :
    inflow fs (sink_node required rep) < required.length := by
  have hjlt := lt_length_of_getElem?_some_gen _ _ _ hj
  obtain ⟨e, he, hu, hv, _⟩ := sink_arc_flow K required rep fs hflow j hjlt
  have hnn : ∀ e ∈ fs, 0 ≤ e.x := fun e he => (hflow.2.1 e he).1
  have hin : inflow fs (1 + (npu_map rep).length + j) = 0 := by
    apply sum_eq_zero_of_forall
    intro a ha
    have hne : ¬ a.v = 1 + (npu_map rep).length + j := by
      intro hav
      rcases (mem_feas_arcs K required rep _).mp (arc_mem_of_flow hflow a ha) with
        ⟨i2, hi2, h⟩ | ⟨j2, e2, gn, hj2, hgn, h⟩ | ⟨j2, hj2, h⟩
      · simp only [Prod.mk.injEq] at h
        omega
      · simp only [Prod.mk.injEq] at h
        have hjj : j2 = j := by omega
        rw [hjj, hj] at hj2
        rw [← Option.some.inj hj2, hnone] at hgn
        simp at hgn
      · simp only [Prod.mk.injEq] at h
        unfold sink_node at h
        omega
    rw [if_neg hne]
  have hcons := hflow.2.2 (1 + (npu_map rep).length + j) (by unfold sink_node; omega)
    (by omega) (by unfold sink_node; omega)
  have hout : e.x ≤ outflow fs (1 + (npu_map rep).length + j) :=
    le_sel_sum_of_mem (fun e => e.u = 1 + (npu_map rep).length + j) fs e hnn he hu
  have := sel_sum_lt_count (fun e => e.v = sink_node required rep) fs e
    (sink_sel_le_one K required rep fs hflow) he hv (by omega)
  rw [countP_sink_flow K required rep fs hflow, ← inflow_eq_sel] at this
  omega

/-! ## Reading the plan off the residual graph -/

/-- A step found by `extract_step` names an NPU node of the graph that stores an
edge into the request node with residual capacity 0. -/
theorem extract_step_some (mf : MaxFlow) (N : List GlobalNpu) (rq : Nat) (eid : Int) :
    ∀ (l : List Edge) (st : Step), extract_step mf N 1 rq eid l = some st →
      st.expert_id = eid ∧ ∃ u, 1 ≤ u ∧ u < 1 + N.length ∧ st.src = N.getD (u - 1) ⟨"", 0⟩ ∧
        ∃ fe ∈ mf.g.getD u [], fe.to_ = rq ∧ fe.cap = 0
  | [], st, h => by simp [extract_step] at h
  | edge :: rest, st, h => by
    rw [extract_step] at h
    split at h
    · rename_i hc
      obtain ⟨h1, h2, h3⟩ := hc
      rw [List.any_eq_true] at h3
      obtain ⟨fe, hfe, hcond⟩ := h3
      simp only [Bool.and_eq_true, beq_iff_eq] at hcond
      rw [← Option.some.inj h]
      exact ⟨rfl, edge.to_, h1, h2, rfl, fe, hfe, hcond.1, hcond.2⟩
    · exact extract_step_some mf N rq eid rest st h

/-- `extract_step` finds a step as soon as the scanned list has an edge to an NPU
node that stores a saturated edge into the request node. -/
theorem extract_step_isSome (mf : MaxFlow) (N : List GlobalNpu) (rq : Nat) (eid : Int) :
    ∀ (l : List Edge), (∃ edge ∈ l, 1 ≤ edge.to_ ∧ edge.to_ < 1 + N.length ∧
        ∃ fe ∈ mf.g.getD edge.to_ [], fe.to_ = rq ∧ fe.cap = 0) →
      ∃ st, extract_step mf N 1 rq eid l = some st
  | [], h => by
    obtain ⟨edge, hmem, _⟩ := h
    simp at hmem
  | edge :: rest, h => by
    rw [extract_step]
    split
    · exact ⟨_, rfl⟩
    · rename_i hc
      apply extract_step_isSome mf N rq eid rest
      obtain ⟨edge2, hmem, h1, h2, fe, hfe, hto, hcap⟩ := h
      rcases List.mem_cons.mp hmem with heq | hmem2
      · exfalso
        apply hc
        rw [← heq]
        refine ⟨h1, h2, ?_⟩
        rw [List.any_eq_true]
        exact ⟨fe, hfe, by simp [hto, hcap]⟩
      · exact ⟨edge2, hmem2, h1, h2, fe, hfe, hto, hcap⟩

/-- In the residual graph of a flow on the graph of `feasible`, a saturated edge
from an NPU node into the node of slot `j` is the arc of a replica of the expert
of slot `j`, and it carries one unit. -/
theorem saturated_replica (K : Int) (hK : 0 ≤ K) (required : List Int)
    (rep : ExpertReplicaMap) (fs : List FlowEdge)
    (hflow : IsFlow (sink_node required rep + 1) 0 (sink_node required rep)
      (feas_arcs K required rep) fs)
    (u j : Nat) (hu1 : 1 ≤ u) (hu2 : u < 1 + (npu_map rep).length) (fe : Edge)
    (hfe : fe ∈ (residual (sink_node required rep + 1) fs).getD u [])
    (hto : fe.to_ = 1 + (npu_map rep).length + j) (hcap : fe.cap = 0) :
    ∃ a ∈ fs, a.u = u ∧ a.v = 1 + (npu_map rep).length + j ∧ a.x = 1 ∧
      ∃ e gn, required[j]? = some e ∧ gn ∈ replicas_of rep e ∧ u = 1 + npu_idx rep gn := by
  have hwf := wellFormed_feas_arcs K hK required rep
  obtain ⟨a, ha, hcase⟩ := mem_residual_cases _ fs (by rw [hflow.1]; exact hwf) u fe hfe
  have harc := (mem_feas_arcs K required rep _).mp (arc_mem_of_flow hflow a ha)
  rcases hcase with ⟨hau, hav, hac⟩ | ⟨hav, hau, _⟩
  · rw [hto] at hav
    rcases harc with ⟨i2, hi2, h⟩ | ⟨j2, e2, gn, hj2, hgn, h⟩ | ⟨j2, hj2, h⟩
    · simp only [Prod.mk.injEq] at h
      omega
    · simp only [Prod.mk.injEq] at h
      have hjj : j2 = j := by omega
      subst hjj
      refine ⟨a, ha, hau, hav.symm, by omega, e2, gn, hj2, hgn, by omega⟩
    · simp only [Prod.mk.injEq] at h
      omega
  · rw [hto] at hau
    exfalso
    rcases harc with ⟨i2, hi2, h⟩ | ⟨j2, e2, gn, hj2, hgn, h⟩ | ⟨j2, hj2, h⟩
    · simp only [Prod.mk.injEq] at h
      omega
    · simp only [Prod.mk.injEq] at h
      omega
    · simp only [Prod.mk.injEq] at h
      unfold sink_node at h
      omega

/-- The step `extract_plan` emits for slot `j`: its expert is the expert of the
slot, its source is one of the replicas of that expert, and the arc from that
source into the slot carries a unit of flow. -/
theorem slot_step_valid (K : Int) (hK : 0 ≤ K) (required : List Int)
    (rep : ExpertReplicaMap) (fs : List FlowEdge) (mf : MaxFlow)
    (hflow : IsFlow (sink_node required rep + 1) 0 (sink_node required rep)
      (feas_arcs K required rep) fs)
    (hg : mf.g = residual (sink_node required rep + 1) fs)
    (j : Nat) (eid : Int) (l : List Edge) (st : Step)
    (hst : extract_step mf (npu_map rep) 1 (1 + (npu_map rep).length + j) eid l = some st) :
    st.expert_id = eid ∧
    (∃ e, required[j]? = some e ∧ st.src ∈ replicas_of rep e) ∧
    ∃ a ∈ fs, a.u = 1 + npu_idx rep st.src ∧ a.v = 1 + (npu_map rep).length + j ∧ a.x = 1 := by
  obtain ⟨h1, u, hu1, hu2, hsrc, fe, hfe, hto, hcap⟩ := extract_step_some mf _ _ eid l st hst
  rw [hg] at hfe
  obtain ⟨a, ha, hau, hav, hax, e, gn, hj, hgn, hu⟩ :=
    saturated_replica K hK required rep fs hflow u j hu1 hu2 fe hfe hto hcap
  have hgnN := replica_numbered rep e gn hgn
  have hsrc2 : st.src = gn := by
    rw [hsrc, hu]
    have : 1 + npu_idx rep gn - 1 = npu_idx rep gn := by omega
    rw [this, List.getD_eq_getElem?_getD, npu_idx_spec rep gn hgnN]
    rfl
  refine ⟨h1, ⟨e, hj, by rw [hsrc2]; exact hgn⟩, a, ha, by rw [hsrc2, hau, hu], hav, hax⟩

/-- With `|required|` units reaching the sink, `extract_plan` finds a step for
every slot. -/
theorem slot_step_exists (K : Int) (hK : 0 ≤ K) (required : List Int)
    (rep : ExpertReplicaMap) (fs : List FlowEdge) (mf : MaxFlow)
    (hflow : IsFlow (sink_node required rep + 1) 0 (sink_node required rep)
      (feas_arcs K required rep) fs)
    (hg : mf.g = residual (sink_node required rep + 1) fs)
    (hfull : (required.length : Int) ≤ inflow fs (sink_node required rep))
    (j : Nat) (hj : j < required.length) (eid : Int) :
    ∃ st, extract_step mf (npu_map rep) 1 (1 + (npu_map rep).length + j) eid
      (mf.g.getD (1 + (npu_map rep).length + j) []) = some st := by
  have hwf := wellFormed_feas_arcs K hK required rep
  obtain ⟨a, ha, hav, hax⟩ := slot_served K required rep fs hflow hfull j hj
  have harc := (mem_feas_arcs K required rep _).mp (arc_mem_of_flow hflow a ha)
  have hau : 1 ≤ a.u ∧ a.u < 1 + (npu_map rep).length ∧ a.c = 1 := by
    rcases harc with ⟨i2, hi2, h⟩ | ⟨j2, e2, gn, hj2, hgn, h⟩ | ⟨j2, hj2, h⟩
    · simp only [Prod.mk.injEq] at h
      omega
    · simp only [Prod.mk.injEq] at h
      have := npu_idx_lt rep gn (replica_numbered rep e2 gn hgn)
      omega
    · simp only [Prod.mk.injEq] at h
      unfold sink_node at h
      omega
  have hbound := hflow.2.1 a ha
  obtain ⟨⟨e1, he1, hto1, hcap1⟩, ⟨e2, he2, hto2, _⟩⟩ :=
    residual_has_edges _ fs (by rw [hflow.1]; exact hwf) a ha
  apply extract_step_isSome
  rw [hg]
  refine ⟨e2, by rw [← hav]; exact he2, by rw [hto2]; exact hau.1, by rw [hto2]; exact hau.2.1,
    e1, by rw [hto2]; exact he1, by rw [hto1, hav], by omega⟩

theorem sel_sum_split (fs : List FlowEdge) (u c : Nat) :
    (fs.map (fun e => if e.u = u ∧ c ≤ e.v then e.x else 0)).sum =
      (fs.map (fun e => if e.u = u ∧ e.v = c then e.x else 0)).sum +
        (fs.map (fun e => if e.u = u ∧ c + 1 ≤ e.v then e.x else 0)).sum := by
  rw [← List.sum_map_add]
  congr 1
  apply List.map_congr_left
  intro e _
  by_cases h1 : e.u = u
  · by_cases h2 : e.v = c
    · have h3 : ¬ (c + 1 ≤ e.v) := by omega
      have h4 : c ≤ e.v := by omega
      simp [h1, h2, h3]
    · by_cases h3 : c + 1 ≤ e.v
      · have h4 : c ≤ e.v := by omega
        simp [h1, h2, h3, h4]
      · have h4 : ¬ c ≤ e.v := by omega
        simp [h1, h2, h3, h4]
  · simp [h1]

/-- The plan read off the residual graph of a flow on the graph of `feasible`,
from slot `i` on: sources are replicas, the steps whose source is a given NPU
node are covered by the flow that node sends to those slots, and if the flow
into the sink is `|required|` there is one step per slot, in order. -/
theorem extract_loop_spec (K : Int) (hK : 0 ≤ K) (required : List Int)
    (rep : ExpertReplicaMap) (fs : List FlowEdge) (mf : MaxFlow)
    (hflow : IsFlow (sink_node required rep + 1) 0 (sink_node required rep)
      (feas_arcs K required rep) fs)
    (hg : mf.g = residual (sink_node required rep + 1) fs) (u : Nat) :
    ∀ (rest : List Int) (i : Nat), (∀ k, rest[k]? = required[i + k]?) →
      (∀ st ∈ extract_loop mf (npu_map rep) 1 (1 + (npu_map rep).length) i rest,
        st.src ∈ replicas_of rep st.expert_id) ∧
      ((extract_loop mf (npu_map rep) 1 (1 + (npu_map rep).length) i rest).countP
          (fun st => decide (1 + npu_idx rep st.src = u)) : Int) ≤
        (fs.map (fun e =>
          if e.u = u ∧ 1 + (npu_map rep).length + i ≤ e.v then e.x else 0)).sum ∧
      ((required.length : Int) ≤ inflow fs (sink_node required rep) →
        (extract_loop mf (npu_map rep) 1 (1 + (npu_map rep).length) i rest).map
          Step.expert_id = rest)
  | [], i, _ => by
    refine ⟨fun st h => by simp [extract_loop] at h, ?_, fun _ => rfl⟩
    simp only [extract_loop, List.countP_nil, Nat.cast_zero]
    exact sel_sum_nonneg _ fs (fun e he => (hflow.2.1 e he).1)
  | eid :: rest, i, hrest => by
    have hnn : ∀ e ∈ fs, 0 ≤ e.x := fun e he => (hflow.2.1 e he).1
    obtain ⟨ih1, ih2, ih3⟩ := extract_loop_spec K hK required rep fs mf hflow hg u rest (i + 1)
      (by
        intro k
        have := hrest (k + 1)
        rw [List.getElem?_cons_succ] at this
        rw [this]
        congr 1
        omega)
    have hi : required[i]? = some eid := by
      have := hrest 0
      simpa using this.symm
    have hsplit := sel_sum_split fs u (1 + (npu_map rep).length + i)
    rw [show 1 + (npu_map rep).length + i + 1 = 1 + (npu_map rep).length + (i + 1) by omega]
      at hsplit
    have hfirst : 0 ≤ (fs.map (fun e =>
        if e.u = u ∧ e.v = 1 + (npu_map rep).length + i then e.x else 0)).sum :=
      sel_sum_nonneg (fun e => e.u = u ∧ e.v = 1 + (npu_map rep).length + i) fs hnn
    rw [extract_loop]
    cases hst : extract_step mf (npu_map rep) 1 (1 + (npu_map rep).length + i) eid
        (mf.g.getD (1 + (npu_map rep).length + i) []) with
    | none =>
      dsimp only
      refine ⟨ih1, by omega, ?_⟩
      intro hfull
      exfalso
      obtain ⟨st, hsome⟩ := slot_step_exists K hK required rep fs mf hflow hg hfull i
        (lt_length_of_getElem?_some_gen _ _ _ hi) eid
      rw [hsome] at hst
      exact Option.noConfusion hst
    | some st =>
      dsimp only
      obtain ⟨hv1, ⟨e, he, hsrc⟩, a, ha, hau, hav, hax⟩ :=
        slot_step_valid K hK required rep fs mf hflow hg i eid _ st hst
      have hee : e = eid := by
        rw [hi] at he
        exact (Option.some.inj he).symm
      refine ⟨?_, ?_, ?_⟩
      · intro st2 hst2
        rcases List.mem_cons.mp hst2 with h | h
        · rw [h, hv1, ← hee]
          exact hsrc
        · exact ih1 st2 h
      · rw [List.countP_cons]
        by_cases hu : 1 + npu_idx rep st.src = u
        · have hge : a.x ≤ (fs.map (fun e =>
              if e.u = u ∧ e.v = 1 + (npu_map rep).length + i then e.x else 0)).sum :=
            le_sel_sum_of_mem (fun e => e.u = u ∧ e.v = 1 + (npu_map rep).length + i) fs a hnn
              ha ⟨by rw [hau, hu], hav⟩
          simp only [hu, decide_True, if_true, Nat.cast_add, Nat.cast_one]
          omega
        · simp only [hu, decide_False, Bool.false_eq_true, if_false, Nat.cast_add,
            Nat.cast_zero, add_zero]
          omega
      · intro hfull
        rw [List.map_cons, hv1, ih3 hfull]

/-- The plan `extract_plan` reads off the residual graph of a flow on the graph of
`feasible` for bound `K`: every source is a replica of the expert of its step,
no source occurs more than `K` times, and when the flow into the sink is
`|required|` the experts of the steps are `required`, in order. -/
theorem plan_of_flow (K : Int) (hK : 0 ≤ K) (required : List Int)
    (rep : ExpertReplicaMap) (fs : List FlowEdge) (mf : MaxFlow)
    (hflow : IsFlow (sink_node required rep + 1) 0 (sink_node required rep)
      (feas_arcs K required rep) fs)
    (hg : mf.g = residual (sink_node required rep + 1) fs) :
    (∀ st ∈ extract_plan mf (npu_map rep) required 1 (1 + (npu_map rep).length),
      st.src ∈ replicas_of rep st.expert_id) ∧
    (∀ gn, (((extract_plan mf (npu_map rep) required 1 (1 + (npu_map rep).length)).map
      Step.src).count gn : Int) ≤ K) ∧
    ((required.length : Int) ≤ inflow fs (sink_node required rep) →
      (extract_plan mf (npu_map rep) required 1 (1 + (npu_map rep).length)).map
        Step.expert_id = required) := by
  unfold extract_plan
  have hall := fun u => extract_loop_spec K hK required rep fs mf hflow hg u required 0
    (by intro k; rw [Nat.zero_add])
  refine ⟨(hall 0).1, ?_, (hall 0).2.2⟩
  intro gn
  by_cases hmem : gn ∈ npu_map rep
  · obtain ⟨_, hcount, _⟩ := hall (1 + npu_idx rep gn)
    have hle : (fs.map (fun e =>
        if e.u = 1 + npu_idx rep gn ∧ 1 + (npu_map rep).length + 0 ≤ e.v then e.x else 0)).sum ≤
        outflow fs (1 + npu_idx rep gn) := by
      rw [outflow_eq_sel]
      apply List.sum_le_sum
      intro e he
      have := (hflow.2.1 e he).1
      by_cases h1 : e.u = 1 + npu_idx rep gn ∧ 1 + (npu_map rep).length + 0 ≤ e.v
      · rw [if_pos h1, if_pos h1.1]
      · rw [if_neg h1]
        split
        · exact this
        · exact le_refl _
    have hout := outflow_npu_le K hK required rep fs hflow (npu_idx rep gn)
      (npu_idx_lt rep gn hmem)
    have hmono : ((extract_loop mf (npu_map rep) 1 (1 + (npu_map rep).length) 0 required).map
        Step.src).count gn ≤
        (extract_loop mf (npu_map rep) 1 (1 + (npu_map rep).length) 0 required).countP
          (fun st => decide (1 + npu_idx rep st.src = 1 + npu_idx rep gn)) := by
      rw [List.count, List.countP_map]
      apply List.countP_mono_left
      intro st _ h
      simp only [Function.comp, beq_iff_eq] at h
      simp [h]
    omega
  · have h0 : ((extract_loop mf (npu_map rep) 1 (1 + (npu_map rep).length) 0 required).map
        Step.src).count gn = 0 := by
      rw [List.count_eq_zero]
      intro hin
      obtain ⟨st, hst, hsrc⟩ := List.mem_map.mp hin
      apply hmem
      rw [← hsrc]
      exact replica_numbered rep _ _ ((hall 0).1 st hst)
    rw [h0]
    exact hK

end xllm_service


namespace xllm_service

/-! ## The flow of an assignment -/

theorem inflow_append (fs gs : List FlowEdge) (w : Nat) :
    inflow (fs ++ gs) w = inflow fs w + inflow gs w := by
  unfold inflow
  rw [List.map_append, List.sum_append]

theorem outflow_append (fs gs : List FlowEdge) (w : Nat) :
    outflow (fs ++ gs) w = outflow fs w + outflow gs w := by
  unfold outflow
  rw [List.map_append, List.sum_append]

theorem mark_flow_arcs (rep : ExpertReplicaMap) (v : Nat) (a : GlobalNpu) :
    ∀ (l : List GlobalNpu),
      (mark_flow rep v a l).map FlowEdge.arc = l.map (fun gn => (1 + npu_idx rep gn, v, (1 : Int)))
  | [] => rfl
  | gn :: rest => by
    rw [mark_flow]
    split
    · rw [List.map_cons, List.map_cons, List.map_map]
      rfl
    · rw [List.map_cons, List.map_cons, mark_flow_arcs rep v a rest]
      rfl

theorem mark_flow_bounds (rep : ExpertReplicaMap) (v : Nat) (a : GlobalNpu) :
    ∀ (l : List GlobalNpu), ∀ e ∈ mark_flow rep v a l, 0 ≤ e.x ∧ e.x ≤ e.c
  | [], e, h => by simp [mark_flow] at h
  | gn :: rest, e, h => by
    rw [mark_flow] at h
    split at h
    · rcases List.mem_cons.mp h with h | h
      · rw [h]
        exact ⟨by dsimp only; omega, by dsimp only; omega⟩
      · obtain ⟨g, _, hg⟩ := List.mem_map.mp h
        rw [← hg]
        exact ⟨by dsimp only; omega, by dsimp only; omega⟩
    · rcases List.mem_cons.mp h with h | h
      · rw [h]
        exact ⟨by dsimp only; omega, by dsimp only; omega⟩
      · exact mark_flow_bounds rep v a rest e h

theorem inflow_zero_map (rep : ExpertReplicaMap) (v w : Nat) (l : List GlobalNpu) :
    inflow (l.map (fun g => (⟨1 + npu_idx rep g, v, 1, 0⟩ : FlowEdge))) w = 0 := by
  apply sum_eq_zero_of_forall
  intro e he
  obtain ⟨g, _, hg⟩ := List.mem_map.mp he
  rw [← hg]
  simp

theorem outflow_zero_map (rep : ExpertReplicaMap) (v w : Nat) (l : List GlobalNpu) :
    outflow (l.map (fun g => (⟨1 + npu_idx rep g, v, 1, 0⟩ : FlowEdge))) w = 0 := by
  apply sum_eq_zero_of_forall
  intro e he
  obtain ⟨g, _, hg⟩ := List.mem_map.mp he
  rw [← hg]
  simp

theorem inflow_mark_flow (rep : ExpertReplicaMap) (v w : Nat) (a : GlobalNpu) :
    ∀ (l : List GlobalNpu),
      inflow (mark_flow rep v a l) w = if v = w ∧ a ∈ l then 1 else 0
  | [] => by simp [mark_flow, inflow_nil]
  | gn :: rest => by
    rw [mark_flow]
    by_cases hg : gn = a
    · rw [if_pos hg, inflow_cons, inflow_zero_map]
      simp [hg]
    · rw [if_neg hg, inflow_cons, inflow_mark_flow rep v w a rest]
      have : a ∈ gn :: rest ↔ a ∈ rest := by
        rw [List.mem_cons]
        constructor
        · rintro (h | h)
          · exact absurd h.symm hg
          · exact h
        · exact fun h => Or.inr h
      simp [this]

theorem outflow_mark_flow (rep : ExpertReplicaMap) (v w : Nat) (a : GlobalNpu) :
    ∀ (l : List GlobalNpu),
      outflow (mark_flow rep v a l) w = if 1 + npu_idx rep a = w ∧ a ∈ l then 1 else 0
  | [] => by simp [mark_flow, outflow_nil]
  | gn :: rest => by
    rw [mark_flow]
    by_cases hg : gn = a
    · rw [if_pos hg, outflow_cons, outflow_zero_map]
      simp [hg]
    · rw [if_neg hg, outflow_cons, outflow_mark_flow rep v w a rest]
      have : a ∈ gn :: rest ↔ a ∈ rest := by
        rw [List.mem_cons]
        constructor
        · rintro (h | h)
          · exact absurd h.symm hg
          · exact h
        · exact fun h => Or.inr h
      simp [this]

theorem slot_flow_arcs (rep : ExpertReplicaMap) (m t i : Nat) (e : Int) (a : GlobalNpu) :
    (slot_flow rep m t i e a).map FlowEdge.arc = slot_arcs rep m t i e := by
  unfold slot_flow slot_arcs
  rw [List.map_append, mark_flow_arcs]
  rfl

theorem inflow_slot_flow (rep : ExpertReplicaMap) (m t i : Nat) (e : Int) (a : GlobalNpu)
    (w : Nat) (ha : a ∈ replicas_of rep e) :
    inflow (slot_flow rep m t i e a) w =
      (if 1 + m + i = w then 1 else 0) + (if t = w then 1 else 0) := by
  unfold slot_flow
  rw [inflow_append, inflow_mark_flow, inflow_cons, inflow_nil]
  simp [ha]

theorem outflow_slot_flow (rep : ExpertReplicaMap) (m t i : Nat) (e : Int) (a : GlobalNpu)
    (w : Nat) (ha : a ∈ replicas_of rep e) :
    outflow (slot_flow rep m t i e a) w =
      (if 1 + npu_idx rep a = w then 1 else 0) + (if 1 + m + i = w then 1 else 0) := by
  unfold slot_flow
  rw [outflow_append, outflow_mark_flow, outflow_cons, outflow_nil]
  simp [ha]

theorem req_flow_arcs (rep : ExpertReplicaMap) (m t : Nat) :
    ∀ (required : List Int) (A : List GlobalNpu) (i : Nat), A.length = required.length →
      (req_flow rep m t i required A).map FlowEdge.arc = req_arcs rep m t i required
  | [], [], _, _ => rfl
  | [], _ :: _, _, h => by simp at h
  | _ :: _, [], _, h => by simp at h
  | e :: rest, a :: more, i, h => by
    rw [req_flow, req_arcs, List.map_append, slot_flow_arcs,
      req_flow_arcs rep m t rest more (i + 1) (by simpa using h)]

theorem req_flow_bounds (rep : ExpertReplicaMap) (m t : Nat) :
    ∀ (required : List Int) (A : List GlobalNpu) (i : Nat),
      ∀ x ∈ req_flow rep m t i required A, 0 ≤ x.x ∧ x.x ≤ x.c
  | [], _, _, x, h => by simp [req_flow] at h
  | _ :: _, [], _, x, h => by simp [req_flow] at h
  | e :: rest, a :: more, i, x, h => by
    rw [req_flow] at h
    rcases List.mem_append.mp h with h | h
    · unfold slot_flow at h
      rcases List.mem_append.mp h with h | h
      · exact mark_flow_bounds rep _ a _ x h
      · rw [List.mem_singleton.mp h]
        exact ⟨by dsimp only; omega, by dsimp only; omega⟩
    · exact req_flow_bounds rep m t rest more (i + 1) x h

/-- What the flow of an assignment does at a node, slot by slot: every slot
brings one unit into its request node and one into the sink, and takes one
unit out of the NPU node of its source and one out of its request node. -/
theorem req_flow_sums (rep : ExpertReplicaMap) (m t : Nat) (w : Nat) :
    ∀ (required : List Int) (A : List GlobalNpu) (i : Nat),
      (∀ p ∈ required.zip A, p.2 ∈ replicas_of rep p.1) → A.length = required.length →
      inflow (req_flow rep m t i required A) w =
        (if 1 + m + i ≤ w ∧ w < 1 + m + i + required.length then 1 else 0) +
          (if t = w then (required.length : Int) else 0) ∧
      outflow (req_flow rep m t i required A) w =
        (A.countP (fun a => decide (1 + npu_idx rep a = w)) : Int) +
          (if 1 + m + i ≤ w ∧ w < 1 + m + i + required.length then 1 else 0)
  | [], [], i, _, _ => by
    have h0 : ¬ (1 + m + i ≤ w ∧ w < 1 + m + i + ([] : List Int).length) := by
      rw [List.length_nil]
      omega
    rw [if_neg h0]
    simp [req_flow, inflow_nil, outflow_nil]
  | [], _ :: _, _, _, h => by simp at h
  | _ :: _, [], _, _, h => by simp at h
  | e :: rest, a :: more, i, hA, hlen => by
    have ha : a ∈ replicas_of rep e := hA (e, a) (by simp)
    obtain ⟨ih1, ih2⟩ := req_flow_sums rep m t w rest more (i + 1)
      (fun p hp => hA p (by
        rw [List.zip_cons_cons]
        exact List.mem_cons_of_mem _ hp))
      (by simpa using hlen)
    rw [req_flow, inflow_append, outflow_append, inflow_slot_flow rep m t i e a w ha,
      outflow_slot_flow rep m t i e a w ha, ih1, ih2, List.length_cons, List.countP_cons]
    simp only [decide_eq_true_eq]
    constructor
    · split_ifs <;> push_cast <;> omega
    · split_ifs <;> push_cast <;> omega

theorem sum_range_single (F : Nat → Int) (i0 : Nat) :
    ∀ (m : Nat), ((List.range m).map (fun i => if i = i0 then F i else 0)).sum =
      if i0 < m then F i0 else 0
  | 0 => by simp
  | m + 1 => by
    rw [List.range_succ, List.map_append, List.sum_append, sum_range_single F i0 m]
    simp only [List.map_cons, List.map_nil, List.sum_cons, List.sum_nil, add_zero]
    by_cases h1 : i0 < m
    · have h2 : ¬ m = i0 := by omega
      rw [if_pos h1, if_neg h2, if_pos (by omega)]
      ring
    · by_cases h2 : m = i0
      · rw [if_neg h1, if_pos h2, if_pos (by omega), h2]
        ring
      · rw [if_neg h1, if_neg h2, if_neg (by omega)]
        ring

theorem mem_assignment (rep : ExpertReplicaMap) :
    ∀ (required : List Int) (A : List GlobalNpu),
      (∀ p ∈ required.zip A, p.2 ∈ replicas_of rep p.1) → A.length = required.length →
      ∀ a ∈ A, a ∈ npu_map rep
  | [], [], _, _, a, h => by simp at h
  | [], _ :: _, _, h, _, _ => by simp at h
  | _ :: _, [], _, h, _, _ => by simp at h
  | e :: rest, a0 :: more, hA, hlen, a, h => by
    rcases List.mem_cons.mp h with h | h
    · rw [h]
      exact replica_numbered rep e a0 (hA (e, a0) (by simp))
    · exact mem_assignment rep rest more
        (fun p hp => hA p (by
          rw [List.zip_cons_cons]
          exact List.mem_cons_of_mem _ hp))
        (by simpa using hlen) a h

theorem inflow_source_arcs (K : Int) (m : Nat) (F : Nat → Int) (w : Nat) :
    inflow ((List.range m).map (fun i => (⟨0, 1 + i, K, F i⟩ : FlowEdge))) w =
      if 1 ≤ w ∧ w ≤ m then F (w - 1) else 0 := by
  unfold inflow
  rw [List.map_map]
  have hfun : ((fun e : FlowEdge => if e.v = w then e.x else 0) ∘
      fun i => (⟨0, 1 + i, K, F i⟩ : FlowEdge)) =
      fun i => if i = w - 1 then (if 1 ≤ w then F i else 0) else 0 := by
    funext i
    simp only [Function.comp]
    by_cases h1 : 1 ≤ w
    · by_cases h2 : i = w - 1
      · rw [if_pos h2, if_pos h1, if_pos (by omega)]
      · rw [if_neg h2, if_neg (by omega)]
    · have h3 : ¬ 1 + i = w := by omega
      rw [if_neg h3]
      split <;> simp [h1]
  rw [hfun, sum_range_single (fun i => if 1 ≤ w then F i else 0) (w - 1) m]
  by_cases h1 : 1 ≤ w
  · by_cases h2 : w ≤ m
    · rw [if_pos (by omega), if_pos h1, if_pos ⟨h1, h2⟩]
    · have h3 : ¬ (1 ≤ w ∧ w ≤ m) := fun h => h2 h.2
      rw [if_neg (by omega), if_neg h3]
  · have h3 : ¬ (1 ≤ w ∧ w ≤ m) := fun h => h1 h.1
    rw [if_neg h3, if_neg h1]
    split <;> rfl

theorem outflow_source_arcs (K : Int) (m : Nat) (F : Nat → Int) (w : Nat) (hw : w ≠ 0) :
    outflow ((List.range m).map (fun i => (⟨0, 1 + i, K, F i⟩ : FlowEdge))) w = 0 := by
  apply sum_eq_zero_of_forall
  intro e he
  obtain ⟨i, _, hi⟩ := List.mem_map.mp he
  rw [← hi]
  have : ¬ 0 = w := fun h => hw h.symm
  simp [this]

theorem count_of_index (rep : ExpertReplicaMap) (A : List GlobalNpu)
    (hmem : ∀ a ∈ A, a ∈ npu_map rep) (i0 : Nat) (hi : i0 < (npu_map rep).length) :
    A.countP (fun a => decide (1 + npu_idx rep a = 1 + i0)) =
      A.count ((npu_map rep).getD i0 ⟨"", 0⟩) := by
  rw [List.count]
  apply List.countP_congr
  intro a ha
  have hspec := npu_idx_spec rep a (hmem a ha)
  simp only [decide_eq_true_eq, beq_iff_eq]
  constructor
  · intro h
    have h2 : npu_idx rep a = i0 := by omega
    rw [h2] at hspec
    rw [List.getD_eq_getElem?_getD, hspec]
    rfl
  · intro h
    have h2 : (npu_map rep)[i0]? = some a := by
      rw [List.getElem?_eq_getElem hi, h, List.getD_eq_getElem _ _ hi]
    rw [npu_idx_of_getElem? rep a i0 h2]

/-- An assignment that loads no source NPU more than `K` times gives a feasible
flow on the graph of `feasible` for bound `K` that brings `|required|` units
into the sink. -/
theorem assignment_flow_spec (K : Int) (required : List Int) (rep : ExpertReplicaMap)
    (A : List GlobalNpu) (hA : ValidAssignment required rep A)
    (hK : ∀ gn, (A.count gn : Int) ≤ K) :
    IsFlow (sink_node required rep + 1) 0 (sink_node required rep) (feas_arcs K required rep)
      (assignment_flow K required rep A) ∧
    inflow (assignment_flow K required rep A) (sink_node required rep) -
      outflow (assignment_flow K required rep A) (sink_node required rep) = required.length := by
  obtain ⟨hlen, hzip⟩ := hA
  have hmem := mem_assignment rep required A hzip hlen
  have hsums := fun w => req_flow_sums rep (npu_map rep).length (sink_node required rep) w
    required A 0 hzip hlen
  have hcount0 : ∀ w, (npu_map rep).length < w →
      A.countP (fun a => decide (1 + npu_idx rep a = w)) = 0 := by
    intro w hw
    rw [List.countP_eq_zero]
    intro a ha
    have := npu_idx_lt rep a (hmem a ha)
    simp only [decide_eq_true_eq]
    omega
  refine ⟨⟨?_, ?_, ?_⟩, ?_⟩
  · unfold assignment_flow feas_arcs
    rw [List.map_append, List.map_map, req_flow_arcs rep _ _ required A 0 hlen]
    rfl
  · intro e he
    unfold assignment_flow at he
    rcases List.mem_append.mp he with h | h
    · obtain ⟨i, _, hi⟩ := List.mem_map.mp h
      rw [← hi]
      exact ⟨Int.natCast_nonneg _, hK _⟩
    · exact req_flow_bounds rep _ _ required A 0 e h
  · intro w hw hw0 hwt
    unfold assignment_flow
    rw [inflow_append, outflow_append, inflow_source_arcs, outflow_source_arcs _ _ _ _ hw0,
      (hsums w).1, (hsums w).2]
    unfold sink_node at hw hwt ⊢
    by_cases hnpu : w ≤ (npu_map rep).length
    · have hc := count_of_index rep A hmem (w - 1) (by omega)
      rw [show 1 + (w - 1) = w by omega] at hc
      rw [hc, if_pos ⟨by omega, hnpu⟩, if_neg (by omega), if_neg (by omega)]
      ring
    · rw [hcount0 w (by omega), if_neg (fun h => hnpu h.2), if_pos (by omega),
        if_neg (by omega)]
      simp
  · unfold assignment_flow
    rw [inflow_append, outflow_append, inflow_source_arcs,
      outflow_source_arcs _ _ _ _ (by unfold sink_node; omega), (hsums _).1, (hsums _).2,
      hcount0 _ (by unfold sink_node; omega)]
    unfold sink_node
    rw [if_neg (by omega), if_neg (by omega), if_pos rfl]
    simp

end xllm_service


namespace xllm_service

/-! ## The feasibility test -/

theorem sum_map_sub_int (fs : List FlowEdge) (f g : FlowEdge → Int) :
    (fs.map f).sum - (fs.map g).sum = (fs.map (fun e => f e - g e)).sum := by
  induction fs with
  | nil => simp
  | cons a fs ih =>
    rw [List.map_cons, List.sum_cons, List.map_cons, List.sum_cons, List.map_cons,
      List.sum_cons, ← ih]
    ring

/-- The value of a flow can be read at the sink. -/
theorem flow_value_eq_sink (n s t : Nat) (es : List (Nat × Nat × Int)) (fs : List FlowEdge)
    (hwf : WellFormedArcs n es) (hflow : IsFlow n s t es fs) (hs : s < n) (hst : s ≠ t) :
    flow_value fs s = inflow fs t - outflow fs t := by
  rw [flow_value_eq_cut n s t es fs hwf hflow hs (fun w => w ≠ t) hst (by simp)]
  unfold inflow outflow
  rw [sum_map_sub_int]
  congr 1
  apply List.map_congr_left
  intro e _
  by_cases h1 : e.u = t <;> by_cases h2 : e.v = t <;> simp [h1, h2]

theorem sink_node_pos (required : List Int) (rep : ExpertReplicaMap) :
    0 ≠ sink_node required rep := by
  unfold sink_node
  omega

theorem zip_map_mem (plan : List Step) (p : Int × GlobalNpu)
    (h : p ∈ (plan.map Step.expert_id).zip (plan.map Step.src)) :
    ∃ st ∈ plan, p = (st.expert_id, st.src) := by
  rw [List.zip_map'] at h
  obtain ⟨st, hst, hp⟩ := List.mem_map.mp h
  exact ⟨st, hst, hp.symm⟩

/-- A plan with one step per slot, replicas as sources and no source more than
`K` times is an assignment of peak at most `K`. -/
theorem assignable_of_plan (required : List Int) (rep : ExpertReplicaMap) (K : Int)
    (plan : List Step) (h1 : ∀ st ∈ plan, st.src ∈ replicas_of rep st.expert_id)
    (h2 : ∀ gn, ((plan.map Step.src).count gn : Int) ≤ K)
    (h3 : plan.map Step.expert_id = required) : Assignable required rep K := by
  refine ⟨plan.map Step.src, ⟨?_, ?_⟩, h2⟩
  · rw [← h3, List.length_map, List.length_map]
  · intro p hp
    rw [← h3] at hp
    obtain ⟨st, hst2, hpst⟩ := zip_map_mem _ p hp
    rw [hpst]
    exact h1 st hst2

/-- What `feasible` returns.  On `dinic_fuel` units of fuel the call returns; its
verdict is `true` exactly when some assignment loads no source NPU more than
`K` times; and the plan `extract_plan` reads off the graph it leaves has only
replicas as sources, no source more than `K` times, and, when the verdict is
`true`, one step per slot of `required`, in order. -/
theorem feasible_spec (K : Int) (hK : 0 ≤ K) (required : List Int) (rep : ExpertReplicaMap)
    (fuel : Nat)
    (hfuel : dinic_fuel (sink_node required rep + 1) (feas_arcs K required rep) 0 ≤ fuel) :
    ∃ res, feasible fuel K required rep = some res ∧
      res.npu_index_map = npu_map rep ∧ res.req_to_expert_id = required ∧
      (res.ok = true ↔ Assignable required rep K) ∧
      (∀ st ∈ extract_plan res.mf (npu_map rep) required 1 (1 + (npu_map rep).length),
        st.src ∈ replicas_of rep st.expert_id) ∧
      (∀ gn, (((extract_plan res.mf (npu_map rep) required 1 (1 + (npu_map rep).length)).map
        Step.src).count gn : Int) ≤ K) ∧
      (res.ok = true →
        (extract_plan res.mf (npu_map rep) required 1 (1 + (npu_map rep).length)).map
          Step.expert_id = required) := by
  have hwf := wellFormed_feas_arcs K hK required rep
  have hst := sink_node_pos required rep
  obtain ⟨mf, flow, fs, hrun, hflow, hg, hval, hvalt, hmax, _⟩ :=
    dinic_max_flow (sink_node required rep + 1) 0 (sink_node required rep)
      (feas_arcs K required rep) hwf (by omega) (by omega) hst fuel hfuel
  have hout := outflow_sink_zero K required rep fs hflow
  have hin : inflow fs (sink_node required rep) = flow := by omega
  obtain ⟨hp1, hp2, hp3⟩ := plan_of_flow K hK required rep fs mf hflow hg
  refine ⟨⟨decide ((required.length : Int) ≤ flow), npu_map rep, required, mf⟩, ?_, rfl, rfl,
    ?_, hp1, hp2, ?_⟩
  · unfold feasible
    rw [feasible_graph_eq, hrun]
    rfl
  · simp only [decide_eq_true_eq]
    constructor
    · intro hfull
      exact assignable_of_plan required rep K _ hp1 hp2 (hp3 (by rw [hin]; exact hfull))
    · rintro ⟨A, hA, hcount⟩
      obtain ⟨hflowA, hvalA⟩ := assignment_flow_spec K required rep A hA hcount
      have h1 := hmax _ hflowA
      rw [flow_value_eq_sink _ _ _ _ _ hwf hflowA (by omega) hst, hvalA] at h1
      exact h1
  · simp only [decide_eq_true_eq]
    intro hfull
    exact hp3 (by rw [hin]; exact hfull)

end xllm_service


namespace xllm_service

/-! ## The binary search of `optimize_layer` -/

theorem assignable_mono (required : List Int) (rep : ExpertReplicaMap) (K K2 : Int)
    (h : Assignable required rep K) (hle : K ≤ K2) : Assignable required rep K2 := by
  obtain ⟨A, hA, hc⟩ := h
  exact ⟨A, hA, fun gn => le_trans (hc gn) hle⟩

theorem length_feas_arcs (K K2 : Int) (required : List Int) (rep : ExpertReplicaMap) :
    (feas_arcs K required rep).length = (feas_arcs K2 required rep).length := by
  unfold feas_arcs
  simp

theorem source_cap_mono (K K2 : Int) (hle : K ≤ K2) (required : List Int)
    (rep : ExpertReplicaMap) :
    ((feas_arcs K required rep).map (fun a => if a.1 = 0 then a.2.2 else 0)).sum ≤
      ((feas_arcs K2 required rep).map (fun a => if a.1 = 0 then a.2.2 else 0)).sum := by
  unfold feas_arcs
  rw [List.map_append, List.sum_append, List.map_append, List.sum_append, List.map_map,
    List.map_map]
  have : ((List.range (npu_map rep).length).map
      ((fun a : Nat × Nat × Int => if a.1 = 0 then a.2.2 else 0) ∘ fun i => (0, 1 + i, K))).sum ≤
      ((List.range (npu_map rep).length).map
      ((fun a : Nat × Nat × Int => if a.1 = 0 then a.2.2 else 0) ∘ fun i => (0, 1 + i, K2))).sum := by
    apply List.sum_le_sum
    intro i _
    simp only [Function.comp, if_true]
    exact hle
  omega

theorem dinic_fuel_mono (K K2 : Int) (hle : K ≤ K2) (required : List Int)
    (rep : ExpertReplicaMap) :
    dinic_fuel (sink_node required rep + 1) (feas_arcs K required rep) 0 ≤
      dinic_fuel (sink_node required rep + 1) (feas_arcs K2 required rep) 0 := by
  unfold dinic_fuel loop_fuel
  rw [length_feas_arcs K K2]
  have := source_cap_mono K K2 hle required rep
  omega

/-- The loop of the binary search returns on enough fuel.  It ends either in its
initial state, and then no bound in `[1, |required|]` is feasible, or in the state
of a feasible solve at the least feasible bound. -/
theorem search_loop_spec (required : List Int) (rep : ExpertReplicaMap) :
    ∀ (fuel : Nat) (low high : Int) (st : SearchState),
      1 ≤ low → high ≤ required.length → low ≤ high + 1 →
      (∀ K : Int, 1 ≤ K → K < low → ¬ Assignable required rep K) →
      ((st = ⟨required.length, [], [], MaxFlow.empty⟩ ∧ high = required.length) ∨
        (GoodState required rep st (high + 1) ∧ high + 1 ≤ required.length)) →
      dinic_fuel (sink_node required rep + 1) (feas_arcs required.length required rep) 0 +
        (high + 1 - low).toNat + 1 ≤ fuel →
      ∃ st2, search_loop required rep fuel low high st = some st2 ∧
        ((st2 = ⟨required.length, [], [], MaxFlow.empty⟩ ∧
            ∀ K : Int, 1 ≤ K → K ≤ required.length → ¬ Assignable required rep K) ∨
          ∃ Kb : Int, 1 ≤ Kb ∧ Kb ≤ required.length ∧ GoodState required rep st2 Kb ∧
            ∀ K : Int, 1 ≤ K → K < Kb → ¬ Assignable required rep K)
  | 0, _, _, _, _, _, _, _, _, hfuel => by omega
  | fuel + 1, low, high, st, hlow, hhigh, hlh, hbelow, hst, hfuel => by
    rw [search_loop]
    by_cases hc : low ≤ high
    · rw [if_pos hc]
      dsimp only
      have hmid1 : low ≤ low + (high - low) / 2 := by omega
      have hmid2 : low + (high - low) / 2 ≤ high := by omega
      obtain ⟨res, hrun, hmap, hreq, hok, hp1, hp2, hp3⟩ :=
        feasible_spec (low + (high - low) / 2) (by omega) required rep fuel
          (le_trans (dinic_fuel_mono (low + (high - low) / 2) required.length (by omega)
            required rep) (by omega))
      rw [hrun]
      dsimp only
      by_cases hres : res.ok = true
      · rw [if_pos hres]
        apply search_loop_spec required rep fuel low (low + (high - low) / 2 - 1) _ hlow
          (by omega) (by omega) hbelow
        · right
          refine ⟨⟨(sub_add_cancel _ _).symm, ?_, ?_, ?_, ?_⟩, by omega⟩
          · rw [sub_add_cancel]
            exact hok.mp hres
          · unfold plan_of
            dsimp only
            rw [hmap, hreq]
            exact hp1
          · unfold plan_of
            dsimp only
            rw [hmap, hreq, sub_add_cancel]
            exact hp2
          · unfold plan_of
            dsimp only
            rw [hmap, hreq]
            exact hp3 hres
        · omega
      · rw [if_neg hres]
        have hnot : ¬ Assignable required rep (low + (high - low) / 2) :=
          fun h => hres (hok.mpr h)
        apply search_loop_spec required rep fuel (low + (high - low) / 2 + 1) high st
          (by omega) hhigh (by omega)
        · intro K hK1 hK2 hA
          exact hnot (assignable_mono required rep K _ hA (by omega))
        · exact hst
        · omega
    · rw [if_neg hc]
      refine ⟨st, rfl, ?_⟩
      rcases hst with ⟨hst0, hh⟩ | ⟨hgood, hle⟩
      · left
        refine ⟨hst0, ?_⟩
        intro K hK1 hK2
        exact hbelow K hK1 (by omega)
      · right
        refine ⟨high + 1, by omega, hle, hgood, ?_⟩
        intro K hK1 hK2
        exact hbelow K hK1 (by omega)

/-- What `optimize_layer` returns.  On `optimize_fuel` units of fuel the call
returns a plan.  Either the plan is empty and no bound in `[1, |required|]` is
feasible, or there is a least feasible bound `Kb`, the plan has one step per
slot of `required` in order, every source is a replica of the expert of its
step, and no source occurs more than `Kb` times. -/
theorem optimize_layer_spec (required : List Int) (rep : ExpertReplicaMap) (fuel : Nat)
    (hfuel : optimize_fuel required rep ≤ fuel) :
    ∃ plan, optimize_layer fuel required rep = some plan ∧
      ((plan = [] ∧ ∀ K : Int, 1 ≤ K → K ≤ required.length → ¬ Assignable required rep K) ∨
        ∃ Kb : Int, 1 ≤ Kb ∧ Kb ≤ required.length ∧ Assignable required rep Kb ∧
          (∀ K : Int, 1 ≤ K → K < Kb → ¬ Assignable required rep K) ∧
          (∀ s ∈ plan, s.src ∈ replicas_of rep s.expert_id) ∧
          (∀ gn, ((plan.map Step.src).count gn : Int) ≤ Kb) ∧
          plan.map Step.expert_id = required) := by
  unfold optimize_fuel at hfuel
  unfold optimize_layer
  dsimp only
  by_cases h0 : (required.length : Int) = 0
  · rw [if_pos h0]
    refine ⟨[], rfl, Or.inl ⟨rfl, ?_⟩⟩
    intro K hK1 hK2
    omega
  · rw [if_neg h0]
    obtain ⟨st2, hrun, hcase⟩ := search_loop_spec required rep fuel 1 required.length
      ⟨required.length, [], [], MaxFlow.empty⟩ (le_refl _) (le_refl _) (by omega)
      (fun K h1 h2 => by omega) (Or.inl ⟨rfl, rfl⟩) (by
        have : ((required.length : Int) + 1 - 1).toNat = required.length := by simp
        rw [this]
        omega)
    rw [hrun]
    dsimp only
    rcases hcase with ⟨hst0, hnone⟩ | ⟨Kb, hK1, hK2, ⟨_, hA, hp1, hp2, hp3⟩, hmin⟩
    · refine ⟨_, rfl, Or.inl ⟨?_, hnone⟩⟩
      rw [hst0]
      rfl
    · exact ⟨_, rfl, Or.inr ⟨Kb, hK1, hK2, hA, hmin, hp1, hp2, hp3⟩⟩

end xllm_service


namespace xllm_service

/-! ## Peak load and assignments -/

theorem le_foldr_max : ∀ (L : List Nat) (x : Nat), x ∈ L → x ≤ L.foldr max 0
  | [], _, h => by simp at h
  | a :: L, x, h => by
    rw [List.foldr_cons]
    rcases List.mem_cons.mp h with h | h
    · rw [h]
      exact le_max_left _ _
    · exact le_trans (le_foldr_max L x h) (le_max_right _ _)

theorem foldr_max_le : ∀ (L : List Nat) (B : Nat), (∀ x ∈ L, x ≤ B) → L.foldr max 0 ≤ B
  | [], _, _ => Nat.zero_le _
  | a :: L, B, h => by
    rw [List.foldr_cons]
    exact max_le (h a (List.mem_cons_self _ _))
      (foldr_max_le L B (fun x hx => h x (List.mem_cons_of_mem _ hx)))

theorem count_le_peak_load (l : List GlobalNpu) (gn : GlobalNpu) :
    l.count gn ≤ peak_load l := by
  by_cases h : gn ∈ l
  · exact le_foldr_max _ _ (List.mem_map.mpr ⟨gn, h, rfl⟩)
  · rw [List.count_eq_zero_of_not_mem h]
    exact Nat.zero_le _

theorem peak_load_le (l : List GlobalNpu) (B : Nat) (h : ∀ gn, l.count gn ≤ B) :
    peak_load l ≤ B := by
  apply foldr_max_le
  intro x hx
  obtain ⟨gn, _, hgn⟩ := List.mem_map.mp hx
  rw [← hgn]
  exact h gn

theorem assignable_peak (required : List Int) (rep : ExpertReplicaMap) (A : List GlobalNpu)
    (hA : ValidAssignment required rep A) : Assignable required rep (peak_load A) :=
  ⟨A, hA, fun gn => Int.ofNat_le.mpr (count_le_peak_load A gn)⟩

end xllm_service


namespace xllm_service

/-! ## Outcome of `optimize_layer` -/

theorem valid_of_plan (required : List Int) (rep : ExpertReplicaMap) (plan : List Step)
    (h1 : ∀ st ∈ plan, st.src ∈ replicas_of rep st.expert_id)
    (h3 : plan.map Step.expert_id = required) :
    ValidAssignment required rep (plan.map Step.src) := by
  refine ⟨?_, ?_⟩
  · rw [← h3, List.length_map, List.length_map]
  · intro p hp
    rw [← h3] at hp
    obtain ⟨st, hst2, hpst⟩ := zip_map_mem _ p hp
    rw [hpst]
    exact h1 st hst2

/-- On every input the sources of the returned plan are replicas of the experts
of their steps. -/
theorem optimize_layer_sources (required : List Int) (rep : ExpertReplicaMap)
    (fuel : Nat) (hfuel : optimize_fuel required rep ≤ fuel) :
    ∃ plan, optimize_layer fuel required rep = some plan ∧
      ∀ s ∈ plan, s.src ∈ replicas_of rep s.expert_id := by
  obtain ⟨plan, hrun, hcase⟩ := optimize_layer_spec required rep fuel hfuel
  refine ⟨plan, hrun, ?_⟩
  rcases hcase with ⟨hnil, _⟩ | ⟨Kb, _, _, _, _, hp1, _, _⟩
  · rw [hnil]
    intro s hs
    simp at hs
  · exact hp1

/-- The peak load of the returned plan, from an assignment of peak at most `K`
and the absence of an assignment of peak below `K`. -/
theorem optimize_layer_peak (required : List Int) (rep : ExpertReplicaMap) (K : Nat)
    (hK1 : 1 ≤ K) (hK2 : K ≤ required.length) (hup : Assignable required rep K)
    (hlow : ∀ K2 : Int, K2 < K → ¬ Assignable required rep K2)
    (fuel : Nat) (hfuel : optimize_fuel required rep ≤ fuel) :
    ∃ plan, optimize_layer fuel required rep = some plan ∧
      plan.map Step.expert_id = required ∧
      (∀ s ∈ plan, s.src ∈ replicas_of rep s.expert_id) ∧
      peak_load (plan.map Step.src) = K := by
  obtain ⟨plan, hrun, hcase⟩ := optimize_layer_spec required rep fuel hfuel
  refine ⟨plan, hrun, ?_⟩
  rcases hcase with ⟨_, hnone⟩ | ⟨Kb, hKb1, hKb2, hA, hmin, hp1, hp2, hp3⟩
  · exact absurd hup (hnone K (by omega) (by omega))
  · refine ⟨hp3, hp1, ?_⟩
    have hle : Kb ≤ K := by
      by_contra hlt
      exact hmin K (by omega) (by omega) hup
    apply le_antisymm
    · apply peak_load_le
      intro gn
      have := hp2 gn
      omega
    · by_contra hlt
      apply hlow (peak_load (plan.map Step.src)) (by omega)
      exact assignable_peak required rep _ (valid_of_plan required rep plan hp1 hp3)

end xllm_service


namespace xllm_service

/-! ## The scenario of the example program -/

theorem lookup_map_int {β : Type} (f : Nat → β) :
    ∀ (l : List Nat) (k : Nat), k ∈ l →
      (l.map (fun (e : Nat) => ((e : Int), f e))).lookup (k : Int) = some (f k)
  | [], _, h => by simp at h
  | a :: l, k, h => by
    rw [List.map_cons, List.lookup_cons]
    by_cases hka : k = a
    · subst hka
      simp
    · have hne : ((k : Int) == (a : Int)) = false := by
        rw [beq_eq_false_iff_ne]
        omega
      rw [hne]
      rcases List.mem_cons.mp h with h | h
      · exact absurd h hka
      · exact lookup_map_int f l k h

theorem scenario_replicas (k : Nat) (hk : k < 256) :
    replicas_of scenario_expert_to_src (k : Int) = scenario_sources k := by
  unfold replicas_of scenario_expert_to_src
  rw [lookup_map_int scenario_sources (List.range 256) k (List.mem_range.mpr hk)]
  rfl

theorem length_scenario_required : scenario_required.length = 256 := by
  unfold scenario_required
  simp

theorem inst_names_getD_mem (i : Nat) (h : i < 5) : inst_names.getD i "" ∈ inst_names := by
  interval_cases i <;> simp [inst_names]

theorem inst_names_getD_inj (a b : Nat) (ha : a < 5) (hb : b < 5)
    (h : inst_names.getD a "" = inst_names.getD b "") : a = b := by
  interval_cases a <;> interval_cases b <;> first | rfl | (exfalso; revert h; decide)

theorem balanced_valid (rep : ExpertReplicaMap)
    (hrep : ∀ k : Nat, k < 256 → replicas_of rep (k : Int) = scenario_sources k) :
    ValidAssignment scenario_required rep balanced_assignment := by
  refine ⟨by simp [balanced_assignment, scenario_required], ?_⟩
  intro p hp
  unfold scenario_required balanced_assignment at hp
  rw [List.zip_map'] at hp
  obtain ⟨k, hk, rfl⟩ := List.mem_map.mp hp
  dsimp only
  rw [hrep k (List.mem_range.mp hk)]
  unfold scenario_sources balanced_source
  exact List.mem_map.mpr ⟨_, inst_names_getD_mem _ (Nat.mod_lt _ (by decide)), rfl⟩

theorem balanced_count (gn : GlobalNpu) : balanced_assignment.count gn ≤ 4 := by
  unfold balanced_assignment
  rw [List.count_eq_countP, List.countP_map]
  have hcard : List.countP ((fun x => x == gn) ∘ balanced_source) (List.range 256) =
      ((Finset.range 256).filter (fun k => balanced_source k = gn)).card := by
    rw [List.countP_eq_length_filter]
    have hnd : ((List.range 256).filter ((fun x => x == gn) ∘ balanced_source)).Nodup :=
      (List.nodup_range 256).filter _
    rw [← List.toFinset_card_of_nodup hnd]
    congr 1
    ext k
    simp [Function.comp]
  rw [hcard]
  have h4 : (4 : Nat) = (Finset.range 4).card := by simp
  rw [h4]
  apply Finset.card_le_card_of_injOn (fun k => k % 16 / 5)
  · intro k _
    show k % 16 / 5 ∈ Finset.range 4
    rw [Finset.mem_range]
    omega
  · intro a ha b hb hab
    have ha := (Finset.mem_filter.mp ha)
    have hb := (Finset.mem_filter.mp hb)
    have heq : balanced_source a = balanced_source b := ha.2.trans hb.2.symm
    unfold balanced_source at heq
    have h1 := congrArg GlobalNpu.inst heq
    have h2 := congrArg GlobalNpu.local_npu heq
    dsimp only at h1 h2 hab
    have h3 := inst_names_getD_inj _ _ (Nat.mod_lt _ (by decide)) (Nat.mod_lt _ (by decide)) h1
    omega

theorem balanced_assignable (rep : ExpertReplicaMap)
    (hrep : ∀ k : Nat, k < 256 → replicas_of rep (k : Int) = scenario_sources k) :
    Assignable scenario_required rep (4 : Nat) :=
  ⟨balanced_assignment, balanced_valid rep hrep,
    fun gn => Int.ofNat_le.mpr (balanced_count gn)⟩

/-- A list whose elements all lie in `S` is no longer than the sum over `S` of
the number of occurrences. -/
theorem length_le_sum_count (S : List GlobalNpu) :
    ∀ l : List GlobalNpu, (∀ x ∈ l, x ∈ S) → l.length ≤ (S.map (fun s => l.count s)).sum
  | [], _ => Nat.zero_le _
  | a :: l, h => by
    have ih := length_le_sum_count S l (fun x hx => h x (List.mem_cons_of_mem _ hx))
    have ha : a ∈ S := h a (List.mem_cons_self _ _)
    have hstep : ∀ T : List GlobalNpu,
        (T.map (fun s => l.count s)).sum + T.count a =
          (T.map (fun s => (a :: l).count s)).sum := by
      intro T
      induction T with
      | nil => rfl
      | cons t T iht =>
        have e1 : (a :: l).count t = l.count t + if (a == t) = true then 1 else 0 :=
          List.count_cons t a l
        have e2 : (t :: T).count a = T.count a + if (t == a) = true then 1 else 0 :=
          List.count_cons a t T
        rw [List.map_cons, List.sum_cons, List.map_cons, List.sum_cons, e1, e2, ← iht]
        by_cases hta : t = a
        · subst hta
          simp only [beq_self_eq_true, if_true]
          omega
        · have h1 : (t == a) = false := beq_eq_false_iff_ne.mpr hta
          have h2 : (a == t) = false := beq_eq_false_iff_ne.mpr (Ne.symm hta)
          simp only [h1, h2, Bool.false_eq_true, if_false, add_zero]
          omega
    have hc : 1 ≤ S.count a := List.count_pos_iff.mpr ha
    have := hstep S
    rw [List.length_cons]
    omega

theorem scenario_lower (rep : ExpertReplicaMap)
    (hrep : ∀ k : Nat, k < 256 → replicas_of rep (k : Int) = scenario_sources k)
    (K : Int) (hK : K < (4 : Nat)) : ¬ Assignable scenario_required rep K := by
  rintro ⟨A, ⟨hlen, hA⟩, hcount⟩
  rw [length_scenario_required] at hlen
  have hin : ∀ x ∈ A.take 16, x ∈ first_npu_sources := by
    intro x hx
    obtain ⟨i, hi, hix⟩ := List.mem_iff_getElem.mp hx
    rw [List.length_take] at hi
    have hi16 : i < 16 := by omega
    have hiA : i < A.length := by omega
    have hiR : i < scenario_required.length := by
      rw [length_scenario_required]
      omega
    have hmem : (scenario_required[i], A[i]) ∈ scenario_required.zip A := by
      apply List.mem_iff_getElem.mpr
      refine ⟨i, by simp; omega, ?_⟩
      simp
    have hprop := hA _ hmem
    dsimp only at hprop
    have hri : scenario_required[i] = (i : Int) := by
      unfold scenario_required
      simp
    rw [hri, hrep i (by omega)] at hprop
    rw [List.getElem_take] at hix
    rw [← hix]
    have hs : scenario_sources i = first_npu_sources := by
      unfold scenario_sources first_npu_sources
      have : (i : Int) / 16 = 0 := by omega
      rw [this]
    rw [← hs]
    exact hprop
  have hsum := length_le_sum_count first_npu_sources (A.take 16) hin
  have hlen16 : (A.take 16).length = 16 := by
    rw [List.length_take]
    omega
  have hle : ∀ gn, (A.take 16).count gn ≤ 3 := by
    intro gn
    have h1 : (A.take 16).count gn ≤ A.count gn := (List.take_sublist 16 A).count_le gn
    have h2 := hcount gn
    omega
  have hb : ((first_npu_sources).map (fun s => (A.take 16).count s)).sum ≤ 15 := by
    unfold first_npu_sources inst_names
    simp only [List.map_cons, List.map_nil, List.sum_cons, List.sum_nil]
    have h1 := hle ⟨"deepseekv3-1", 0⟩
    have h2 := hle ⟨"deepseekv3-2", 0⟩
    have h3 := hle ⟨"deepseekv3-3", 0⟩
    have h4 := hle ⟨"deepseekv3-4", 0⟩
    have h5 := hle ⟨"deepseekv3-5", 0⟩
    omega
  omega

/-- The example scenario, for a replica map that lists the sources of the
example for experts 0..255 (whatever the order of its entries): the returned
plan serves every expert in order from one of its replicas with peak load 4. -/
theorem scenario_outcome (rep : ExpertReplicaMap)
    (hrep : ∀ k : Nat, k < 256 → replicas_of rep (k : Int) = scenario_sources k)
    (fuel : Nat) (hfuel : optimize_fuel scenario_required rep ≤ fuel) :
    ∃ plan, optimize_layer fuel scenario_required rep = some plan ∧
      plan.map Step.expert_id = scenario_required ∧
      (∀ s ∈ plan, s.src ∈ replicas_of rep s.expert_id) ∧
      peak_load (plan.map Step.src) = 4 :=
  optimize_layer_peak scenario_required rep 4 (by decide)
    (by rw [length_scenario_required]; decide) (balanced_assignable rep hrep)
    (scenario_lower rep hrep) fuel hfuel

end xllm_service


namespace xllm_service

/-! ## Non-expert planner: steps of unknown instances -/

/-- The instances that have a load vector after the allocation loop are the keys
of `instance_configs` and those that had one before. -/
theorem alloc_loads_keys :
    ∀ (cfgs : InstanceConfigs) (m m2 : List (String × List Int)),
      alloc_loads cfgs m = some m2 →
      ∀ name, m2.lookup name = none ↔ (name ∉ cfgs.map Prod.fst ∧ m.lookup name = none)
  | [], m, m2, h, name => by
    simp only [alloc_loads, Option.some.injEq] at h
    subst h
    simp
  | (k, config) :: rest, m, m2, h, name => by
    rw [alloc_loads] at h
    by_cases h0 : config.device_size < 0
    · rw [if_pos h0] at h
      exact absurd h (by simp)
    · rw [if_neg h0] at h
      rw [alloc_loads_keys rest _ m2 h name]
      by_cases hk : name = k
      · subst hk
        simp [lookup_cons_self]
      · rw [lookup_cons_ne name k _ m hk]
        simp [hk]

/-- Counting leaves the set of instances with a load vector unchanged, and the
steps of instances without one have no effect. -/
theorem count_steps_known (known : String → Prop) [DecidablePred known] :
    ∀ (plan : List Step) (m : List (String × List Int)),
      (∀ name, m.lookup name = none ↔ ¬ known name) →
      count_steps plan m = count_steps (plan.filter (fun s => decide (known s.src.inst))) m ∧
      ∀ m2, count_steps plan m = some m2 → ∀ name, m2.lookup name = none ↔ ¬ known name
  | [], m, hm => ⟨rfl, fun m2 h => by
      simp only [count_steps, Option.some.injEq] at h
      subst h
      exact hm⟩
  | s :: rest, m, hm => by
    by_cases hk : known s.src.inst
    · have hf : (s :: rest).filter (fun s => decide (known s.src.inst)) =
          s :: rest.filter (fun s => decide (known s.src.inst)) := by
        rw [List.filter_cons_of_pos]
        simpa using hk
      rw [hf]
      cases hl : m.lookup s.src.inst with
      | none => exact absurd hk ((hm _).mp hl)
      | some v =>
        rw [count_steps, count_steps]
        simp only [hl]
        by_cases hr : 0 ≤ s.src.local_npu ∧ s.src.local_npu < v.length
        · simp only [if_pos hr]
          apply count_steps_known known rest
          intro name
          by_cases hn : name = s.src.inst
          · subst hn
            rw [lookup_cons_self]
            simp [hk]
          · rw [lookup_cons_ne name _ _ m hn]
            exact hm name
        · rw [if_neg hr, if_neg hr]
          exact ⟨rfl, fun m2 h => absurd h (by simp)⟩
    · have hf : (s :: rest).filter (fun s => decide (known s.src.inst)) =
          rest.filter (fun s => decide (known s.src.inst)) := by
        rw [List.filter_cons_of_neg]
        simpa using hk
      have hl : m.lookup s.src.inst = none := (hm _).mpr hk
      rw [hf, count_steps]
      simp only [hl]
      exact count_steps_known known rest m hm

/-- Steps whose instance is not a key of `instance_configs` have no effect on the
result of `optimize_non_expert`, and no load vector exists for such an instance
after the aggregation. -/
theorem unknown_ignored (plan : List Step) (cfgs : InstanceConfigs) :
    optimize_non_expert plan cfgs =
      optimize_non_expert
        (plan.filter (fun s => decide (s.src.inst ∈ cfgs.map Prod.fst))) cfgs ∧
    ∀ m0 m, alloc_loads cfgs [] = some m0 → count_steps plan m0 = some m →
      ∀ name, name ∉ cfgs.map Prod.fst → m.lookup name = none := by
  cases h0 : alloc_loads cfgs [] with
  | none =>
    refine ⟨?_, fun m0 m h => absurd h (by simp)⟩
    unfold optimize_non_expert
    simp only [h0]
  | some m0 =>
    have hkeys : ∀ name, m0.lookup name = none ↔ ¬ (name ∈ cfgs.map Prod.fst) := by
      intro name
      rw [alloc_loads_keys cfgs [] m0 h0 name]
      simp
    obtain ⟨heq, hafter⟩ :=
      count_steps_known (fun name => name ∈ cfgs.map Prod.fst) plan m0 hkeys
    refine ⟨?_, ?_⟩
    · unfold optimize_non_expert
      simp only [h0]
      rw [heq]
    · intro m1 m h1 hc name hn
      simp only [Option.some.injEq] at h1
      subst h1
      exact (hafter m hc name).mpr hn

/-! ## Non-expert planner: steps out of range -/

theorem shapeInv_of_loadsInv (cfgs : InstanceConfigs) (done : List Step)
    (m : List (String × List Int)) (h : LoadsInv cfgs done m) : ShapeInv cfgs m := by
  refine ⟨?_, h.2⟩
  intro nc hnc
  obtain ⟨v, hv, hlen, _⟩ := h.1 nc hnc
  exact ⟨v, hv, hlen⟩

theorem shapeInv_set (cfgs : InstanceConfigs) (m : List (String × List Int)) (name : String)
    (v : List Int) (i : Nat) (x : Int) (hinv : ShapeInv cfgs m)
    (hl : m.lookup name = some v) : ShapeInv cfgs ((name, v.set i x) :: m) := by
  have hkey : name ∈ cfgs.map Prod.fst := by
    by_contra hnot
    rw [hinv.2 _ hnot] at hl
    exact Option.noConfusion hl
  constructor
  · intro nc hnc
    by_cases hn : nc.1 = name
    · obtain ⟨w, hw, hlen⟩ := hinv.1 nc hnc
      rw [hn, hl] at hw
      have hwv : v = w := Option.some.inj hw
      rw [hn, lookup_cons_self]
      refine ⟨_, rfl, ?_⟩
      rw [List.length_set, hwv]
      exact hlen
    · rw [lookup_cons_ne nc.1 name _ m hn]
      exact hinv.1 nc hnc
  · intro k hk
    have hne : k ≠ name := by
      intro h
      rw [h] at hk
      exact hk hkey
    rw [lookup_cons_ne k name _ m hne]
    exact hinv.2 k hk

/-- Counting reaches an index outside a load vector as soon as a step of a known
instance is out of range. -/
theorem count_steps_out_of_range (cfgs : InstanceConfigs) :
    ∀ (plan : List Step) (m : List (String × List Int)),
      ShapeInv cfgs m → ¬ StepsInRange plan cfgs → count_steps plan m = none
  | [], _, _, hnot => by
    exfalso
    apply hnot
    intro s hs
    simp at hs
  | s :: rest, m, hinv, hnot => by
    rw [count_steps]
    by_cases hs : ∀ nc ∈ cfgs, nc.1 = s.src.inst →
        0 ≤ s.src.local_npu ∧ s.src.local_npu < nc.2.device_size
    · have hrest : ¬ StepsInRange rest cfgs := by
        intro hr
        apply hnot
        intro x hx
        rcases List.mem_cons.mp hx with h | h
        · rw [h]
          exact hs
        · exact hr x h
      cases hl : m.lookup s.src.inst with
      | none =>
        exact count_steps_out_of_range cfgs rest m hinv hrest
      | some v =>
        have hkey : s.src.inst ∈ cfgs.map Prod.fst := by
          by_contra hn
          rw [hinv.2 _ hn] at hl
          exact Option.noConfusion hl
        obtain ⟨nc, hnc, hname⟩ := List.mem_map.mp hkey
        obtain ⟨w, hw, hlen⟩ := hinv.1 nc hnc
        have hwv : w = v := by
          rw [hname, hl] at hw
          exact (Option.some.inj hw).symm
        subst hwv
        have hrange := hs nc hnc hname
        have h1 : s.src.local_npu < (w.length : Int) := by
          rw [hlen, Int.toNat_of_nonneg (le_trans hrange.1 (le_of_lt hrange.2))]
          exact hrange.2
        dsimp only
        rw [if_pos ⟨hrange.1, h1⟩]
        exact count_steps_out_of_range cfgs rest _
          (shapeInv_set cfgs m s.src.inst w _ _ hinv hl) hrest
    · push_neg at hs
      obtain ⟨nc, hnc, hname, hout⟩ := hs
      obtain ⟨w, hw, hlen⟩ := hinv.1 nc hnc
      rw [hname] at hw
      rw [hw]
      dsimp only
      rw [if_neg]
      rintro ⟨h0, h1⟩
      have := hout h0
      rw [hlen] at h1
      omega

/-- On configs without a negative `device_size`, a plan with a step that is out
of range for the instance it names makes the aggregation index outside that
instance's load vector. -/
theorem out_of_range_aborts (plan : List Step) (cfgs : InstanceConfigs)
    (hnd : (cfgs.map Prod.fst).Nodup) (hnn : ∀ nc ∈ cfgs, 0 ≤ nc.2.device_size)
    (hout : ¬ StepsInRange plan cfgs) : optimize_non_expert plan cfgs = none := by
  obtain ⟨m0, h0, hinv0⟩ := loadsInv_alloc cfgs hnd hnn
  unfold optimize_non_expert
  simp only [h0]
  rw [count_steps_out_of_range cfgs plan m0 (shapeInv_of_loadsInv cfgs [] m0 hinv0) hout]

end xllm_service


namespace xllm_service

/-! ## Non-expert planner: the selected candidate in the order of enumeration -/

/-- A position in a concatenation of blocks lies in one block. -/
theorem flatMap_split {α β : Type} (f : α → List β) :
    ∀ (l : List α) (pre : List β) (x : β) (post : List β),
      l.flatMap f = pre ++ x :: post →
      ∃ A a B p1 p2, l = A ++ a :: B ∧ f a = p1 ++ x :: p2 ∧
        pre = A.flatMap f ++ p1 ∧ post = p2 ++ B.flatMap f
  | [], pre, x, post, h => by
    simp at h
  | a :: l, pre, x, post, h => by
    rw [List.flatMap_cons] at h
    rcases List.append_eq_append_iff.mp h with ⟨r, hpre, hrest⟩ | ⟨r, hfa, hrest⟩
    · obtain ⟨A, a2, B, p1, p2, hl, hf, hp, hq⟩ := flatMap_split f l r x post hrest
      refine ⟨a :: A, a2, B, p1, p2, by rw [hl]; rfl, hf, ?_, hq⟩
      rw [hpre, hp, List.flatMap_cons, List.append_assoc]
    · cases r with
      | nil =>
        rw [List.nil_append] at hrest
        obtain ⟨A, a2, B, p1, p2, hl, hf, hp, hq⟩ :=
          flatMap_split f l [] x post (by rw [← hrest]; rfl)
        refine ⟨a :: A, a2, B, p1, p2, by rw [hl]; rfl, hf, ?_, hq⟩
        rw [List.flatMap_cons, List.append_assoc, ← hp, List.append_nil]
        rw [List.append_nil] at hfa
        exact hfa.symm
      | cons y r =>
        rw [List.cons_append] at hrest
        obtain ⟨hxy, hpost⟩ := List.cons.inj hrest
        subst hxy
        exact ⟨[], a, l, pre, r, rfl, hfa, by simp, hpost⟩

/-- The elements around a position of an enumeration `h 0, h 1, ..., h (n-1)`. -/
theorem map_range_split {β : Type} (h : Nat → β) (n : Nat) (p1 : List β) (x : β)
    (p2 : List β) (heq : (List.range n).map h = p1 ++ x :: p2) :
    p1.length < n ∧ x = h p1.length ∧ (∀ i, i < p1.length → h i ∈ p1) ∧
      (∀ i, p1.length < i → i < n → h i ∈ p2) := by
  have hlen : n = p1.length + (p2.length + 1) := by
    have := congrArg List.length heq
    simpa using this
  have hget : ∀ i, i < n → (p1 ++ x :: p2)[i]? = some (h i) := by
    intro i hi
    rw [← heq]
    simp [hi]
  refine ⟨by omega, ?_, ?_, ?_⟩
  · have := hget p1.length (by omega)
    rw [List.getElem?_append_right (le_refl _), Nat.sub_self] at this
    simp only [List.getElem?_cons_zero, Option.some.injEq] at this
    exact this
  · intro i hi
    have := hget i (by omega)
    rw [List.getElem?_append_left hi] at this
    exact mem_of_getElem?_some _ _ _ this
  · intro i hi hin
    have := hget i hin
    rw [List.getElem?_append_right (by omega)] at this
    have hpos : i - p1.length = (i - p1.length - 1) + 1 := by omega
    rw [hpos, List.getElem?_cons_succ] at this
    exact mem_of_getElem?_some _ _ _ this

theorem candidates_eq_flatMap (cfgs : InstanceConfigs) :
    candidates cfgs = cfgs.flatMap (fun nc => candidates [nc]) := by
  unfold candidates
  simp

/-- Outcome of `optimize_non_expert` in terms of the order of `instance_configs`,
for a plan with fewer than `2^31` steps on any one NPU: the sentinel when no DP group of a valid entry has a peak below `10^9`;
otherwise group `g` of an entry such that every group of every valid entry
before it and every group of the entry with a smaller index have a strictly
larger peak, and all later groups and entries have a peak at least as large. -/
theorem selection_order (plan : List Step) (cfgs : InstanceConfigs)
    (hnd : (cfgs.map Prod.fst).Nodup) (hnn : ∀ nc ∈ cfgs, 0 ≤ nc.2.device_size)
    (hr : StepsInRange plan cfgs) (hfit : CountsFit plan) :
    (optimize_non_expert plan cfgs = some sentinel ∧
      ∀ nc ∈ cfgs, nc.2.valid → ∀ g : Nat, (g : Int) < nc.2.dp_size →
        (1000000000 : Int) ≤ group_peak plan nc.1 nc.2 g) ∨
    (∃ (A : InstanceConfigs) (name : String) (c : InstanceConfig) (B : InstanceConfigs)
        (g : Nat),
      cfgs = A ++ (name, c) :: B ∧ c.valid ∧ (g : Int) < c.dp_size ∧
      optimize_non_expert plan cfgs =
        some ⟨name, g, (g : Int) * (c.device_size / c.dp_size), c.dp_size⟩ ∧
      group_peak plan name c g < 1000000000 ∧
      (∀ nc ∈ A, nc.2.valid → ∀ g2 : Nat, (g2 : Int) < nc.2.dp_size →
        group_peak plan name c g < group_peak plan nc.1 nc.2 g2) ∧
      (∀ g2 : Nat, g2 < g → group_peak plan name c g < group_peak plan name c g2) ∧
      (∀ g2 : Nat, g < g2 → (g2 : Int) < c.dp_size →
        group_peak plan name c g ≤ group_peak plan name c g2) ∧
      (∀ nc ∈ B, nc.2.valid → ∀ g2 : Nat, (g2 : Int) < nc.2.dp_size →
        group_peak plan name c g ≤ group_peak plan nc.1 nc.2 g2)) := by
  rcases non_expert_outcome plan cfgs hnd hnn hr hfit with
    ⟨hres, hall⟩ | ⟨pre, x, post, hseen, hres, hlt, hpre, hpost⟩
  · left
    refine ⟨hres, ?_⟩
    intro nc hnc hv g hg
    exact hall (nc.1, nc.2, g) ((mem_candidates cfgs _).mpr ⟨hnc, hv, hg⟩)
  · right
    have hxmem : x ∈ candidates cfgs := by
      rw [hseen]
      simp
    obtain ⟨_, hxv, hxg⟩ := (mem_candidates cfgs x).mp hxmem
    rw [candidates_eq_flatMap] at hseen
    obtain ⟨A, a, B, p1, p2, hl, hf, hp, hq⟩ := flatMap_split _ cfgs pre x post hseen
    have hxa : x ∈ candidates [a] := by
      rw [hf]
      simp
    obtain ⟨hxa1, _, _⟩ := (mem_candidates [a] x).mp hxa
    have hax : a = (x.1, x.2.1) := (List.mem_singleton.mp hxa1).symm
    have hblock : candidates [a] =
        (List.range a.2.dp_size.toNat).map (fun g => (a.1, a.2, g)) := by
      have hv : a.2.valid := by
        rw [hax]
        exact hxv
      unfold candidates
      have h1 : ¬ (a.2.device_size ≤ 0 ∨ a.2.dp_size ≤ 0) := by
        have := hv.1
        have := hv.2.1
        omega
      have h2 : ¬ (Int.tmod a.2.device_size a.2.dp_size ≠ 0) := by
        rw [Int.tmod_eq_emod (le_of_lt hv.1) (le_of_lt hv.2.1)]
        exact not_not.mpr hv.2.2
      simp [h1, h2]
    rw [hblock] at hf
    obtain ⟨hlt1, hxeq, hbefore, hafter⟩ := map_range_split _ _ p1 x p2 hf
    have hxg2 : x.2.2 = p1.length := by
      rw [hxeq]
    refine ⟨A, x.1, x.2.1, B, x.2.2, by rw [hl, hax], hxv, hxg, hres, hlt, ?_, ?_, ?_, ?_⟩
    · intro nc hnc hv g2 hg2
      apply hpre (nc.1, nc.2, g2)
      rw [hp]
      apply List.mem_append_left
      rw [← candidates_eq_flatMap]
      exact (mem_candidates A _).mpr ⟨hnc, hv, hg2⟩
    · intro g2 hg2
      have := hbefore g2 (by omega)
      rw [hax] at this
      apply hpre (x.1, x.2.1, g2)
      rw [hp]
      exact List.mem_append_right _ this
    · intro g2 hg2 hg2dp
      have hdp : a.2.dp_size = x.2.1.dp_size := by rw [hax]
      have := hafter g2 (by omega) (by omega)
      rw [hax] at this
      apply hpost (x.1, x.2.1, g2)
      rw [hq]
      exact List.mem_append_left _ this
    · intro nc hnc hv g2 hg2
      apply hpost (nc.1, nc.2, g2)
      rw [hq]
      apply List.mem_append_right
      rw [← candidates_eq_flatMap]
      exact (mem_candidates B _).mpr ⟨hnc, hv, hg2⟩

end xllm_service


namespace xllm_service

/-! ## Non-expert planner: idle instances and the order of the entries -/

theorem group_peak_nonneg (plan : List Step) (name : String) (c : InstanceConfig) (g : Int) :
    0 ≤ group_peak plan name c g := by
  unfold group_peak
  generalize (List.range (c.device_size / c.dp_size).toNat).map
    (fun k : Nat => npu_load plan name (g * (c.device_size / c.dp_size) + k)) = L
  cases L with
  | nil => exact le_refl _
  | cons a L =>
    rw [List.foldr_cons]
    exact le_max_of_le_right (by
      induction L with
      | nil => exact le_refl _
      | cons b L ih =>
        rw [List.foldr_cons]
        exact le_max_of_le_right ih)

theorem npu_load_idle (plan : List Step) (name : String) (p : Int)
    (h : ∀ s ∈ plan, s.src.inst ≠ name) : npu_load plan name p = 0 := by
  unfold npu_load
  have : plan.countP (fun s => decide (s.src = ⟨name, p⟩)) = 0 := by
    rw [List.countP_eq_zero]
    intro s hs
    simp only [decide_eq_true_eq]
    intro heq
    exact h s hs (by rw [heq])
  rw [this]
  rfl

theorem group_peak_idle (plan : List Step) (name : String) (c : InstanceConfig) (g : Int)
    (h : ∀ s ∈ plan, s.src.inst ≠ name) : group_peak plan name c g = 0 := by
  unfold group_peak
  have hall : ∀ k : Nat, npu_load plan name (g * (c.device_size / c.dp_size) + k) = 0 :=
    fun k => npu_load_idle plan name _ h
  simp only [hall]
  generalize (List.range (c.device_size / c.dp_size).toNat) = L
  induction L with
  | nil => rfl
  | cons a L ih =>
    rw [List.map_cons, List.foldr_cons, ih]
    rfl

/-- The selected group has the least peak of all groups of all valid entries,
when no NPU is the source of `2^31` or more steps. -/
theorem selection_min (plan : List Step) (cfgs : InstanceConfigs)
    (hnd : (cfgs.map Prod.fst).Nodup) (hnn : ∀ nc ∈ cfgs, 0 ≤ nc.2.device_size)
    (hr : StepsInRange plan cfgs) (hfit : CountsFit plan)
    (hex : ∃ nc ∈ cfgs, nc.2.valid ∧ ∃ g : Nat, (g : Int) < nc.2.dp_size ∧
      group_peak plan nc.1 nc.2 g < 1000000000) :
    ∃ (A : InstanceConfigs) (name : String) (c : InstanceConfig) (B : InstanceConfigs)
        (g : Nat),
      cfgs = A ++ (name, c) :: B ∧ c.valid ∧ (g : Int) < c.dp_size ∧
      optimize_non_expert plan cfgs =
        some ⟨name, g, (g : Int) * (c.device_size / c.dp_size), c.dp_size⟩ ∧
      (∀ nc ∈ A, nc.2.valid → ∀ g2 : Nat, (g2 : Int) < nc.2.dp_size →
        group_peak plan name c g < group_peak plan nc.1 nc.2 g2) ∧
      (∀ g2 : Nat, g2 < g → group_peak plan name c g < group_peak plan name c g2) ∧
      (∀ nc ∈ cfgs, nc.2.valid → ∀ g2 : Nat, (g2 : Int) < nc.2.dp_size →
        group_peak plan name c g ≤ group_peak plan nc.1 nc.2 g2) := by
  rcases selection_order plan cfgs hnd hnn hr hfit with
    ⟨_, hall⟩ | ⟨A, name, c, B, g, hsplit, hv, hg, hres, _, hA, hsmall, hlarge, hB⟩
  · exfalso
    obtain ⟨nc, hnc, hv, g, hg, hlt⟩ := hex
    have := hall nc hnc hv g hg
    omega
  · refine ⟨A, name, c, B, g, hsplit, hv, hg, hres, hA, hsmall, ?_⟩
    intro nc hnc hvnc g2 hg2
    rw [hsplit] at hnc
    rcases List.mem_append.mp hnc with h | h
    · exact le_of_lt (hA nc h hvnc g2 hg2)
    · rcases List.mem_cons.mp h with h | h
      · subst h
        rcases Nat.lt_trichotomy g2 g with h3 | h3 | h3
        · exact le_of_lt (hsmall g2 h3)
        · subst h3
          exact le_refl _
        · exact hlarge g2 h3 hg2
      · exact hB nc h hvnc g2 hg2

/-- Below the threshold the call returns a group of least peak: for a plan with
in-range steps, fewer than `2^31` of them on any one NPU, and an instance map
(distinct keys, no negative `device_size`) in which some DP group of a valid
config has an internal peak below `10^9`, the result names an instance and a DP
group of a valid config whose internal peak is at most that of every DP group of
every valid config. -/
theorem minimal_group_peak (plan : List Step) (cfgs : InstanceConfigs)
    (hnd : (cfgs.map Prod.fst).Nodup) (hnn : ∀ nc ∈ cfgs, 0 ≤ nc.2.device_size)
    (hr : StepsInRange plan cfgs) (hfit : CountsFit plan)
    (hex : ∃ nc ∈ cfgs, nc.2.valid ∧ ∃ g : Nat, (g : Int) < nc.2.dp_size ∧
      group_peak plan nc.1 nc.2 g < 1000000000) :
    ∃ r c, optimize_non_expert plan cfgs = some r ∧ (r.src_instance, c) ∈ cfgs ∧ c.valid ∧
      0 ≤ r.dp_group_index ∧ r.dp_group_index < c.dp_size ∧
      ∀ nc ∈ cfgs, nc.2.valid → ∀ g : Nat, (g : Int) < nc.2.dp_size →
        group_peak plan r.src_instance c r.dp_group_index ≤ group_peak plan nc.1 nc.2 g := by
  obtain ⟨A, name, c, B, g, hsplit, hv, hg, hres, _, _, hmin⟩ :=
    selection_min plan cfgs hnd hnn hr hfit hex
  refine ⟨_, c, hres, ?_, hv, Int.natCast_nonneg _, hg, hmin⟩
  rw [hsplit]
  simp

/-- When the sentinel is returned: for a plan with in-range steps, fewer than
`2^31` of them on any one NPU, and an instance map (distinct keys) with
non-negative `device_size` values, the call returns, and its result is the
sentinel if and only if every DP group of every valid entry has an internal peak
of at least `10^9`; a result that is not the sentinel has
`dp_group_index >= 0`. -/
theorem sentinel_iff_saturated (plan : List Step) (cfgs : InstanceConfigs)
    (hnd : (cfgs.map Prod.fst).Nodup) (hnn : ∀ nc ∈ cfgs, 0 ≤ nc.2.device_size)
    (hr : StepsInRange plan cfgs) (hfit : CountsFit plan) :
    ∃ r, optimize_non_expert plan cfgs = some r ∧
      (r = sentinel ↔
        ∀ nc ∈ cfgs, nc.2.valid → ∀ g : Nat, (g : Int) < nc.2.dp_size →
          (1000000000 : Int) ≤ group_peak plan nc.1 nc.2 g) ∧
      ((cfgs = [] ∨ ∀ nc ∈ cfgs, ¬ nc.2.valid) → r = sentinel) ∧
      (r ≠ sentinel → 0 ≤ r.dp_group_index) := by
  rcases selection_order plan cfgs hnd hnn hr hfit with
    ⟨hres, hall⟩ | ⟨A, name, c, B, g, hsplit, hv, hg, hres, hlt, _, _, _, _⟩
  · exact ⟨sentinel, hres, ⟨fun _ => hall, fun _ => rfl⟩, fun _ => rfl, fun h => absurd rfl h⟩
  · have hmem : (name, c) ∈ cfgs := by
      rw [hsplit]
      simp
    have hne : (⟨name, g, (g : Int) * (c.device_size / c.dp_size), c.dp_size⟩ :
        NonExpertStep) ≠ sentinel := by
      intro heq
      have h1 : ((g : Nat) : Int) = -1 := congrArg NonExpertStep.dp_group_index heq
      omega
    refine ⟨_, hres, ⟨fun h => absurd h hne, fun hall => ?_⟩, ?_, fun _ => Int.natCast_nonneg _⟩
    · exfalso
      have := hall (name, c) hmem hv g hg
      dsimp only at this
      omega
    · rintro (hnil | hbad)
      · rw [hnil] at hmem
        simp at hmem
      · exact absurd hv (hbad _ hmem)

/-- Idle-instance preference, for configs without a negative `device_size` and a
plan with fewer than `2^31` steps on any one NPU: with a valid entry that no step names, the selected group has peak 0; when every
group of every valid entry named by some step has a positive peak, the selected
entry is named by no step and its group 0 is selected. -/
theorem idle_preference (plan : List Step) (cfgs : InstanceConfigs)
    (hnd : (cfgs.map Prod.fst).Nodup) (hnn : ∀ nc ∈ cfgs, 0 ≤ nc.2.device_size)
    (hr : StepsInRange plan cfgs) (hfit : CountsFit plan)
    (hidle : ∃ nc ∈ cfgs, nc.2.valid ∧ ∀ s ∈ plan, s.src.inst ≠ nc.1) :
    ∃ r c, optimize_non_expert plan cfgs = some r ∧ (r.src_instance, c) ∈ cfgs ∧ c.valid ∧
      0 ≤ r.dp_group_index ∧ r.dp_group_index < c.dp_size ∧
      group_peak plan r.src_instance c r.dp_group_index = 0 ∧
      ((∀ nc ∈ cfgs, nc.2.valid → (∃ s ∈ plan, s.src.inst = nc.1) →
          ∀ g : Nat, (g : Int) < nc.2.dp_size → 0 < group_peak plan nc.1 nc.2 g) →
        (∀ s ∈ plan, s.src.inst ≠ r.src_instance) ∧ r.dp_group_index = 0 ∧
          r.start_npu_index = 0) := by
  obtain ⟨ni, hni, hvi, hnone⟩ := hidle
  have hzero : group_peak plan ni.1 ni.2 ((0 : Nat) : Int) = 0 :=
    group_peak_idle plan ni.1 ni.2 _ hnone
  obtain ⟨A, name, c, B, g, hsplit, hv, hg, hres, _, hsmall, hmin⟩ :=
    selection_min plan cfgs hnd hnn hr hfit
      ⟨ni, hni, hvi, 0, by have := hvi.2.1; omega, by rw [hzero]; decide⟩
  have hmem : (name, c) ∈ cfgs := by
    rw [hsplit]
    simp
  have hpk : group_peak plan name c g = 0 := by
    have h1 := hmin ni hni hvi 0 (by have := hvi.2.1; omega)
    rw [hzero] at h1
    have h2 := group_peak_nonneg plan name c g
    omega
  refine ⟨_, c, hres, hmem, hv, Int.natCast_nonneg _, hg, hpk, ?_⟩
  intro hpos
  have hidle2 : ∀ s ∈ plan, s.src.inst ≠ name := by
    by_contra hcon
    push_neg at hcon
    have := hpos (name, c) hmem hv hcon g hg
    dsimp only at this
    omega
  have hg0 : g = 0 := by
    by_contra hne
    have h1 := hsmall 0 (by omega)
    rw [hpk, group_peak_idle plan name c _ hidle2] at h1
    exact absurd h1 (by decide)
  subst hg0
  refine ⟨hidle2, rfl, ?_⟩
  show ((0 : Nat) : Int) * (c.device_size / c.dp_size) = 0
  simp

/-- The effect of the order of the entries, for a plan with fewer than `2^31`
steps on any one NPU: two lists holding the same entries give both the sentinel or both a group of the same (least) peak, and in each
list the selected entry comes before every other entry that has a group of that
peak. -/
theorem perm_outcome (plan : List Step) (cfgs1 cfgs2 : InstanceConfigs)
    (hperm : cfgs1.Perm cfgs2) (hnd : (cfgs1.map Prod.fst).Nodup)
    (hnn : ∀ nc ∈ cfgs1, 0 ≤ nc.2.device_size) (hr : StepsInRange plan cfgs1)
    (hfit : CountsFit plan) :
    ∃ r1 r2, optimize_non_expert plan cfgs1 = some r1 ∧
      optimize_non_expert plan cfgs2 = some r2 ∧
      (r1 = sentinel ↔ r2 = sentinel) ∧
      (r1 ≠ sentinel → ∃ c1 c2, (r1.src_instance, c1) ∈ cfgs1 ∧
        (r2.src_instance, c2) ∈ cfgs1 ∧
        group_peak plan r1.src_instance c1 r1.dp_group_index =
          group_peak plan r2.src_instance c2 r2.dp_group_index) ∧
      (r1 ≠ sentinel → ∃ A c B, cfgs1 = A ++ (r1.src_instance, c) :: B ∧
        ∀ nc ∈ A, nc.2.valid → ∀ g2 : Nat, (g2 : Int) < nc.2.dp_size →
          group_peak plan r1.src_instance c r1.dp_group_index <
            group_peak plan nc.1 nc.2 g2) := by
  have hnd2 : (cfgs2.map Prod.fst).Nodup := (hperm.map Prod.fst).nodup_iff.mp hnd
  have hnn2 : ∀ nc ∈ cfgs2, 0 ≤ nc.2.device_size :=
    fun nc hnc => hnn nc (hperm.mem_iff.mpr hnc)
  have hr2 : StepsInRange plan cfgs2 :=
    fun s hs nc hnc => hr s hs nc (hperm.mem_iff.mpr hnc)
  by_cases hex : ∃ nc ∈ cfgs1, nc.2.valid ∧ ∃ g : Nat, (g : Int) < nc.2.dp_size ∧
      group_peak plan nc.1 nc.2 g < 1000000000
  · have hex2 : ∃ nc ∈ cfgs2, nc.2.valid ∧ ∃ g : Nat, (g : Int) < nc.2.dp_size ∧
        group_peak plan nc.1 nc.2 g < 1000000000 := by
      obtain ⟨nc, hnc, h⟩ := hex
      exact ⟨nc, hperm.mem_iff.mp hnc, h⟩
    obtain ⟨A1, n1, c1, B1, g1, hs1, hv1, hg1, hres1, hA1, _, hmin1⟩ :=
      selection_min plan cfgs1 hnd hnn hr hfit hex
    obtain ⟨A2, n2, c2, B2, g2, hs2, hv2, hg2, hres2, _, _, hmin2⟩ :=
      selection_min plan cfgs2 hnd2 hnn2 hr2 hfit hex2
    have hm1 : (n1, c1) ∈ cfgs1 := by
      rw [hs1]
      simp
    have hm2 : (n2, c2) ∈ cfgs2 := by
      rw [hs2]
      simp
    have hne : ∀ (n : String) (g : Nat) (a b : Int),
        (⟨n, g, a, b⟩ : NonExpertStep) ≠ sentinel := by
      intro n g a b heq
      have h1 : ((g : Nat) : Int) = -1 := congrArg NonExpertStep.dp_group_index heq
      omega
    refine ⟨_, _, hres1, hres2, ⟨fun h => absurd h (hne _ _ _ _),
      fun h => absurd h (hne _ _ _ _)⟩, fun _ => ?_, fun _ => ⟨A1, c1, B1, hs1, hA1⟩⟩
    refine ⟨c1, c2, hm1, hperm.mem_iff.mpr hm2, ?_⟩
    have h12 := hmin1 (n2, c2) (hperm.mem_iff.mpr hm2) hv2 g2 hg2
    have h21 := hmin2 (n1, c1) (hperm.mem_iff.mp hm1) hv1 g1 hg1
    exact le_antisymm h12 h21
  · have hall : ∀ (cfgs : InstanceConfigs), (∀ nc ∈ cfgs, nc ∈ cfgs1) →
        (cfgs.map Prod.fst).Nodup → (∀ nc ∈ cfgs, 0 ≤ nc.2.device_size) →
        StepsInRange plan cfgs → optimize_non_expert plan cfgs = some sentinel := by
      intro cfgs hsub hndc hnnc hrc
      rcases selection_order plan cfgs hndc hnnc hrc hfit with
        ⟨hres, _⟩ | ⟨A, name, c, B, g, hsplit, hv, hg, _, hlt, _, _, _, _⟩
      · exact hres
      · exfalso
        apply hex
        refine ⟨(name, c), hsub _ (by rw [hsplit]; simp), hv, g, hg, hlt⟩
    refine ⟨sentinel, sentinel, hall cfgs1 (fun _ h => h) hnd hnn hr,
      hall cfgs2 (fun nc h => hperm.mem_iff.mpr h) hnd2 hnn2 hr2, Iff.rfl,
      fun h => absurd rfl h, fun h => absurd rfl h⟩

end xllm_service


namespace xllm_service

/-! ## Non-expert planner: a load counter that overflows -/

/-- Counting `n` steps on the only NPU of an instance: its counter goes from `c`
to `c + n` reduced to 32 bits, and no other load vector changes. -/
theorem count_steps_replicate (name : String) (e : Int) (rest : List Step) :
    ∀ (n : Nat) (m : List (String × List Int)) (c : Int),
      m.lookup name = some [c] → wrap32 c = c →
      ∃ m2, count_steps (List.replicate n ⟨⟨name, 0⟩, e⟩ ++ rest) m = count_steps rest m2 ∧
        m2.lookup name = some [wrap32 (c + n)] ∧
        ∀ k, k ≠ name → m2.lookup k = m.lookup k
  | 0, m, c, hl, hc => by
    refine ⟨m, rfl, ?_, fun _ _ => rfl⟩
    rw [hl]
    simp [hc]
  | n + 1, m, c, hl, _ => by
    obtain ⟨m2, hrun, hl2, hframe⟩ := count_steps_replicate name e rest n
      ((name, [wrap32 (c + 1)]) :: m) (wrap32 (c + 1)) (lookup_cons_self _ _ _) (wrap32_idem _)
    refine ⟨m2, ?_, ?_, ?_⟩
    · rw [List.replicate_succ, List.cons_append, count_steps]
      dsimp only
      rw [hl]
      dsimp only
      rw [if_pos ⟨le_refl _, by simp⟩]
      exact hrun
    · have hsum : c + 1 + (n : Int) = c + ((n + 1 : Nat) : Int) := by
        push_cast
        omega
      rw [hl2, wrap32_add_left, hsum]
    · intro k hk
      rw [hframe k hk, lookup_cons_ne k name _ m hk]

/-- The selection on two single-NPU instances "a" and "b" whose counters hold
`-2^31` and `1`: group 0 of "a" is selected, with `current_group_max_load = 0`. -/
theorem scan_wrapped (m : List (String × List Int))
    (ha : m.lookup "a" = some [-2147483648]) (hb : m.lookup "b" = some [1]) :
    build_result (([("a", ⟨1, 1⟩), ("b", ⟨1, 1⟩)] : InstanceConfigs).foldl (scan_instance m)
      ⟨"", -1, 0, 0, 1000000000⟩) = ⟨"a", 0, 0, 1⟩ := by
  simp only [List.foldl_cons, List.foldl_nil, scan_instance, ha, hb]
  decide

/-- With `n` steps on the only NPU of "a", `n` being `-2^31` modulo `2^32`, and one
step on the only NPU of "b", group 0 of "a" is selected. -/
theorem wrapped_counter_run (n : Nat) (hn : wrap32 (0 + (n : Int)) = -2147483648) :
    optimize_non_expert (List.replicate n ⟨⟨"a", 0⟩, 0⟩ ++ [⟨⟨"b", 0⟩, 1⟩])
      [("a", ⟨1, 1⟩), ("b", ⟨1, 1⟩)] = some ⟨"a", 0, 0, 1⟩ := by
  have h0 : alloc_loads [("a", ⟨1, 1⟩), ("b", ⟨1, 1⟩)] [] = some [("b", [0]), ("a", [0])] := by
    decide
  obtain ⟨m2, hrun, hl2, hframe⟩ := count_steps_replicate "a" 0 [⟨⟨"b", 0⟩, 1⟩] n
    [("b", [0]), ("a", [0])] 0 (by decide) (by decide)
  have hb2 : m2.lookup "b" = some [0] := by
    rw [hframe "b" (by decide)]
    decide
  have hrun2 : count_steps [⟨⟨"b", 0⟩, 1⟩] m2 = some (("b", [1]) :: m2) := by
    rw [count_steps]
    dsimp only
    rw [hb2]
    dsimp only
    rw [if_pos (by decide)]
    rfl
  unfold optimize_non_expert
  rw [h0]
  dsimp only
  rw [hrun, hrun2]
  dsimp only
  rw [scan_wrapped]
  · rw [lookup_cons_ne "a" "b" _ m2 (by decide), hl2, hn]
  · exact lookup_cons_self _ _ _

/-- With `2^31` steps on the only NPU of "a" and one step on the only NPU of "b",
the counter of "a" overflows to `-2^31`, its group gets
`current_group_max_load = 0`, and group 0 of "a" is selected although "b"
carries one step only. -/
theorem wrapped_counter_selected :
    optimize_non_expert (List.replicate 2147483648 ⟨⟨"a", 0⟩, 0⟩ ++ [⟨⟨"b", 0⟩, 1⟩])
      [("a", ⟨1, 1⟩), ("b", ⟨1, 1⟩)] = some ⟨"a", 0, 0, 1⟩ :=
  wrapped_counter_run 2147483648 (by decide)

end xllm_service


namespace xllm_service

/-! ## Edge positions after `add_edge` -/

/-- The adjacency lists after one call `add_edge(u, v, c)` with in-range
endpoints: the forward edge is appended to `g[u]`, then the reverse edge to
`g[v]`; both `rev` fields are the lengths before the call. -/
theorem getD_add_edge (mf : MaxFlow) (u v : Nat) (c : Int) (w : Nat)
    (hu : u < mf.g.length) (hv : v < mf.g.length) :
    (mf.add_edge u v c).g.getD w [] =
      (mf.g.getD w [] ++ (if w = u then [⟨v, (mf.g.getD v []).length, c⟩] else [])) ++
        (if w = v then [⟨u, (mf.g.getD u []).length, 0⟩] else []) := by
  unfold MaxFlow.add_edge
  dsimp only
  rw [getD_push_edge _ _ _ _ (by rw [length_push_edge]; exact hv)]
  by_cases h1 : w = v
  · rw [if_pos h1, if_pos h1, getD_push_edge _ _ _ _ hu]
    by_cases h2 : w = u
    · have h3 : v = u := by rw [← h1, h2]
      rw [if_pos h3, if_pos h2, ← h2]
    · have h3 : ¬ v = u := by
        intro h
        exact h2 (by rw [h1, h])
      rw [if_neg h3, if_neg h2, List.append_nil, h1]
  · rw [if_neg h1, if_neg h1, List.append_nil, getD_push_edge _ _ _ _ hu]
    by_cases h2 : w = u
    · rw [if_pos h2, if_pos h2, h2]
    · rw [if_neg h2, if_neg h2, List.append_nil]

theorem length_build_g (n s t : Nat) (es : List (Nat × Nat × Int)) :
    (MaxFlow.build n s t es).g.length = n := by
  rw [build_g, length_residual]

theorem build_snoc (n s t : Nat) (es : List (Nat × Nat × Int)) (u v : Nat) (c : Int) :
    MaxFlow.build n s t (es ++ [(u, v, c)]) = (MaxFlow.build n s t es).add_edge u v c := by
  unfold MaxFlow.build
  rw [List.foldl_append]
  rfl

/-- After calls with in-range, distinct endpoints every edge has its partner at
the position it names. -/
theorem paired_build (n s t : Nat) (es : List (Nat × Nat × Int))
    (hr : EndpointsInRange n es) (hd : NoSelfLoop es) : Paired (MaxFlow.build n s t es).g := by
  induction es using List.reverseRecOn with
  | nil =>
    intro v i e he
    rw [build_g] at he
    simp only [List.map_nil] at he
    rw [residual_nil_getD] at he
    simp at he
  | append_singleton es a ih =>
    obtain ⟨u, v, c⟩ := a
    have hr2 : EndpointsInRange n es := fun e he => hr e (List.mem_append_left _ he)
    have hd2 : NoSelfLoop es := fun e he => hd e (List.mem_append_left _ he)
    have hlast := hr (u, v, c) (by simp)
    have hne := hd (u, v, c) (by simp)
    rw [build_snoc, add_edge_g]
    exact paired_add_residual _ ⟨u, v, c, 0⟩ (by rw [length_build_g]; exact hlast.1)
      (by rw [length_build_g]; exact hlast.2) hne (ih hr2 hd2)

theorem symmetric_of_paired (g : List (List Edge)) (h : Paired g) : SymmetricPositions g := by
  intro v i e he
  obtain ⟨_, _, e2, he2, hto, hrev⟩ := h v i e he
  exact ⟨e2, he2, hto, hrev⟩

/-- A self-loop breaks the symmetry: the reverse edge of `add_edge(0, 0, 5)` is
stored at position 1 and names position 0, where the forward edge names
position 0 too. -/
theorem self_loop_positions :
    (MaxFlow.build 1 0 0 [(0, 0, 5)]).g = [[⟨0, 0, 5⟩, ⟨0, 0, 0⟩]] ∧
    ¬ SymmetricPositions (MaxFlow.build 1 0 0 [(0, 0, 5)]).g := by
  have hg : (MaxFlow.build 1 0 0 [(0, 0, 5)]).g = [[⟨0, 0, 5⟩, ⟨0, 0, 0⟩]] := by decide
  refine ⟨hg, ?_⟩
  intro hsym
  rw [hg] at hsym
  obtain ⟨e2, he2, _, hrev⟩ := hsym 0 1 ⟨0, 0, 0⟩ (by decide)
  have h2 : e2 = ⟨0, 0, 5⟩ := by
    have : (some (⟨0, 0, 5⟩ : Edge)) = some e2 := he2
    exact (Option.some.inj this).symm
  rw [h2] at hrev
  exact absurd hrev (by decide)

end xllm_service


namespace xllm_service

/-! ## More fuel does not change a result -/

theorem bfs_loop_succ (g : List (List Edge)) :
    ∀ (fuel i : Nat) (level : List Int) (q : List Nat) (r : List Int),
      bfs_loop g fuel i level q = some r → bfs_loop g (fuel + 1) i level q = some r
  | 0, _, _, _, _, h => by
    rw [bfs_loop] at h
    exact absurd h (by simp)
  | fuel + 1, i, level, q, r, h => by
    rw [bfs_loop] at h ⊢
    cases hq : q[i]? with
    | none =>
      simp only [hq] at h ⊢
      exact h
    | some v =>
      simp only [hq] at h ⊢
      exact bfs_loop_succ g fuel _ _ _ r h

theorem bfs_succ (fuel : Nat) (mf : MaxFlow) (r : MaxFlow × Bool)
    (h : mf.bfs fuel = some r) : mf.bfs (fuel + 1) = some r := by
  unfold MaxFlow.bfs at h ⊢
  dsimp only at h ⊢
  cases hl : bfs_loop mf.g fuel 0 ((List.replicate mf.level.length (-1 : Int)).set mf.s 0)
      [mf.s] with
  | none =>
    rw [hl] at h
    exact absurd h (by simp)
  | some level =>
    rw [hl] at h
    rw [bfs_loop_succ mf.g fuel _ _ _ level hl]
    exact h

theorem dfs_zero (mf : MaxFlow) (v : Nat) (f : Int) : mf.dfs 0 v f = none := by
  rw [MaxFlow.dfs]

theorem dfs_descend_none (fuel : Nat) (mf : MaxFlow) (v : Nat) (f : Int) (e : Edge)
    (h : v ≠ mf.t) (he : (mf.g.getD v [])[mf.it.getD v 0]? = some e)
    (hadm : 0 < e.cap ∧ mf.level.getD v 0 < mf.level.getD e.to_ 0)
    (hsub : mf.dfs fuel e.to_ (min f e.cap) = none) :
    mf.dfs (fuel + 1) v f = none := by
  rw [MaxFlow.dfs, if_neg h]
  simp only [he, if_pos hadm, hsub]

end xllm_service


namespace xllm_service

/-! ## The flow value of a feasibility test -/

/-- The flow `dinic` finds on the graph of `feasible` lies between 0 and
`|required|`, and the verdict of `feasible` is `true` exactly when it equals
`|required|`. -/
theorem feasible_flow_bound (K : Int) (hK : 0 ≤ K) (required : List Int)
    (rep : ExpertReplicaMap) (fuel : Nat)
    (hfuel : dinic_fuel (sink_node required rep + 1) (feas_arcs K required rep) 0 ≤ fuel) :
    ∃ mf flow res, (feasible_graph K required rep).dinic fuel = some (mf, flow) ∧
      0 ≤ flow ∧ flow ≤ required.length ∧
      feasible fuel K required rep = some res ∧ res.mf = mf ∧
      (res.ok = true ↔ flow = required.length) := by
  have hwf := wellFormed_feas_arcs K hK required rep
  have hst := sink_node_pos required rep
  obtain ⟨mf, flow, fs, hrun, hflow, _, _, hvalt, _, _⟩ :=
    dinic_max_flow (sink_node required rep + 1) 0 (sink_node required rep)
      (feas_arcs K required rep) hwf (by omega) (by omega) hst fuel hfuel
  have hout := outflow_sink_zero K required rep fs hflow
  have hin : inflow fs (sink_node required rep) = flow := by omega
  have hnn : ∀ e ∈ fs, 0 ≤ e.x := fun e he => (hflow.2.1 e he).1
  have h0 : 0 ≤ flow := by
    rw [← hin, inflow_eq_sel]
    exact sel_sum_nonneg _ fs hnn
  have h1 : flow ≤ required.length := by
    rw [← hin, inflow_eq_sel]
    have := sel_sum_le_count (fun e => e.v = sink_node required rep) 1 fs
      (fun e he hv => sink_sel_le_one K required rep fs hflow e he hv)
    rw [countP_sink_flow K required rep fs hflow, one_mul] at this
    exact this
  rw [← feasible_graph_eq] at hrun
  refine ⟨mf, flow, ⟨decide ((required.length : Int) ≤ flow), (build_npu_index rep).2,
    required, mf⟩, hrun, h0, h1, ?_, rfl, ?_⟩
  · unfold feasible
    rw [hrun]
  · simp only [decide_eq_true_eq]
    constructor
    · intro h
      omega
    · intro h
      omega

/-! ## The state the binary search ends in -/

end xllm_service


namespace xllm_service

/-! ## The feasibility test and the 32-bit flow value -/

/-- On the graph of `feasible`, for a bound `K >= 0` and fewer than `2^31`
requests (the range in which `(int)required.size()` is the number of requests),
the 32-bit `dinic` of the source returns what the exact one returns, because the
flow never exceeds the number of requests: the verdict and the residual graph
of `feasible` are those of the source. -/
theorem feasible_dinic_int (K : Int) (hK : 0 ≤ K) (required : List Int)
    (rep : ExpertReplicaMap) (hlen : required.length < 2147483648) (fuel : Nat)
    (hfuel : dinic_fuel (sink_node required rep + 1) (feas_arcs K required rep) 0 ≤ fuel) :
    (feasible_graph K required rep).dinic_int fuel =
      (feasible_graph K required rep).dinic fuel := by
  obtain ⟨mf, flow, _, hrun, h0, h1, _⟩ := feasible_flow_bound K hK required rep fuel hfuel
  rw [hrun]
  apply dinic_int_of_fits fuel _ mf flow hrun h0
  have : (required.length : Int) < 2147483648 := by exact_mod_cast hlen
  omega

end xllm_service


namespace xllm_service

/-! ## The NPU serving a request slot -/

end xllm_service


namespace xllm_service

/-! ## Breadth-first labelling: levels go up one at a time -/

theorem drop_append_singleton (q : List Nat) (w i : Nat) (hi : i ≤ q.length) :
    (q ++ [w]).drop i = q.drop i ++ [w] :=
  List.drop_append_of_le_length hi

theorem take_append_singleton (q : List Nat) (w i : Nat) (hi : i ≤ q.length) :
    (q ++ [w]).take i = q.take i :=
  List.take_append_of_le_length hi

/-- Labelling the head of an edge of the node being scanned keeps the state of
the scan. -/
theorem bfsTight_label (g : List (List Edge)) (s n : Nat) (level : List Int) (q : List Nat)
    (v i : Nat) (e : Edge) (hinv : BfsInv g s n level q) (ht : BfsTight g level q i)
    (hi : i ≤ q.length) (hv : v ∈ q.drop i)
    (hfirst : ∀ y ∈ q.drop i, level.getD v 0 ≤ level.getD y 0)
    (hto : e.to_ < n) (hneg : level.getD e.to_ 0 < 0) :
    BfsTight g (level.set e.to_ (level.getD v 0 + 1)) (q ++ [e.to_]) i ∧
    (∀ y ∈ (q ++ [e.to_]).drop i,
      (level.set e.to_ (level.getD v 0 + 1)).getD v 0 ≤
        (level.set e.to_ (level.getD v 0 + 1)).getD y 0) ∧
    (level.set e.to_ (level.getD v 0 + 1)).getD e.to_ 0 =
      (level.set e.to_ (level.getD v 0 + 1)).getD v 0 + 1 := by
  have hvq : v ∈ q := List.mem_of_mem_drop hv
  have hvl := (hinv.inq v hvq).2
  have hlt : e.to_ < level.length := by rw [hinv.len]; exact hto
  have hkeep : ∀ x, 0 ≤ level.getD x 0 →
      (level.set e.to_ (level.getD v 0 + 1)).getD x 0 = level.getD x 0 := by
    intro x hx
    rw [getD_set_int]
    have hne : ¬ (e.to_ = x ∧ e.to_ < level.length) := by
      rintro ⟨h1, _⟩
      rw [h1] at hneg
      omega
    rw [if_neg hne]
  have hkq : ∀ x ∈ q, (level.set e.to_ (level.getD v 0 + 1)).getD x 0 = level.getD x 0 :=
    fun x hx => hkeep x (hinv.inq x hx).2
  have hnew : (level.set e.to_ (level.getD v 0 + 1)).getD e.to_ 0 = level.getD v 0 + 1 := by
    rw [getD_set_int, if_pos ⟨rfl, hlt⟩]
  refine ⟨⟨?_, ?_, ?_⟩, ?_, ?_⟩
  · rw [List.pairwise_append]
    refine ⟨?_, List.pairwise_singleton _ _, ?_⟩
    · apply ht.sorted.imp_of_mem
      intro x y hx hy hxy
      rw [hkq x hx, hkq y hy]
      exact hxy
    · intro x hx y hy
      rw [List.mem_singleton.mp hy, hnew, hkq x hx]
      exact ht.span x hx v hv
  · intro x hx y hy
    rw [drop_append_singleton q _ i hi] at hy
    rcases List.mem_append.mp hx with hx | hx
    · rcases List.mem_append.mp hy with hy | hy
      · rw [hkq x hx, hkq y (List.mem_of_mem_drop hy)]
        exact ht.span x hx y hy
      · rw [List.mem_singleton.mp hy, hnew, hkq x hx]
        have := ht.span x hx v hv
        omega
    · rw [List.mem_singleton.mp hx, hnew]
      rcases List.mem_append.mp hy with hy | hy
      · rw [hkq y (List.mem_of_mem_drop hy)]
        have := hfirst y hy
        omega
      · rw [List.mem_singleton.mp hy, hnew]
        omega
  · intro x hx e2 he2 hcap
    rw [take_append_singleton q _ i hi] at hx
    obtain ⟨h0, h1⟩ := ht.done x hx e2 he2 hcap
    rw [hkeep _ h0, hkq x (List.mem_of_mem_take hx)]
    exact ⟨h0, h1⟩
  · intro y hy
    rw [drop_append_singleton q _ i hi] at hy
    rw [hkq v hvq]
    rcases List.mem_append.mp hy with hy | hy
    · rw [hkq y (List.mem_of_mem_drop hy)]
      exact hfirst y hy
    · rw [List.mem_singleton.mp hy, hnew]
      omega
  · rw [hnew, hkq v hvq]

/-- The inner loop of `bfs` keeps the state of the scan, and the head of every
positive-capacity edge it scans ends at most one level above the scanned node. -/
theorem bfs_edges_tight (g : List (List Edge)) (s n v i : Nat) :
    ∀ (es : List Edge) (level : List Int) (q : List Nat),
      BfsInv g s n level q → BfsTight g level q i → i ≤ q.length → v ∈ q.drop i →
      (∀ y ∈ q.drop i, level.getD v 0 ≤ level.getD y 0) →
      (∀ e ∈ es, e ∈ g.getD v [] ∧ e.to_ < n) →
      BfsTight g (bfs_edges v es level q).1 (bfs_edges v es level q).2 i ∧
      (∀ e ∈ es, 0 < e.cap →
        (bfs_edges v es level q).1.getD e.to_ 0 ≤ (bfs_edges v es level q).1.getD v 0 + 1)
  | [], level, q, _, ht, _, _, _, _ => by
    refine ⟨ht, ?_⟩
    intro e he
    simp at he
  | e :: es, level, q, hinv, ht, hi, hv, hfirst, hes => by
    have he := hes e (List.mem_cons_self _ _)
    have hrest : ∀ e2 ∈ es, e2 ∈ g.getD v [] ∧ e2.to_ < n :=
      fun e2 h2 => hes e2 (List.mem_cons_of_mem _ h2)
    have hvq : v ∈ q := List.mem_of_mem_drop hv
    have hvl := (hinv.inq v hvq).2
    by_cases hc : 0 < e.cap ∧ level.getD e.to_ 0 < 0
    · obtain ⟨hinv1, hkeep1, hnew1⟩ :=
        bfsInv_label g s n level q v e hinv hvq he.1 he.2 hc.1 hc.2
      obtain ⟨ht1, hfirst1, heq1⟩ :=
        bfsTight_label g s n level q v i e hinv ht hi hv hfirst he.2 hc.2
      have hv1 : v ∈ (q ++ [e.to_]).drop i := by
        rw [drop_append_singleton q _ i hi]
        exact List.mem_append_left _ hv
      have hi1 : i ≤ (q ++ [e.to_]).length := by
        rw [List.length_append]
        omega
      obtain ⟨_, hkeep2, _, _⟩ :=
        bfs_edges_spec g s n v es _ _ hinv1 (List.mem_append_left _ hvq) hrest
      obtain ⟨ht2, hdone2⟩ :=
        bfs_edges_tight g s n v i es _ _ hinv1 ht1 hi1 hv1 hfirst1 hrest
      have hdef : bfs_edges v (e :: es) level q =
          bfs_edges v es (level.set e.to_ (level.getD v 0 + 1)) (q ++ [e.to_]) := by
        rw [bfs_edges, if_pos hc]
      rw [hdef]
      refine ⟨ht2, ?_⟩
      intro e2 he2 hcap2
      rcases List.mem_cons.mp he2 with h | h
      · have hvl1 : 0 ≤ (level.set e.to_ (level.getD v 0 + 1)).getD v 0 := by
          rw [hkeep1 v hvl]
          exact hvl
        rw [h, hkeep2 _ hnew1, hkeep2 _ hvl1, heq1]
      · exact hdone2 e2 h hcap2
    · obtain ⟨_, hkeep2, _, _⟩ := bfs_edges_spec g s n v es level q hinv hvq hrest
      obtain ⟨ht2, hdone2⟩ := bfs_edges_tight g s n v i es level q hinv ht hi hv hfirst hrest
      have hdef : bfs_edges v (e :: es) level q = bfs_edges v es level q := by
        rw [bfs_edges, if_neg hc]
      rw [hdef]
      refine ⟨ht2, ?_⟩
      intro e2 he2 hcap2
      rcases List.mem_cons.mp he2 with h | h
      · have h0 : 0 ≤ level.getD e.to_ 0 := by
          rw [h] at hcap2
          by_contra hlt
          exact hc ⟨hcap2, not_le.mp hlt⟩
        have hmem : e.to_ ∈ q := hinv.labelled e.to_ he.2 h0
        rw [h, hkeep2 _ h0, hkeep2 _ hvl]
        exact ht.span e.to_ hmem v hv
      · exact hdone2 e2 h hcap2

/-- When the outer loop of `bfs` returns, every positive-capacity edge that
leaves a labelled node leads to a labelled node at most one level higher. -/
theorem bfs_loop_tight (g : List (List Edge)) (s n : Nat)
    (hto : ∀ v e, e ∈ g.getD v [] → e.to_ < n) :
    ∀ (fuel i : Nat) (level : List Int) (q : List Nat) (level2 : List Int),
      BfsInv g s n level q → BfsTight g level q i → i ≤ q.length →
      bfs_loop g fuel i level q = some level2 →
      ∀ v, v < n → 0 ≤ level2.getD v 0 → ∀ e ∈ g.getD v [], 0 < e.cap →
        0 ≤ level2.getD e.to_ 0 ∧ level2.getD e.to_ 0 ≤ level2.getD v 0 + 1
  | 0, _, _, _, _, _, _, _, h => by
    rw [bfs_loop] at h
    exact absurd h (by simp)
  | fuel + 1, i, level, q, level2, hinv, ht, hi, h => by
    rw [bfs_loop] at h
    cases hq : q[i]? with
    | none =>
      simp only [hq, Option.some.injEq] at h
      subst h
      have hi2 : q.length ≤ i := List.getElem?_eq_none_iff.mp hq
      intro v hv h0 e he hcap
      have hvq : v ∈ q.take i := by
        rw [List.take_of_length_le hi2]
        exact hinv.labelled v hv h0
      exact ht.done v hvq e he hcap
    | some v =>
      simp only [hq] at h
      have hilt : i < q.length := by
        by_contra hge
        rw [List.getElem?_eq_none (not_lt.mp hge)] at hq
        exact Option.noConfusion hq
      have hqi : q[i] = v := by
        rw [List.getElem?_eq_getElem hilt] at hq
        exact Option.some.inj hq
      have hdrop : q.drop i = v :: q.drop (i + 1) := by
        rw [← hqi]
        exact List.drop_eq_getElem_cons hilt
      have hv : v ∈ q.drop i := by
        rw [hdrop]
        exact List.mem_cons_self _ _
      have hvq : v ∈ q := List.mem_of_mem_drop hv
      have hfirst : ∀ y ∈ q.drop i, level.getD v 0 ≤ level.getD y 0 := by
        have hp : (q.drop i).Pairwise (fun x y => level.getD x 0 ≤ level.getD y 0) :=
          ht.sorted.sublist (List.drop_sublist i q)
        rw [hdrop] at hp
        intro y hy
        rw [hdrop] at hy
        rcases List.mem_cons.mp hy with hy | hy
        · rw [hy]
        · exact (List.pairwise_cons.mp hp).1 y hy
      have hes : ∀ e ∈ g.getD v [], e ∈ g.getD v [] ∧ e.to_ < n :=
        fun e he => ⟨he, hto v e he⟩
      obtain ⟨hinv1, hkeep1, hcl1, ext, hext⟩ :=
        bfs_edges_spec g s n v (g.getD v []) level q hinv hvq hes
      obtain ⟨ht1, hdone1⟩ :=
        bfs_edges_tight g s n v i (g.getD v []) level q hinv ht (le_of_lt hilt) hv hfirst hes
      have hlen1 : i + 1 ≤ (bfs_edges v (g.getD v []) level q).2.length := by
        rw [hext, List.length_append]
        omega
      have hq1 : (bfs_edges v (g.getD v []) level q).2[i]? = some v := by
        rw [hext, List.getElem?_append_left hilt]
        exact hq
      have htake : (bfs_edges v (g.getD v []) level q).2.take (i + 1) =
          (bfs_edges v (g.getD v []) level q).2.take i ++ [v] := by
        rw [List.take_succ, hq1]
        rfl
      apply bfs_loop_tight g s n hto fuel (i + 1) _ _ level2 hinv1 ?_ hlen1 h
      refine ⟨ht1.sorted, ?_, ?_⟩
      · intro x hx y hy
        apply ht1.span x hx y
        have : (bfs_edges v (g.getD v []) level q).2.drop (i + 1) =
            ((bfs_edges v (g.getD v []) level q).2.drop i).drop 1 := by
          rw [List.drop_drop]
        rw [this] at hy
        exact List.mem_of_mem_drop hy
      · intro x hx e he hcap
        rw [htake] at hx
        rcases List.mem_append.mp hx with hx | hx
        · exact ht1.done x hx e he hcap
        · rw [List.mem_singleton.mp hx] at he ⊢
          exact ⟨hcl1 e he hcap, hdone1 e he hcap⟩

theorem bfsTight_init (g : List (List Edge)) (level : List Int) (s : Nat) :
    BfsTight g level [s] 0 := by
  refine ⟨List.pairwise_singleton _ _, ?_, ?_⟩
  · intro x hx y hy
    rw [List.drop_zero] at hy
    rw [List.mem_singleton.mp hx, List.mem_singleton.mp hy]
    omega
  · intro x hx
    simp at hx

/-- The labels `bfs` computes are tight: every positive-capacity edge that leaves
a labelled node leads to a labelled node at most one level higher.  The graph,
the pointers, `s` and `t` are not touched. -/
theorem bfs_tight (mf mf1 : MaxFlow) (reached : Bool) (n : Nat) (hlen : mf.level.length = n)
    (hg : mf.g.length = n) (hs : mf.s < n) (hto : ∀ v e, e ∈ mf.g.getD v [] → e.to_ < n)
    (fuel : Nat) (h : mf.bfs fuel = some (mf1, reached)) :
    mf1.g = mf.g ∧ mf1.it = mf.it ∧ mf1.s = mf.s ∧ mf1.t = mf.t ∧ mf1.level.length = n ∧
      mf1.level.getD mf.s 0 = 0 ∧ (reached = true → 0 ≤ mf1.level.getD mf.t 0) ∧
      LevelTight mf1.g mf1.level := by
  unfold MaxFlow.bfs at h
  rw [hlen] at h
  dsimp only at h
  cases hl : bfs_loop mf.g fuel 0 ((List.replicate n (-1 : Int)).set mf.s 0) [mf.s] with
  | none =>
    rw [hl] at h
    exact absurd h (by simp)
  | some level2 =>
    rw [hl] at h
    simp only [Option.some.injEq, Prod.mk.injEq] at h
    obtain ⟨h1, h2⟩ := h
    subst h1
    have hinit := bfsInv_init mf.g mf.s n hs
    have htight := bfs_loop_tight mf.g mf.s n hto fuel 0 _ [mf.s] level2 hinit
      (bfsTight_init _ _ _) (Nat.zero_le _) hl
    obtain ⟨level3, hrun, hlen3, hsrc3, _⟩ :=
      bfs_spec mf n hlen hs hto (max fuel (n + 1)) (le_max_right _ _)
    have hsame : level3 = level2 := by
      have hmono : ∀ k, mf.bfs (fuel + k) =
          some ({ mf with level := level2 }, decide (0 ≤ level2.getD mf.t 0)) := by
        intro k
        induction k with
        | zero =>
          unfold MaxFlow.bfs
          rw [hlen]
          dsimp only
          rw [Nat.add_zero, hl]
        | succ k ih => exact bfs_succ _ mf _ ih
      have := hmono (max fuel (n + 1) - fuel)
      rw [show fuel + (max fuel (n + 1) - fuel) = max fuel (n + 1) by
        have := le_max_left fuel (n + 1)
        omega, hrun] at this
      simp only [Option.some.injEq, Prod.mk.injEq] at this
      exact congrArg MaxFlow.level this.1
    subst hsame
    refine ⟨rfl, rfl, rfl, rfl, hlen3, hsrc3, ?_, ?_⟩
    · intro hr
      rw [← h2] at hr
      simpa using hr
    · intro v e he hcap h0
      by_cases hv : v < n
      · exact htight v hv h0 e he hcap
      · exfalso
        rw [getD_of_length_le mf.g v (by rw [hg]; omega)] at he
        simp at he

end xllm_service


namespace xllm_service

/-! ## Pushing flow changes capacities only -/

theorem length_shape (g : List (List Edge)) : (shape g).length = g.length := by
  unfold shape
  rw [List.length_map]

theorem map_modify_cap (es : List Edge) (i : Nat) (d : Int) :
    (es.modify (fun e => { e with cap := e.cap + d }) i).map (fun e => (e.to_, e.rev)) =
      es.map (fun e => (e.to_, e.rev)) := by
  apply List.ext_getElem?
  intro j
  rw [List.getElem?_map, List.getElem?_map, List.getElem?_modify]
  cases hj : es[j]? with
  | none => rfl
  | some e =>
    by_cases hij : i = j
    · simp [hij]
    · simp [hij]

theorem shape_add_cap (g : List (List Edge)) (v i : Nat) (d : Int) :
    shape (add_cap g v i d) = shape g := by
  unfold shape add_cap
  apply List.ext_getElem?
  intro w
  rw [List.getElem?_map, List.getElem?_map, List.getElem?_modify]
  cases hw : g[w]? with
  | none => rfl
  | some es =>
    by_cases hvw : v = w
    · simp only [hvw, if_true, Option.map_eq_map, Option.map_some', map_modify_cap]
    · simp only [hvw, if_false, Option.map_eq_map, Option.map_some']

/-- Graphs of the same shape store edges with the same `to` and `rev` at the same
positions. -/
theorem getElem?_of_shape (g g2 : List (List Edge)) (h : shape g2 = shape g) (v i : Nat)
    (e2 : Edge) (he : (g2.getD v [])[i]? = some e2) :
    ∃ e, (g.getD v [])[i]? = some e ∧ e.to_ = e2.to_ ∧ e.rev = e2.rev := by
  have hv : (shape g2)[v]? = (shape g)[v]? := by rw [h]
  unfold shape at hv
  rw [List.getElem?_map, List.getElem?_map] at hv
  rw [List.getD_eq_getElem?_getD] at he
  rw [List.getD_eq_getElem?_getD]
  cases h2 : g2[v]? with
  | none =>
    rw [h2] at he
    simp at he
  | some es2 =>
    rw [h2] at he hv
    cases h1 : g[v]? with
    | none =>
      rw [h1] at hv
      exact absurd hv (by simp)
    | some es =>
      rw [h1] at hv
      simp only [Option.map_some', Option.some.injEq] at hv
      simp only [Option.getD_some] at he ⊢
      have hi : (es2.map (fun e => (e.to_, e.rev)))[i]? =
          (es.map (fun e => (e.to_, e.rev)))[i]? := by rw [hv]
      rw [List.getElem?_map, List.getElem?_map, he] at hi
      cases hes : es[i]? with
      | none =>
        rw [hes] at hi
        simp at hi
      | some e =>
        rw [hes] at hi
        simp only [Option.map_some', Option.some.injEq, Prod.mk.injEq] at hi
        exact ⟨e, rfl, hi.1.symm, hi.2.symm⟩

theorem length_of_shape (g g2 : List (List Edge)) (h : shape g2 = shape g) :
    g2.length = g.length := by
  rw [← length_shape g2, h, length_shape]

theorem paired_of_shape (g g2 : List (List Edge)) (h : shape g2 = shape g) (hp : Paired g) :
    Paired g2 := by
  intro v i e2 he2
  obtain ⟨e, he, hto, hrev⟩ := getElem?_of_shape g g2 h v i e2 he2
  obtain ⟨hne, hlt, p, hpe, hpto, hprev⟩ := hp v i e he
  obtain ⟨p2, hp2, hto2, hrev2⟩ := getElem?_of_shape g2 g h.symm e.to_ e.rev p hpe
  rw [← hto, ← hrev]
  refine ⟨hne, by rw [length_of_shape g g2 h]; exact hlt, p2, hp2, ?_, ?_⟩
  · rw [hto2]
    exact hpto
  · rw [hrev2]
    exact hprev

/-- An edge of the graph after `g[v][i].cap += d`: the edge at the same position
before, with the same capacity unless the position is `(v, i)`. -/
theorem mem_add_cap (g : List (List Edge)) (v i : Nat) (d : Int) (w : Nat) (e2 : Edge)
    (h : e2 ∈ (add_cap g v i d).getD w []) :
    ∃ j e, (g.getD w [])[j]? = some e ∧ e2.to_ = e.to_ ∧ e2.rev = e.rev ∧
      (e2.cap = e.cap ∨ (w = v ∧ j = i ∧ e2.cap = e.cap + d)) := by
  rw [getD_add_cap] at h
  by_cases hwv : w = v
  · rw [if_pos hwv] at h
    obtain ⟨j, hj⟩ := List.mem_iff_getElem?.mp h
    rw [List.getElem?_modify] at hj
    rw [hwv]
    cases hes : (g.getD v [])[j]? with
    | none =>
      rw [hes] at hj
      simp at hj
    | some e =>
      rw [hes] at hj
      by_cases hij : i = j
      · simp only [hij, if_true, Option.map_eq_map, Option.map_some', Option.some.injEq] at hj
        exact ⟨j, e, hes, by rw [← hj], by rw [← hj],
          Or.inr ⟨rfl, hij.symm, by rw [← hj]⟩⟩
      · simp only [hij, if_false, Option.map_eq_map, Option.map_some', Option.some.injEq] at hj
        exact ⟨j, e, hes, by rw [← hj], by rw [← hj], Or.inl (by rw [← hj])⟩
  · rw [if_neg hwv] at h
    obtain ⟨j, hj⟩ := List.mem_iff_getElem?.mp h
    exact ⟨j, e2, hj, rfl, rfl, Or.inl rfl⟩

/-- Pushing `d` units through an edge that goes up exactly one level keeps
the labels tight: the only capacity that grows is that of the partner edge,
which goes down one level. -/
theorem tight_push (g : List (List Edge)) (level : List Int) (hp : Paired g)
    (ht : LevelTight g level) (v i : Nat) (e : Edge) (he : (g.getD v [])[i]? = some e)
    (hlv : level.getD e.to_ 0 = level.getD v 0 + 1) (hv0 : 0 ≤ level.getD v 0)
    (d : Int) :
    LevelTight (add_cap (add_cap g v i (-d)) e.to_ e.rev d) level := by
  intro w e2 he2 hcap hw0
  obtain ⟨j, e1, he1, hto1, _, hc1⟩ := mem_add_cap _ _ _ _ w e2 he2
  obtain ⟨k, e0, he0, hto0, _, hc0⟩ :=
    mem_add_cap g v i (-d) w e1 (List.mem_iff_getElem?.mpr ⟨_, he1⟩)
  obtain ⟨_, _, p, hpe, hpto, _⟩ := hp v i e he
  have hjk : ∀ (l : List Edge) (a b : Nat) (x y : Edge), l[a]? = some x → l[b]? = some y →
      a = b → x = y := by
    intro l a b x y hx hy hab
    rw [hab, hy] at hx
    exact (Option.some.inj hx).symm
  rcases hc1 with hsame1 | ⟨hw, hj, _⟩
  · rcases hc0 with hsame0 | ⟨hw, hk, hcap0⟩
    · have := ht w e0 (List.mem_iff_getElem?.mpr ⟨_, he0⟩) (by omega) hw0
      rw [hto1, hto0]
      exact this
    · have hee : e0 = e := by
        rw [hw, hk, he] at he0
        exact (Option.some.inj he0).symm
      rw [hto1, hto0, hee, hlv, hw]
      constructor <;> omega
  · have hto2 : e2.to_ = v := by
      have hsh := getElem?_of_shape g (add_cap g v i (-d)) (shape_add_cap g v i (-d))
        w j e1 he1
      obtain ⟨e3, he3, hto3, _⟩ := hsh
      rw [hw, hj, hpe] at he3
      rw [hto1, ← hto3, ← Option.some.inj he3]
      exact hpto
    rw [hto2, hw, hlv]
    constructor <;> omega

end xllm_service


namespace xllm_service

/-! ## The recorded `dfs`: branches -/

theorem dfs_log_zero (mf : MaxFlow) (v : Nat) (f : Int) : mf.dfs_log 0 v f = none := by
  rw [MaxFlow.dfs_log]

theorem dfs_log_at_sink (fuel : Nat) (mf : MaxFlow) (v : Nat) (f : Int) (h : v = mf.t) :
    mf.dfs_log (fuel + 1) v f = some (mf, f, ⟨[], []⟩) := by
  rw [MaxFlow.dfs_log, if_pos h]

theorem dfs_log_exhausted (fuel : Nat) (mf : MaxFlow) (v : Nat) (f : Int) (h : v ≠ mf.t)
    (he : (mf.g.getD v [])[mf.it.getD v 0]? = none) :
    mf.dfs_log (fuel + 1) v f = some (mf, 0, ⟨[], []⟩) := by
  rw [MaxFlow.dfs_log, if_neg h]
  simp only [he]

theorem dfs_log_skip (fuel : Nat) (mf : MaxFlow) (v : Nat) (f : Int) (e : Edge)
    (h : v ≠ mf.t) (he : (mf.g.getD v [])[mf.it.getD v 0]? = some e)
    (hadm : ¬ (0 < e.cap ∧ mf.level.getD v 0 < mf.level.getD e.to_ 0)) :
    mf.dfs_log (fuel + 1) v f =
      MaxFlow.dfs_log fuel { mf with it := mf.it.set v (mf.it.getD v 0 + 1) } v f := by
  rw [MaxFlow.dfs_log, if_neg h]
  simp only [he, if_neg hadm]

theorem dfs_log_descend_none (fuel : Nat) (mf : MaxFlow) (v : Nat) (f : Int) (e : Edge)
    (h : v ≠ mf.t) (he : (mf.g.getD v [])[mf.it.getD v 0]? = some e)
    (hadm : 0 < e.cap ∧ mf.level.getD v 0 < mf.level.getD e.to_ 0)
    (hsub : mf.dfs_log fuel e.to_ (min f e.cap) = none) :
    mf.dfs_log (fuel + 1) v f = none := by
  rw [MaxFlow.dfs_log, if_neg h]
  simp only [he, if_pos hadm, hsub]

theorem dfs_log_descend_ok (fuel : Nat) (mf mf1 : MaxFlow) (v : Nat) (f d : Int) (e : Edge)
    (log : DfsLog) (h : v ≠ mf.t) (he : (mf.g.getD v [])[mf.it.getD v 0]? = some e)
    (hadm : 0 < e.cap ∧ mf.level.getD v 0 < mf.level.getD e.to_ 0)
    (hsub : mf.dfs_log fuel e.to_ (min f e.cap) = some (mf1, d, log)) (hd : 0 < d) :
    mf.dfs_log (fuel + 1) v f =
      some ({ mf1 with
        g := add_cap (add_cap mf1.g v (mf.it.getD v 0) (-d)) e.to_ e.rev d }, d,
        ⟨(v, e.to_) :: log.visited, (v, e.to_) :: log.pushed⟩) := by
  rw [MaxFlow.dfs_log, if_neg h]
  simp only [he, if_pos hadm, hsub, if_pos hd]

theorem dfs_log_descend_fail (fuel : Nat) (mf mf1 : MaxFlow) (v : Nat) (f d : Int) (e : Edge)
    (log : DfsLog) (h : v ≠ mf.t) (he : (mf.g.getD v [])[mf.it.getD v 0]? = some e)
    (hadm : 0 < e.cap ∧ mf.level.getD v 0 < mf.level.getD e.to_ 0)
    (hsub : mf.dfs_log fuel e.to_ (min f e.cap) = some (mf1, d, log)) (hd : ¬ 0 < d) :
    mf.dfs_log (fuel + 1) v f =
      (MaxFlow.dfs_log fuel { mf1 with it := mf1.it.set v (mf1.it.getD v 0 + 1) } v f).map
        (fun r => (r.1, r.2.1,
          ⟨(v, e.to_) :: (log.visited ++ r.2.2.visited), r.2.2.pushed⟩)) := by
  rw [MaxFlow.dfs_log, if_neg h]
  simp only [he, if_pos hadm, hsub, if_neg hd]
  cases MaxFlow.dfs_log fuel { mf1 with it := mf1.it.set v (mf1.it.getD v 0 + 1) } v f with
  | none => rfl
  | some r => rfl

/-- Without the record, `dfs_log` is `dfs`. -/
theorem dfs_log_erase :
    ∀ (fuel : Nat) (mf : MaxFlow) (v : Nat) (f : Int),
      (mf.dfs_log fuel v f).map (fun r => (r.1, r.2.1)) = mf.dfs fuel v f
  | 0, mf, v, f => by
    rw [dfs_log_zero, dfs_zero]
    rfl
  | fuel + 1, mf, v, f => by
    by_cases hvt : v = mf.t
    · rw [dfs_log_at_sink _ _ _ _ hvt, dfs_at_sink _ _ _ _ hvt]
      rfl
    · cases he : (mf.g.getD v [])[mf.it.getD v 0]? with
      | none =>
        rw [dfs_log_exhausted _ _ _ _ hvt he, dfs_exhausted _ _ _ _ hvt he]
        rfl
      | some e =>
        by_cases hadm : 0 < e.cap ∧ mf.level.getD v 0 < mf.level.getD e.to_ 0
        · have ih := dfs_log_erase fuel mf e.to_ (min f e.cap)
          cases hsub : mf.dfs_log fuel e.to_ (min f e.cap) with
          | none =>
            rw [hsub] at ih
            rw [dfs_log_descend_none fuel mf v f e hvt he hadm hsub,
              dfs_descend_none fuel mf v f e hvt he hadm ih.symm]
            rfl
          | some r =>
            obtain ⟨mf1, d, log⟩ := r
            rw [hsub] at ih
            have hsub2 : mf.dfs fuel e.to_ (min f e.cap) = some (mf1, d) := ih.symm
            by_cases hd : 0 < d
            · rw [dfs_log_descend_ok fuel mf mf1 v f d e log hvt he hadm hsub hd,
                dfs_descend_ok fuel mf mf1 v f d e hvt he hadm hsub2 hd]
              rfl
            · rw [dfs_log_descend_fail fuel mf mf1 v f d e log hvt he hadm hsub hd,
                dfs_descend_fail fuel mf mf1 v f d e hvt he hadm hsub2 hd,
                ← dfs_log_erase fuel _ v f, Option.map_map]
              rfl
        · rw [dfs_log_skip fuel mf v f e hvt he hadm, dfs_skip fuel mf v f e hvt he hadm]
          exact dfs_log_erase fuel _ v f

/-! ## The recorded `dfs`: every edge walked goes up exactly one level -/

/-- An edge `dfs` accepts at a labelled node goes up exactly one level when the
labels are tight. -/
theorem accepted_edge_level (g : List (List Edge)) (level : List Int)
    (ht : LevelTight g level) (v i : Nat) (e : Edge) (he : (g.getD v [])[i]? = some e)
    (hadm : 0 < e.cap ∧ level.getD v 0 < level.getD e.to_ 0) (hv0 : 0 ≤ level.getD v 0) :
    level.getD e.to_ 0 = level.getD v 0 + 1 := by
  have := ht v e (List.mem_iff_getElem?.mpr ⟨i, he⟩) hadm.1 hv0
  omega

/-- What a call of `dfs` walks.  From a state with paired edges and tight labels,
a call `dfs(v, f)` at a labelled node `v` leaves the labels, `s`, `t` and the
shape of the graph unchanged and the labels tight; every edge it recursed along
goes up exactly one level; the edges it pushed flow on are among them and, when
it returns `d > 0`, form a path from `v` to `t`. -/
theorem dfs_log_spec :
    ∀ (fuel : Nat) (mf : MaxFlow) (v : Nat) (f : Int) (mf2 : MaxFlow) (d : Int) (log : DfsLog),
      Paired mf.g → LevelTight mf.g mf.level → 0 ≤ mf.level.getD v 0 → 0 < f →
      mf.dfs_log fuel v f = some (mf2, d, log) →
      mf2.level = mf.level ∧ mf2.s = mf.s ∧ mf2.t = mf.t ∧ shape mf2.g = shape mf.g ∧
      LevelTight mf2.g mf2.level ∧ 0 ≤ d ∧
      (∀ vw ∈ log.visited, mf.level.getD vw.2 0 = mf.level.getD vw.1 0 + 1) ∧
      (∀ vw ∈ log.pushed, vw ∈ log.visited) ∧
      (0 < d → IsPath log.pushed v mf.t) ∧ (¬ 0 < d → log.pushed = [])
  | 0, mf, v, f, mf2, d, log, _, _, _, _, h => by
    rw [dfs_log_zero] at h
    exact absurd h (by simp)
  | fuel + 1, mf, v, f, mf2, d, log, hp, ht, hv0, hf, h => by
    by_cases hvt : v = mf.t
    · rw [dfs_log_at_sink _ _ _ _ hvt] at h
      simp only [Option.some.injEq, Prod.mk.injEq] at h
      obtain ⟨h1, h2, h3⟩ := h
      subst h1 h2 h3
      refine ⟨rfl, rfl, rfl, rfl, ht, le_of_lt hf, ?_, ?_, fun _ => hvt, fun _ => rfl⟩
      · intro vw hvw
        simp at hvw
      · intro vw hvw
        simp at hvw
    · cases he : (mf.g.getD v [])[mf.it.getD v 0]? with
      | none =>
        rw [dfs_log_exhausted _ _ _ _ hvt he] at h
        simp only [Option.some.injEq, Prod.mk.injEq] at h
        obtain ⟨h1, h2, h3⟩ := h
        subst h1 h2 h3
        refine ⟨rfl, rfl, rfl, rfl, ht, le_refl _, ?_, ?_,
          fun h0 => absurd h0 (lt_irrefl _), fun _ => rfl⟩
        · intro vw hvw
          simp at hvw
        · intro vw hvw
          simp at hvw
      | some e =>
        by_cases hadm : 0 < e.cap ∧ mf.level.getD v 0 < mf.level.getD e.to_ 0
        · have hlv := accepted_edge_level mf.g mf.level ht v _ e he hadm hv0
          cases hsub : mf.dfs_log fuel e.to_ (min f e.cap) with
          | none =>
            rw [dfs_log_descend_none fuel mf v f e hvt he hadm hsub] at h
            exact absurd h (by simp)
          | some r =>
            obtain ⟨mf1, d1, log1⟩ := r
            obtain ⟨hl1, hs1, ht1, hsh1, htight1, hd1, hvis1, hpush1, hpath1, hnil1⟩ :=
              dfs_log_spec fuel mf e.to_ (min f e.cap) mf1 d1 log1 hp ht (by omega)
                (lt_min hf hadm.1) hsub
            have hp1 : Paired mf1.g := paired_of_shape mf.g mf1.g hsh1 hp
            by_cases hd : 0 < d1
            · rw [dfs_log_descend_ok fuel mf mf1 v f d1 e log1 hvt he hadm hsub hd] at h
              simp only [Option.some.injEq, Prod.mk.injEq] at h
              obtain ⟨h1, h2, h3⟩ := h
              subst h1 h2 h3
              obtain ⟨e1, he1, hto1, hrev1⟩ :=
                getElem?_of_shape mf1.g mf.g hsh1.symm v _ e he
              have hpush := tight_push mf1.g mf1.level hp1 htight1 v _ e1 he1
                (by rw [hl1, hto1]; exact hlv) (by rw [hl1]; exact hv0) d1
              rw [hto1, hrev1] at hpush
              refine ⟨hl1, hs1, ht1, ?_, hpush, hd1, ?_, ?_, ?_, fun h0 => absurd hd h0⟩
              · dsimp only
                rw [shape_add_cap, shape_add_cap]
                exact hsh1
              · intro vw hvw
                rcases List.mem_cons.mp hvw with h0 | h0
                · rw [h0]
                  exact hlv
                · exact hvis1 vw h0
              · intro vw hvw
                rcases List.mem_cons.mp hvw with h0 | h0
                · rw [h0]
                  exact List.mem_cons_self _ _
                · exact List.mem_cons_of_mem _ (hpush1 vw h0)
              · intro _
                exact ⟨rfl, hpath1 hd⟩
            · rw [dfs_log_descend_fail fuel mf mf1 v f d1 e log1 hvt he hadm hsub hd] at h
              cases hsub2 : MaxFlow.dfs_log fuel
                  { mf1 with it := mf1.it.set v (mf1.it.getD v 0 + 1) } v f with
              | none =>
                rw [hsub2] at h
                exact absurd h (by simp)
              | some r2 =>
                obtain ⟨mf3, d3, log3⟩ := r2
                rw [hsub2] at h
                simp only [Option.map_some', Option.some.injEq, Prod.mk.injEq] at h
                obtain ⟨h1, h2, h3⟩ := h
                subst h1 h2 h3
                obtain ⟨hl3, hs3, ht3, hsh3, htight3, hd3, hvis3, hpush3, hpath3, hnil3⟩ :=
                  dfs_log_spec fuel { mf1 with it := mf1.it.set v (mf1.it.getD v 0 + 1) } v f
                    mf3 d3 log3 hp1 htight1 (by show 0 ≤ mf1.level.getD v 0; rw [hl1]; exact hv0)
                    hf hsub2
                refine ⟨hl3.trans hl1, hs3.trans hs1, ht3.trans ht1, hsh3.trans hsh1, htight3,
                  hd3, ?_, ?_, ?_, hnil3⟩
                · intro vw hvw
                  rcases List.mem_cons.mp hvw with h0 | h0
                  · rw [h0]
                    exact hlv
                  · rcases List.mem_append.mp h0 with h0 | h0
                    · exact hvis1 vw h0
                    · have := hvis3 vw h0
                      rw [← hl1]
                      exact this
                · intro vw hvw
                  exact List.mem_cons_of_mem _ (List.mem_append_right _ (hpush3 vw hvw))
                · intro h0
                  have := hpath3 h0
                  rw [← ht1]
                  exact this
        · rw [dfs_log_skip fuel mf v f e hvt he hadm] at h
          exact dfs_log_spec fuel { mf with it := mf.it.set v (mf.it.getD v 0 + 1) } v f
            mf2 d log hp ht hv0 hf h

end xllm_service


namespace xllm_service

/-! ## The recorded `dinic` -/

theorem dinic_push_log_erase :
    ∀ (fuel : Nat) (mf : MaxFlow) (flow : Int),
      (dinic_push_log fuel mf flow).map (fun r => (r.1, r.2.1)) = dinic_push fuel mf flow
  | 0, mf, flow => by
    rw [dinic_push_log, dinic_push]
    rfl
  | fuel + 1, mf, flow => by
    rw [dinic_push_log, dinic_push, ← dfs_log_erase fuel mf mf.s _]
    cases hsub : mf.dfs_log fuel mf.s 1000000000 with
    | none => rfl
    | some r =>
      obtain ⟨mf1, f, log⟩ := r
      simp only [Option.map_some']
      by_cases hf : 0 < f
      · rw [if_pos hf, if_pos hf, ← dinic_push_log_erase fuel mf1 (flow + f)]
        cases dinic_push_log fuel mf1 (flow + f) with
        | none => rfl
        | some r2 => rfl
      · rw [if_neg hf, if_neg hf]
        rfl

theorem dinic_loop_log_erase :
    ∀ (fuel : Nat) (mf : MaxFlow) (flow : Int),
      (dinic_loop_log fuel mf flow).map (fun r => (r.1, r.2.1)) = dinic_loop fuel mf flow
  | 0, mf, flow => by
    rw [dinic_loop_log, dinic_loop]
    rfl
  | fuel + 1, mf, flow => by
    rw [dinic_loop_log, dinic_loop]
    cases hb : mf.bfs fuel with
    | none => rfl
    | some r =>
      obtain ⟨mf1, reached⟩ := r
      dsimp only
      cases reached with
      | false => rfl
      | true =>
        simp only [if_true]
        rw [← dinic_push_log_erase fuel _ flow]
        cases hp : dinic_push_log fuel { mf1 with it := List.replicate mf1.it.length 0 } flow with
        | none => rfl
        | some r2 =>
          obtain ⟨mf2, flow2, logs⟩ := r2
          simp only [Option.map_some']
          rw [← dinic_loop_log_erase fuel mf2 flow2]
          cases dinic_loop_log fuel mf2 flow2 with
          | none => rfl
          | some r3 => rfl

/-- Without the record, `dinic_log` is `dinic`. -/
theorem dinic_log_erase (fuel : Nat) (mf : MaxFlow) :
    (mf.dinic_log fuel).map (fun r => (r.1, r.2.1)) = mf.dinic fuel :=
  dinic_loop_log_erase fuel mf 0

/-- The `dfs` calls of one phase: each leaves the labels tight, so every edge any
of them recursed along goes up exactly one level, and every augmenting path
leads from `s` to `t`. -/
theorem dinic_push_log_spec :
    ∀ (fuel : Nat) (mf : MaxFlow) (flow : Int) (mf2 : MaxFlow) (flow2 : Int)
      (logs : List DfsLog),
      Paired mf.g → LevelTight mf.g mf.level → mf.level.getD mf.s 0 = 0 →
      dinic_push_log fuel mf flow = some (mf2, flow2, logs) →
      mf2.level = mf.level ∧ mf2.s = mf.s ∧ mf2.t = mf.t ∧ shape mf2.g = shape mf.g ∧
      ∀ log ∈ logs,
        (∀ vw ∈ log.visited, mf.level.getD vw.2 0 = mf.level.getD vw.1 0 + 1) ∧
        (∀ vw ∈ log.pushed, vw ∈ log.visited) ∧
        (log.pushed ≠ [] → IsPath log.pushed mf.s mf.t)
  | 0, mf, flow, mf2, flow2, logs, _, _, _, h => by
    rw [dinic_push_log] at h
    exact absurd h (by simp)
  | fuel + 1, mf, flow, mf2, flow2, logs, hp, ht, hs0, h => by
    rw [dinic_push_log] at h
    cases hsub : mf.dfs_log fuel mf.s 1000000000 with
    | none =>
      rw [hsub] at h
      exact absurd h (by simp)
    | some r =>
      obtain ⟨mf1, f, log⟩ := r
      rw [hsub] at h
      dsimp only at h
      obtain ⟨hl1, hs1, ht1, hsh1, htight1, _, hvis1, hpush1, hpath1, hnil1⟩ :=
        dfs_log_spec fuel mf mf.s 1000000000 mf1 f log hp ht (by rw [hs0]) (by decide) hsub
      have hlog : (∀ vw ∈ log.visited, mf.level.getD vw.2 0 = mf.level.getD vw.1 0 + 1) ∧
          (∀ vw ∈ log.pushed, vw ∈ log.visited) ∧
          (log.pushed ≠ [] → IsPath log.pushed mf.s mf.t) := by
        refine ⟨hvis1, hpush1, ?_⟩
        intro hne
        by_cases hf : 0 < f
        · exact hpath1 hf
        · exact absurd (hnil1 hf) hne
      by_cases hf : 0 < f
      · rw [if_pos hf] at h
        cases hrec : dinic_push_log fuel mf1 (flow + f) with
        | none =>
          rw [hrec] at h
          exact absurd h (by simp)
        | some r2 =>
          obtain ⟨mf3, flow3, logs3⟩ := r2
          rw [hrec] at h
          simp only [Option.some.injEq, Prod.mk.injEq] at h
          obtain ⟨h1, h2, h3⟩ := h
          subst h1 h2 h3
          obtain ⟨hl3, hs3, ht3, hsh3, hall3⟩ :=
            dinic_push_log_spec fuel mf1 (flow + f) mf3 flow3 logs3
              (paired_of_shape mf.g mf1.g hsh1 hp) htight1 (by rw [hl1, hs1]; exact hs0) hrec
          refine ⟨hl3.trans hl1, hs3.trans hs1, ht3.trans ht1, hsh3.trans hsh1, ?_⟩
          intro lg hlg
          rcases List.mem_cons.mp hlg with h0 | h0
          · rw [h0]
            exact hlog
          · have := hall3 lg h0
            rw [hl1, hs1, ht1] at this
            exact this
      · rw [if_neg hf] at h
        simp only [Option.some.injEq, Prod.mk.injEq] at h
        obtain ⟨h1, h2, h3⟩ := h
        subst h1 h2 h3
        refine ⟨hl1, hs1, ht1, hsh1, ?_⟩
        intro lg hlg
        rw [List.mem_singleton.mp hlg]
        exact hlog

/-- A path whose edges go up exactly one level ends as many levels above its
start as it has edges. -/
theorem path_level_exact (level : List Int) :
    ∀ (p : List (Nat × Nat)) (a b : Nat), IsPath p a b →
      (∀ vw ∈ p, level.getD vw.2 0 = level.getD vw.1 0 + 1) →
      level.getD b 0 = level.getD a 0 + p.length
  | [], a, b, h, _ => by
    have hab : a = b := h
    rw [hab]
    simp
  | vw :: rest, a, b, h, hall => by
    obtain ⟨h1, h2⟩ := h
    have ih := path_level_exact level rest vw.2 b h2
      (fun x hx => hall x (List.mem_cons_of_mem _ hx))
    have h0 := hall vw (List.mem_cons_self _ _)
    rw [h1] at h0
    rw [List.length_cons]
    push_cast
    omega

/-- Along edges of positive residual capacity a path from a labelled node cannot
climb more levels than it has edges. -/
theorem path_level_le (g : List (List Edge)) (level : List Int) (ht : LevelTight g level) :
    ∀ (p : List (Nat × Nat)) (a b : Nat), IsPath p a b →
      (∀ vw ∈ p, ∃ e ∈ g.getD vw.1 [], e.to_ = vw.2 ∧ 0 < e.cap) →
      0 ≤ level.getD a 0 → level.getD b 0 ≤ level.getD a 0 + p.length
  | [], a, b, h, _, _ => by
    have hab : a = b := h
    rw [hab]
    simp
  | vw :: rest, a, b, h, hall, ha => by
    obtain ⟨h1, h2⟩ := h
    obtain ⟨e, he, hto, hcap⟩ := hall vw (List.mem_cons_self _ _)
    rw [h1] at he
    have hstep := ht a e he hcap ha
    rw [hto] at hstep
    have ih := path_level_le g level ht rest vw.2 b h2
      (fun x hx => hall x (List.mem_cons_of_mem _ hx)) hstep.1
    rw [List.length_cons]
    push_cast
    omega

/-- Every phase of the recorded `dinic` satisfies `PhaseOk`. -/
theorem dinic_loop_log_spec (n s t : Nat) (hs : s < n) :
    ∀ (fuel : Nat) (mf : MaxFlow) (flow : Int) (mf2 : MaxFlow) (flow2 : Int)
      (phases : List Phase),
      Paired mf.g → mf.g.length = n → mf.level.length = n → mf.s = s → mf.t = t →
      dinic_loop_log fuel mf flow = some (mf2, flow2, phases) →
      ∀ ph ∈ phases, PhaseOk s t ph
  | 0, mf, flow, mf2, flow2, phases, _, _, _, _, _, h => by
    rw [dinic_loop_log] at h
    exact absurd h (by simp)
  | fuel + 1, mf, flow, mf2, flow2, phases, hp, hg, hlen, hms, hmt, h => by
    rw [dinic_loop_log] at h
    cases hb : mf.bfs fuel with
    | none =>
      rw [hb] at h
      exact absurd h (by simp)
    | some r =>
      obtain ⟨mf1, reached⟩ := r
      rw [hb] at h
      dsimp only at h
      have hto : ∀ v e, e ∈ mf.g.getD v [] → e.to_ < n := by
        intro v e he
        obtain ⟨i, hi⟩ := List.mem_iff_getElem?.mp he
        have := (hp v i e hi).2.1
        omega
      obtain ⟨hg1, _, hs1, ht1, hlen1, hsrc1, _, htight1⟩ :=
        bfs_tight mf mf1 reached n hlen hg (by rw [hms]; exact hs) hto fuel hb
      cases reached with
      | false =>
        simp only [Bool.false_eq_true, if_false, Option.some.injEq, Prod.mk.injEq] at h
        intro ph hph
        rw [← h.2.2] at hph
        simp at hph
      | true =>
        simp only [if_true] at h
        cases hpl : dinic_push_log fuel { mf1 with it := List.replicate mf1.it.length 0 }
            flow with
        | none =>
          rw [hpl] at h
          exact absurd h (by simp)
        | some r2 =>
          obtain ⟨mf3, flow3, logs⟩ := r2
          rw [hpl] at h
          dsimp only at h
          obtain ⟨hl3, hs3, ht3, hsh3, hall3⟩ :=
            dinic_push_log_spec fuel { mf1 with it := List.replicate mf1.it.length 0 } flow
              mf3 flow3 logs (by show Paired mf1.g; rw [hg1]; exact hp) htight1
              (by show mf1.level.getD mf1.s 0 = 0; rw [hs1]; exact hsrc1) hpl
          have hl3b : mf3.level = mf1.level := hl3
          have hs3b : mf3.s = mf1.s := hs3
          have ht3b : mf3.t = mf1.t := ht3
          have hsh3b : shape mf3.g = shape mf1.g := hsh3
          cases hrec : dinic_loop_log fuel mf3 flow3 with
          | none =>
            rw [hrec] at h
            exact absurd h (by simp)
          | some r3 =>
            obtain ⟨mf4, flow4, phases4⟩ := r3
            rw [hrec] at h
            simp only [Option.some.injEq, Prod.mk.injEq] at h
            have hp3 : Paired mf3.g :=
              paired_of_shape mf1.g mf3.g hsh3b (by rw [hg1]; exact hp)
            have ih := dinic_loop_log_spec n s t hs fuel mf3 flow3 mf4 flow4 phases4 hp3
              (by rw [length_of_shape mf1.g mf3.g hsh3b, hg1]; exact hg)
              (by rw [hl3b]; exact hlen1) (by rw [hs3b, hs1]; exact hms)
              (by rw [ht3b, ht1]; exact hmt) hrec
            intro ph hph
            rw [← h.2.2] at hph
            rcases List.mem_cons.mp hph with h0 | h0
            · rw [h0]
              intro log hlog
              obtain ⟨hvis, hpush, hpath⟩ := hall3 log hlog
              have hvis2 : ∀ vw ∈ log.visited,
                  mf1.level.getD vw.2 0 = mf1.level.getD vw.1 0 + 1 := hvis
              refine ⟨hvis2, hpush, ?_⟩
              intro hne
              have hpath2 : IsPath log.pushed s t := by
                have := hpath hne
                have e1 : mf1.s = s := by rw [hs1]; exact hms
                have e2 : mf1.t = t := by rw [ht1]; exact hmt
                rw [← e1, ← e2]
                exact this
              have hsrc : mf1.level.getD s 0 = 0 := by
                rw [← hms]
                exact hsrc1
              have hexact := path_level_exact mf1.level log.pushed s t hpath2
                (fun vw hvw => hvis2 vw (hpush vw hvw))
              refine ⟨hpath2, ?_, ?_⟩
              · show (log.pushed.length : Int) = mf1.level.getD t 0
                omega
              · intro p hp hedges
                have hle := path_level_le mf1.g mf1.level htight1 p s t hp hedges
                  (by rw [hsrc])
                omega
            · exact ih ph h0

/-- The walk of `dinic`, phase by phase.  On `dinic_fuel` units of fuel the
recorded `dinic` returns what `dinic` returns, and every phase it records
satisfies `PhaseOk`. -/
theorem dinic_log_spec (n s t : Nat) (es : List (Nat × Nat × Int))
    (hwf : WellFormedArcs n es) (hs : s < n) (ht : t < n) (hst : s ≠ t)
    (fuel : Nat) (hfuel : dinic_fuel n es s ≤ fuel) :
    ∃ mf flow phases, (MaxFlow.build n s t es).dinic_log fuel = some (mf, flow, phases) ∧
      (MaxFlow.build n s t es).dinic fuel = some (mf, flow) ∧
      ∀ ph ∈ phases, PhaseOk s t ph := by
  obtain ⟨mf, flow, _, hrun, _⟩ := dinic_max_flow n s t es hwf hs ht hst fuel hfuel
  have herase := dinic_log_erase fuel (MaxFlow.build n s t es)
  rw [hrun] at herase
  cases hlog : (MaxFlow.build n s t es).dinic_log fuel with
  | none =>
    rw [hlog] at herase
    exact absurd herase (by simp)
  | some r =>
    obtain ⟨mf2, flow2, phases⟩ := r
    rw [hlog] at herase
    simp only [Option.map_some', Option.some.injEq, Prod.mk.injEq] at herase
    obtain ⟨h1, h2⟩ := herase
    subst h1 h2
    refine ⟨mf2, flow2, phases, rfl, hrun, ?_⟩
    obtain ⟨hlv, _, hbs, hbt⟩ := build_fields n s t es
    have hpaired : Paired (MaxFlow.build n s t es).g := by
      rw [build_g]
      exact paired_residual n _ (by rw [zero_flow_arcs]; exact hwf)
    exact dinic_loop_log_spec n s t hs fuel (MaxFlow.build n s t es) 0 mf2 flow2 phases hpaired
      (by rw [build_g, length_residual]) (by rw [hlv, List.length_replicate]) hbs hbt hlog

end xllm_service


namespace xllm_service

/-! ## The phases recorded and the 32-bit flow value -/

/-- Without the record and with the flow value reduced to 32 bits, `dinic_log` is
`dinic_int`, the `dinic` of the source: the phases recorded are those of the
source's run. -/
theorem dinic_log_erase_int (fuel : Nat) (mf : MaxFlow) :
    (mf.dinic_log fuel).map (fun r => (r.1, wrap32 r.2.1)) = mf.dinic_int fuel := by
  rw [dinic_int_eq, ← dinic_log_erase, Option.map_map]
  rfl

end xllm_service


namespace xllm_service

/-! ## The push-by-push record of `dfs`: branches -/

theorem dfs_trace_zero (mf : MaxFlow) (v : Nat) (f : Int) : mf.dfs_trace 0 v f = none := by
  rw [MaxFlow.dfs_trace]

theorem dfs_trace_at_sink (fuel : Nat) (mf : MaxFlow) (v : Nat) (f : Int) (h : v = mf.t) :
    mf.dfs_trace (fuel + 1) v f = some (mf, f, ⟨0, [], []⟩) := by
  rw [MaxFlow.dfs_trace, if_pos h]

theorem dfs_trace_exhausted (fuel : Nat) (mf : MaxFlow) (v : Nat) (f : Int) (h : v ≠ mf.t)
    (he : (mf.g.getD v [])[mf.it.getD v 0]? = none) :
    mf.dfs_trace (fuel + 1) v f = some (mf, 0, ⟨0, [], []⟩) := by
  rw [MaxFlow.dfs_trace, if_neg h]
  simp only [he]

theorem dfs_trace_skip (fuel : Nat) (mf : MaxFlow) (v : Nat) (f : Int) (e : Edge)
    (h : v ≠ mf.t) (he : (mf.g.getD v [])[mf.it.getD v 0]? = some e)
    (hadm : ¬ (0 < e.cap ∧ mf.level.getD v 0 < mf.level.getD e.to_ 0)) :
    mf.dfs_trace (fuel + 1) v f =
      MaxFlow.dfs_trace fuel { mf with it := mf.it.set v (mf.it.getD v 0 + 1) } v f := by
  rw [MaxFlow.dfs_trace, if_neg h]
  simp only [he, if_neg hadm]

theorem dfs_trace_descend_none (fuel : Nat) (mf : MaxFlow) (v : Nat) (f : Int) (e : Edge)
    (h : v ≠ mf.t) (he : (mf.g.getD v [])[mf.it.getD v 0]? = some e)
    (hadm : 0 < e.cap ∧ mf.level.getD v 0 < mf.level.getD e.to_ 0)
    (hsub : mf.dfs_trace fuel e.to_ (min f e.cap) = none) :
    mf.dfs_trace (fuel + 1) v f = none := by
  rw [MaxFlow.dfs_trace, if_neg h]
  simp only [he, if_pos hadm, hsub]

theorem dfs_trace_descend_ok (fuel : Nat) (mf mf1 : MaxFlow) (v : Nat) (f d : Int) (e : Edge)
    (tr : DfsTrace) (h : v ≠ mf.t) (he : (mf.g.getD v [])[mf.it.getD v 0]? = some e)
    (hadm : 0 < e.cap ∧ mf.level.getD v 0 < mf.level.getD e.to_ 0)
    (hsub : mf.dfs_trace fuel e.to_ (min f e.cap) = some (mf1, d, tr)) (hd : 0 < d) :
    mf.dfs_trace (fuel + 1) v f =
      some ({ mf1 with
        g := add_cap (add_cap mf1.g v (mf.it.getD v 0) (-d)) e.to_ e.rev d }, d,
        ⟨tr.depth + 1, (v, e.to_) :: tr.visited,
          tr.pushes ++ [⟨v, mf.it.getD v 0, e.to_, e.rev, d⟩]⟩) := by
  rw [MaxFlow.dfs_trace, if_neg h]
  simp only [he, if_pos hadm, hsub, if_pos hd]

theorem dfs_trace_descend_fail (fuel : Nat) (mf mf1 : MaxFlow) (v : Nat) (f d : Int) (e : Edge)
    (tr : DfsTrace) (h : v ≠ mf.t) (he : (mf.g.getD v [])[mf.it.getD v 0]? = some e)
    (hadm : 0 < e.cap ∧ mf.level.getD v 0 < mf.level.getD e.to_ 0)
    (hsub : mf.dfs_trace fuel e.to_ (min f e.cap) = some (mf1, d, tr)) (hd : ¬ 0 < d) :
    mf.dfs_trace (fuel + 1) v f =
      (MaxFlow.dfs_trace fuel { mf1 with it := mf1.it.set v (mf1.it.getD v 0 + 1) } v f).map
        (fun r => (r.1, r.2.1,
          ⟨max (tr.depth + 1) r.2.2.depth, (v, e.to_) :: (tr.visited ++ r.2.2.visited),
            tr.pushes ++ r.2.2.pushes⟩)) := by
  rw [MaxFlow.dfs_trace, if_neg h]
  simp only [he, if_pos hadm, hsub, if_neg hd]
  cases MaxFlow.dfs_trace fuel { mf1 with it := mf1.it.set v (mf1.it.getD v 0 + 1) } v f with
  | none => rfl
  | some r => rfl

/-- Without the record, `dfs_trace` is `dfs`. -/
theorem dfs_trace_erase :
    ∀ (fuel : Nat) (mf : MaxFlow) (v : Nat) (f : Int),
      (mf.dfs_trace fuel v f).map (fun r => (r.1, r.2.1)) = mf.dfs fuel v f
  | 0, mf, v, f => by
    rw [dfs_trace_zero, dfs_zero]
    rfl
  | fuel + 1, mf, v, f => by
    by_cases hvt : v = mf.t
    · rw [dfs_trace_at_sink _ _ _ _ hvt, dfs_at_sink _ _ _ _ hvt]
      rfl
    · cases he : (mf.g.getD v [])[mf.it.getD v 0]? with
      | none =>
        rw [dfs_trace_exhausted _ _ _ _ hvt he, dfs_exhausted _ _ _ _ hvt he]
        rfl
      | some e =>
        by_cases hadm : 0 < e.cap ∧ mf.level.getD v 0 < mf.level.getD e.to_ 0
        · have ih := dfs_trace_erase fuel mf e.to_ (min f e.cap)
          cases hsub : mf.dfs_trace fuel e.to_ (min f e.cap) with
          | none =>
            rw [hsub] at ih
            rw [dfs_trace_descend_none fuel mf v f e hvt he hadm hsub,
              dfs_descend_none fuel mf v f e hvt he hadm ih.symm]
            rfl
          | some r =>
            obtain ⟨mf1, d, tr⟩ := r
            rw [hsub] at ih
            have hsub2 : mf.dfs fuel e.to_ (min f e.cap) = some (mf1, d) := ih.symm
            by_cases hd : 0 < d
            · rw [dfs_trace_descend_ok fuel mf mf1 v f d e tr hvt he hadm hsub hd,
                dfs_descend_ok fuel mf mf1 v f d e hvt he hadm hsub2 hd]
              rfl
            · rw [dfs_trace_descend_fail fuel mf mf1 v f d e tr hvt he hadm hsub hd,
                dfs_descend_fail fuel mf mf1 v f d e hvt he hadm hsub2 hd,
                ← dfs_trace_erase fuel _ v f, Option.map_map]
              rfl
        · rw [dfs_trace_skip fuel mf v f e hvt he hadm, dfs_skip fuel mf v f e hvt he hadm]
          exact dfs_trace_erase fuel _ v f

/-! ## The push-by-push record of `dinic` -/

theorem dinic_push_trace_erase :
    ∀ (fuel : Nat) (mf : MaxFlow) (flow : Int),
      (dinic_push_trace fuel mf flow).map (fun r => (r.1, r.2.1)) =
        dinic_push_int fuel mf flow
  | 0, mf, flow => by
    rw [dinic_push_trace, dinic_push_int]
    rfl
  | fuel + 1, mf, flow => by
    rw [dinic_push_trace, dinic_push_int, ← dfs_trace_erase fuel mf mf.s _]
    cases hsub : mf.dfs_trace fuel mf.s 1000000000 with
    | none => rfl
    | some r =>
      obtain ⟨mf1, f, tr⟩ := r
      simp only [Option.map_some']
      by_cases hf : 0 < f
      · rw [if_pos hf, if_pos hf, ← dinic_push_trace_erase fuel mf1 (wrap32 (flow + f))]
        cases dinic_push_trace fuel mf1 (wrap32 (flow + f)) with
        | none => rfl
        | some r2 => rfl
      · rw [if_neg hf, if_neg hf]
        rfl

theorem dinic_loop_trace_erase :
    ∀ (fuel : Nat) (mf : MaxFlow) (flow : Int),
      (dinic_loop_trace fuel mf flow).map (fun r => (r.1, r.2.1)) =
        dinic_loop_int fuel mf flow
  | 0, mf, flow => by
    rw [dinic_loop_trace, dinic_loop_int]
    rfl
  | fuel + 1, mf, flow => by
    rw [dinic_loop_trace, dinic_loop_int]
    cases hb : mf.bfs fuel with
    | none => rfl
    | some r =>
      obtain ⟨mf1, reached⟩ := r
      dsimp only
      cases reached with
      | false => rfl
      | true =>
        simp only [if_true]
        rw [← dinic_push_trace_erase fuel _ flow]
        cases hp : dinic_push_trace fuel
            { mf1 with it := List.replicate mf1.it.length 0 } flow with
        | none => rfl
        | some r2 =>
          obtain ⟨mf2, flow2, calls⟩ := r2
          simp only [Option.map_some']
          rw [← dinic_loop_trace_erase fuel mf2 flow2]
          cases dinic_loop_trace fuel mf2 flow2 with
          | none => rfl
          | some r3 => rfl

/-- Without the record, `dinic_trace` is `dinic_int`, the `dinic` of the source. -/
theorem dinic_trace_erase (fuel : Nat) (mf : MaxFlow) :
    (mf.dinic_trace fuel).map (fun r => (r.1, r.2.1)) = mf.dinic_int fuel :=
  dinic_loop_trace_erase fuel mf 0

end xllm_service


namespace xllm_service

/-! ## What a recorded `dfs` call does -/

theorem pushesOk_append :
    ∀ (ps qs : List Push) (g : List (List Edge)),
      PushesOk g ps → PushesOk (ps.foldl apply_push g) qs → PushesOk g (ps ++ qs)
  | [], _, _, _, h => h
  | p :: ps, qs, g, h1, h2 => by
    rw [PushesOk] at h1
    rw [List.cons_append, PushesOk]
    exact ⟨h1.1, pushesOk_append ps qs (apply_push g p) h1.2 h2⟩

/-- A call that continues the `for` loop at `v` after the pointer of `v` was
advanced: what the rest of the loop does to the advanced state, it does to the
state before. -/
theorem tracePost_continue (mf mfx mf3 : MaxFlow) (v : Nat) (f d : Int) (tr3 tr : DfsTrace)
    (hpost : TracePost mfx v f mf3 d tr3)
    (hg : mfx.g = mf.g) (hlevel : mfx.level = mf.level) (hs : mfx.s = mf.s)
    (ht : mfx.t = mf.t) (hlen : mfx.it.length = mf.it.length)
    (hmono : ∀ w, mf.it.getD w 0 ≤ mfx.it.getD w 0)
    (hframe : ∀ x, mf.level.getD x 0 < mf.level.getD v 0 → mfx.it.getD x 0 = mf.it.getD x 0)
    (hptr : PtrOk mf.g mf.level mf.t mf.it → PtrOk mfx.g mfx.level mfx.t mfx.it)
    (hpush : tr.pushes = tr3.pushes)
    (hvis : ∀ ab ∈ tr.visited, mf.level.getD v 0 ≤ mf.level.getD ab.1 0 ∧
      mf.level.getD ab.1 0 < mf.level.getD ab.2 0)
    (hdeep : ∃ x, mf.level.getD v 0 + tr.depth ≤ mf.level.getD x 0) :
    TracePost mf v f mf3 d tr where
  level_eq := hpost.level_eq.trans hlevel
  s_eq := hpost.s_eq.trans hs
  t_eq := hpost.t_eq.trans ht
  it_len := hpost.it_len.trans hlen
  d_nonneg := hpost.d_nonneg
  d_le := hpost.d_le
  replay := by rw [hpush, ← hg]; exact hpost.replay
  ok := by rw [hpush, ← hg]; exact hpost.ok
  same_d := by rw [hpush]; exact hpost.same_d
  up := by rw [hpush, ← hlevel]; exact hpost.up
  edges := by rw [hpush, ← hg]; exact hpost.edges
  sorted := by rw [hpush, ← hlevel]; exact hpost.sorted
  fail := by rw [hpush]; exact hpost.fail
  path := by rw [hpush, ← ht]; exact hpost.path
  visited_up := hvis
  deep := hdeep
  it_mono := fun w => le_trans (hmono w) (hpost.it_mono w)
  frame_it := by
    intro x hx
    rw [hpost.frame_it x (by rw [hlevel]; exact hx), hframe x hx]
  frame_g := by
    intro x hx
    rw [hpost.frame_g x (by rw [hlevel]; exact hx), hg]
  caps_v := by
    intro hvt
    rw [hpost.caps_v (by rw [ht]; exact hvt), hg]
  dead := by
    intro h0 hp
    have := hpost.dead h0 (hptr hp)
    rw [hg, hlevel, ht] at this
    exact this

/-- A successful push at `v` through the edge `e` at position `it[v]`, after the
recursive call at `e.to` returned `d > 0` in state `mf1`. -/
theorem tracePost_push (mf mf1 : MaxFlow) (v : Nat) (f d : Int) (e : Edge) (tr : DfsTrace)
    (he : (mf.g.getD v [])[mf.it.getD v 0]? = some e)
    (hadm : 0 < e.cap ∧ mf.level.getD v 0 < mf.level.getD e.to_ 0)
    (hpost : TracePost mf e.to_ (min f e.cap) mf1 d tr) (hd : 0 < d) :
    TracePost mf v f
      { mf1 with g := add_cap (add_cap mf1.g v (mf.it.getD v 0) (-d)) e.to_ e.rev d } d
      ⟨tr.depth + 1, (v, e.to_) :: tr.visited,
        tr.pushes ++ [⟨v, mf.it.getD v 0, e.to_, e.rev, d⟩]⟩ := by
  have hframe : mf1.g.getD v [] = mf.g.getD v [] := hpost.frame_g v hadm.2
  have he1 : (mf1.g.getD v [])[mf.it.getD v 0]? = some e := by rw [hframe]; exact he
  have hi : mf.it.getD v 0 < (mf1.g.getD v []).length := lt_length_of_getElem?_some _ _ _ he1
  have hdle : d ≤ e.cap := le_trans hpost.d_le (min_le_right _ _)
  have hne : ¬ v = e.to_ := by
    intro h
    have := hadm.2
    rw [← h] at this
    exact lt_irrefl _ this
  refine
    { level_eq := hpost.level_eq, s_eq := hpost.s_eq, t_eq := hpost.t_eq,
      it_len := hpost.it_len, d_nonneg := le_of_lt hd,
      d_le := le_trans hpost.d_le (min_le_left _ _), replay := ?_, ok := ?_, same_d := ?_,
      up := ?_, edges := ?_, sorted := ?_, fail := fun h => absurd h (ne_of_gt hd),
      path := ?_, visited_up := ?_, deep := ?_, it_mono := hpost.it_mono,
      frame_it := fun x hx => hpost.frame_it x (lt_trans hx hadm.2), frame_g := ?_,
      caps_v := ?_, dead := fun h => absurd h (ne_of_gt hd) }
  · show add_cap (add_cap mf1.g v (mf.it.getD v 0) (-d)) e.to_ e.rev d = _
    rw [List.foldl_append, ← hpost.replay]
    rfl
  · apply pushesOk_append _ _ _ hpost.ok
    rw [← hpost.replay, PushesOk, PushesOk]
    exact ⟨⟨e, he1, rfl, rfl, le_of_lt hd, hdle⟩, trivial⟩
  · intro p hp
    rcases List.mem_append.mp hp with h | h
    · exact hpost.same_d p h
    · rw [List.mem_singleton.mp h]
  · intro p hp
    rcases List.mem_append.mp hp with h | h
    · exact ⟨le_trans (le_of_lt hadm.2) (hpost.up p h).1, (hpost.up p h).2⟩
    · rw [List.mem_singleton.mp h]
      exact ⟨le_refl _, hadm.2⟩
  · intro p hp
    rcases List.mem_append.mp hp with h | h
    · exact hpost.edges p h
    · rw [List.mem_singleton.mp h]
      exact ⟨e, he, rfl, rfl, hdle⟩
  · refine List.pairwise_append.mpr ⟨hpost.sorted, List.pairwise_singleton _ _, ?_⟩
    intro q hq p hp
    rw [List.mem_singleton.mp hp]
    exact (hpost.up q hq).1
  · intro _
    rw [List.reverse_append, List.reverse_singleton, List.singleton_append, List.map_cons]
    exact ⟨rfl, hpost.path hd⟩
  · intro ab hab
    rcases List.mem_cons.mp hab with h | h
    · rw [h]
      exact ⟨le_refl _, hadm.2⟩
    · exact ⟨le_trans (le_of_lt hadm.2) (hpost.visited_up ab h).1, (hpost.visited_up ab h).2⟩
  · obtain ⟨x, hx⟩ := hpost.deep
    refine ⟨x, ?_⟩
    show mf.level.getD v 0 + ((tr.depth + 1 : Nat) : Int) ≤ _
    have := hadm.2
    push_cast
    omega
  · intro x hx
    show (add_cap (add_cap mf1.g v (mf.it.getD v 0) (-d)) e.to_ e.rev d).getD x [] = _
    have hxe : ¬ x = e.to_ := by
      intro h
      rw [h] at hx
      have := hadm.2
      omega
    have hxv : ¬ x = v := by
      intro h
      rw [h] at hx
      omega
    rw [getD_add_cap, if_neg hxe, getD_add_cap, if_neg hxv]
    exact hpost.frame_g x (lt_trans hx hadm.2)
  · intro _
    show cap_sum (add_cap (add_cap mf1.g v (mf.it.getD v 0) (-d)) e.to_ e.rev d) v = _
    rw [cap_sum_add_cap, cap_sum_add_cap, if_pos ⟨rfl, hi⟩, if_neg (fun h => hne h.1)]
    unfold cap_sum
    rw [hframe]
    ring

/-- What a recorded call of `dfs` does, on any state: the labels, `s` and `t` are
unchanged; the graph it leaves is the graph it started from after the recorded
pushes; every push moves the returned amount along an edge that goes up in
level; the pushes, last to first, form a path from `v` to `t` when the call
returns a positive amount, and there is none when it returns 0; every edge it
recursed along goes up in level; and the current-edge pointers never move
back. -/
theorem dfs_trace_post :
    ∀ (fuel : Nat) (mf : MaxFlow) (v : Nat) (f : Int) (mf2 : MaxFlow) (d : Int)
      (tr : DfsTrace),
      0 < f → mf.dfs_trace fuel v f = some (mf2, d, tr) → TracePost mf v f mf2 d tr
  | 0, mf, v, f, mf2, d, tr, _, h => by
    rw [dfs_trace_zero] at h
    exact absurd h (by simp)
  | fuel + 1, mf, v, f, mf2, d, tr, hf, h => by
    by_cases hvt : v = mf.t
    · rw [dfs_trace_at_sink _ _ _ _ hvt] at h
      simp only [Option.some.injEq, Prod.mk.injEq] at h
      obtain ⟨h1, h2, h3⟩ := h
      subst h1 h2 h3
      exact
        { level_eq := rfl, s_eq := rfl, t_eq := rfl, it_len := rfl,
          d_nonneg := le_of_lt hf, d_le := le_refl _, replay := rfl, ok := trivial,
          same_d := fun p hp => absurd hp (List.not_mem_nil p),
          up := fun p hp => absurd hp (List.not_mem_nil p),
          edges := fun p hp => absurd hp (List.not_mem_nil p),
          sorted := List.Pairwise.nil, fail := fun _ => rfl, path := fun _ => hvt,
          visited_up := fun p hp => absurd hp (List.not_mem_nil p),
          deep := ⟨v, by simp⟩, it_mono := fun _ => le_refl _,
          frame_it := fun _ _ => rfl, frame_g := fun _ _ => rfl,
          caps_v := fun hne => absurd hvt hne,
          dead := fun h0 => absurd h0 (ne_of_gt hf) }
    · cases he : (mf.g.getD v [])[mf.it.getD v 0]? with
      | none =>
        rw [dfs_trace_exhausted _ _ _ _ hvt he] at h
        simp only [Option.some.injEq, Prod.mk.injEq] at h
        obtain ⟨h1, h2, h3⟩ := h
        subst h1 h2 h3
        exact
          { level_eq := rfl, s_eq := rfl, t_eq := rfl, it_len := rfl,
            d_nonneg := le_refl _, d_le := le_of_lt hf, replay := rfl, ok := trivial,
            same_d := fun p hp => absurd hp (List.not_mem_nil p),
            up := fun p hp => absurd hp (List.not_mem_nil p),
            edges := fun p hp => absurd hp (List.not_mem_nil p),
            sorted := List.Pairwise.nil, fail := fun _ => rfl,
            path := fun h0 => absurd h0 (lt_irrefl _),
            visited_up := fun p hp => absurd hp (List.not_mem_nil p),
            deep := ⟨v, by simp⟩, it_mono := fun _ => le_refl _,
            frame_it := fun _ _ => rfl, frame_g := fun _ _ => rfl,
            caps_v := fun _ => by simp,
            dead := by
              intro _ hp
              refine ⟨hp, ?_⟩
              intro hcr
              cases hcr with
              | base => exact hvt rfl
              | step _ i e2 hedge hcap hlev hcr2 =>
                have hi := lt_length_of_getElem?_some _ _ _ hedge
                have hge : (mf.g.getD v []).length ≤ mf.it.getD v 0 :=
                  List.getElem?_eq_none_iff.mp he
                exact hp v i e2 (by omega) hedge hcap hlev hcr2 }
      | some e =>
        by_cases hadm : 0 < e.cap ∧ mf.level.getD v 0 < mf.level.getD e.to_ 0
        · cases hsub : mf.dfs_trace fuel e.to_ (min f e.cap) with
          | none =>
            rw [dfs_trace_descend_none fuel mf v f e hvt he hadm hsub] at h
            exact absurd h (by simp)
          | some r =>
            obtain ⟨mf1, d1, tr1⟩ := r
            have hpost1 := dfs_trace_post fuel mf e.to_ (min f e.cap) mf1 d1 tr1
              (lt_min hf hadm.1) hsub
            by_cases hd : 0 < d1
            · rw [dfs_trace_descend_ok fuel mf mf1 v f d1 e tr1 hvt he hadm hsub hd] at h
              simp only [Option.some.injEq, Prod.mk.injEq] at h
              obtain ⟨h1, h2, h3⟩ := h
              subst h1 h2 h3
              exact tracePost_push mf mf1 v f d1 e tr1 he hadm hpost1 hd
            · rw [dfs_trace_descend_fail fuel mf mf1 v f d1 e tr1 hvt he hadm hsub hd] at h
              cases hsub2 : MaxFlow.dfs_trace fuel
                  { mf1 with it := mf1.it.set v (mf1.it.getD v 0 + 1) } v f with
              | none =>
                rw [hsub2] at h
                exact absurd h (by simp)
              | some r2 =>
                obtain ⟨mf3, d3, tr3⟩ := r2
                rw [hsub2] at h
                simp only [Option.map_some', Option.some.injEq, Prod.mk.injEq] at h
                obtain ⟨h1, h2, h3⟩ := h
                subst h1 h2 h3
                have hpost3 := dfs_trace_post fuel
                  { mf1 with it := mf1.it.set v (mf1.it.getD v 0 + 1) } v f mf3 d3 tr3 hf hsub2
                have hd0 : d1 = 0 := le_antisymm (not_lt.mp hd) hpost1.d_nonneg
                have hnil : tr1.pushes = [] := hpost1.fail hd0
                have hg1 : mf1.g = mf.g := by
                  have := hpost1.replay
                  rw [hnil] at this
                  exact this
                have hit1 : mf1.it.getD v 0 = mf.it.getD v 0 := hpost1.frame_it v hadm.2
                refine tracePost_continue mf _ mf3 v f d3 tr3 _ hpost3 hg1 hpost1.level_eq
                  hpost1.s_eq hpost1.t_eq (by rw [List.length_set]; exact hpost1.it_len)
                  ?_ ?_ ?_ ?_ ?_ ?_
                · intro w
                  show mf.it.getD w 0 ≤ (mf1.it.set v (mf1.it.getD v 0 + 1)).getD w 0
                  rw [getD_set_nat]
                  have hm := hpost1.it_mono w
                  by_cases hc : v = w ∧ v < mf1.it.length
                  · rw [if_pos hc, hc.1]
                    omega
                  · rw [if_neg hc]
                    exact hm
                · intro x hx
                  show (mf1.it.set v (mf1.it.getD v 0 + 1)).getD x 0 = _
                  have hxv : ¬ (v = x ∧ v < mf1.it.length) := by
                    rintro ⟨h, _⟩
                    rw [h] at hx
                    omega
                  rw [getD_set_nat, if_neg hxv]
                  exact hpost1.frame_it x (lt_trans hx hadm.2)
                · intro hp
                  obtain ⟨hp1, hdead⟩ := hpost1.dead hd0 hp
                  show PtrOk mf1.g mf1.level mf1.t (mf1.it.set v (mf1.it.getD v 0 + 1))
                  apply ptrOk_advance _ _ _ _ _ hp1
                  intro e2 he2 _ _
                  rw [hg1, hit1, he] at he2
                  rw [← Option.some.inj he2, hg1, hpost1.level_eq, hpost1.t_eq]
                  exact hdead
                · show tr1.pushes ++ tr3.pushes = tr3.pushes
                  rw [hnil, List.nil_append]
                · intro ab hab
                  rcases List.mem_cons.mp hab with h0 | h0
                  · rw [h0]
                    exact ⟨le_refl _, hadm.2⟩
                  · rcases List.mem_append.mp h0 with h0 | h0
                    · exact ⟨le_trans (le_of_lt hadm.2) (hpost1.visited_up ab h0).1,
                        (hpost1.visited_up ab h0).2⟩
                    · have := hpost3.visited_up ab h0
                      rw [← hpost1.level_eq]
                      exact this
                · show ∃ x, mf.level.getD v 0 + ((max (tr1.depth + 1) tr3.depth : Nat) : Int) ≤ _
                  rcases le_total (tr1.depth + 1) tr3.depth with hm | hm
                  · rw [max_eq_right hm]
                    obtain ⟨x, hx⟩ := hpost3.deep
                    refine ⟨x, ?_⟩
                    rw [← hpost1.level_eq]
                    exact hx
                  · rw [max_eq_left hm]
                    obtain ⟨x, hx⟩ := hpost1.deep
                    refine ⟨x, ?_⟩
                    have := hadm.2
                    push_cast
                    omega
        · rw [dfs_trace_skip fuel mf v f e hvt he hadm] at h
          have hpost3 := dfs_trace_post fuel
            { mf with it := mf.it.set v (mf.it.getD v 0 + 1) } v f mf2 d tr hf h
          refine tracePost_continue mf _ mf2 v f d tr tr hpost3 rfl rfl rfl rfl
            (by rw [List.length_set]) ?_ ?_ ?_ rfl hpost3.visited_up hpost3.deep
          · intro w
            show mf.it.getD w 0 ≤ (mf.it.set v (mf.it.getD v 0 + 1)).getD w 0
            rw [getD_set_nat]
            by_cases hc : v = w ∧ v < mf.it.length
            · rw [if_pos hc, hc.1]
              omega
            · rw [if_neg hc]
          · intro x hx
            show (mf.it.set v (mf.it.getD v 0 + 1)).getD x 0 = _
            have hxv : ¬ (v = x ∧ v < mf.it.length) := by
              rintro ⟨h, _⟩
              rw [h] at hx
              omega
            rw [getD_set_nat, if_neg hxv]
          · intro hp
            show PtrOk mf.g mf.level mf.t (mf.it.set v (mf.it.getD v 0 + 1))
            apply ptrOk_advance _ _ _ _ _ hp
            intro e2 he2 hcap hlev
            rw [he] at he2
            rw [← Option.some.inj he2] at hcap hlev
            exact absurd ⟨hcap, hlev⟩ hadm

end xllm_service


namespace xllm_service

/-! ## The engine returns on every graph with in-range edges and non-negative
capacities -/

theorem shape_apply_push (g : List (List Edge)) (p : Push) :
    shape (apply_push g p) = shape g := by
  unfold apply_push
  rw [shape_add_cap, shape_add_cap]

theorem shape_foldl_push :
    ∀ (ps : List Push) (g : List (List Edge)), shape (ps.foldl apply_push g) = shape g
  | [], _ => rfl
  | p :: ps, g => by
    rw [List.foldl_cons, shape_foldl_push ps, shape_apply_push]

theorem length_getD_apply_push (g : List (List Edge)) (p : Push) (w : Nat) :
    ((apply_push g p).getD w []).length = (g.getD w []).length := by
  unfold apply_push
  rw [length_getD_add_cap, length_getD_add_cap]

theorem length_getD_foldl_push :
    ∀ (ps : List Push) (g : List (List Edge)) (w : Nat),
      ((ps.foldl apply_push g).getD w []).length = (g.getD w []).length
  | [], _, _ => rfl
  | p :: ps, g, w => by
    rw [List.foldl_cons, length_getD_foldl_push ps, length_getD_apply_push]

/-- A push of an amount between 0 and the residual capacity of its edge leaves
no residual capacity negative. -/
theorem nonNeg_apply_push (g : List (List Edge)) (p : Push) (hn : NonNeg g)
    (hp : ∃ e : Edge, (g.getD p.v [])[p.i]? = some e ∧ e.to_ = p.to_ ∧ e.rev = p.rev ∧
      0 ≤ p.d ∧ p.d ≤ e.cap) : NonNeg (apply_push g p) := by
  obtain ⟨e, he, _, _, hd0, hde⟩ := hp
  intro w e2 he2
  unfold apply_push at he2
  obtain ⟨j, e1, hj, _, _, hc1⟩ := mem_add_cap _ _ _ _ _ _ he2
  obtain ⟨j0, e0, hj0, _, _, hc0⟩ := mem_add_cap _ _ _ _ _ _ (List.mem_iff_getElem?.mpr ⟨j, hj⟩)
  have h0 : 0 ≤ e0.cap := hn w e0 (List.mem_iff_getElem?.mpr ⟨j0, hj0⟩)
  have h1 : 0 ≤ e1.cap := by
    rcases hc0 with h | ⟨hw, hji, h⟩
    · rw [h]
      exact h0
    · rw [hw, hji, he] at hj0
      rw [h, ← Option.some.inj hj0]
      omega
  rcases hc1 with h | ⟨_, _, h⟩
  · rw [h]
    exact h1
  · rw [h]
    omega

theorem nonNeg_push_states :
    ∀ (ps : List Push) (g : List (List Edge)), NonNeg g → PushesOk g ps →
      ∀ g2 ∈ push_states g ps, NonNeg g2
  | [], g, hn, _, g2, h2 => by
    rw [push_states, List.mem_singleton] at h2
    rw [h2]
    exact hn
  | p :: ps, g, hn, hok, g2, h2 => by
    rw [PushesOk] at hok
    rw [push_states] at h2
    rcases List.mem_cons.mp h2 with h | h
    · rw [h]
      exact hn
    · exact nonNeg_push_states ps _ (nonNeg_apply_push g p hn hok.1) hok.2 g2 h

theorem foldl_mem_push_states :
    ∀ (ps : List Push) (g : List (List Edge)), ps.foldl apply_push g ∈ push_states g ps
  | [], g => by
    rw [push_states]
    exact List.mem_singleton.mpr rfl
  | p :: ps, g => by
    rw [push_states, List.foldl_cons]
    exact List.mem_cons_of_mem _ (foldl_mem_push_states ps _)

theorem cap_sum_nonneg_of_nonNeg (g : List (List Edge)) (hn : NonNeg g) (w : Nat) :
    0 ≤ cap_sum g w := by
  unfold cap_sum
  apply List.sum_nonneg
  intro x hx
  obtain ⟨e, he, hxe⟩ := List.mem_map.mp hx
  rw [← hxe]
  exact hn w e he

/-- A recorded `dfs` call keeps the state of the engine well formed. -/
theorem engineInv_of_tracePost (n D s t : Nat) (mf mf2 : MaxFlow) (v : Nat) (f d : Int)
    (tr : DfsTrace) (hinv : EngineInv n D s t mf) (hpost : TracePost mf v f mf2 d tr) :
    EngineInv n D s t mf2 where
  g_len := by
    rw [length_of_shape mf.g mf2.g (by rw [hpost.replay]; exact shape_foldl_push _ _)]
    exact hinv.g_len
  level_len := by rw [hpost.level_eq]; exact hinv.level_len
  it_len := by rw [hpost.it_len]; exact hinv.it_len
  s_eq := by rw [hpost.s_eq]; exact hinv.s_eq
  t_eq := by rw [hpost.t_eq]; exact hinv.t_eq
  to_lt := by
    intro w e2 he2
    obtain ⟨i, hi⟩ := List.mem_iff_getElem?.mp he2
    obtain ⟨e, he, hto, _⟩ := getElem?_of_shape mf.g mf2.g
      (by rw [hpost.replay]; exact shape_foldl_push _ _) w i e2 hi
    rw [← hto]
    exact hinv.to_lt w e (List.mem_iff_getElem?.mpr ⟨i, he⟩)
  deg := by
    intro w
    rw [hpost.replay, length_getD_foldl_push]
    exact hinv.deg w
  nonneg := by
    rw [hpost.replay]
    exact nonNeg_push_states _ _ hinv.nonneg hpost.ok _ (foldl_mem_push_states _ _)

/-- The recorded `dfs` returns on `dfs_fuel` units of fuel whenever the edges lead
to nodes, the levels are below `n` and the degrees at most `D`. -/
theorem dfs_trace_returns (n D : Nat) :
    ∀ (fuel : Nat) (mf : MaxFlow) (v : Nat) (f : Int),
      mf.it.length = n → v < n → (∀ (w : Nat) (e : Edge), e ∈ mf.g.getD w [] → e.to_ < n) →
      0 < f → (∀ x, mf.level.getD x 0 < n) → (∀ w, (mf.g.getD w []).length ≤ D) →
      dfs_fuel n D mf v ≤ fuel →
      ∃ mf2 d tr, mf.dfs_trace fuel v f = some (mf2, d, tr)
  | 0, mf, v, f, _, _, _, _, _, _, hfuel => by
    unfold dfs_fuel at hfuel
    omega
  | fuel + 1, mf, v, f, hit, hv, hto, hf, hlv, hD, hfuel => by
    by_cases hvt : v = mf.t
    · exact ⟨mf, f, _, dfs_trace_at_sink fuel mf v f hvt⟩
    · cases he : (mf.g.getD v [])[mf.it.getD v 0]? with
      | none => exact ⟨mf, 0, _, dfs_trace_exhausted fuel mf v f hvt he⟩
      | some e =>
        have hilt : mf.it.getD v 0 < (mf.g.getD v []).length :=
          lt_length_of_getElem?_some _ _ _ he
        have hvit : v < mf.it.length := by rw [hit]; exact hv
        have hnext : ∀ mfx : MaxFlow, mfx.g = mf.g → mfx.level = mf.level →
            mfx.it.length = mf.it.length → mfx.it.getD v 0 = mf.it.getD v 0 →
            dfs_fuel n D { mfx with it := mfx.it.set v (mfx.it.getD v 0 + 1) } v ≤ fuel := by
          intro mfx hgx hlx hlenx hitx
          unfold dfs_fuel at hfuel ⊢
          dsimp only
          rw [hgx, hlx, getD_set_nat, if_pos ⟨rfl, by rw [hlenx]; exact hvit⟩, hitx]
          omega
        by_cases hadm : 0 < e.cap ∧ mf.level.getD v 0 < mf.level.getD e.to_ 0
        · have hte : e.to_ < n := hto v e (List.mem_iff_getElem?.mpr ⟨_, he⟩)
          have hsubfuel : dfs_fuel n D mf e.to_ ≤ fuel := by
            unfold dfs_fuel at hfuel ⊢
            have h1 := hlv e.to_
            have h2 := hlv v
            exact fuel_descend _ _ D _ _ _ fuel (by omega) (hD e.to_) hfuel
          obtain ⟨mf1, d, tr1, hsub⟩ := dfs_trace_returns n D fuel mf e.to_ (min f e.cap)
            hit hte hto (lt_min hf hadm.1) hlv hD hsubfuel
          have hpost1 := dfs_trace_post fuel mf e.to_ (min f e.cap) mf1 d tr1
            (lt_min hf hadm.1) hsub
          by_cases hd : 0 < d
          · exact ⟨_, d, _, dfs_trace_descend_ok fuel mf mf1 v f d e tr1 hvt he hadm hsub hd⟩
          · have hd0 : d = 0 := le_antisymm (not_lt.mp hd) hpost1.d_nonneg
            have hg1 : mf1.g = mf.g := by
              have := hpost1.replay
              rw [hpost1.fail hd0] at this
              exact this
            have hit1 : mf1.it.getD v 0 = mf.it.getD v 0 := hpost1.frame_it v hadm.2
            obtain ⟨mf3, d3, tr3, hrun⟩ := dfs_trace_returns n D fuel
              { mf1 with it := mf1.it.set v (mf1.it.getD v 0 + 1) } v f
              (by rw [List.length_set, hpost1.it_len]; exact hit) hv
              (by intro w e2 he2; exact hto w e2 (by rw [← hg1]; exact he2)) hf
              (by intro x; show mf1.level.getD x 0 < n; rw [hpost1.level_eq]; exact hlv x)
              (by intro w; show (mf1.g.getD w []).length ≤ D; rw [hg1]; exact hD w)
              (hnext mf1 hg1 hpost1.level_eq hpost1.it_len hit1)
            refine ⟨mf3, d3, ⟨max (tr1.depth + 1) tr3.depth,
              (v, e.to_) :: (tr1.visited ++ tr3.visited), tr1.pushes ++ tr3.pushes⟩, ?_⟩
            rw [dfs_trace_descend_fail fuel mf mf1 v f d e tr1 hvt he hadm hsub hd, hrun]
            rfl
        · obtain ⟨mf3, d3, tr3, hrun⟩ := dfs_trace_returns n D fuel
            { mf with it := mf.it.set v (mf.it.getD v 0 + 1) } v f
            (by rw [List.length_set]; exact hit) hv hto hf hlv hD (hnext mf rfl rfl rfl rfl)
          refine ⟨mf3, d3, tr3, ?_⟩
          rw [dfs_trace_skip fuel mf v f e hvt he hadm]
          exact hrun

theorem graphChain_append :
    ∀ (cs ds : List Call) (g g2 g3 : List (List Edge)),
      GraphChain g cs g2 → GraphChain g2 ds g3 → GraphChain g (cs ++ ds) g3
  | [], ds, g, g2, g3, h1, h2 => by
    rw [GraphChain] at h1
    rw [h1] at h2
    exact h2
  | c :: cs, ds, g, g2, g3, h1, h2 => by
    rw [GraphChain] at h1
    rw [List.cons_append, GraphChain]
    exact ⟨h1.1, graphChain_append cs ds _ g2 g3 h1.2 h2⟩

/-- The inner loop of `dinic`, recorded, returns on `n * (D + 1) + D + 2 + c`
units of fuel, `c` being the sum of the residual capacities stored at `s`.  Every
`dfs` call it makes is a call from `s` on a well-formed state; the amounts the
calls return add up to what the capacities stored at `s` lose, and the 32-bit
flow value is increased by that sum, modulo `2^32`. -/
theorem dinic_push_trace_spec (n D s t : Nat) (hs : s < n) (hst : s ≠ t) :
    ∀ (fuel : Nat) (mf : MaxFlow) (flow : Int),
      EngineInv n D s t mf → (∀ x, mf.level.getD x 0 < n) → mf.level.getD s 0 = 0 →
      wrap32 flow = flow →
      n * (D + 1) + D + 2 + (cap_sum mf.g s).toNat ≤ fuel →
      ∃ mf2 flow2 calls, dinic_push_trace fuel mf flow = some (mf2, flow2, calls) ∧
        EngineInv n D s t mf2 ∧ mf2.level = mf.level ∧ 0 ≤ (calls.map Call.d).sum ∧
        flow2 = wrap32 (flow + (calls.map Call.d).sum) ∧
        cap_sum mf2.g s = cap_sum mf.g s - (calls.map Call.d).sum ∧
        PhaseChain mf calls mf2 ∧ GraphChain mf.g calls mf2.g ∧ (∀ c ∈ calls, CallOk n s t c) ∧
        (PtrOk mf.g mf.level mf.t mf.it → CanReach mf.g mf.level mf.t s →
          0 < (calls.map Call.d).sum)
  | 0, mf, flow, _, _, _, _, hfuel => by omega
  | fuel + 1, mf, flow, hinv, hlv, hl0, hw, hfuel => by
    have hdf : dfs_fuel n D mf s ≤ fuel := by
      have := dfs_fuel_at_source n D mf s hl0 (hinv.deg s)
      omega
    obtain ⟨mf1, d, tr, hrun⟩ := dfs_trace_returns n D fuel mf s 1000000000
      hinv.it_len hs hinv.to_lt (by decide) hlv hinv.deg hdf
    have hpost := dfs_trace_post fuel mf s 1000000000 mf1 d tr (by decide) hrun
    have hinv1 := engineInv_of_tracePost n D s t mf mf1 s _ d tr hinv hpost
    have hcall : CallOk n s t ⟨mf, mf1, d, tr.depth, tr.visited, tr.pushes⟩ :=
      { s_eq := hinv.s_eq
        t_eq := hinv.t_eq
        post := hpost
        src := hl0
        bound := hlv
        nonneg := hinv.nonneg }
    have hcs : cap_sum mf1.g s = cap_sum mf.g s - d :=
      hpost.caps_v (by rw [hinv.t_eq]; exact hst)
    rw [dinic_push_trace, hinv.s_eq, hrun]
    dsimp only
    by_cases hd : 0 < d
    · have hnn := cap_sum_nonneg_of_nonNeg mf1.g hinv1.nonneg s
      obtain ⟨mf2, flow2, calls, hrun2, hinv2, hlev2, hle2, hflow2, hcs2, hch2, hgc2, hok2, _⟩ :=
        dinic_push_trace_spec n D s t hs hst fuel mf1 (wrap32 (flow + d)) hinv1
          (by rw [hpost.level_eq]; exact hlv) (by rw [hpost.level_eq]; exact hl0)
          (wrap32_idem _) (by omega)
      rw [if_pos hd, hrun2]
      refine ⟨mf2, flow2, _, rfl, hinv2, hlev2.trans hpost.level_eq, ?_,
        ?_, ?_, ?_, ?_, ?_, ?_⟩
      · rw [List.map_cons, List.sum_cons]
        show 0 ≤ d + (calls.map Call.d).sum
        omega
      · rw [List.map_cons, List.sum_cons, hflow2, wrap32_add_left]
        show wrap32 (flow + d + (calls.map Call.d).sum) =
          wrap32 (flow + (d + (calls.map Call.d).sum))
        rw [add_assoc]
      · rw [hcs2, hcs, List.map_cons, List.sum_cons]
        show cap_sum mf.g s - d - (calls.map Call.d).sum =
          cap_sum mf.g s - (d + (calls.map Call.d).sum)
        ring
      · cases calls with
        | nil => exact absurd hch2 (by rw [PhaseChain]; exact not_false)
        | cons c2 cs =>
          rw [PhaseChain]
          exact ⟨rfl, hd, hch2⟩
      · rw [GraphChain]
        exact ⟨rfl, hgc2⟩
      · intro c hc
        rcases List.mem_cons.mp hc with h | h
        · rw [h]
          exact hcall
        · exact hok2 c h
      · intro _ _
        rw [List.map_cons, List.sum_cons]
        show 0 < d + (calls.map Call.d).sum
        omega
    · have hd0 : d = 0 := le_antisymm (not_lt.mp hd) hpost.d_nonneg
      rw [if_neg hd]
      refine ⟨mf1, flow, _, rfl, hinv1, hpost.level_eq, ?_, ?_, ?_, ?_, ?_, ?_, ?_⟩
      · rw [List.map_cons, List.sum_cons, List.map_nil, List.sum_nil]
        show 0 ≤ d + 0
        omega
      · rw [List.map_cons, List.sum_cons, List.map_nil, List.sum_nil]
        show flow = wrap32 (flow + (d + 0))
        rw [hd0, add_zero, add_zero, hw]
      · rw [hcs, List.map_cons, List.sum_cons, List.map_nil, List.sum_nil]
        show cap_sum mf.g s - d = cap_sum mf.g s - (d + 0)
        ring
      · rw [PhaseChain]
        exact ⟨rfl, rfl, hd0⟩
      · rw [GraphChain, GraphChain]
        exact ⟨rfl, rfl⟩
      · intro c hc
        rw [List.mem_singleton.mp hc]
        exact hcall
      · intro hp hcr
        have := (hpost.dead hd0 hp).2
        rw [hinv.t_eq] at this hcr
        exact absurd hcr (by rw [← hinv.t_eq]; rw [hinv.t_eq]; exact this)

end xllm_service


namespace xllm_service

/-! ## The recorded run of `dinic` on a built graph -/

/-- The edges stored at `w` after `add_edge` calls with in-range endpoints and
non-negative capacities, self-loops allowed: they lead to nodes, their
capacities are non-negative, there are at most two per call, and their
capacities add up to the capacities of the calls made at `w`. -/
theorem build_edges (n s t : Nat) (es : List (Nat × Nat × Int))
    (hr : EndpointsInRange n es) (hc : NonNegCaps es) (w : Nat) :
    (∀ e ∈ (MaxFlow.build n s t es).g.getD w [], e.to_ < n ∧ 0 ≤ e.cap) ∧
    ((MaxFlow.build n s t es).g.getD w []).length ≤ 2 * es.length ∧
    cap_sum (MaxFlow.build n s t es).g w =
      (es.map (fun a => if a.1 = w then a.2.2 else 0)).sum := by
  induction es using List.reverseRecOn with
  | nil =>
    have h0 : (MaxFlow.build n s t []).g.getD w [] = [] := by
      rw [build_g]
      exact residual_nil_getD n w
    unfold cap_sum
    rw [h0]
    exact ⟨fun e he => absurd he (List.not_mem_nil e), Nat.zero_le _, rfl⟩
  | append_singleton es a ih =>
    obtain ⟨u, v, c⟩ := a
    have hr2 : EndpointsInRange n es := fun e he => hr e (List.mem_append_left _ he)
    have hc2 : NonNegCaps es := fun e he => hc e (List.mem_append_left _ he)
    have hlast := hr (u, v, c) (by simp)
    have hcap : 0 ≤ c := hc (u, v, c) (by simp)
    obtain ⟨ih1, ih2, ih3⟩ := ih hr2 hc2
    have hget := getD_add_edge (MaxFlow.build n s t es) u v c w
      (by rw [length_build_g]; exact hlast.1) (by rw [length_build_g]; exact hlast.2)
    rw [build_snoc]
    unfold cap_sum at ih3 ⊢
    rw [hget]
    refine ⟨?_, ?_, ?_⟩
    · intro e he
      rcases List.mem_append.mp he with h | h
      · rcases List.mem_append.mp h with h | h
        · exact ih1 e h
        · by_cases hwu : w = u
          · rw [if_pos hwu, List.mem_singleton] at h
            rw [h]
            exact ⟨hlast.2, hcap⟩
          · rw [if_neg hwu] at h
            exact absurd h (List.not_mem_nil e)
      · by_cases hwv : w = v
        · rw [if_pos hwv, List.mem_singleton] at h
          rw [h]
          exact ⟨hlast.1, le_refl _⟩
        · rw [if_neg hwv] at h
          exact absurd h (List.not_mem_nil e)
    · rw [List.length_append, List.length_append, List.length_append, List.length_singleton]
      have h1 : (if w = u then [(⟨v, ((MaxFlow.build n s t es).g.getD v []).length, c⟩ : Edge)]
          else []).length ≤ 1 := by
        split <;> simp
      have h2 : (if w = v then [(⟨u, ((MaxFlow.build n s t es).g.getD u []).length, 0⟩ : Edge)]
          else []).length ≤ 1 := by
        split <;> simp
      omega
    · rw [List.map_append, List.map_append, List.sum_append, List.sum_append, ih3,
        List.map_append, List.sum_append]
      have h1 : ((if w = u then [(⟨v, ((MaxFlow.build n s t es).g.getD v []).length, c⟩ : Edge)]
          else []).map Edge.cap).sum = if u = w then c else 0 := by
        by_cases hwu : w = u
        · rw [if_pos hwu, if_pos hwu.symm]
          simp
        · rw [if_neg hwu, if_neg (fun h => hwu h.symm)]
          rfl
      have h2 : ((if w = v then [(⟨u, ((MaxFlow.build n s t es).g.getD u []).length, 0⟩ : Edge)]
          else []).map Edge.cap).sum = 0 := by
        split <;> simp
      rw [h1, h2]
      simp

theorem engineInv_build (n s t : Nat) (es : List (Nat × Nat × Int))
    (hr : EndpointsInRange n es) (hc : NonNegCaps es) :
    EngineInv n (2 * es.length) s t (MaxFlow.build n s t es) := by
  obtain ⟨h1, h2, h3, h4⟩ := build_fields n s t es
  exact
    { g_len := length_build_g n s t es
      level_len := by rw [h1]; simp
      it_len := by rw [h2]; simp
      s_eq := h3
      t_eq := h4
      to_lt := fun w e he => ((build_edges n s t es hr hc w).1 e he).1
      deg := fun w => (build_edges n s t es hr hc w).2.1
      nonneg := fun w e he => ((build_edges n s t es hr hc w).1 e he).2 }

/-- The outer loop of `dinic`, recorded, returns on `loop_fuel` units of fuel.
The amounts the `dfs` calls return add up to what the capacities stored at `s`
lose, and the 32-bit flow value is increased by that sum, modulo `2^32`; each
phase is a chain of calls from `s` that ends with a call returning 0. -/
theorem dinic_loop_trace_spec (n D s t : Nat) (hs : s < n) (ht : t < n) (hst : s ≠ t) :
    ∀ (fuel : Nat) (mf : MaxFlow) (flow : Int),
      EngineInv n D s t mf → wrap32 flow = flow → loop_fuel n D (cap_sum mf.g s) ≤ fuel →
      ∃ mf2 flow2 phases, dinic_loop_trace fuel mf flow = some (mf2, flow2, phases) ∧
        EngineInv n D s t mf2 ∧
        0 ≤ (phases.flatten.map Call.d).sum ∧
        flow2 = wrap32 (flow + (phases.flatten.map Call.d).sum) ∧
        cap_sum mf2.g s = cap_sum mf.g s - (phases.flatten.map Call.d).sum ∧
        GraphChain mf.g phases.flatten mf2.g ∧
        (∀ ph ∈ phases, (∃ ma mb, PhaseChain ma ph mb) ∧ ∀ c ∈ ph, CallOk n s t c)
  | 0, mf, flow, _, _, hfuel => by
    unfold loop_fuel at hfuel
    omega
  | fuel + 1, mf, flow, hinv, hw, hfuel => by
    unfold loop_fuel at hfuel
    obtain ⟨level2, hbfs, hlen2, hsrc2, _, hpred2, hbound2⟩ := bfs_spec mf n
      hinv.level_len (by rw [hinv.s_eq]; exact hs) hinv.to_lt fuel (by omega)
    rw [hinv.s_eq] at hsrc2 hpred2
    rw [dinic_loop_trace, hbfs]
    dsimp only
    by_cases hreach : 0 ≤ level2.getD mf.t 0
    · have hinv1 : EngineInv n D s t
          { mf with level := level2, it := List.replicate mf.it.length 0 } :=
        { g_len := hinv.g_len, level_len := hlen2, it_len := by simp [hinv.it_len],
          s_eq := hinv.s_eq, t_eq := hinv.t_eq, to_lt := hinv.to_lt, deg := hinv.deg,
          nonneg := hinv.nonneg }
      have hnn := cap_sum_nonneg_of_nonNeg mf.g hinv.nonneg s
      obtain ⟨mf2, flow2, calls, hrun2, hinv2, _, hsum2, hflow2, hcs2, hch2, hgc2, hok2, hgain⟩ :=
        dinic_push_trace_spec n D s t hs hst fuel _ flow hinv1 hbound2 hsrc2 hw (by
          show n * (D + 1) + D + 2 + (cap_sum mf.g s).toNat ≤ fuel
          omega)
      have hlt : 0 < (calls.map Call.d).sum := by
        apply hgain
        · exact ptrOk_zero _ _ _ _
        · show CanReach mf.g level2 mf.t s
          exact canReach_of_levels mf.g level2 s mf.t n hinv.g_len hpred2
            (by rw [hinv.t_eq]; exact ht) hreach
      have hcs2' : cap_sum mf2.g s = cap_sum mf.g s - (calls.map Call.d).sum := hcs2
      have hnn2 := cap_sum_nonneg_of_nonNeg mf2.g hinv2.nonneg s
      obtain ⟨mf3, flow3, phases, hrun3, hinv3, hsum3, hflow3, hcs3, hgc3, hok3⟩ :=
        dinic_loop_trace_spec n D s t hs ht hst fuel mf2 flow2 hinv2
          (by rw [hflow2]; exact wrap32_idem _) (by unfold loop_fuel; omega)
      simp only [decide_eq_true_eq, if_pos hreach, hrun2, hrun3]
      refine ⟨mf3, flow3, _, rfl, hinv3, ?_, ?_, ?_, ?_, ?_⟩
      · rw [List.flatten_cons, List.map_append, List.sum_append]
        omega
      · rw [List.flatten_cons, List.map_append, List.sum_append, hflow3, hflow2,
          wrap32_add_left, add_assoc]
      · rw [List.flatten_cons, List.map_append, List.sum_append, hcs3, hcs2']
        ring
      · rw [List.flatten_cons]
        exact graphChain_append calls _ mf.g mf2.g mf3.g hgc2 hgc3
      · intro ph hph
        rcases List.mem_cons.mp hph with h | h
        · rw [h]
          exact ⟨⟨_, mf2, hch2⟩, hok2⟩
        · exact hok3 ph h
    · simp only [decide_eq_true_eq, if_neg hreach]
      refine ⟨{ mf with level := level2 }, flow, [], rfl, ?_, ?_, ?_, ?_, ?_, ?_⟩
      · exact
          { g_len := hinv.g_len, level_len := hlen2, it_len := hinv.it_len,
            s_eq := hinv.s_eq, t_eq := hinv.t_eq, to_lt := hinv.to_lt, deg := hinv.deg,
            nonneg := hinv.nonneg }
      · simp
      · simp [hw]
      · show cap_sum mf.g s = _
        simp
      · show GraphChain mf.g [].flatten mf.g
        rw [List.flatten_nil, GraphChain]
      · intro ph hph
        exact absurd hph (List.not_mem_nil ph)

/-- On the graph built by `init(n, s, t)` and `add_edge` calls with in-range
endpoints and non-negative capacities (self-loops allowed), `s != t`, the
recorded `dinic` returns on `engine_fuel` units of fuel, with the result of
`dinic_int`.  The amounts the `dfs` calls returned add up to what the capacities
stored at `s` lost, and the flow value returned is that sum reduced to 32
bits. -/
theorem dinic_trace_run (n s t : Nat) (es : List (Nat × Nat × Int))
    (hr : EndpointsInRange n es) (hc : NonNegCaps es) (hs : s < n) (ht : t < n) (hst : s ≠ t)
    (fuel : Nat) (hfuel : engine_fuel n es s ≤ fuel) :
    ∃ mf flow phases, (MaxFlow.build n s t es).dinic_trace fuel = some (mf, flow, phases) ∧
      (MaxFlow.build n s t es).dinic_int fuel = some (mf, flow) ∧
      0 ≤ (phases.flatten.map Call.d).sum ∧
      flow = wrap32 (phases.flatten.map Call.d).sum ∧
      cap_sum mf.g s =
        cap_sum (MaxFlow.build n s t es).g s - (phases.flatten.map Call.d).sum ∧
      NonNeg mf.g ∧
      GraphChain (MaxFlow.build n s t es).g phases.flatten mf.g ∧
      (∀ ph ∈ phases, (∃ ma mb, PhaseChain ma ph mb) ∧ ∀ c ∈ ph, CallOk n s t c) := by
  obtain ⟨mf, flow, phases, hrun, hinv, hsum, hflow, hcs, hgc, hok⟩ :=
    dinic_loop_trace_spec n (2 * es.length) s t hs ht hst fuel (MaxFlow.build n s t es) 0
      (engineInv_build n s t es hr hc) wrap32_zero (by
        rw [(build_edges n s t es hr hc s).2.2]
        exact hfuel)
  refine ⟨mf, flow, phases, hrun, ?_, hsum, ?_, hcs, hinv.nonneg, hgc, hok⟩
  · rw [← dinic_trace_erase, MaxFlow.dinic_trace, hrun]
    rfl
  · rw [hflow, zero_add]

end xllm_service


namespace xllm_service

/-! ## What the pushes of a call do to the residual capacities -/

theorem cap_at_of_getElem? (g : List (List Edge)) (v i : Nat) (e : Edge)
    (h : (g.getD v [])[i]? = some e) : cap_at g v i = e.cap := by
  unfold cap_at
  rw [h]
  rfl

theorem cap_at_add_cap (g : List (List Edge)) (v i : Nat) (x : Int) (a b : Nat)
    (hb : b < (g.getD a []).length) :
    cap_at (add_cap g v i x) a b = cap_at g a b + if a = v ∧ b = i then x else 0 := by
  unfold cap_at
  rw [getD_add_cap]
  by_cases hav : a = v
  · subst hav
    rw [if_pos rfl, List.getElem?_modify, List.getElem?_eq_getElem hb]
    by_cases hib : i = b
    · subst hib
      simp
    · have hbi : ¬ b = i := fun h => hib h.symm
      simp [hib, hbi]
  · rw [if_neg hav, if_neg (fun h => hav h.1), add_zero]

theorem cap_at_apply_push (g : List (List Edge)) (p : Push) (a b : Nat)
    (hb : b < (g.getD a []).length) :
    cap_at (apply_push g p) a b = cap_at g a b + push_delta p a b := by
  unfold apply_push push_delta
  rw [cap_at_add_cap _ _ _ _ _ _ (by rw [length_getD_add_cap]; exact hb),
    cap_at_add_cap _ _ _ _ _ _ hb]
  ring

theorem cap_at_foldl_push :
    ∀ (ps : List Push) (g : List (List Edge)) (a b : Nat), b < (g.getD a []).length →
      cap_at (ps.foldl apply_push g) a b = cap_at g a b + (ps.map (fun p => push_delta p a b)).sum
  | [], g, a, b, _ => by simp
  | p :: ps, g, a, b, hb => by
    rw [List.foldl_cons, cap_at_foldl_push ps (apply_push g p) a b
      (by rw [length_getD_apply_push]; exact hb), cap_at_apply_push g p a b hb,
      List.map_cons, List.sum_cons]
    ring

/-- In a graph of the same shape, the edge at a position is the edge that was
there, with the capacity now stored there. -/
theorem getElem?_of_shape_cap (g g2 : List (List Edge)) (h : shape g2 = shape g) (v i : Nat)
    (e : Edge) (he : (g.getD v [])[i]? = some e) :
    (g2.getD v [])[i]? = some { e with cap := cap_at g2 v i } := by
  obtain ⟨e2, he2, hto, hrev⟩ := getElem?_of_shape g2 g h.symm v i e he
  rw [cap_at_of_getElem? g2 v i e2 he2, he2, ← hto, ← hrev]

theorem sum_map_eq_zero (ps : List Push) (F : Push → Int) (h : ∀ p ∈ ps, F p = 0) :
    (ps.map F).sum = 0 := by
  induction ps with
  | nil => rfl
  | cons p ps ih =>
    rw [List.map_cons, List.sum_cons, h p (List.mem_cons_self _ _),
      ih (fun q hq => h q (List.mem_cons_of_mem _ hq)), add_zero]

/-- Over a call of `dfs` on a graph with paired edges, every pushed edge loses
the returned amount and its partner gains it: no other push of the call touches
either of them, because the levels increase along the path. -/
theorem pushed_effect (mf mf2 : MaxFlow) (v : Nat) (f d : Int) (tr : DfsTrace)
    (hpost : TracePost mf v f mf2 d tr) (hpair : Paired mf.g) (p : Push)
    (hp : p ∈ tr.pushes) :
    ∃ e e2 : Edge, (mf.g.getD p.v [])[p.i]? = some e ∧ e.to_ = p.to_ ∧ e.rev = p.rev ∧
      (mf.g.getD p.to_ [])[p.rev]? = some e2 ∧ e2.to_ = p.v ∧ e2.rev = p.i ∧
      (mf2.g.getD p.v [])[p.i]? = some { e with cap := e.cap - d } ∧
      (mf2.g.getD p.to_ [])[p.rev]? = some { e2 with cap := e2.cap + d } := by
  obtain ⟨e, he, hto, hrev, _⟩ := hpost.edges p hp
  obtain ⟨_, _, e2, he2, hto2, hrev2⟩ := hpair p.v p.i e he
  rw [hto, hrev] at he2
  have hpd : p.d = d := hpost.same_d p hp
  have hup := hpost.up p hp
  have hshape : shape mf2.g = shape mf.g := by
    rw [hpost.replay]
    exact shape_foldl_push _ _
  obtain ⟨l1, l2, hl⟩ := List.append_of_mem hp
  have hsorted := hpost.sorted
  rw [hl] at hsorted
  obtain ⟨_, hpw2, hcross⟩ := List.pairwise_append.mp hsorted
  have hbefore : ∀ q ∈ l1, mf.level.getD p.to_ 0 ≤ mf.level.getD q.v 0 :=
    fun q hq => hcross q hq p (List.mem_cons_self _ _)
  have hafter : ∀ r ∈ l2, mf.level.getD r.to_ 0 ≤ mf.level.getD p.v 0 :=
    fun r hr => (List.pairwise_cons.mp hpw2).1 r hr
  have hmem1 : ∀ q ∈ l1, q ∈ tr.pushes := fun q hq => by
    rw [hl]
    exact List.mem_append_left _ hq
  have hmem2 : ∀ r ∈ l2, r ∈ tr.pushes := fun r hr => by
    rw [hl]
    exact List.mem_append_right _ (List.mem_cons_of_mem _ hr)
  -- the pushes made before `p` touch neither the edge nor its partner
  have h1v : ∀ q ∈ l1, push_delta q p.v p.i = 0 := by
    intro q hq
    have hq1 := hbefore q hq
    have hq2 := hpost.up q (hmem1 q hq)
    unfold push_delta
    rw [if_neg, if_neg, add_zero]
    · rintro ⟨h, _⟩
      rw [h] at hup
      omega
    · rintro ⟨h, _⟩
      rw [h] at hup
      omega
  have h1t : ∀ q ∈ l1, push_delta q p.to_ p.rev = 0 := by
    intro q hq
    have hq1 := hbefore q hq
    have hq2 := hpost.up q (hmem1 q hq)
    unfold push_delta
    rw [if_neg, if_neg, add_zero]
    · rintro ⟨h, _⟩
      rw [h] at hq1
      omega
    · rintro ⟨h1, h2⟩
      obtain ⟨eq, heq, htoq, _, _⟩ := hpost.edges q (hmem1 q hq)
      rw [← h1, ← h2, he2] at heq
      rw [← Option.some.inj heq, hto2] at htoq
      rw [← htoq] at hq2
      omega
  -- nor do the pushes made after `p`
  have h2v : ∀ r ∈ l2, push_delta r p.v p.i = 0 := by
    intro r hr
    have hr1 := hafter r hr
    have hr2 := hpost.up r (hmem2 r hr)
    unfold push_delta
    rw [if_neg, if_neg, add_zero]
    · rintro ⟨h1, h2⟩
      obtain ⟨er, her, htor, hrevr, _⟩ := hpost.edges r (hmem2 r hr)
      obtain ⟨_, _, er2, her2, htor2, _⟩ := hpair r.v r.i er her
      rw [htor, hrevr, ← h1, ← h2, he] at her2
      rw [← Option.some.inj her2, hto] at htor2
      rw [htor2] at hup
      omega
    · rintro ⟨h, _⟩
      rw [h] at hr1
      omega
  have h2t : ∀ r ∈ l2, push_delta r p.to_ p.rev = 0 := by
    intro r hr
    have hr1 := hafter r hr
    have hr2 := hpost.up r (hmem2 r hr)
    unfold push_delta
    rw [if_neg, if_neg, add_zero]
    · rintro ⟨h, _⟩
      rw [h] at hup
      omega
    · rintro ⟨h, _⟩
      rw [h] at hup
      omega
  have hne : ¬ p.v = p.to_ := by
    intro h
    rw [← h] at hup
    omega
  have hpv : push_delta p p.v p.i = -d := by
    unfold push_delta
    rw [if_pos ⟨rfl, rfl⟩, if_neg (fun h => hne h.1), hpd, add_zero]
  have hpt : push_delta p p.to_ p.rev = d := by
    unfold push_delta
    rw [if_neg (fun h => hne h.1.symm), if_pos ⟨rfl, rfl⟩, hpd, zero_add]
  have hcv : cap_at mf2.g p.v p.i = e.cap - d := by
    rw [hpost.replay, cap_at_foldl_push _ _ _ _ (lt_length_of_getElem?_some _ _ _ he), hl,
      List.map_append, List.sum_append, List.map_cons, List.sum_cons,
      sum_map_eq_zero l1 _ h1v, sum_map_eq_zero l2 _ h2v, hpv, cap_at_of_getElem? _ _ _ _ he]
    ring
  have hct : cap_at mf2.g p.to_ p.rev = e2.cap + d := by
    rw [hpost.replay, cap_at_foldl_push _ _ _ _ (lt_length_of_getElem?_some _ _ _ he2), hl,
      List.map_append, List.sum_append, List.map_cons, List.sum_cons,
      sum_map_eq_zero l1 _ h1t, sum_map_eq_zero l2 _ h2t, hpt, cap_at_of_getElem? _ _ _ _ he2]
    ring
  refine ⟨e, e2, he, hto, hrev, he2, hto2, hrev2, ?_, ?_⟩
  · rw [getElem?_of_shape_cap mf.g mf2.g hshape p.v p.i e he, hcv]
  · rw [getElem?_of_shape_cap mf.g mf2.g hshape p.to_ p.rev e2 he2, hct]

end xllm_service


namespace xllm_service

/-! ## The residual graph along the run of `dinic` -/

theorem isResidual_apply_push (n : Nat) (es : List (Nat × Nat × Int))
    (hwf : WellFormedArcs n es) (g : List (List Edge)) (p : Push) (hres : IsResidual n es g)
    (hp : ∃ e : Edge, (g.getD p.v [])[p.i]? = some e ∧ e.to_ = p.to_ ∧ e.rev = p.rev ∧
      0 ≤ p.d ∧ p.d ≤ e.cap) : IsResidual n es (apply_push g p) := by
  obtain ⟨fs, harc, hfl, hg⟩ := hres
  obtain ⟨e, he, hto, hrev, hd0, hde⟩ := hp
  rw [hg] at he
  obtain ⟨fs2, harc2, hfl2, heq⟩ := residual_push n fs (by rw [harc]; exact hwf) hfl p.v p.i e
    p.d he hd0 hde
  refine ⟨fs2, harc2.trans harc, hfl2, ?_⟩
  unfold apply_push
  rw [hg, ← hto, ← hrev]
  exact heq

theorem isResidual_push_states (n : Nat) (es : List (Nat × Nat × Int))
    (hwf : WellFormedArcs n es) :
    ∀ (ps : List Push) (g : List (List Edge)), IsResidual n es g → PushesOk g ps →
      ∀ g2 ∈ push_states g ps, IsResidual n es g2
  | [], g, hres, _, g2, h2 => by
    rw [push_states, List.mem_singleton] at h2
    rw [h2]
    exact hres
  | p :: ps, g, hres, hok, g2, h2 => by
    rw [PushesOk] at hok
    rw [push_states] at h2
    rcases List.mem_cons.mp h2 with h | h
    · rw [h]
      exact hres
    · exact isResidual_push_states n es hwf ps _ (isResidual_apply_push n es hwf g p hres hok.1)
        hok.2 g2 h

theorem self_mem_push_states (g : List (List Edge)) (ps : List Push) : g ∈ push_states g ps := by
  cases ps with
  | nil =>
    rw [push_states]
    exact List.mem_singleton.mpr rfl
  | cons p ps =>
    rw [push_states]
    exact List.mem_cons_self _ _

/-- Every graph the calls of `dinic` go through, push by push, is the residual
graph of a flow within the capacities. -/
theorem isResidual_calls (n s t : Nat) (es : List (Nat × Nat × Int))
    (hwf : WellFormedArcs n es) :
    ∀ (calls : List Call) (g g2 : List (List Edge)), IsResidual n es g →
      GraphChain g calls g2 → (∀ c ∈ calls, CallOk n s t c) →
      (∀ c ∈ calls, ∀ g3 ∈ push_states c.before.g c.pushes, IsResidual n es g3) ∧
        IsResidual n es g2
  | [], g, g2, hres, hgc, _ => by
    rw [GraphChain] at hgc
    rw [hgc]
    exact ⟨fun c hc => absurd hc (List.not_mem_nil c), hres⟩
  | c :: cs, g, g2, hres, hgc, hok => by
    rw [GraphChain] at hgc
    obtain ⟨hb, hrest⟩ := hgc
    have hc := hok c (List.mem_cons_self _ _)
    have hstates := isResidual_push_states n es hwf c.pushes c.before.g
      (by rw [hb]; exact hres) hc.post.ok
    have hafter : IsResidual n es c.after.g := by
      rw [hc.post.replay]
      exact hstates _ (foldl_mem_push_states _ _)
    obtain ⟨h1, h2⟩ := isResidual_calls n s t es hwf cs c.after.g g2 hafter hrest
      (fun c2 hc2 => hok c2 (List.mem_cons_of_mem _ hc2))
    refine ⟨?_, h2⟩
    intro c2 hc2
    rcases List.mem_cons.mp hc2 with h | h
    · rw [h]
      exact hstates
    · exact h1 c2 h

/-- In the residual graph of a flow within the capacities, every stored edge is
non-negative and is paired with the other edge of its arc, the two residual
capacities adding up to the capacity of the arc. -/
theorem pair_sums_residual (n : Nat) (fs : List FlowEdge)
    (hwf : WellFormedArcs n (fs.map FlowEdge.arc)) (hfl : ∀ e ∈ fs, 0 ≤ e.x ∧ e.x ≤ e.c) :
    ∀ (v i : Nat) (e : Edge), ((residual n fs).getD v [])[i]? = some e →
      0 ≤ e.cap ∧ ∃ e2 : Edge, ((residual n fs).getD e.to_ [])[e.rev]? = some e2 ∧
        e2.to_ = v ∧ e2.rev = i ∧
        ∃ a ∈ fs, e.cap + e2.cap = a.c ∧ ((a.u = v ∧ a.v = e.to_) ∨ (a.v = v ∧ a.u = e.to_)) := by
  induction fs using List.reverseRecOn with
  | nil =>
    intro v i e he
    rw [residual_nil_getD] at he
    simp at he
  | append_singleton fs a ih =>
    obtain ⟨hfs, hu, hv, huv, _⟩ := wellFormed_of_append n fs a hwf
    have hlu : a.u < (residual n fs).length := by rw [length_residual]; exact hu
    have hlv : a.v < (residual n fs).length := by rw [length_residual]; exact hv
    have hfl1 : ∀ e ∈ fs, 0 ≤ e.x ∧ e.x ≤ e.c := fun e he => hfl e (List.mem_append_left _ he)
    have hfa := hfl a (by simp)
    intro v i e he
    rw [residual_snoc] at he ⊢
    rcases getElem?_add_residual_cases _ a v i e hlu hlv huv he with h | ⟨h1, hi, h⟩ | ⟨h1, hi, h⟩
    · obtain ⟨h0, e2, he2, hto, hrev, b, hb, hsum, hends⟩ := ih hfs hfl1 v i e h
      exact ⟨h0, e2, getElem?_add_residual_old _ a _ _ _ hlu hlv huv he2, hto, hrev, b,
        List.mem_append_left _ hb, hsum, hends⟩
    · subst h
      refine ⟨by dsimp only; omega, ⟨a.u, ((residual n fs).getD a.u []).length, a.x⟩,
        getElem?_add_residual_rev _ a hlu hlv huv, h1.symm, hi.symm, a, by simp, ?_,
        Or.inl ⟨h1.symm, rfl⟩⟩
      dsimp only
      ring
    · subst h
      refine ⟨hfa.1, ⟨a.v, ((residual n fs).getD a.v []).length, a.c - a.x⟩,
        getElem?_add_residual_fwd _ a hlu hlv huv, h1.symm, hi.symm, a, by simp, ?_,
        Or.inr ⟨h1.symm, rfl⟩⟩
      dsimp only
      ring

theorem pairInvariant_of_isResidual (n : Nat) (es : List (Nat × Nat × Int))
    (hwf : WellFormedArcs n es) (g : List (List Edge)) (h : IsResidual n es g) :
    PairInvariant es g := by
  obtain ⟨fs, harc, hfl, hg⟩ := h
  intro v i e he
  rw [hg] at he ⊢
  obtain ⟨h0, e2, he2, hto, hrev, a, ha, hsum, hends⟩ :=
    pair_sums_residual n fs (by rw [harc]; exact hwf) hfl v i e he
  refine ⟨h0, e2, he2, hto, hrev, a.arc, ?_, hsum, hends⟩
  rw [← harc]
  exact List.mem_map_of_mem _ ha

/-- What a call of `dinic` did to the edges of its path. -/
theorem pathPushed_of_callOk (n s t : Nat) (c : Call) (hok : CallOk n s t c)
    (hpair : Paired c.before.g) : PathPushed c := by
  refine ⟨?_, hok.post.fail, ?_⟩
  · intro hd
    have := hok.post.path hd
    rw [hok.s_eq]
    exact this
  · intro p hp
    exact ⟨hok.post.same_d p hp, pushed_effect c.before c.after s _ c.d _ hok.post hpair p hp⟩

/-! ## No flow enters the source -/

theorem sum_map_nonpos (ps : List Push) (F : Push → Int) (h : ∀ p ∈ ps, F p ≤ 0) :
    (ps.map F).sum ≤ 0 := by
  induction ps with
  | nil => exact le_refl _
  | cons p ps ih =>
    rw [List.map_cons, List.sum_cons]
    have h1 := h p (List.mem_cons_self _ _)
    have h2 := ih (fun q hq => h q (List.mem_cons_of_mem _ hq))
    omega

/-- No call of `dinic` raises a residual capacity stored at the source: the
partner of a pushed edge is stored at a node of positive level. -/
theorem source_caps_call (n s t : Nat) (c : Call) (hok : CallOk n s t c) (b : Nat)
    (hb : b < (c.before.g.getD s []).length) :
    cap_at c.after.g s b ≤ cap_at c.before.g s b := by
  rw [hok.post.replay, cap_at_foldl_push _ _ _ _ hb]
  have : ((c.pushes).map (fun p => push_delta p s b)).sum ≤ 0 := by
    apply sum_map_nonpos
    intro p hp
    have hup := hok.post.up p hp
    have hd : p.d = c.d := hok.post.same_d p hp
    have hd0 := hok.post.d_nonneg
    unfold push_delta
    have h2 : ¬ (s = p.to_ ∧ b = p.rev) := by
      rintro ⟨h1, _⟩
      rw [← h1] at hup
      omega
    rw [if_neg h2, add_zero]
    split
    · omega
    · exact le_refl _
  show cap_at c.before.g s b + ((c.pushes).map (fun p => push_delta p s b)).sum ≤ _
  omega

theorem source_caps_calls (n s t : Nat) :
    ∀ (calls : List Call) (g g2 : List (List Edge)), GraphChain g calls g2 →
      (∀ c ∈ calls, CallOk n s t c) → ∀ b, b < (g.getD s []).length →
      cap_at g2 s b ≤ cap_at g s b
  | [], g, g2, hgc, _, b, _ => by
    rw [GraphChain] at hgc
    rw [hgc]
  | c :: cs, g, g2, hgc, hok, b, hb => by
    rw [GraphChain] at hgc
    obtain ⟨hbg, hrest⟩ := hgc
    have hc := hok c (List.mem_cons_self _ _)
    have h1 := source_caps_call n s t c hc b (by rw [hbg]; exact hb)
    have hlen : (c.after.g.getD s []).length = (g.getD s []).length := by
      rw [hc.post.replay, length_getD_foldl_push, hbg]
    have h2 := source_caps_calls n s t cs c.after.g g2 hrest
      (fun c2 hc2 => hok c2 (List.mem_cons_of_mem _ hc2)) b (by rw [hlen]; exact hb)
    rw [hbg] at h1
    omega

theorem no_flow_snoc (fs : List FlowEdge) (a : FlowEdge) :
    no_flow (fs ++ [a]) = no_flow fs ++ [⟨a.u, a.v, a.c, 0⟩] := by
  unfold no_flow
  rw [List.map_append]
  rfl

theorem no_flow_arcs (fs : List FlowEdge) :
    (no_flow fs).map FlowEdge.arc = fs.map FlowEdge.arc := by
  unfold no_flow
  rw [List.map_map]
  apply List.map_congr_left
  intro a _
  rfl

theorem build_g_no_flow (n s t : Nat) (fs : List FlowEdge) :
    (MaxFlow.build n s t (fs.map FlowEdge.arc)).g = residual n (no_flow fs) := by
  rw [build_g, List.map_map]
  rfl

/-- The reverse edge of every arc sits at the same position in the residual graph
of a flow and in the graph the `add_edge` calls built, where it has capacity 0. -/
theorem rev_positions (n : Nat) (fs : List FlowEdge)
    (hwf : WellFormedArcs n (fs.map FlowEdge.arc)) :
    (∀ w, ((residual n (no_flow fs)).getD w []).length = ((residual n fs).getD w []).length) ∧
    ∀ a ∈ fs, ∃ (b : Nat) (e e0 : Edge),
      ((residual n fs).getD a.v [])[b]? = some e ∧ e.cap = a.x ∧
      ((residual n (no_flow fs)).getD a.v [])[b]? = some e0 ∧ e0.cap = 0 := by
  induction fs using List.reverseRecOn with
  | nil =>
    refine ⟨fun w => rfl, ?_⟩
    intro a ha
    exact absurd ha (List.not_mem_nil a)
  | append_singleton fs c ih =>
    obtain ⟨hfs, hu, hv, huv, _⟩ := wellFormed_of_append n fs c hwf
    obtain ⟨ihlen, ihpos⟩ := ih hfs
    have hlu : c.u < (residual n fs).length := by rw [length_residual]; exact hu
    have hlv : c.v < (residual n fs).length := by rw [length_residual]; exact hv
    have hlu0 : (⟨c.u, c.v, c.c, 0⟩ : FlowEdge).u < (residual n (no_flow fs)).length := by
      rw [length_residual]; exact hu
    have hlv0 : (⟨c.u, c.v, c.c, 0⟩ : FlowEdge).v < (residual n (no_flow fs)).length := by
      rw [length_residual]; exact hv
    have huv0 : (⟨c.u, c.v, c.c, 0⟩ : FlowEdge).u ≠ (⟨c.u, c.v, c.c, 0⟩ : FlowEdge).v := huv
    rw [no_flow_snoc, residual_snoc, residual_snoc]
    constructor
    · intro w
      rw [getD_add_residual _ _ w hlu0 hlv0 huv0, getD_add_residual _ _ w hlu hlv huv]
      dsimp only
      by_cases h1 : w = c.u
      · rw [if_pos h1, if_pos h1, List.length_append, List.length_append, ihlen,
          List.length_singleton, List.length_singleton]
      · rw [if_neg h1, if_neg h1]
        by_cases h2 : w = c.v
        · rw [if_pos h2, if_pos h2, List.length_append, List.length_append, ihlen,
            List.length_singleton, List.length_singleton]
        · rw [if_neg h2, if_neg h2, ihlen]
    · intro a ha
      rcases List.mem_append.mp ha with h | h
      · obtain ⟨b, e, e0, he, hcap, he0, hcap0⟩ := ihpos a h
        exact ⟨b, e, e0, getElem?_add_residual_old _ c _ _ _ hlu hlv huv he, hcap,
          getElem?_add_residual_old _ _ _ _ _ hlu0 hlv0 huv0 he0, hcap0⟩
      · rw [List.mem_singleton.mp h]
        refine ⟨((residual n fs).getD c.v []).length,
          ⟨c.u, ((residual n fs).getD c.u []).length, c.x⟩,
          ⟨c.u, ((residual n (no_flow fs)).getD c.u []).length, 0⟩,
          getElem?_add_residual_rev _ c hlu hlv huv, rfl, ?_, rfl⟩
        have := getElem?_add_residual_rev _ (⟨c.u, c.v, c.c, 0⟩ : FlowEdge) hlu0 hlv0 huv0
        dsimp only at this
        rw [ihlen c.v] at this
        exact this

theorem sum_flow_eq_zero (fs : List FlowEdge) (F : FlowEdge → Int) (h : ∀ a ∈ fs, F a = 0) :
    (fs.map F).sum = 0 := by
  induction fs with
  | nil => rfl
  | cons a fs ih =>
    rw [List.map_cons, List.sum_cons, h a (List.mem_cons_self _ _),
      ih (fun b hb => h b (List.mem_cons_of_mem _ hb)), add_zero]

/-- A flow whose residual graph stores at `s` no more capacity, edge by edge, than
the graph the `add_edge` calls built, has nothing on the arcs that enter `s`. -/
theorem inflow_zero (n s : Nat) (fs : List FlowEdge)
    (hwf : WellFormedArcs n (fs.map FlowEdge.arc)) (hfl : ∀ e ∈ fs, 0 ≤ e.x ∧ e.x ≤ e.c)
    (hle : ∀ b, b < ((residual n (no_flow fs)).getD s []).length →
      cap_at (residual n fs) s b ≤ cap_at (residual n (no_flow fs)) s b) :
    inflow fs s = 0 := by
  unfold inflow
  apply sum_flow_eq_zero
  intro a ha
  by_cases hav : a.v = s
  · rw [if_pos hav]
    obtain ⟨b, e, e0, he, hcap, he0, hcap0⟩ := (rev_positions n fs hwf).2 a ha
    rw [hav] at he he0
    have h1 := hle b (lt_length_of_getElem?_some _ _ _ he0)
    rw [cap_at_of_getElem? _ _ _ _ he, cap_at_of_getElem? _ _ _ _ he0, hcap, hcap0] at h1
    have := (hfl a ha).1
    omega
  · rw [if_neg hav]

/-! ## The run of `dinic` on a graph without self-loops -/

theorem dinic_fuel_le_engine_fuel (n : Nat) (es : List (Nat × Nat × Int)) (s : Nat) :
    dinic_fuel n es s ≤ engine_fuel n es s := by
  unfold dinic_fuel engine_fuel loop_fuel
  have h : n * (es.length + 1) ≤ n * (2 * es.length + 1) :=
    Nat.mul_le_mul_left n (by omega)
  omega

theorem outflow_nonneg (fs : List FlowEdge) (w : Nat) (h : ∀ e ∈ fs, 0 ≤ e.x ∧ e.x ≤ e.c) :
    0 ≤ outflow fs w := by
  unfold outflow
  apply List.sum_nonneg
  intro x hx
  obtain ⟨e, he, hex⟩ := List.mem_map.mp hx
  rw [← hex]
  split
  · exact (h e he).1
  · exact le_refl _

/-- On the graph built by `add_edge` calls with in-range, distinct endpoints and
non-negative capacities, `s != t`, the recorded `dinic` returns the result of
`dinic_int`; each call starts on the graph the previous one left; every graph
the run goes through, push by push, is the residual graph of a flow within the
capacities; every call took the amount it returned from each edge of its path
and gave it to the partner; the flow of the final graph has nothing on the arcs
that enter `s`, and the flow value returned is its flow on the arcs that leave
`s`, reduced to 32 bits. -/
theorem dinic_residual_run (n s t : Nat) (es : List (Nat × Nat × Int))
    (hwf : WellFormedArcs n es) (hs : s < n) (ht : t < n) (hst : s ≠ t)
    (fuel : Nat) (hfuel : engine_fuel n es s ≤ fuel) :
    ∃ mf flow phases, (MaxFlow.build n s t es).dinic_trace fuel = some (mf, flow, phases) ∧
      (MaxFlow.build n s t es).dinic_int fuel = some (mf, flow) ∧
      GraphChain (MaxFlow.build n s t es).g phases.flatten mf.g ∧
      (∀ c ∈ phases.flatten,
        c.after.g = c.pushes.foldl apply_push c.before.g ∧
        (∀ g ∈ push_states c.before.g c.pushes, IsResidual n es g ∧ PairInvariant es g) ∧
        PathPushed c) ∧
      PairInvariant es mf.g ∧
      ∃ fs : List FlowEdge, fs.map FlowEdge.arc = es ∧ (∀ e ∈ fs, 0 ≤ e.x ∧ e.x ≤ e.c) ∧
        mf.g = residual n fs ∧ inflow fs s = 0 ∧ 0 ≤ outflow fs s ∧
        flow = wrap32 (outflow fs s) ∧ (outflow fs s < 2147483648 → outflow fs s = flow) := by
  have hr : EndpointsInRange n es := fun e he => ⟨(hwf e he).1, (hwf e he).2.1⟩
  have hc : NonNegCaps es := fun e he => (hwf e he).2.2.2
  obtain ⟨mf, flow, phases, htrace, hdinic, _, _, _, _, hgc, hok⟩ :=
    dinic_trace_run n s t es hr hc hs ht hst fuel hfuel
  have hcalls : ∀ c ∈ phases.flatten, CallOk n s t c := by
    intro c hc
    obtain ⟨ph, hph, hcph⟩ := List.mem_flatten.mp hc
    exact (hok ph hph).2 c hcph
  have hres0 : IsResidual n es (MaxFlow.build n s t es).g := (dinicInv_build n s t es hwf).res
  obtain ⟨hstates, _⟩ := isResidual_calls n s t es hwf phases.flatten _ mf.g hres0 hgc hcalls
  obtain ⟨mf2, flow2, fs, hrun2, hflow, hg, hval, _, _, _⟩ := dinic_max_flow n s t es hwf hs ht hst
    fuel (le_trans (dinic_fuel_le_engine_fuel n es s) hfuel)
  rw [dinic_int_eq, hrun2] at hdinic
  simp only [Option.map_some', Option.some.injEq, Prod.mk.injEq] at hdinic
  obtain ⟨hmf, hfl⟩ := hdinic
  subst hmf
  have hin : inflow fs s = 0 := by
    apply inflow_zero n s fs (by rw [hflow.1]; exact hwf) hflow.2.1
    intro b hb
    rw [← hg, ← build_g_no_flow n s t fs, hflow.1]
    rw [← build_g_no_flow n s t fs, hflow.1] at hb
    exact source_caps_calls n s t phases.flatten _ mf2.g hgc hcalls b hb
  have hout : outflow fs s = flow2 := by
    unfold flow_value at hval
    omega
  have hnn := outflow_nonneg fs s hflow.2.1
  have hdinic2 : (MaxFlow.build n s t es).dinic_int fuel = some (mf2, flow) := by
    rw [dinic_int_eq, hrun2, ← hfl]
    rfl
  refine ⟨mf2, flow, phases, htrace, hdinic2, hgc, ?_,
    pairInvariant_of_isResidual n es hwf mf2.g ⟨fs, hflow.1, hflow.2.1, hg⟩,
    fs, hflow.1, hflow.2.1, hg, hin, hnn, ?_, ?_⟩
  · intro c hc
    have hcok := hcalls c hc
    refine ⟨hcok.post.replay, fun g hgm => ⟨hstates c hc g hgm,
      pairInvariant_of_isResidual n es hwf g (hstates c hc g hgm)⟩, ?_⟩
    have hresb : IsResidual n es c.before.g :=
      hstates c hc _ (self_mem_push_states _ _)
    exact pathPushed_of_callOk n s t c hcok (paired_of_isResidual n es hwf _ hresb).1
  · rw [hout, ← hfl]
  · intro hlt
    rw [← hfl, hout, wrap32_of_fits flow2 (by omega) (by omega)]

end xllm_service


namespace xllm_service

/-! ## Why the engine terminates -/

theorem callTerminates_of_callOk (n s t : Nat) (c : Call) (hok : CallOk n s t c) :
    CallTerminates n c := by
  refine ⟨?_, ?_, ?_, hok.post.it_mono⟩
  · intro ab hab
    have h1 := hok.post.visited_up ab hab
    have h2 := hok.src
    have h3 := hok.bound ab.2
    exact ⟨by omega, h1.2, h3⟩
  · obtain ⟨x, hx⟩ := hok.post.deep
    have h2 := hok.src
    have h3 := hok.bound x
    have h4 : ((c.depth : Nat) : Int) < (n : Int) := by
      have h5 : c.before.level.getD s 0 + ((c.depth : Nat) : Int) ≤ c.before.level.getD x 0 := hx
      omega
    exact_mod_cast h4
  · have := hok.post.d_nonneg
    omega

/-- On the graph built by `init(n, s, t)` and `add_edge` calls with in-range
endpoints and non-negative capacities (self-loops allowed), `s != t`, `dinic`
returns on `engine_fuel` units of fuel.  Each phase is a chain of `dfs` calls
from `s` of which all but the last return at least 1 and the last returns 0;
every call recurses only to nodes of strictly greater level below `n` and moves
no current-edge pointer back; the amounts returned add up to at most the
capacities stored at `s` in the built graph; the flow value returned is that sum
reduced to 32 bits, the sum itself when those capacities total less than
`2^31`. -/
theorem engine_terminates (n s t : Nat) (es : List (Nat × Nat × Int))
    (hr : EndpointsInRange n es) (hc : NonNegCaps es) (hs : s < n) (ht : t < n) (hst : s ≠ t)
    (fuel : Nat) (hfuel : engine_fuel n es s ≤ fuel) :
    ∃ mf flow phases, (MaxFlow.build n s t es).dinic_trace fuel = some (mf, flow, phases) ∧
      (MaxFlow.build n s t es).dinic_int fuel = some (mf, flow) ∧
      (∀ ph ∈ phases, (∃ ma mb, PhaseChain ma ph mb) ∧ ∀ c ∈ ph, CallTerminates n c) ∧
      0 ≤ (phases.flatten.map Call.d).sum ∧
      (phases.flatten.map Call.d).sum ≤ cap_sum (MaxFlow.build n s t es).g s ∧
      flow = wrap32 (phases.flatten.map Call.d).sum ∧
      (cap_sum (MaxFlow.build n s t es).g s < 2147483648 →
        flow = (phases.flatten.map Call.d).sum) := by
  obtain ⟨mf, flow, phases, htrace, hdinic, hsum, hflow, hcs, hnn, _, hok⟩ :=
    dinic_trace_run n s t es hr hc hs ht hst fuel hfuel
  have hle : (phases.flatten.map Call.d).sum ≤ cap_sum (MaxFlow.build n s t es).g s := by
    have := cap_sum_nonneg_of_nonNeg mf.g hnn s
    omega
  refine ⟨mf, flow, phases, htrace, hdinic, ?_, hsum, hle, hflow, ?_⟩
  · intro ph hph
    exact ⟨(hok ph hph).1, fun c hc => callTerminates_of_callOk n s t c ((hok ph hph).2 c hc)⟩
  · intro hlt
    rw [hflow]
    exact wrap32_of_fits _ (by omega) (by omega)

/-- The planner returns on `optimize_fuel` units of fuel, whatever the input. -/
theorem optimize_layer_returns (required : List Int) (rep : ExpertReplicaMap) (fuel : Nat)
    (hfuel : optimize_fuel required rep ≤ fuel) :
    ∃ plan, optimize_layer fuel required rep = some plan := by
  obtain ⟨plan, hrun, _⟩ := optimize_layer_spec required rep fuel hfuel
  exact ⟨plan, hrun⟩

end xllm_service


namespace xllm_service

/-! ## Claims about the non-expert planner -/

/-- C5, the code at the failing input: the config `{device_size = 1, dp_size = 1}`
of instance "a" is valid, the `10^9` steps of the plan are all in range and name
NPU 0 of "a", so the only DP group has internal peak `10^9` (a count that a
32-bit counter holds); `optimize_non_expert` returns the sentinel, which names
no instance and no DP group, because that peak is not below the initial
`min_max_load = 1e9`. -/
theorem C5_saturated_group_not_selected :
    StepsInRange (List.replicate 1000000000 ⟨⟨"a", 0⟩, 0⟩) [("a", ⟨1, 1⟩)] ∧
    (⟨1, 1⟩ : InstanceConfig).valid ∧
    group_peak (List.replicate 1000000000 ⟨⟨"a", 0⟩, 0⟩) "a" ⟨1, 1⟩ 0 = 1000000000 ∧
    optimize_non_expert (List.replicate 1000000000 ⟨⟨"a", 0⟩, 0⟩) [("a", ⟨1, 1⟩)] =
      some ⟨"", -1, -1, 0⟩ := by
  refine ⟨?_, by decide, group_peak_single "a" 0 1000000000,
    saturated_single_npu "a" 0 1000000000 (le_refl _) (by decide)⟩
  intro s hs nc hnc _
  rw [List.eq_of_mem_replicate hs, List.mem_singleton.mp hnc]
  decide

/-- C6, result consistency with the chosen config: whenever the call returns a
result with `dp_group_index >= 0`, `src_instance` is a key of `instance_configs`
with a valid config `c`, `dp_size = c.dp_size`, `0 <= dp_group_index < c.dp_size`,
`start_npu_index = dp_group_index * (c.device_size / c.dp_size)`, and the group's
NPU range lies inside `[0, c.device_size)`. -/
theorem C6_result_consistency (plan : List Step) (cfgs : InstanceConfigs) (r : NonExpertStep)
    (h : optimize_non_expert plan cfgs = some r) (hidx : 0 ≤ r.dp_group_index) :
    ∃ c, (r.src_instance, c) ∈ cfgs ∧ c.valid ∧ r.dp_size = c.dp_size ∧
      r.dp_group_index < c.dp_size ∧
      r.start_npu_index = r.dp_group_index * (c.device_size / c.dp_size) ∧
      0 ≤ r.start_npu_index ∧
      r.start_npu_index + c.device_size / c.dp_size ≤ c.device_size := by
  obtain ⟨m, hr⟩ := non_expert_returns plan cfgs r h
  rcases selectInv_scan m cfgs with ⟨hb, _⟩ | ⟨pre, x, post, hseen, hb, _, _, _⟩
  · exfalso
    rw [hb, build_result_init] at hr
    rw [hr] at hidx
    exact absurd hidx (by decide)
  · have hx : x ∈ candidates cfgs := by
      rw [hseen]
      simp
    obtain ⟨hmem, hv, hg⟩ := (mem_candidates cfgs x).mp hx
    rw [hb, build_result_cand, Int.tdiv_eq_ediv (le_of_lt hv.1) (le_of_lt hv.2.1)] at hr
    have hq0 : 0 ≤ x.2.1.device_size / x.2.1.dp_size :=
      Int.ediv_nonneg (le_of_lt hv.1) (le_of_lt hv.2.1)
    have hds : x.2.1.dp_size * (x.2.1.device_size / x.2.1.dp_size) = x.2.1.device_size :=
      Int.mul_ediv_cancel' (Int.dvd_of_emod_eq_zero hv.2.2)
    have h1 : ((x.2.2 : Int) + 1) * (x.2.1.device_size / x.2.1.dp_size) ≤
        x.2.1.dp_size * (x.2.1.device_size / x.2.1.dp_size) :=
      Int.mul_le_mul_of_nonneg_right (by omega) hq0
    have h2 : ((x.2.2 : Int) + 1) * (x.2.1.device_size / x.2.1.dp_size) =
        (x.2.2 : Int) * (x.2.1.device_size / x.2.1.dp_size) +
          x.2.1.device_size / x.2.1.dp_size := by ring
    subst hr
    refine ⟨x.2.1, hmem, hv, rfl, hg, rfl, mul_nonneg (Int.natCast_nonneg _) hq0, ?_⟩
    dsimp only
    omega

/-- Witness of C6: the group selected on the loads `[3,3,0,...,0]`. -/
theorem C6_result_consistency_witness :
    ∃ c, (("a" : String), c) ∈ ([("a", ⟨16, 8⟩)] : InstanceConfigs) ∧ c.valid ∧
      (8 : Int) = c.dp_size ∧ (1 : Int) < c.dp_size ∧
      (2 : Int) = 1 * (c.device_size / c.dp_size) ∧ (0 : Int) ≤ 2 ∧
      (2 : Int) + c.device_size / c.dp_size ≤ c.device_size :=
  C6_result_consistency
    [⟨⟨"a", 0⟩, 0⟩, ⟨⟨"a", 0⟩, 1⟩, ⟨⟨"a", 0⟩, 2⟩, ⟨⟨"a", 1⟩, 3⟩, ⟨⟨"a", 1⟩, 4⟩, ⟨⟨"a", 1⟩, 5⟩]
    [("a", ⟨16, 8⟩)] ⟨"a", 1, 2, 8⟩ (by decide) (by decide)

/-- C7, the code at the failing input: the only entry
`{device_size = 1, dp_size = 1}` is valid and has a non-negative `device_size`,
every step of the plan is in range, and still the result has
`dp_group_index = -1`, because the single group carries `10^9 + 1` steps, not
below the initial `min_max_load = 1e9`. -/
theorem C7_valid_entry_gets_sentinel :
    StepsInRange (List.replicate 1000000001 ⟨⟨"inst-0", 0⟩, 7⟩) [("inst-0", ⟨1, 1⟩)] ∧
    (∃ nc ∈ ([("inst-0", ⟨1, 1⟩)] : InstanceConfigs), nc.2.valid) ∧
    ∃ r, optimize_non_expert (List.replicate 1000000001 ⟨⟨"inst-0", 0⟩, 7⟩)
        [("inst-0", ⟨1, 1⟩)] = some r ∧ r.dp_group_index = -1 := by
  refine ⟨?_, ⟨("inst-0", ⟨1, 1⟩), by simp, by decide⟩,
    ⟨_, saturated_single_npu "inst-0" 7 1000000001 (by omega) (by decide), rfl⟩⟩
  intro s hs nc hnc _
  rw [List.eq_of_mem_replicate hs, List.mem_singleton.mp hnc]
  decide

/-- C10, the code at the failing input: a config with a negative `device_size`
next to a valid one makes the call abort in the load-allocation loop
(`vector::assign` with a negative count), before the guard that would skip the
entry is reached; with the malformed entry removed the call returns group 0 of
"inst-0". -/
theorem C10_negative_device_size_aborts :
    optimize_non_expert [] [("inst-0", ⟨16, 4⟩), ("inst-1", ⟨-16, 4⟩)] = none ∧
    optimize_non_expert [] [("inst-0", ⟨16, 4⟩)] = some ⟨"inst-0", 0, 0, 4⟩ := by
  constructor <;> decide

end xllm_service


namespace xllm_service

/-! ## Claims about the expert planner and the max-flow engine -/

/-- C3, source validity (P2): for every input of `optimize_layer`, valid or not,
the call returns and every step of the returned plan has its `src` among the
replicas listed for its `expert_id` in the replica map. -/
theorem C3_source_validity (required : List Int) (rep : ExpertReplicaMap)
    (fuel : Nat) (hfuel : optimize_fuel required rep ≤ fuel) :
    ∃ plan, optimize_layer fuel required rep = some plan ∧
      ∀ s ∈ plan, s.src ∈ replicas_of rep s.expert_id :=
  optimize_layer_sources required rep fuel hfuel

/-- Witness of C3: two requests, expert 3 held by one NPU and expert 5 by that NPU
and another; the plan has two steps, which are given. -/
theorem C3_source_validity_witness :
    (∃ plan, optimize_layer 90 [3, 5] [(3, [⟨"x", 1⟩]), (5, [⟨"x", 1⟩, ⟨"y", 2⟩])] =
        some plan ∧
      ∀ s ∈ plan,
        s.src ∈ replicas_of [(3, [⟨"x", 1⟩]), (5, [⟨"x", 1⟩, ⟨"y", 2⟩])] s.expert_id) ∧
    optimize_layer 90 [3, 5] [(3, [⟨"x", 1⟩]), (5, [⟨"x", 1⟩, ⟨"y", 2⟩])] =
      some [⟨⟨"x", 1⟩, 3⟩, ⟨⟨"y", 2⟩, 5⟩] :=
  ⟨C3_source_validity [3, 5] [(3, [⟨"x", 1⟩]), (5, [⟨"x", 1⟩, ⟨"y", 2⟩])] 90 (by decide),
    by decide⟩

/-- C8 fails as stated: on the graph of four nodes with the arcs `0 -> 1`,
`0 -> 2`, `1 -> 3`, `2 -> 3` of capacity `2 * 10^9` each (in-range distinct
endpoints, capacities that an `int` holds), `s = 0`, `t = 3`, `dinic()` returns
`-294967296`, while the residual capacities it leaves are those of a feasible
flow of value `4 * 10^9`: the `int flow` of the source has overflowed, and the
number returned is not the value of a maximum flow, nor of any flow. -/
theorem C8_counterexample :
    WellFormedArcs 4
      [(0, 1, 2000000000), (0, 2, 2000000000), (1, 3, 2000000000), (2, 3, 2000000000)] ∧
    ((MaxFlow.build 4 0 3
      [(0, 1, 2000000000), (0, 2, 2000000000), (1, 3, 2000000000),
        (2, 3, 2000000000)]).dinic_int 40).map Prod.snd = some (-294967296) ∧
    ((MaxFlow.build 4 0 3
      [(0, 1, 2000000000), (0, 2, 2000000000), (1, 3, 2000000000),
        (2, 3, 2000000000)]).dinic_int 40).map (fun r => r.1.g) =
      some (residual 4 [⟨0, 1, 2000000000, 2000000000⟩, ⟨0, 2, 2000000000, 2000000000⟩,
        ⟨1, 3, 2000000000, 2000000000⟩, ⟨2, 3, 2000000000, 2000000000⟩]) ∧
    IsFlow 4 0 3
      [(0, 1, 2000000000), (0, 2, 2000000000), (1, 3, 2000000000), (2, 3, 2000000000)]
      [⟨0, 1, 2000000000, 2000000000⟩, ⟨0, 2, 2000000000, 2000000000⟩,
        ⟨1, 3, 2000000000, 2000000000⟩, ⟨2, 3, 2000000000, 2000000000⟩] ∧
    flow_value [⟨0, 1, 2000000000, 2000000000⟩, ⟨0, 2, 2000000000, 2000000000⟩,
      ⟨1, 3, 2000000000, 2000000000⟩, ⟨2, 3, 2000000000, 2000000000⟩] 0 = 4000000000 := by
  refine ⟨by decide, by decide, by decide, by decide, by decide⟩

/-- C8 (amended), max-flow engine correctness: for every graph built by
`init(n, s, t)` followed by `add_edge` calls with in-range distinct endpoints and
non-negative capacities, with `s` and `t` distinct nodes of the graph, `dinic()`
returns, the residual capacities it leaves are those of a feasible flow of
maximum value (net flow out of `s`, equal to the net flow into `t`; no feasible
flow has a larger value), and `t` is unreachable from `s` through edges of
positive residual capacity; the number returned is that value when it is below
`2^31`, and in general that value reduced modulo `2^32` to the range of an
`int`. -/
theorem C8_dinic_max_flow (n s t : Nat) (es : List (Nat × Nat × Int))
    (hwf : WellFormedArcs n es) (hs : s < n) (ht : t < n) (hst : s ≠ t)
    (fuel : Nat) (hfuel : dinic_fuel n es s ≤ fuel) :
    ∃ mf flow fs, (MaxFlow.build n s t es).dinic_int fuel = some (mf, flow) ∧
      IsFlow n s t es fs ∧ mf.g = residual n fs ∧
      flow = wrap32 (flow_value fs s) ∧
      (flow_value fs s < 2147483648 → flow_value fs s = flow) ∧
      inflow fs t - outflow fs t = flow_value fs s ∧
      (∀ fs2, IsFlow n s t es fs2 → flow_value fs2 s ≤ flow_value fs s) ∧
      ¬ ResidualPath mf.g s t :=
  dinic_int_max_flow n s t es hwf hs ht hst fuel hfuel

/-- Witness of C8 (amended): a network of four nodes and five arcs with a cross
arc. -/
theorem C8_dinic_max_flow_witness :
    ∃ mf flow fs,
      (MaxFlow.build 4 0 3 [(0, 1, 2), (0, 2, 1), (1, 3, 1), (2, 3, 2), (1, 2, 1)]).dinic_int 43 =
        some (mf, flow) ∧
      IsFlow 4 0 3 [(0, 1, 2), (0, 2, 1), (1, 3, 1), (2, 3, 2), (1, 2, 1)] fs ∧
      mf.g = residual 4 fs ∧
      flow = wrap32 (flow_value fs 0) ∧
      (flow_value fs 0 < 2147483648 → flow_value fs 0 = flow) ∧
      inflow fs 3 - outflow fs 3 = flow_value fs 0 ∧
      (∀ fs2, IsFlow 4 0 3 [(0, 1, 2), (0, 2, 1), (1, 3, 1), (2, 3, 2), (1, 2, 1)] fs2 →
        flow_value fs2 0 ≤ flow_value fs 0) ∧
      ¬ ResidualPath mf.g 0 3 :=
  C8_dinic_max_flow 4 0 3 [(0, 1, 2), (0, 2, 1), (1, 3, 1), (2, 3, 2), (1, 2, 1)]
    (by decide) (by decide) (by decide) (by decide) 43 (by decide)

/-- C9 fails as stated: on the scenario of the example (5 instances of 16 NPUs,
experts 0..255, expert `e` on NPU `e / 16` of every instance, `required` =
0..255) the returned plan serves all 256 experts in order and its peak source
load is 4, not 52: the 16 experts of one NPU index are shared by 5 source NPUs,
one per instance, and there are 80 source NPUs in all. -/
theorem C9_counterexample :
    ∃ plan, optimize_layer (optimize_fuel scenario_required scenario_expert_to_src)
        scenario_required scenario_expert_to_src = some plan ∧
      plan.map Step.expert_id = scenario_required ∧
      peak_load (plan.map Step.src) = 4 ∧ peak_load (plan.map Step.src) ≠ 52 := by
  obtain ⟨plan, hrun, hids, _, hpeak⟩ :=
    scenario_outcome scenario_expert_to_src scenario_replicas _ (le_refl _)
  refine ⟨plan, hrun, hids, hpeak, ?_⟩
  rw [hpeak]
  decide

/-- C9 (amended), uniform baseline scenario: for a replica map that lists, for
each expert `e` of 0..255, NPU `e / 16` of each of the 5 instances (in whatever
order the map is traversed), and `required` = 0..255, the plan returned by
`optimize_layer` has 256 steps, one per expert in order, each from a replica of
its expert, and its peak source load is 4 = ceil(16/5). -/
theorem C9_uniform_baseline (rep : ExpertReplicaMap)
    (hrep : ∀ k : Nat, k < 256 → replicas_of rep (k : Int) = scenario_sources k)
    (fuel : Nat) (hfuel : optimize_fuel scenario_required rep ≤ fuel) :
    ∃ plan, optimize_layer fuel scenario_required rep = some plan ∧
      plan.length = 256 ∧ plan.map Step.expert_id = scenario_required ∧
      (∀ s ∈ plan, s.src ∈ replicas_of rep s.expert_id) ∧
      peak_load (plan.map Step.src) = 4 := by
  obtain ⟨plan, hrun, hids, hsrc, hpeak⟩ := scenario_outcome rep hrep fuel hfuel
  refine ⟨plan, hrun, ?_, hids, hsrc, hpeak⟩
  rw [← List.length_map plan Step.expert_id, hids, length_scenario_required]

/-- Witness of C9 (amended): the replica map of the example in key order. -/
theorem C9_uniform_baseline_witness :
    (∀ k : Nat, k < 256 →
      replicas_of scenario_expert_to_src (k : Int) = scenario_sources k) ∧
    ∃ plan, optimize_layer (optimize_fuel scenario_required scenario_expert_to_src)
        scenario_required scenario_expert_to_src = some plan ∧
      plan.length = 256 ∧ plan.map Step.expert_id = scenario_required ∧
      (∀ s ∈ plan, s.src ∈ replicas_of scenario_expert_to_src s.expert_id) ∧
      peak_load (plan.map Step.src) = 4 :=
  ⟨scenario_replicas,
    C9_uniform_baseline scenario_expert_to_src scenario_replicas _ (le_refl _)⟩

end xllm_service


namespace xllm_service

/-! ## Claims about the aggregation and the selection order of the non-expert planner -/

/-- C11, the code at the failing input: a step that names NPU 16 of "inst-0",
whose config has 16 NPUs, makes the aggregation loop execute
`inst_npu_loads["inst-0"][16]++` on a vector of 16 counters (the source tests
that the instance is known, not that the index is in range); with the step
removed the call returns group 0 of "inst-0". -/
theorem C11_out_of_range_step_indexed :
    ¬ StepsInRange [⟨⟨"inst-0", 16⟩, 3⟩] [("inst-0", ⟨16, 4⟩)] ∧
    optimize_non_expert [⟨⟨"inst-0", 16⟩, 3⟩] [("inst-0", ⟨16, 4⟩)] = none ∧
    optimize_non_expert [] [("inst-0", ⟨16, 4⟩)] = some ⟨"inst-0", 0, 0, 4⟩ := by
  have hout : ¬ StepsInRange [⟨⟨"inst-0", 16⟩, 3⟩] [("inst-0", ⟨16, 4⟩)] := by decide
  exact ⟨hout, out_of_range_aborts _ _ (by decide) (by decide) hout, by decide⟩

/-- C12, unknown instances are ignored: for every expert plan and every
`instance_configs`, the result of `optimize_non_expert` equals the result for
the plan without the steps whose `src.instance` is not a key of
`instance_configs`, and after the aggregation no load vector exists for an
instance that is not a key. -/
theorem C12_unknown_instances_ignored (plan : List Step) (cfgs : InstanceConfigs) :
    optimize_non_expert plan cfgs =
      optimize_non_expert
        (plan.filter (fun s => decide (s.src.inst ∈ cfgs.map Prod.fst))) cfgs ∧
    ∀ m0 m, alloc_loads cfgs [] = some m0 → count_steps plan m0 = some m →
      ∀ name, name ∉ cfgs.map Prod.fst → m.lookup name = none :=
  unknown_ignored plan cfgs

/-- C13, the code at the failing input: all load is on "inst-A", "inst-B" is a
valid idle instance of the same shape and every step is in range, but the
malformed entry "inst-C" (`device_size = -2`) makes the allocation loop abort
(`vector::assign` with a negative count), so no group is selected; without that
entry the call selects group 0 of the idle "inst-B", start index 0. -/
theorem C13_idle_instance_with_malformed_entry :
    StepsInRange [⟨⟨"inst-A", 0⟩, 0⟩]
      [("inst-A", ⟨2, 1⟩), ("inst-B", ⟨2, 1⟩), ("inst-C", ⟨-2, 1⟩)] ∧
    (⟨2, 1⟩ : InstanceConfig).valid ∧
    optimize_non_expert [⟨⟨"inst-A", 0⟩, 0⟩]
      [("inst-A", ⟨2, 1⟩), ("inst-B", ⟨2, 1⟩), ("inst-C", ⟨-2, 1⟩)] = none ∧
    optimize_non_expert [⟨⟨"inst-A", 0⟩, 0⟩]
      [("inst-A", ⟨2, 1⟩), ("inst-B", ⟨2, 1⟩)] = some ⟨"inst-B", 0, 0, 1⟩ := by
  refine ⟨by decide, by decide, ?_, by decide⟩
  unfold optimize_non_expert
  rw [alloc_loads_neg _ _ ⟨("inst-C", ⟨-2, 1⟩), by simp, by decide⟩]

/-- C14, the code at the failing input: the only candidate, group 0 of "solo",
attains the minimal group peak (`10^9` steps on its only NPU, all in range) and
is not selected; the sentinel is returned, because the peak is not below the
initial `min_max_load = 1e9`. -/
theorem C14_sole_candidate_not_selected :
    StepsInRange (List.replicate 1000000000 ⟨⟨"solo", 0⟩, 1⟩) [("solo", ⟨1, 1⟩)] ∧
    candidates [("solo", ⟨1, 1⟩)] = [("solo", ⟨1, 1⟩, 0)] ∧
    optimize_non_expert (List.replicate 1000000000 ⟨⟨"solo", 0⟩, 1⟩) [("solo", ⟨1, 1⟩)] =
      some sentinel := by
  refine ⟨?_, by decide, saturated_single_npu "solo" 1 1000000000 (le_refl _) (by decide)⟩
  intro s hs nc hnc _
  rw [List.eq_of_mem_replicate hs, List.mem_singleton.mp hnc]
  decide

/-- C15 fails as stated: the two lists hold the same two valid entries, whose
groups tie at peak 0; the call returns "inst-0" when "inst-0" is iterated first
and "inst-1" when "inst-1" is iterated first, although "inst-0" is the smaller
name. -/
theorem C15_counterexample :
    List.Perm ([("inst-0", ⟨1, 1⟩), ("inst-1", ⟨1, 1⟩)] : InstanceConfigs)
      [("inst-1", ⟨1, 1⟩), ("inst-0", ⟨1, 1⟩)] ∧
    ("inst-0" : String) < "inst-1" ∧
    optimize_non_expert [] [("inst-0", ⟨1, 1⟩), ("inst-1", ⟨1, 1⟩)] =
      some ⟨"inst-0", 0, 0, 1⟩ ∧
    optimize_non_expert [] [("inst-1", ⟨1, 1⟩), ("inst-0", ⟨1, 1⟩)] =
      some ⟨"inst-1", 0, 0, 1⟩ :=
  ⟨List.Perm.swap _ _ _, String.lt_iff_toList_lt.mpr (by decide), by decide, by decide⟩

/-- C15 (amended), selection under reordering: `optimize_non_expert` visits the
instances in the iteration order of `instance_configs`, without sorting.  For a
plan with in-range steps, fewer than `2^31` of them on any one NPU (so that no
32-bit load counter overflows), and two instance maps holding the same entries
(distinct keys, no negative `device_size`), both calls return, both results are
the sentinel or neither is, and the two selected groups have the same internal
peak; in each map the selected instance is iterated before every other valid
instance that has a group of that peak. -/
theorem C15_selection_under_reordering (plan : List Step) (cfgs1 cfgs2 : InstanceConfigs)
    (hperm : cfgs1.Perm cfgs2) (hnd : (cfgs1.map Prod.fst).Nodup)
    (hnn : ∀ nc ∈ cfgs1, 0 ≤ nc.2.device_size) (hr : StepsInRange plan cfgs1)
    (hfit : CountsFit plan) :
    ∃ r1 r2, optimize_non_expert plan cfgs1 = some r1 ∧
      optimize_non_expert plan cfgs2 = some r2 ∧
      (r1 = sentinel ↔ r2 = sentinel) ∧
      (r1 ≠ sentinel → ∃ c1 c2, (r1.src_instance, c1) ∈ cfgs1 ∧
        (r2.src_instance, c2) ∈ cfgs1 ∧
        group_peak plan r1.src_instance c1 r1.dp_group_index =
          group_peak plan r2.src_instance c2 r2.dp_group_index) ∧
      (r1 ≠ sentinel → ∃ A c B, cfgs1 = A ++ (r1.src_instance, c) :: B ∧
        ∀ nc ∈ A, nc.2.valid → ∀ g2 : Nat, (g2 : Int) < nc.2.dp_size →
          group_peak plan r1.src_instance c r1.dp_group_index <
            group_peak plan nc.1 nc.2 g2) :=
  perm_outcome plan cfgs1 cfgs2 hperm hnd hnn hr hfit

/-- Witness of C15 (amended): one step on "inst-0", the two entries in both
orders. -/
theorem C15_selection_under_reordering_witness :
    ∃ r1 r2,
      optimize_non_expert [⟨⟨"inst-0", 0⟩, 5⟩] [("inst-0", ⟨2, 1⟩), ("inst-1", ⟨2, 1⟩)] =
        some r1 ∧
      optimize_non_expert [⟨⟨"inst-0", 0⟩, 5⟩] [("inst-1", ⟨2, 1⟩), ("inst-0", ⟨2, 1⟩)] =
        some r2 ∧
      (r1 = sentinel ↔ r2 = sentinel) ∧
      (r1 ≠ sentinel → ∃ c1 c2,
        (r1.src_instance, c1) ∈ ([("inst-0", ⟨2, 1⟩), ("inst-1", ⟨2, 1⟩)] : InstanceConfigs) ∧
        (r2.src_instance, c2) ∈ ([("inst-0", ⟨2, 1⟩), ("inst-1", ⟨2, 1⟩)] : InstanceConfigs) ∧
        group_peak [⟨⟨"inst-0", 0⟩, 5⟩] r1.src_instance c1 r1.dp_group_index =
          group_peak [⟨⟨"inst-0", 0⟩, 5⟩] r2.src_instance c2 r2.dp_group_index) ∧
      (r1 ≠ sentinel → ∃ A c B,
        ([("inst-0", ⟨2, 1⟩), ("inst-1", ⟨2, 1⟩)] : InstanceConfigs) =
          A ++ (r1.src_instance, c) :: B ∧
        ∀ nc ∈ A, nc.2.valid → ∀ g2 : Nat, (g2 : Int) < nc.2.dp_size →
          group_peak [⟨⟨"inst-0", 0⟩, 5⟩] r1.src_instance c r1.dp_group_index <
            group_peak [⟨⟨"inst-0", 0⟩, 5⟩] nc.1 nc.2 g2) :=
  C15_selection_under_reordering _ _ _ (List.Perm.swap _ _ _) (by decide) (by decide)
    (by decide) (by decide)

end xllm_service


namespace xllm_service

/-! ## Claims about edge positions, the binary search, the flow value, the serving
NPU and the levels `dfs` descends -/

/-- C16 fails as stated: `add_edge(0, 0, 5)` has in-range endpoints and stores the
forward edge at `g[0][0]` and the reverse edge at `g[0][1]`, both with
`rev = 0`; the partner the reverse edge names, `g[0][0]`, has `rev = 0`, not 1. -/
theorem C16_counterexample :
    EndpointsInRange 1 [(0, 0, 5)] ∧
    (MaxFlow.build 1 0 0 [(0, 0, 5)]).g = [[⟨0, 0, 5⟩, ⟨0, 0, 0⟩]] ∧
    ¬ SymmetricPositions (MaxFlow.build 1 0 0 [(0, 0, 5)]).g :=
  ⟨by decide, self_loop_positions.1, self_loop_positions.2⟩

/-- C16 (amended), symmetric edge positions: after `init(n, s, t)` and `add_edge`
calls `es` with in-range endpoints, one more call `add_edge(u, v, c)` with
in-range `u`, `v` appends the forward edge `(v, |g[v]|, c)` to `g[u]` and then
the reverse edge `(u, |g[u]|, 0)` to `g[v]` (sizes read before the call) and
leaves all earlier edges unchanged; and when no call of `es` has `u = v`, every
edge `e` stored at `g[u][i]` has a partner at `g[e.to][e.rev]` whose `to` is `u`
and whose `rev` is `i`. -/
theorem C16_symmetric_positions (n s t : Nat) (es : List (Nat × Nat × Int))
    (hr : EndpointsInRange n es) :
    (NoSelfLoop es → SymmetricPositions (MaxFlow.build n s t es).g) ∧
    ∀ (u v : Nat) (c : Int) (w : Nat), u < n → v < n →
      (MaxFlow.build n s t (es ++ [(u, v, c)])).g.getD w [] =
        ((MaxFlow.build n s t es).g.getD w [] ++
          (if w = u then [⟨v, ((MaxFlow.build n s t es).g.getD v []).length, c⟩] else [])) ++
          (if w = v then [⟨u, ((MaxFlow.build n s t es).g.getD u []).length, 0⟩] else []) := by
  refine ⟨fun hd => symmetric_of_paired _ (paired_build n s t es hr hd), ?_⟩
  intro u v c w hu hv
  rw [build_snoc]
  exact getD_add_edge _ u v c w (by rw [length_build_g]; exact hu)
    (by rw [length_build_g]; exact hv)

/-- Witness of C16 (amended): two calls on three nodes. -/
theorem C16_symmetric_positions_witness :
    (NoSelfLoop [(0, 1, 2), (1, 2, 3)] →
      SymmetricPositions (MaxFlow.build 3 0 2 [(0, 1, 2), (1, 2, 3)]).g) ∧
    ∀ (u v : Nat) (c : Int) (w : Nat), u < 3 → v < 3 →
      (MaxFlow.build 3 0 2 ([(0, 1, 2), (1, 2, 3)] ++ [(u, v, c)])).g.getD w [] =
        ((MaxFlow.build 3 0 2 [(0, 1, 2), (1, 2, 3)]).g.getD w [] ++
          (if w = u then
            [⟨v, ((MaxFlow.build 3 0 2 [(0, 1, 2), (1, 2, 3)]).g.getD v []).length, c⟩]
          else [])) ++
          (if w = v then
            [⟨u, ((MaxFlow.build 3 0 2 [(0, 1, 2), (1, 2, 3)]).g.getD u []).length, 0⟩]
          else []) :=
  C16_symmetric_positions 3 0 2 [(0, 1, 2), (1, 2, 3)] (by decide)

/-- C20, `dfs` descends exactly one level per edge: on a graph built by
`init(n, s, t)` and `add_edge` calls with in-range distinct endpoints and
non-negative capacities, `s != t`, `dinic()` returns, and in every phase every
edge `v -> w` along which `dfs` recursed or pushed flow satisfies
`level[w] = level[v] + 1` for the labels of that phase's `bfs`, also in the
calls that follow a push; every augmenting path leads from `s` to `t`, has
`level[t]` edges and is no longer than any path from `s` to `t` along edges that
had positive residual capacity when the phase's `bfs` ran. -/
theorem C20_dfs_one_level_per_edge (n s t : Nat) (es : List (Nat × Nat × Int))
    (hwf : WellFormedArcs n es) (hs : s < n) (ht : t < n) (hst : s ≠ t)
    (fuel : Nat) (hfuel : dinic_fuel n es s ≤ fuel) :
    ∃ mf flow phases, (MaxFlow.build n s t es).dinic_log fuel = some (mf, flow, phases) ∧
      (MaxFlow.build n s t es).dinic fuel = some (mf, flow) ∧
      ∀ ph ∈ phases, ∀ log ∈ ph.logs,
        (∀ vw ∈ log.visited, ph.level.getD vw.2 0 = ph.level.getD vw.1 0 + 1) ∧
        (∀ vw ∈ log.pushed, vw ∈ log.visited) ∧
        (log.pushed ≠ [] →
          IsPath log.pushed s t ∧ (log.pushed.length : Int) = ph.level.getD t 0 ∧
          ∀ p : List (Nat × Nat), IsPath p s t →
            (∀ vw ∈ p, ∃ e ∈ ph.g.getD vw.1 [], e.to_ = vw.2 ∧ 0 < e.cap) →
            log.pushed.length ≤ p.length) :=
  dinic_log_spec n s t es hwf hs ht hst fuel hfuel

/-- Witness of C20: a network of four nodes whose second phase uses the cross
arc `1 -> 2` after the pushes of the first phase. -/
theorem C20_dfs_one_level_per_edge_witness :
    ∃ mf flow phases,
      (MaxFlow.build 4 0 3 [(0, 1, 2), (0, 2, 1), (1, 3, 1), (2, 3, 2), (1, 2, 1)]).dinic_log 43 =
        some (mf, flow, phases) ∧
      (MaxFlow.build 4 0 3 [(0, 1, 2), (0, 2, 1), (1, 3, 1), (2, 3, 2), (1, 2, 1)]).dinic 43 =
        some (mf, flow) ∧
      ∀ ph ∈ phases, ∀ log ∈ ph.logs,
        (∀ vw ∈ log.visited, ph.level.getD vw.2 0 = ph.level.getD vw.1 0 + 1) ∧
        (∀ vw ∈ log.pushed, vw ∈ log.visited) ∧
        (log.pushed ≠ [] →
          IsPath log.pushed 0 3 ∧ (log.pushed.length : Int) = ph.level.getD 3 0 ∧
          ∀ p : List (Nat × Nat), IsPath p 0 3 →
            (∀ vw ∈ p, ∃ e ∈ ph.g.getD vw.1 [], e.to_ = vw.2 ∧ 0 < e.cap) →
            log.pushed.length ≤ p.length) :=
  C20_dfs_one_level_per_edge 4 0 3 [(0, 1, 2), (0, 2, 1), (1, 3, 1), (2, 3, 2), (1, 2, 1)]
    (by decide) (by decide) (by decide) (by decide) 43 (by decide)

end xllm_service


namespace xllm_service

/-! ## Claims: invariants and termination of the engine -/

/-- C21 fails as stated: on the graph of three nodes with the arcs `0 -> 1` and
`1 -> 2` of capacity `2 * 10^9` and `0 -> 2` of capacity `2^31 - 1` (in-range
distinct endpoints, capacities that an `int` holds), `s = 0`, `t = 2`, the run
of `dinic()` leaves the residual graph of the flow that fills every arc, in which
the reverse edges of the two arcs leaving `s` hold `2 * 10^9` and `2^31 - 1`,
`4147483647` in all, and nothing enters `s`; the flow value returned is
`-147483649`, the `int flow` of the source having overflowed. -/
theorem C21_counterexample :
    WellFormedArcs 3 [(0, 1, 2000000000), (1, 2, 2000000000), (0, 2, 2147483647)] ∧
    ((MaxFlow.build 3 0 2 [(0, 1, 2000000000), (1, 2, 2000000000), (0, 2, 2147483647)]).dinic_trace 40).map
        (fun r => (r.1.g, r.2.1)) =
      some (residual 3 [⟨0, 1, 2000000000, 2000000000⟩, ⟨1, 2, 2000000000, 2000000000⟩,
        ⟨0, 2, 2147483647, 2147483647⟩], -147483649) ∧
    ([⟨0, 1, 2000000000, 2000000000⟩, ⟨1, 2, 2000000000, 2000000000⟩,
        ⟨0, 2, 2147483647, 2147483647⟩] : List FlowEdge).map FlowEdge.arc =
      [(0, 1, 2000000000), (1, 2, 2000000000), (0, 2, 2147483647)] ∧
    outflow [⟨0, 1, 2000000000, 2000000000⟩, ⟨1, 2, 2000000000, 2000000000⟩,
        ⟨0, 2, 2147483647, 2147483647⟩] 0 = 4147483647 ∧
    inflow [⟨0, 1, 2000000000, 2000000000⟩, ⟨1, 2, 2000000000, 2000000000⟩,
        ⟨0, 2, 2147483647, 2147483647⟩] 0 = 0 := by
  refine ⟨by decide, by decide, by decide, by decide, by decide⟩

/-- C21 (amended), residual-capacity invariant: on a graph built by
`init(n, s, t)` and `add_edge` calls with in-range distinct endpoints and
non-negative capacities, `s != t`, `dinic()` returns, and its run, recorded push
by push (a push is the pair of assignments `e.cap -= d; g[e.to][e.rev].cap += d`),
satisfies: each `dfs(s, 1e9)` call starts on the graph the previous one left, the
first on the built graph; every graph the run goes through is the graph
`add_edge` builds for the arcs except that the forward edge of each arc
`(u, v, c)` has residual `c - x` and its reverse edge residual `x` for some
`0 <= x <= c`, so that every residual is non-negative and every stored edge and
its partner are the two edges of one `add_edge` call, their residuals adding up
to its capacity; a call that returns `d > 0` pushed along a path from `s` to `t`,
every edge of which has `d` less residual after the call than before it and its
partner `d` more, and a call that returns 0 pushed nothing; the arcs that enter
`s` carry nothing at the end, so the total of the residuals `x` of the reverse
edges of the arcs that leave `s` is the net flow leaving `s`; and the returned
flow value is that total when it is below `2^31`, in general that total reduced
modulo `2^32` to the range of an `int`. -/
theorem C21_residual_capacity_invariant (n s t : Nat) (es : List (Nat × Nat × Int))
    (hwf : WellFormedArcs n es) (hs : s < n) (ht : t < n) (hst : s ≠ t)
    (fuel : Nat) (hfuel : engine_fuel n es s ≤ fuel) :
    ∃ mf flow phases, (MaxFlow.build n s t es).dinic_trace fuel = some (mf, flow, phases) ∧
      (MaxFlow.build n s t es).dinic_int fuel = some (mf, flow) ∧
      GraphChain (MaxFlow.build n s t es).g phases.flatten mf.g ∧
      (∀ c ∈ phases.flatten,
        c.after.g = c.pushes.foldl apply_push c.before.g ∧
        (∀ g ∈ push_states c.before.g c.pushes, IsResidual n es g ∧ PairInvariant es g) ∧
        PathPushed c) ∧
      PairInvariant es mf.g ∧
      ∃ fs : List FlowEdge, fs.map FlowEdge.arc = es ∧ (∀ e ∈ fs, 0 ≤ e.x ∧ e.x ≤ e.c) ∧
        mf.g = residual n fs ∧ inflow fs s = 0 ∧ 0 ≤ outflow fs s ∧
        flow = wrap32 (outflow fs s) ∧ (outflow fs s < 2147483648 → outflow fs s = flow) :=
  dinic_residual_run n s t es hwf hs ht hst fuel hfuel

/-- Witness of C21 (amended): a network of four nodes whose second phase pushes
along the cross arc `1 -> 2`. -/
theorem C21_residual_capacity_invariant_witness :
    ∃ mf flow phases,
      (MaxFlow.build 4 0 3 [(0, 1, 2), (0, 2, 1), (1, 3, 1), (2, 3, 2), (1, 2, 1)]).dinic_trace 68 =
        some (mf, flow, phases) ∧
      (MaxFlow.build 4 0 3 [(0, 1, 2), (0, 2, 1), (1, 3, 1), (2, 3, 2), (1, 2, 1)]).dinic_int 68 =
        some (mf, flow) ∧
      GraphChain (MaxFlow.build 4 0 3 [(0, 1, 2), (0, 2, 1), (1, 3, 1), (2, 3, 2), (1, 2, 1)]).g
        phases.flatten mf.g ∧
      (∀ c ∈ phases.flatten,
        c.after.g = c.pushes.foldl apply_push c.before.g ∧
        (∀ g ∈ push_states c.before.g c.pushes,
          IsResidual 4 [(0, 1, 2), (0, 2, 1), (1, 3, 1), (2, 3, 2), (1, 2, 1)] g ∧
          PairInvariant [(0, 1, 2), (0, 2, 1), (1, 3, 1), (2, 3, 2), (1, 2, 1)] g) ∧
        PathPushed c) ∧
      PairInvariant [(0, 1, 2), (0, 2, 1), (1, 3, 1), (2, 3, 2), (1, 2, 1)] mf.g ∧
      ∃ fs : List FlowEdge,
        fs.map FlowEdge.arc = [(0, 1, 2), (0, 2, 1), (1, 3, 1), (2, 3, 2), (1, 2, 1)] ∧
        (∀ e ∈ fs, 0 ≤ e.x ∧ e.x ≤ e.c) ∧
        mf.g = residual 4 fs ∧ inflow fs 0 = 0 ∧ 0 ≤ outflow fs 0 ∧
        flow = wrap32 (outflow fs 0) ∧ (outflow fs 0 < 2147483648 → outflow fs 0 = flow) :=
  C21_residual_capacity_invariant 4 0 3 [(0, 1, 2), (0, 2, 1), (1, 3, 1), (2, 3, 2), (1, 2, 1)]
    (by decide) (by decide) (by decide) (by decide) 68 (by decide)

/-- C22, termination of the engine: on a graph built by `init(n, s, t)` and
`add_edge` calls with in-range endpoints and non-negative capacities (self-loops
allowed), `s != t`, `dinic()` returns.  In its recorded run every `dfs(s, 1e9)`
call recurses only along edges that lead from a labelled node to a node of
strictly greater level, all levels being below `n`, so that fewer than `n` calls
are nested inside it; it returns 0 or at least 1, the amount it adds to the flow,
and the amounts returned add up to at most the total capacity of the edges
stored at `s` in the built graph; no call moves a current-edge pointer back, and
each phase is a chain of calls, each continuing from the state the previous one
left, that ends with the first call returning 0.  The `int` returned is the sum
of the amounts reduced modulo `2^32`, the sum itself when the total capacity at
`s` is below `2^31`.  And `optimize_layer` returns on every input. -/
theorem C22_engine_terminates (n s t : Nat) (es : List (Nat × Nat × Int))
    (hr : EndpointsInRange n es) (hc : NonNegCaps es) (hs : s < n) (ht : t < n)
    (hst : s ≠ t) :
    (∀ fuel, engine_fuel n es s ≤ fuel →
      ∃ mf flow phases, (MaxFlow.build n s t es).dinic_trace fuel = some (mf, flow, phases) ∧
        (MaxFlow.build n s t es).dinic_int fuel = some (mf, flow) ∧
        (∀ ph ∈ phases, (∃ ma mb, PhaseChain ma ph mb) ∧ ∀ c ∈ ph, CallTerminates n c) ∧
        0 ≤ (phases.flatten.map Call.d).sum ∧
        (phases.flatten.map Call.d).sum ≤ cap_sum (MaxFlow.build n s t es).g s ∧
        flow = wrap32 (phases.flatten.map Call.d).sum ∧
        (cap_sum (MaxFlow.build n s t es).g s < 2147483648 →
          flow = (phases.flatten.map Call.d).sum)) ∧
    ∀ (required : List Int) (rep : ExpertReplicaMap) (fuel : Nat),
      optimize_fuel required rep ≤ fuel → ∃ plan, optimize_layer fuel required rep = some plan :=
  ⟨fun fuel hfuel => engine_terminates n s t es hr hc hs ht hst fuel hfuel,
    optimize_layer_returns⟩

/-- Witness of C22: a network of three nodes with self-loops at `s` and at an
inner node and an arc back into `s`; and the planner on one expert with one
replica. -/
theorem C22_engine_terminates_witness :
    (∃ mf flow phases,
      (MaxFlow.build 3 0 2 [(0, 0, 5), (0, 1, 2), (1, 2, 1), (1, 1, 3), (2, 0, 4)]).dinic_trace 64 =
        some (mf, flow, phases) ∧
      (MaxFlow.build 3 0 2 [(0, 0, 5), (0, 1, 2), (1, 2, 1), (1, 1, 3), (2, 0, 4)]).dinic_int 64 =
        some (mf, flow) ∧
      (∀ ph ∈ phases, (∃ ma mb, PhaseChain ma ph mb) ∧ ∀ c ∈ ph, CallTerminates 3 c) ∧
      0 ≤ (phases.flatten.map Call.d).sum ∧
      (phases.flatten.map Call.d).sum ≤ cap_sum
        (MaxFlow.build 3 0 2 [(0, 0, 5), (0, 1, 2), (1, 2, 1), (1, 1, 3), (2, 0, 4)]).g 0 ∧
      flow = wrap32 (phases.flatten.map Call.d).sum ∧
      (cap_sum (MaxFlow.build 3 0 2 [(0, 0, 5), (0, 1, 2), (1, 2, 1), (1, 1, 3), (2, 0, 4)]).g 0 <
          2147483648 →
        flow = (phases.flatten.map Call.d).sum)) ∧
    ∃ plan, optimize_layer (optimize_fuel [7] [(7, [⟨"a", 0⟩])]) [7] [(7, [⟨"a", 0⟩])] =
      some plan :=
  ⟨(C22_engine_terminates 3 0 2 [(0, 0, 5), (0, 1, 2), (1, 2, 1), (1, 1, 3), (2, 0, 4)]
      (by decide) (by decide) (by decide) (by decide) (by decide)).1 64 (by decide),
    (C22_engine_terminates 3 0 2 [(0, 0, 5), (0, 1, 2), (1, 2, 1), (1, 1, 3), (2, 0, 4)]
      (by decide) (by decide) (by decide) (by decide) (by decide)).2 [7] [(7, [⟨"a", 0⟩])] _
      (le_refl _)⟩

end xllm_service
